import Mathlib

/-!
# amplitool: path resolution and the copy / move / remove / import operators

A shallow embedding of the Go sources `utils.go`, `profiles.go`, `presets.go`,
`matches.go`, `database.go`, `copy.go`, `move.go`, `remove.go`, `import.go`,
`reindex.go` and of the effect groups of `copy_gear.go`.

* A Go string is a list of characters; file names are taken to be ASCII, so
  `len` counts characters.
* A path is absolute and cleaned (what `filepath.Abs` returns): the list of its
  segments below the root `/`.  The separator is `/`.  Where the source slices a path
  as a string (`match[len(filepath.Dir(source)):]`), the model renders the path and
  slices the string.
* The file system is a finite table from paths to nodes; the index store is the
  list of rows of table `pXcPresets`.  A preset file is its `Format` and `GUID`
  attributes and the rest of its document.
* `filepath.Match` and `filepath.Glob` are embedded as the library of Go 1.16 runs them on
  Unix, with `*`, `?`, character classes and the escape character.
* A slice expression past the end of a string is a run-time panic; an operator that
  panics returns the error `slicePanic`.
* A Go map is a list of pairs in insertion order, and the loops over it run in that
  order.
* Operators thread the world explicitly and return `none` for a nil error.  Writes,
  renames, directory creation and index statements can also fail for a reason outside
  the world, as `Env` says; reads, `os.Stat` and `os.Remove` fail only for a reason
  the file table shows.
-/

namespace Amplitool

/-! ## Go strings -/

/-- Go `strings.HasPrefix`, on character lists. -/
def hasPrefixL : List Char → List Char → Bool
  | _, [] => true
  | [], _ :: _ => false
  | c :: s, d :: t => c == d && hasPrefixL s t

/-- Go `strings.Index(s, sub)`: the first position of `sub` in `s`, or `-1`. -/
def indexL : List Char → List Char → Int
  | [], sub => if sub.isEmpty then 0 else -1
  | c :: s, sub =>
    if hasPrefixL (c :: s) sub then 0
    else
      let r := indexL s sub
      if r < 0 then -1 else r + 1

/-- Go `strings.LastIndex(s, sub)`: the last position of `sub` in `s`, or `-1`. -/
def lastIndexL : List Char → List Char → Int
  | [], sub => if sub.isEmpty then 0 else -1
  | c :: s, sub =>
    let r := lastIndexL s sub
    if 0 ≤ r then r + 1
    else if hasPrefixL (c :: s) sub then 0 else -1

/-- Go `strings.Index` on strings. -/
def strIndex (s sub : String) : Int := indexL s.data sub.data

/-- Go `strings.LastIndex` on strings. -/
def strLastIndex (s sub : String) : Int := lastIndexL s.data sub.data

/-- Go `len(s)`. -/
def strLen (s : String) : Int := (s.data.length : Int)

/-- Go `s[n:]`. -/
def strFrom (s : String) (n : Nat) : String := ⟨s.data.drop n⟩

/-- Go `s[:n]`. -/
def strTo (s : String) (n : Nat) : String := ⟨s.data.take n⟩

/-- Byte-wise `<` of Go strings. -/
def ltChars : List Char → List Char → Bool
  | [], [] => false
  | [], _ :: _ => true
  | _ :: _, [] => false
  | c :: s, d :: t => c.toNat < d.toNat || (c == d && ltChars s t)

/-- Go `strconv.FormatInt(int64(n), 10)` for a non-negative counter. -/
def formatInt (n : Nat) : String := ⟨Nat.toDigits 10 n⟩

/-! ## Paths -/

/-- An absolute, cleaned path: its segments below the root. -/
abbrev Path := List String

/-- The constants of `presets.go`. -/
def PresetsFolder : String := "Presets"

def PresetExtension : String := ".at5p"

def PresetExtension4 : String := ".at4p"

/-- The path as Go sees it: `/` for the root, else `/seg1/seg2/...`. -/
def pathString : Path → String
  | [] => "/"
  | p => ⟨(p.map (fun s => '/' :: s.data)).flatten⟩

/-- Go `filepath.Dir` of a cleaned absolute path. -/
def dir (p : Path) : Path := p.dropLast

/-- Go `filepath.Base` of a cleaned absolute path. -/
def base (p : Path) : String :=
  match p.getLast? with
  | some s => s
  | none => "/"

/-- Split a character list at every `/`. -/
def splitSlash : List Char → List (List Char)
  | [] => [[]]
  | c :: s =>
    match splitSlash s with
    | [] => [[]]
    | seg :: rest => if c = '/' then [] :: seg :: rest else (c :: seg) :: rest

/-- One step of Go `filepath.Clean` over the segments of an absolute path. -/
def cleanStep (acc : Path) (seg : String) : Path :=
  if seg = "" ∨ seg = "." then acc
  else if seg = ".." then acc.dropLast
  else acc ++ [seg]

/-- Go `filepath.Join(p, s)` for a cleaned absolute `p` and an arbitrary string `s`. -/
def joinStr (p : Path) (s : String) : Path :=
  ((splitSlash s.data).map String.mk).foldl cleanStep p

/-- Go `filepath.Join(p, name)` for a single segment `name`. -/
def join (p : Path) (name : String) : Path := joinStr p name

/-- Go `strings.Contains(path, "*")` on one string. -/
def hasWildcard (s : String) : Bool := s.data.contains '*'

/-- Go `containsWildcards` of `matches.go`, on the path string. -/
def containsWildcards (p : Path) : Bool := hasWildcard (pathString p)

/-- Go `isValidPresetName` of `presets.go`, on a string. -/
def isValidPresetNameS (path : String) : Bool :=
  !hasWildcard path &&
    (strLastIndex path PresetExtension == strLen path - strLen PresetExtension ||
     strLastIndex path PresetExtension4 == strLen path - strLen PresetExtension4)

/-- Go `isValidPresetName` applied to an absolute path. -/
def isValidPresetName (p : Path) : Bool := isValidPresetNameS (pathString p)

/-- Go `isValidPresetFolderName` of `presets.go`, on a string. -/
def isValidPresetFolderNameS (path : String) : Bool :=
  strIndex path PresetExtension == -1 && strIndex path PresetExtension4 == -1

/-- Go `isValidPresetFolderName` applied to an absolute path. -/
def isValidPresetFolderName (p : Path) : Bool := isValidPresetFolderNameS (pathString p)

/-- Go `makePresetPath` of `presets.go`. -/
def makePresetPath (path0 : String) : String :=
  let path1 :=
    if strIndex path0 PresetsFolder == 0 then
      strFrom path0 ((strIndex path0 PresetsFolder).toNat + PresetsFolder.data.length)
    else path0
  let path2 := if strIndex path1 "/" == 0 then strFrom path1 1 else path1
  if strIndex path2 PresetExtension > -1 &&
      (strIndex path2 PresetExtension == strLen path2 - 5 ||
       strIndex path2 PresetExtension4 == strLen path2 - 5) then
    strTo path2 (path2.data.length - 5)
  else path2

/-! ## The file system -/

/-- What a preset file holds: the root element of a preset with its `Format` and `GUID`
attributes and the rest of the document, or bytes that do not parse as a preset. -/
inductive Content
  | preset (format guid inner : String)
  | raw (bytes : String)
  deriving DecidableEq, Repr

inductive Node
  | dir
  | file (c : Content)
  deriving DecidableEq, Repr

/-- A finite table of the entries below the root; the first entry of a path counts. -/
abbrev FS := List (Path × Node)

/-- Go `os.Stat`: `none` stands for a non-nil error. The root always exists. -/
def stat (fs : FS) (p : Path) : Option Node :=
  if p = [] then some Node.dir
  else
    match fs.find? (fun e => e.1 == p) with
    | some e => some e.2
    | none => none

/-- Go `isDir` of `utils.go`. -/
def isDir (fs : FS) (p : Path) : Bool :=
  match stat fs p with
  | some Node.dir => true
  | _ => false

/-- Go `isFile` of `utils.go`. -/
def isFile (fs : FS) (p : Path) : Bool :=
  match stat fs p with
  | some (Node.file _) => true
  | _ => false

/-- Whether `a` is `p` or an ancestor of `p`. -/
def isAncestorOrSelf : Path → Path → Bool
  | [], _ => true
  | _ :: _, [] => false
  | a :: as, b :: bs => a == b && isAncestorOrSelf as bs

def eraseNode (fs : FS) (p : Path) : FS := fs.filter (fun e => !(e.1 == p))

def setNode (fs : FS) (p : Path) (n : Node) : FS := (p, n) :: eraseNode fs p

def insertName (s : String) : List String → List String
  | [] => [s]
  | t :: rest =>
    if s = t then t :: rest
    else if ltChars s.data t.data then s :: t :: rest
    else t :: insertName s rest

/-- Segment-wise lexical order of paths: the order in which `filepath.Walk` visits. -/
def ltPath : Path → Path → Bool
  | [], [] => false
  | [], _ :: _ => true
  | _ :: _, [] => false
  | a :: p, b :: q => ltChars a.data b.data || (a == b && ltPath p q)

def insertPath (s : Path) : List Path → List Path
  | [] => [s]
  | t :: rest =>
    if s = t then t :: rest
    else if ltPath s t then s :: t :: rest
    else t :: insertPath s rest

/-- The names in directory `d`, sorted as `Readdirnames` followed by `sort.Strings`. -/
def readDirNames (fs : FS) (d : Path) : List String :=
  (fs.filterMap (fun e => if e.1.dropLast = d then e.1.getLast? else none)).foldr insertName []

/-! ### `path/filepath`: `Match` and `Glob` (Go 1.16 and later, on Unix)

Names are ASCII, so a rune is a byte. An `Option` result is `none` for `ErrBadPattern`.
The loops of the library run on fuel; the length of the pattern plus one is enough for
each of them. -/

/-- The escape character of `filepath.Match`. -/
def backslash : Char := Char.ofNat 92

/-- Go `hasMeta` (not Windows): `strings.ContainsAny(path, "*?[\\")`. -/
def hasMeta (path : String) : Bool :=
  path.data.any (fun c => c == '*' || c == '?' || c == '[' || c == backslash)

/-- The scan loop of Go `scanChunk`, after the leading stars: the chunk up to the next `*`
outside brackets, and the rest of the pattern. -/
def scanBody : Bool → List Char → List Char × List Char
  | _, [] => ([], [])
  | inrange, [c] => if c = '*' ∧ inrange = false then ([], [c]) else ([c], [])
  | inrange, c :: d :: rest =>
    if c = backslash then
      (c :: d :: (scanBody inrange rest).1, (scanBody inrange rest).2)
    else if c = '[' then (c :: (scanBody true (d :: rest)).1, (scanBody true (d :: rest)).2)
    else if c = ']' then (c :: (scanBody false (d :: rest)).1, (scanBody false (d :: rest)).2)
    else if c = '*' ∧ inrange = false then ([], c :: d :: rest)
    else (c :: (scanBody inrange (d :: rest)).1, (scanBody inrange (d :: rest)).2)

/-- Go `scanChunk`: whether the chunk is preceded by a star, the chunk, the rest. -/
def scanChunk (pattern : List Char) : Bool × List Char × List Char :=
  (pattern.head? == some '*',
    (scanBody false (pattern.dropWhile (fun c => c == '*'))).1,
    (scanBody false (pattern.dropWhile (fun c => c == '*'))).2)

/-- Go `getEsc`: a possibly escaped character of a character class and the chunk after it. -/
def getEsc : List Char → Option (Char × List Char)
  | [] => none
  | c :: rest =>
    if c = '-' ∨ c = ']' then none
    else if c = backslash then
      match rest with
      | [] => none
      | d :: rest2 => if rest2.isEmpty then none else some (d, rest2)
    else if rest.isEmpty then none else some (c, rest)

/-- The loop `for { ... }` of Go `matchChunk` that reads the ranges of a character class,
`r` being the character matched against it: whether a range held `r`, and the chunk after
the closing bracket. -/
def parseClass (r : Char) : Nat → List Char → Bool → Nat → Option (Bool × List Char)
  | 0, _, _, _ => none
  | fuel + 1, chunk, found, nrange =>
    if chunk.head? = some ']' ∧ nrange > 0 then some (found, chunk.tail)
    else
      match getEsc chunk with
      | none => none
      | some (lo, chunk1) =>
        if chunk1.head? = some '-' then
          match getEsc chunk1.tail with
          | none => none
          | some (hi, chunk2) =>
            parseClass r fuel chunk2 (found || (lo.toNat ≤ r.toNat && r.toNat ≤ hi.toNat))
              (nrange + 1)
        else parseClass r fuel chunk1 (found || lo == r) (nrange + 1)

/-- The loop of Go `matchChunk`, with the flag `failed`: `some (some rest)` when the chunk
matches the start of `s`, `some none` when it does not. -/
def matchChunkLoop : Nat → List Char → List Char → Bool → Option (Option (List Char))
  | 0, _, _, _ => none
  | fuel + 1, chunk, s, failed0 =>
    match chunk with
    | [] => if failed0 then some none else some (some s)
    | c :: rest =>
      let failed := failed0 || s.isEmpty
      if c = '[' then
        let negated := rest.head? == some '^'
        match parseClass (if failed then Char.ofNat 0 else s.headD (Char.ofNat 0)) fuel
            (if negated then rest.tail else rest) false 0 with
        | none => none
        | some (found, rest1) =>
          matchChunkLoop fuel rest1 (if failed then s else s.tail) (failed || found == negated)
      else if c = '?' then
        matchChunkLoop fuel rest (if failed then s else s.tail)
          (failed || s.head? == some '/')
      else if c = backslash then
        match rest with
        | [] => none
        | d :: rest1 =>
          matchChunkLoop fuel rest1 (if failed then s else s.tail)
            (failed || s.head? != some d)
      else
        matchChunkLoop fuel rest (if failed then s else s.tail) (failed || s.head? != some c)

/-- Go `matchChunk`. -/
def matchChunk (chunk s : List Char) : Option (Option (List Char)) :=
  matchChunkLoop (chunk.length + 1) chunk s false

/-- The loop of Go `Match` that looks for a match of the chunk after a star, skipping
`i + 1` bytes of the name and no separator; `last` says that the pattern ends with the
chunk. -/
def starSearch (chunk : List Char) (last : Bool) : List Char → Option (Option (List Char))
  | [] => some none
  | c :: tl =>
    if c = '/' then some none
    else
      match matchChunk chunk tl with
      | none => none
      | some (some t) => if last && !t.isEmpty then starSearch chunk last tl else some (some t)
      | some none => starSearch chunk last tl

/-- The loop of Go `Match` that checks the remainder of the pattern before `false` is
returned: whether it is well formed. -/
def checkRest : Nat → List Char → Bool
  | 0, _ => false
  | fuel + 1, pattern =>
    if pattern.isEmpty then true
    else
      match matchChunk (scanChunk pattern).2.1 [] with
      | none => false
      | some _ => checkRest fuel (scanChunk pattern).2.2

/-- The loop `Pattern:` of Go `Match`. -/
def matchLoop : Nat → List Char → List Char → Option Bool
  | 0, _, _ => none
  | fuel + 1, pattern, name =>
    if pattern.isEmpty then some name.isEmpty
    else
      let star := (scanChunk pattern).1
      let chunk := (scanChunk pattern).2.1
      let rest := (scanChunk pattern).2.2
      if star && chunk.isEmpty then some (!name.contains '/')
      else
        match matchChunk chunk name with
        | none => none
        | some first =>
          match (match first with
                 | some t => if t.isEmpty || !rest.isEmpty then some t else none
                 | none => none) with
          | some t => matchLoop fuel rest t
          | none =>
            match (if star then starSearch chunk rest.isEmpty name else some none) with
            | none => none
            | some (some t) => matchLoop fuel rest t
            | some none => if checkRest (rest.length + 1) rest then some false else none

/-- Go `filepath.Match(pattern, name)`. -/
def filepathMatch (pattern name : List Char) : Option Bool :=
  matchLoop (pattern.length + 1) pattern name

/-- The loop of the library function `glob` over the sorted names of a directory; the
flag is set when `Match` reports a bad pattern, and the loop ends there. -/
def globNames (dir : Path) (pattern : String) : List String → List Path → List Path × Bool
  | [], m => (m, false)
  | n :: rest, m =>
    match filepathMatch pattern.data n.data with
    | none => (m, true)
    | some true => globNames dir pattern rest (m ++ [dir ++ [n]])
    | some false => globNames dir pattern rest m

/-- The library function `glob(dir, pattern, matches)`: the entries of `dir` whose names
match, appended to the matches found so far; a `dir` that is no directory adds nothing. -/
def globDir (fs : FS) (dir : Path) (pattern : String) (found : List Path) :
    List Path × Bool :=
  if isDir fs dir then globNames dir pattern (readDirNames fs dir) found
  else (found, false)

/-- The loop of Go `Glob` over the matches of the directory part. -/
def globDirs (fs : FS) (file : String) : List Path → List Path → List Path × Bool
  | [], found => (found, false)
  | d :: rest, found =>
    match globDir fs d file found with
    | (m, true) => (m, true)
    | (m, false) => globDirs fs file rest m

/-- Go `filepath.Glob` on a cleaned absolute pattern, given by its segments in reverse:
the matches and whether the error is `ErrBadPattern`. -/
def globRev (fs : FS) : List String → List Path × Bool
  | [] => ([[]], false)
  | file :: dirRev =>
    if (filepathMatch (pathString (file :: dirRev).reverse).data []).isNone then ([], true)
    else if !hasMeta (pathString (file :: dirRev).reverse) then
      (if (stat fs (file :: dirRev).reverse).isSome then [(file :: dirRev).reverse] else [],
        false)
    else if !hasMeta (pathString dirRev.reverse) then globDir fs dirRev.reverse file []
    else
      match globRev fs dirRev with
      | (_, true) => ([], true)
      | (m, false) => globDirs fs file m []

/-- The matches of Go `filepath.Glob(pattern)`. -/
def glob (fs : FS) (pattern : Path) : List Path := (globRev fs pattern.reverse).1

/-- Whether Go `filepath.Glob(pattern)` returns an error. -/
def globErr (fs : FS) (pattern : Path) : Bool := (globRev fs pattern.reverse).2

/-- Go `filepath.Walk(root, fn)`: the paths on which `fn` is called, in order: the root,
then everything below it in lexical order. -/
def walk (fs : FS) (root : Path) : List Path :=
  if (stat fs root).isSome then
    root :: ((fs.map (fun e => e.1)).filter
      (fun p => isAncestorOrSelf root p && !(p == root))).foldr insertPath []
  else []

/-- Go `isEmpty` of `utils.go`. The recursive form returns what the last call of the walk
function assigned. -/
def isEmpty (fs : FS) (folder : Path) (recursive : Bool) : Bool :=
  if isDir fs folder then
    if !recursive then !globErr fs (folder ++ ["*"]) && (glob fs (folder ++ ["*"])).isEmpty
    else (walk fs folder).foldl (fun _ p => isDir fs p) true
  else false

/-- Go `isSubDir` of `utils.go`: `p1` is among `p2` and its ancestors. -/
def isSubDir (p1 p2 : Path) : Bool :=
  if containsWildcards p1 then false else isAncestorOrSelf p1 p2

/-! ## Failures from outside, and the world -/

/-- What the program cannot control: the identifiers `uuid.NewRandom` hands out, and which
system calls fail for a reason the file table does not show (permissions, a full disk, a
locked index store). Reading and `os.Stat` fail only when the table says so. -/
structure Env where
  gen : Nat → String
  failWrite : Path → Bool
  failRename : Path → Bool
  failMkdir : Path → Bool
  failExec : String → Bool
  failPrepare : Bool
  failBegin : Bool

/-- A row of table `pXcPresets`: the key, the two location columns, the derived name and
the descriptive columns taken together. -/
structure Row where
  id : Nat
  originalFileName : String
  fileFolder : String
  name : String
  descr : String
  deriving DecidableEq, Repr

/-- The calls made on the index-store handle and on the transaction begun on it. -/
inductive SqlEvent
  | begin
  | commit
  | rollback
  | close
  deriving DecidableEq, Repr

/-- The file system, the rows of the index store, the lines written to `out`, how many
identifiers have been generated, and the calls on the index-store handle. -/
structure World where
  fs : FS
  db : List Row
  out : List String
  uuids : Nat
  sql : List SqlEvent
  deriving DecidableEq

/-- Go `ioutil.ReadFile`. -/
def readFile (fs : FS) (p : Path) : Except String Content :=
  match stat fs p with
  | some (Node.file c) => Except.ok c
  | some Node.dir => Except.error "is a directory"
  | none => Except.error "no such file or directory"

/-- Go `ioutil.WriteFile`: creates or truncates the file; the parent must be a directory. -/
def writeFile (env : Env) (fs : FS) (p : Path) (c : Content) : Except String FS :=
  if env.failWrite p then Except.error "permission denied"
  else
    match stat fs p with
    | some Node.dir => Except.error "is a directory"
    | _ =>
      if isDir fs (dir p) then Except.ok (setNode fs p (Node.file c))
      else Except.error "no such file or directory"

/-- Whether some entry lies directly in `p`. -/
def hasChildren (fs : FS) (p : Path) : Bool :=
  fs.any (fun e => !(e.1 == []) && e.1.dropLast == p)

/-- Go `os.Remove`: a file, or an empty directory. -/
def osRemove (fs : FS) (p : Path) : Except String FS :=
  if p = [] then Except.error "permission denied"
  else
    match stat fs p with
    | none => Except.error "no such file or directory"
    | some (Node.file _) => Except.ok (eraseNode fs p)
    | some Node.dir =>
      if hasChildren fs p then Except.error "directory not empty"
      else Except.ok (eraseNode fs p)

/-- Go `os.RemoveAll`: the path and everything below it. -/
def removeAll (fs : FS) (p : Path) : FS := fs.filter (fun e => !isAncestorOrSelf p e.1)

/-- Go `os.MkdirAll`, from the root down: the directories made before a failure stay. -/
def mkdirAllFrom (env : Env) : FS → Path → List String → FS × Option String
  | fs, _, [] => (fs, none)
  | fs, done, s :: rest =>
    match stat fs (done ++ [s]) with
    | some Node.dir => mkdirAllFrom env fs (done ++ [s]) rest
    | some (Node.file _) => (fs, some "not a directory")
    | none =>
      if env.failMkdir (done ++ [s]) then (fs, some "permission denied")
      else mkdirAllFrom env ((done ++ [s], Node.dir) :: fs) (done ++ [s]) rest

def mkdirAll (env : Env) (fs : FS) (p : Path) : FS × Option String := mkdirAllFrom env fs [] p

/-- Go `os.Rename`: a file replaces a file; a directory moves with all below it, onto
nothing or onto an empty directory. -/
def osRename (env : Env) (fs : FS) (s t : Path) : Except String FS :=
  if env.failRename s then Except.error "permission denied"
  else
    match stat fs s with
    | none => Except.error "no such file or directory"
    | some (Node.file c) =>
      if isDir fs t then Except.error "file exists"
      else if !isDir fs (dir t) then Except.error "no such file or directory"
      else if s = t then Except.ok fs
      else Except.ok (setNode (eraseNode fs s) t (Node.file c))
    | some Node.dir =>
      if s = [] then Except.error "device or resource busy"
      else if s = t then Except.ok fs
      else if isAncestorOrSelf s t then Except.error "invalid argument"
      else if isFile fs t then Except.error "not a directory"
      else if hasChildren fs t then Except.error "directory not empty"
      else if !isDir fs (dir t) then Except.error "no such file or directory"
      else Except.ok ((eraseNode fs t).map (fun e =>
        if isAncestorOrSelf s e.1 then (t ++ e.1.drop s.length, e.2) else e))

/-! ## Profiles (`profiles.go`, `presets.go`) -/

/-- Go `isProfileFolder`. -/
def isProfileFolder (fs : FS) (folder : Path) : Bool :=
  (stat fs (join folder PresetsFolder)).isSome && (stat fs (join folder "Presets.db")).isSome

/-- The path and its ancestors, nearest first, down to the root: the values `currPath`
takes in the ancestor loops, which stop when `filepath.Dir` no longer changes the path. -/
def ancestors : Path → List Path
  | [] => [[]]
  | s :: p => ((ancestors p).map (fun q => s :: q)) ++ [[]]

/-- Go `resolveToProfile`: the first profile folder among the path and its ancestors. -/
def resolveToProfile (fs : FS) (startPath : Path) : Except String Path :=
  match (ancestors startPath).find? (fun c => isProfileFolder fs c) with
  | some c => Except.ok c
  | none => Except.error (pathString startPath ++ " is not part of Amplitube profile.")

/-- Go `isInPresetsFolder`. -/
def isInPresetsFolder (fs : FS) (startPath : Path) : Bool :=
  (ancestors startPath).any (fun c => isProfileFolder fs (dir c) && base c == PresetsFolder)

/-! ## Path expressions (`matches.go`) -/

/-- The loop `for containsWildcards(filepath.Base(chkPath))`, on the reversed path. -/
def stripWildRev : List String → List String
  | [] => []
  | s :: rest => if hasWildcard s then stripWildRev rest else s :: rest

def checkPath (absPath : Path) : Path := (stripWildRev absPath.reverse).reverse

/-- The walk function of `resolveToMatches`. -/
def keepWalked (fs : FS) (absPath : Path) (excludeFolders : Bool) (walkedPath : Path) : Bool :=
  (!(absPath == walkedPath) && !excludeFolders) || !isDir fs walkedPath

/-- Go `resolveToMatches`. -/
def resolveToMatches (fs : FS) (absPath : Path) (recursive excludeFolders : Bool) :
    Except String (List Path) :=
  if (stat fs (checkPath absPath)).isNone then Except.error "path not found"
  else if !isInPresetsFolder fs absPath then Except.error "presets not found on path"
  else if isValidPresetName absPath then Except.ok [absPath]
  else if recursive then
    if containsWildcards absPath then
      let wcMatches := glob fs absPath
      Except.ok (wcMatches.filter (fun m => !isDir fs m) ++
        wcMatches.flatMap (fun wcPath =>
          if isDir fs wcPath then (walk fs wcPath).filter (keepWalked fs absPath excludeFolders)
          else []))
    else Except.ok ((walk fs absPath).filter (keepWalked fs absPath excludeFolders))
  else
    let possibles := if containsWildcards absPath then glob fs absPath
      else glob fs (join absPath "*")
    Except.ok (possibles.filter (fun q =>
      (stat fs q).isSome && (!isDir fs q || (isDir fs q && !excludeFolders))))

/-! ## Identifiers (`presets.go`) -/

/-- Go `presetFormatVersion`: the `Format` attribute, empty when the file does not parse. -/
def presetFormatVersion (fs : FS) (file : Path) : String :=
  match readFile fs file with
  | Except.ok (Content.preset f _ _) => f
  | _ => ""

/-- Go `writeNewGuidToFile`. Every earlier error is overwritten by the result of the final
`WriteFile`, which is what the function returns. -/
def writeNewGuidToFile (env : Env) (w : World) (file : Path) : World × Option String :=
  let data := readFile w.fs file
  let format := presetFormatVersion w.fs file
  let res : Content × Nat :=
    if format = "at4p" ∨ format = "at5p" then
      match data with
      | Except.ok (Content.preset f _ inner) =>
        (Content.preset f (env.gen w.uuids) inner, w.uuids + 1)
      | _ => (Content.raw "\n", w.uuids + 1)
    else (Content.raw "\n", w.uuids)
  match writeFile env w.fs file res.1 with
  | Except.ok fs1 => ({ w with fs := fs1, uuids := res.2 }, none)
  | Except.error e => ({ w with uuids := res.2 }, some e)

/-! ## The index store (`database/sql` as the operators use it) -/

/-- The `id` SQLite gives the next inserted row. -/
def freshId (db : List Row) : Nat := (db.map (fun r => r.id)).foldl max 0 + 1

/-- Go `delete from pXcPresets where OriginalFileName = ?`. A statement prepared on the
database handle takes effect when it is executed. -/
def execDelete (env : Env) (db : List Row) (key : String) : Except String (List Row) :=
  if env.failExec key then Except.error "database is locked"
  else Except.ok (db.filter (fun r => !(r.originalFileName == key)))

/-- The `insert into pXcPresets (...) select ... where OriginalFileName = ?` of `copy.go`. -/
def execCopyInsert (env : Env) (db : List Row) (target folder name source : String) :
    Except String (List Row) :=
  if env.failExec target then Except.error "database is locked"
  else Except.ok (db ++ ((db.filter (fun r => r.originalFileName == source)).enum.map
    (fun ir => { ir.2 with id := freshId db + ir.1, originalFileName := target,
                           fileFolder := folder, name := name })))

/-- The `update pXcPresets set OriginalFileName = ?, FileFolder = ?, Name = ? where
OriginalFileName = ?` of `move.go`. -/
def execMoveUpdate (env : Env) (db : List Row) (target folder name source : String) :
    Except String (List Row) :=
  if env.failExec target then Except.error "database is locked"
  else Except.ok (db.map (fun r =>
    if r.originalFileName == source then
      { r with originalFileName := target, fileFolder := folder, name := name }
    else r))

/-- A Go map from source path to destination path, in insertion order. Go leaves the
iteration order of a map open; the loops over `files` run in this order. -/
abbrev Plan := List (Path × Path)

/-- Go `files[k] = v`. -/
def planSet : Plan → Path → Path → Plan
  | [], k, v => [(k, v)]
  | (k0, v0) :: rest, k, v => if k0 = k then (k, v) :: rest else (k0, v0) :: planSet rest k v

/-- Go `files[k]`. -/
def planGet : Plan → Path → Option Path
  | [], _ => none
  | (k0, v0) :: rest, k => if k0 = k then some v0 else planGet rest k

/-! ## `remove.go` -/

def omitting : String := "-r not specified; omitting directory"

/-- The shadow copy `filepath.Join(filepath.Dir(target), "_"+filepath.Base(target))`. -/
def shadowPath (target : Path) : Path := join (dir target) ("_" ++ base target)

/-- Go `rollbackRemove`. The errors of all three calls are dropped; a failed read leaves
`data` nil. -/
def rollbackRemove (env : Env) (fs : FS) : List Path → FS
  | [] => fs
  | target :: rest =>
    let data := match readFile fs (shadowPath target) with
      | Except.ok c => c
      | Except.error _ => Content.raw ""
    let fs1 := match writeFile env fs target data with
      | Except.ok f => f
      | Except.error _ => fs
    let fs2 := match osRemove fs1 (shadowPath target) with
      | Except.ok f => f
      | Except.error _ => fs1
    rollbackRemove env fs2 rest

/-- The loop of `remove` that sorts the matches into files and directories. -/
def removeSort (fs : FS) (recursive : Bool) :
    List Path → List Path × List Path × List String → List Path × List Path × List String
  | [], acc => acc
  | m :: rest, (files, dirs, out) =>
    if isDir fs m then
      if !isEmpty fs m false && !recursive then removeSort fs recursive rest (files, dirs, out ++ [omitting])
      else removeSort fs recursive rest (files, dirs ++ [m], out)
    else removeSort fs recursive rest (files ++ [m], dirs, out)

/-- The loop of `remove` over the files: back up, delete, delete the index row. -/
def removeFiles (env : Env) (files : List Path) : World → List Path → World × Option String
  | w, [] => (w, none)
  | w, target :: rest =>
    match stat w.fs target with
    | none =>
      ({ w with fs := rollbackRemove env w.fs files },
        some ("Unable to stat " ++ pathString target ++ ".  no such file or directory"))
    | some Node.dir => removeFiles env files w rest
    | some (Node.file _) =>
      match readFile w.fs target with
      | Except.error e =>
        ({ w with fs := rollbackRemove env w.fs files },
          some ("Failed to backup file before delete: " ++ e))
      | Except.ok data =>
        match writeFile env w.fs (shadowPath target) data with
        | Except.error e =>
          ({ w with fs := rollbackRemove env w.fs files },
            some ("Failed to backup file before delete: " ++ e))
        | Except.ok fs1 =>
          match osRemove fs1 target with
          | Except.error e =>
            ({ w with fs := rollbackRemove env fs1 files },
              some ("Failed to remove file: " ++ e))
          | Except.ok fs2 =>
            match execDelete env w.db (pathString target) with
            | Except.error e =>
              ({ w with fs := rollbackRemove env fs2 files },
                some ("Failed to remove file: " ++ e))
            | Except.ok db1 => removeFiles env files { w with fs := fs2, db := db1 } rest

/-- The loop that purges the shadow copies, errors dropped. -/
def purgeShadows (fs : FS) : List Path → FS
  | [] => fs
  | target :: rest =>
    match osRemove fs (shadowPath target) with
    | Except.ok f => purgeShadows f rest
    | Except.error _ => purgeShadows fs rest

/-- Go `remove`; `args` are the operands made absolute, `recursive` the `-r` flag. -/
def remove (env : Env) (recursive : Bool) (args : List Path) (w : World) :
    World × Option String :=
  match args with
  | [] => (w, some "missing target path to remove")
  | source :: _ =>
    let out1 := if isDir w.fs source && !isEmpty w.fs source false && !recursive
      then w.out ++ [omitting] else w.out
    match resolveToMatches w.fs source recursive false with
    | Except.error e => ({ w with out := out1 }, some e)
    | Except.ok found =>
      let sorted := removeSort w.fs recursive found ([], [], out1)
      let files := sorted.1
      let dirs := if isDir w.fs source && !containsWildcards source
        then sorted.2.1 ++ [source] else sorted.2.1
      let w1 := { w with out := sorted.2.2 }
      if env.failPrepare then (w1, some "Failed preparing statement: database is locked")
      else
        match removeFiles env files w1 files with
        | (w2, some e) => (w2, some e)
        | (w2, none) =>
          ({ w2 with fs := dirs.foldl removeAll (purgeShadows w2.fs files) }, none)

/-! ## `copy.go` -/

def cpOmitting : String := "cp: -r not specified; omitting directory"

/-- The result of an operator that ends in the panic of a slice expression. -/
def slicePanic : String := "panic: runtime error: slice bounds out of range"

/-- Go `s[n:]`: `none` stands for the run-time panic when `n` is past the end of `s`. -/
def sliceFrom (s : String) (n : Nat) : Option String :=
  if n ≤ s.data.length then some (strFrom s n) else none

/-- Go `filepath.Join(target, match[len(filepath.Dir(source)):])`: `none` when the slice
expression panics. -/
def relocate (target source found : Path) : Option Path :=
  (sliceFrom (pathString found) (pathString (dir source)).data.length).map (joinStr target)

/-- The loop of `copy` that fills the map `files`. Each round may create the target folder;
the loop ends with `slicePanic` when the slice expression of the recursive branch panics. -/
def copyPlan (env : Env) (source target : Path) (recursive : Bool) :
    List Path → FS × List String × Plan → FS × List String × Except String Plan
  | [], (fs, out, files) => (fs, out, Except.ok files)
  | m :: rest, (fs, out, files) =>
    if isValidPresetFolderName target then
      if recursive then
        match relocate target source m with
        | some d =>
          copyPlan env source target recursive rest
            ((mkdirAll env fs target).1, out, planSet files m d)
        | none => ((mkdirAll env fs target).1, out, Except.error slicePanic)
      else if isDir (mkdirAll env fs target).1 m then
        copyPlan env source target recursive rest
          ((mkdirAll env fs target).1, out ++ [cpOmitting], files)
      else
        copyPlan env source target recursive rest
          ((mkdirAll env fs target).1, out, planSet files m (join target (base m)))
    else copyPlan env source target recursive rest (fs, out, planSet files m target)

/-- Go `rollbackCopy`. -/
def rollbackCopy (fs : FS) : Plan → FS
  | [] => fs
  | (_, target) :: rest =>
    if (stat fs target).isSome then
      match osRemove fs target with
      | Except.ok f => rollbackCopy f rest
      | Except.error _ => rollbackCopy fs rest
    else rollbackCopy fs rest

/-- The loop of `copy` over the map `files`. -/
def copyFiles (env : Env) (files : Plan) : World → Plan → World × Option String
  | w, [] => (w, none)
  | w, (source, target) :: rest =>
    if source = target then copyFiles env files w rest
    else
      let overwritingExisting := isFile w.fs target
      match mkdirAll env w.fs (dir target) with
      | (fs1, some e) =>
        ({ w with fs := rollbackCopy fs1 files }, some ("Failed to created directories :" ++ e))
      | (fs1, none) =>
        match readFile fs1 source with
        | Except.error e =>
          ({ w with fs := rollbackCopy fs1 files }, some ("Could not read source file: " ++ e))
        | Except.ok data =>
          match writeFile env fs1 target data with
          | Except.error e =>
            ({ w with fs := rollbackCopy fs1 files }, some ("Could not write file: " ++ e))
          | Except.ok fs2 =>
            match writeNewGuidToFile env { w with fs := fs2 } target with
            | (w3, some e) =>
              ({ w3 with fs := rollbackCopy w3.fs files },
                some ("Failed to generate new GUID for copied file: " ++ e))
            | (w3, none) =>
              let db1 :=
                if overwritingExisting then
                  match execDelete env w3.db (pathString target) with
                  | Except.ok d => d
                  | Except.error _ => w3.db
                else w3.db
              match execCopyInsert env db1 (pathString target) (pathString (dir target))
                  (makePresetPath (base target)) (pathString source) with
              | Except.error e =>
                ({ w3 with fs := rollbackCopy w3.fs files, db := db1 },
                  some ("Copy failed.  Failed to update database: " ++ e))
              | Except.ok db2 => copyFiles env files { w3 with db := db2 } rest

/-- The first call of Go `copy`, which gives `matches`:
`resolveToMatches(context.Args[0], recursive, !containsWildcards(context.Args[0]) || recursive)`. -/
def copyMatches (recursive : Bool) (source : Path) (w : World) : Except String (List Path) :=
  resolveToMatches w.fs source recursive (!containsWildcards source || recursive)

/-- Go `copy`; `args` are the operands made absolute, `recursive` the `-r` flag. -/
def copy (env : Env) (recursive : Bool) (args : List Path) (w : World) :
    World × Option String :=
  match args with
  | source :: target :: _ =>
    match copyMatches recursive source w with
    | Except.error e => (w, some e)
    | Except.ok found =>
      if !isInPresetsFolder w.fs target then (w, some "presets not found on path")
      else if isDir w.fs source && isValidPresetFolderName target && isSubDir source target then
        (w, some "cannot copy folder to subfolder of itself")
      else if isDir w.fs source && !found.isEmpty && !recursive then
        ({ w with out := w.out ++ [cpOmitting] }, none)
      else if (resolveToProfile w.fs source).toOption != (resolveToProfile w.fs target).toOption then
        (w, some "source and target are not in the same profile")
      else
        match copyPlan env source target recursive found (w.fs, w.out, []) with
        | (fs1, out1, Except.error e) => ({ w with fs := fs1, out := out1 }, some e)
        | (fs1, out1, Except.ok files) =>
          if env.failPrepare then
            ({ w with fs := fs1, out := out1 },
              some "Failed preparing statement: database is locked")
          else copyFiles env files { w with fs := fs1, out := out1 } files
  | _ => (w, some "missing source and destination paths.")

/-! ## `move.go` -/

/-- The loop of `move` that fills the map `files`; it returns early when the same-named
folder below the target is not empty, and ends with `slicePanic` when a slice expression
panics. -/
def movePlan (env : Env) (source target : Path) (recursive : Bool) :
    List Path → FS × Plan → FS × Except String Plan
  | [], (fs, files) => (fs, Except.ok files)
  | m :: rest, (fs, files) =>
    if isValidPresetFolderName target then
      let fs1 := (mkdirAll env fs target).1
      if recursive then
        if isDir fs1 target then
          if isDir fs1 (join target (base source)) then
            if isEmpty fs1 (join target (base source)) false then
              match relocate target source m with
              | some d => movePlan env source target recursive rest (fs1, planSet files m d)
              | none => (fs1, Except.error slicePanic)
            else (fs1, Except.error "cannot move: Directory is not empty")
          else
            match relocate target source m with
            | some d => movePlan env source target recursive rest (fs1, planSet files m d)
            | none => (fs1, Except.error slicePanic)
        else
          match sliceFrom (pathString m) (pathString source).data.length with
          | some rel =>
            movePlan env source target recursive rest (fs1, planSet files m (joinStr target rel))
          | none => (fs1, Except.error slicePanic)
      else movePlan env source target recursive rest (fs1, planSet files m (join target (base m)))
    else movePlan env source target recursive rest (fs, planSet files m target)

/-- Go `rollbackMove`. -/
def rollbackMove (env : Env) (fs : FS) : Plan → FS
  | [] => fs
  | (source, target) :: rest =>
    if (stat fs target).isSome then
      match osRename env fs target source with
      | Except.ok f => rollbackMove env f rest
      | Except.error _ => rollbackMove env fs rest
    else rollbackMove env fs rest

/-- The loop of `move` over the map `files`. Only a failed index update is compensated. -/
def moveFiles (env : Env) (files : Plan) : World → Plan → World × Option String
  | w, [] => (w, none)
  | w, (source, target) :: rest =>
    match stat w.fs source with
    | none =>
      (w, some ("File not found: " ++ pathString source ++ ".  no such file or directory"))
    | some _ =>
      match mkdirAll env w.fs (dir target) with
      | (fs1, some e) => ({ w with fs := fs1 }, some ("Failed to created directories :" ++ e))
      | (fs1, none) =>
        match osRename env fs1 source target with
        | Except.error e =>
          ({ w with fs := fs1 }, some ("Failed to move preset with error: " ++ e))
        | Except.ok fs2 =>
          match execMoveUpdate env w.db (pathString target) (pathString (dir target))
              (makePresetPath (base target)) (pathString source) with
          | Except.error e =>
            ({ w with fs := rollbackMove env fs2 files },
              some ("Failed to update database records: " ++ e))
          | Except.ok db1 => moveFiles env files { w with fs := fs2, db := db1 } rest

def moveCleanupFailed : String := "move failed while removing empty folders"

/-- The loop of `move` over `cleanUp`, for a wildcard source. -/
def moveCleanUp (env : Env) (target : Path) (files : Plan) : FS → List Path → FS × Option String
  | fs, [] => (fs, none)
  | fs, file :: rest =>
    if file ≠ target && !(strIndex (pathString file) (pathString target) == 0) then
      if !isDir fs file || isEmpty fs file true then
        moveCleanUp env target files (removeAll fs file) rest
      else (rollbackMove env fs files, some moveCleanupFailed)
    else moveCleanUp env target files fs rest

/-- Go `move`; `args` are the operands made absolute. -/
def move (env : Env) (args : List Path) (w : World) : World × Option String :=
  match args with
  | source :: target :: _ =>
    let recursive := isValidPresetFolderName source && isValidPresetFolderName target
    match resolveToMatches w.fs source recursive true with
    | Except.error e => (w, some e)
    | Except.ok found =>
      if !isInPresetsFolder w.fs target then (w, some "presets not found on path")
      else if isDir w.fs source && isValidPresetFolderName target && isSubDir source target then
        (w, some "cannot move folder to subfolder of itself")
      else if (resolveToProfile w.fs source).toOption != (resolveToProfile w.fs target).toOption then
        (w, some "source and target are not in the same profile")
      else
        match movePlan env source target recursive found (w.fs, []) with
        | (fs1, Except.error e) => ({ w with fs := fs1 }, some e)
        | (fs1, Except.ok files) =>
          if env.failPrepare then
            ({ w with fs := fs1 }, some "Failed preparing statement: database is locked")
          else
            match moveFiles env files { w with fs := fs1 } files with
            | (w2, some e) => (w2, some e)
            | (w2, none) =>
              if isDir w2.fs source then
                if isEmpty w2.fs source true then ({ w2 with fs := removeAll w2.fs source }, none)
                else ({ w2 with fs := rollbackMove env w2.fs files }, some moveCleanupFailed)
              else if containsWildcards source then
                let cleanUp := match resolveToMatches w2.fs source recursive false with
                  | Except.ok l => l
                  | Except.error _ => []
                match moveCleanUp env target files w2.fs cleanUp with
                | (fs3, r) => ({ w2 with fs := fs3 }, r)
              else (w2, none)
  | _ => (w, some "missing source and destination paths.")

/-! ## `database.go` -/

/-- An operator as `ExecuteCommand` hands it to `tx`: it gets the context, whose `Database`
field is the handle, and never the transaction. -/
abbrev Runner := World → World × Option String

/-- The rows a `database/sql` transaction holds back until commit: those written by
statements prepared on the transaction (`Tx.Prepare`, `Tx.Stmt`). -/
structure SqlTx where
  writes : List (List Row → List Row)

def txCommit (t : SqlTx) (db : List Row) : List Row := t.writes.foldl (fun d f => f d) db

def txRollback (_t : SqlTx) (db : List Row) : List Row := db

/-- Go `tx`. The transaction is begun on the handle and then only committed or rolled
back; the runner is called with the context alone. -/
def tx (env : Env) (runner : Runner) (w : World) : World × Option String :=
  if env.failBegin then
    ({ w with sql := w.sql ++ [SqlEvent.close] }, some "unable to open database file")
  else
    let t : SqlTx := { writes := [] }
    match runner { w with sql := w.sql ++ [SqlEvent.begin] } with
    | (w1, some e) =>
      ({ w1 with db := txRollback t w1.db,
                 sql := w1.sql ++ [SqlEvent.rollback, SqlEvent.close] }, some e)
    | (w1, none) =>
      ({ w1 with db := txCommit t w1.db,
                 sql := w1.sql ++ [SqlEvent.commit, SqlEvent.close] }, none)

/-! ## `import.go` -/

/-- Go `importPath + " - " + strconv.FormatInt(int64(counter), 10)`: the suffix goes onto
the last segment of the path. -/
def appendCounter (importPath : Path) (counter : Nat) : Path :=
  dir importPath ++ [base importPath ++ " - " ++ formatInt counter]

/-- The loop of `importPresets` that picks the destination folder, run for at most `fuel`
rounds; `counter` is its value before the round. -/
def importPathLoop (fs : FS) : Nat → Nat → Path → Option Path
  | 0, _, _ => none
  | fuel + 1, counter, importPath =>
    if (stat fs importPath).isSome then
      importPathLoop fs fuel (counter + 1) (appendCounter importPath (counter + 1))
    else some importPath

/-- The destination folder `importPresets` picks under the target profile. Every round of
the loop meets another entry of the file system, so one round more than there are entries
is enough. -/
def importDestination (fs : FS) (targetProfile : Path) : Option Path :=
  importPathLoop fs (fs.length + 1) 0 (join (join targetProfile PresetsFolder) "Import")


/-- The content of the file at `p`, when `p` is a file. -/
def fileAt (fs : FS) (p : Path) : Option Content :=
  match stat fs p with
  | some (Node.file c) => some c
  | _ => none

/-- The `GUID` attribute of the root element of the file at `p`. -/
def guidAt (fs : FS) (p : Path) : Option String :=
  match stat fs p with
  | some (Node.file (Content.preset _ g _)) => some g
  | _ => none

/-- The destinations in the map `files`. -/
def planTargets (files : Plan) : List Path := files.map (fun e => e.2)

/-! ## Sample libraries -/


/-- Nothing fails from outside; the k-th identifier is `uuid-k`. -/
def noFaults : Env :=
  { gen := fun n => "uuid-" ++ formatInt n, failWrite := fun _ => false,
    failRename := fun _ => false, failMkdir := fun _ => false, failExec := fun _ => false,
    failPrepare := false, failBegin := false }

/-- Executing a statement whose first parameter is `key` fails. -/
def execFailsOn (key : String) : Env := { noFaults with failExec := fun k => k == key }

/-- Renaming `p` fails. -/
def renameFailsOn (p : Path) : Env := { noFaults with failRename := fun q => q == p }

def presetA : Content := Content.preset "at5p" "guid-a" "<Chain/>"

def presetB : Content := Content.preset "at5p" "guid-b" "<Chain/>"

def presetC : Content := Content.preset "at5p" "guid-c" "<Chain/>"

def amps : Path := ["lib", "Presets", "Amps"]

def metal : Path := ["lib", "Presets", "Amps", "Metal"]

def metalAll : Path := ["lib", "Presets", "Amps", "Metal", "*"]

def metalA : Path := ["lib", "Presets", "Amps", "Metal", "a.at5p"]

def metalB : Path := ["lib", "Presets", "Amps", "Metal", "b.at5p"]

def amps2 : Path := ["lib", "Presets", "Amps2"]

def amps2A : Path := ["lib", "Presets", "Amps2", "a.at5p"]

def amps2B : Path := ["lib", "Presets", "Amps2", "b.at5p"]

def rowA : Row :=
  { id := 1, originalFileName := "/lib/Presets/Amps/Metal/a.at5p",
    fileFolder := "/lib/Presets/Amps/Metal", name := "a", descr := "clean" }

def rowB : Row :=
  { id := 2, originalFileName := "/lib/Presets/Amps/Metal/b.at5p",
    fileFolder := "/lib/Presets/Amps/Metal", name := "b", descr := "lead" }

/-- A profile `/lib` with two presets in `Presets/Amps/Metal` and an empty `Presets/Amps2`. -/
def lib : World :=
  { fs := [ (["lib"], Node.dir), (["lib", "Presets.db"], Node.file (Content.raw "sqlite")),
            (["lib", "Presets"], Node.dir), (amps, Node.dir), (metal, Node.dir),
            (metalA, Node.file presetA), (metalB, Node.file presetB), (amps2, Node.dir) ],
    db := [rowA, rowB], out := [], uuids := 0, sql := [] }

def rowAmps2B : Row :=
  { id := 3, originalFileName := "/lib/Presets/Amps2/b.at5p",
    fileFolder := "/lib/Presets/Amps2", name := "b", descr := "crunch" }

/-- The library `lib` with a third preset `Presets/Amps2/b.at5p`. -/
def libWithTarget : World :=
  { lib with fs := lib.fs ++ [(amps2B, Node.file presetC)], db := lib.db ++ [rowAmps2B] }

def metalC : Path := ["lib", "Presets", "Amps", "Metal", "c.at5p"]

def metalShadowC : Path := ["lib", "Presets", "Amps", "Metal", "_c.at5p"]

def rowShadowC : Row :=
  { id := 3, originalFileName := "/lib/Presets/Amps/Metal/_c.at5p",
    fileFolder := "/lib/Presets/Amps/Metal", name := "_c", descr := "crunch" }

/-- The library `lib` with a third preset whose name starts with an underscore. -/
def libWithUnderscore : World :=
  { lib with fs := lib.fs ++ [(metalShadowC, Node.file presetC)], db := lib.db ++ [rowShadowC] }

def otherPresets : Path := ["other", "Presets"]

/-- The library `lib` beside a second profile `/other` that has a non-empty
`Presets/Metal`. -/
def twoProfiles : World :=
  { lib with fs := lib.fs ++
      [ (["other"], Node.dir), (["other", "Presets.db"], Node.file (Content.raw "sqlite")),
        (otherPresets, Node.dir), (["other", "Presets", "Metal"], Node.dir),
        (["other", "Presets", "Metal", "x.at5p"], Node.file presetC) ] }

/-- A profile whose presets folder already holds `Import` and `Import - 1`. -/
def importedTwice : FS :=
  [ (["lib"], Node.dir), (["lib", "Presets.db"], Node.file (Content.raw "sqlite")),
    (["lib", "Presets"], Node.dir), (["lib", "Presets", "Import"], Node.dir),
    (["lib", "Presets", "Import - 1"], Node.dir) ]


/-! ## Derived notions used in the statements -/

/-- A segment of a cleaned path: not empty, not `.` or `..`, and without a separator. -/
def isSegment (s : String) : Bool :=
  s != "" && s != "." && s != ".." && !s.data.contains '/'

/-- A file system names its entries by cleaned paths: every segment of the path of every
entry is a name, not empty, not `.` or `..`, and without a separator. -/
def namesOk (fs : FS) : Bool := fs.all (fun e => e.1.all isSegment)

/-- A file system is a tree: the parent of every entry is a directory. -/
def treeOk (fs : FS) : Bool := fs.all (fun e => isDir fs (dir e.1))

/-- The map `files` that `copy` builds for its operands. -/
def copyPlanned (env : Env) (recursive : Bool) (source target : Path) (w : World) : Plan :=
  match copyMatches recursive source w with
  | Except.ok found =>
    match (copyPlan env source target recursive found (w.fs, w.out, [])).2.2 with
    | Except.ok files => files
    | Except.error _ => []
  | Except.error _ => []

/-- The destination `copy` plans for a source that is a single preset file. -/
def copyDestination (source target : Path) (recursive : Bool) : Path :=
  if isValidPresetFolderName target then
    (if recursive then
      joinStr target (strFrom (pathString source) (pathString (dir source)).data.length)
    else join target (base source))
  else target

def amps2Metal : Path := ["lib", "Presets", "Amps2", "Metal"]

/-- The library `lib` where `Presets/Amps2` already holds a non-empty `Metal`. -/
def libClash : World :=
  { lib with fs := lib.fs ++
      [ (amps2Metal, Node.dir), (["lib", "Presets", "Amps2", "Metal", "x.at5p"], Node.file presetC) ] }

/-- The library `lib` where `Presets/Amps2` already holds an empty `Metal`. -/
def libEmptyClash : World := { lib with fs := lib.fs ++ [(amps2Metal, Node.dir)] }

def ampsAll : Path := ["lib", "Presets", "Amps", "*"]

def ampsDeep : Path := ["lib", "Presets", "Amps", "*", "*"]

def metalNotes : Path := ["lib", "Presets", "Amps", "Metal", "notes.txt"]

/-- The library `lib` with a text file beside the two presets of `Metal`. -/
def libWithNotes : World :=
  { lib with fs := lib.fs ++ [(metalNotes, Node.file (Content.raw "tuning: drop D"))] }

def oldFolder : Path := ["lib", "Presets", "Old.at5p"]

def oldSub : Path := ["lib", "Presets", "Old.at5p", "Sub"]

def oldPreset : Path := ["lib", "Presets", "Old.at5p", "Sub", "x.at5p"]

/-- The library `lib` with a folder whose name ends in a preset extension; the folder
holds a subfolder with one preset. -/
def libWithOddFolder : World :=
  { lib with fs := lib.fs ++
      [ (oldFolder, Node.dir), (oldSub, Node.dir), (oldPreset, Node.file presetC) ] }

/-! ## The loops and results of the resolvers, as the source runs them -/

/-- The loop of Go `resolveToProfile`, run for at most `fuel` rounds: `none` when the fuel
runs out, else the values of `found` and `currPath` when the loop ends. -/
def resolveToProfileLoop (fs : FS) : Nat → Path → Option (Bool × Path)
  | 0, _ => none
  | fuel + 1, currPath =>
    if isProfileFolder fs currPath then some (true, currPath)
    else if dir currPath = currPath then some (false, dir currPath)
    else resolveToProfileLoop fs fuel (dir currPath)

/-- Go `resolveToMatches` with both of its results, the match list and the error: the two
checks return `[]string{}` with their error, and past them the error is nil. -/
def resolveToMatchesResult (fs : FS) (absPath : Path) (recursive excludeFolders : Bool) :
    List Path × Option String :=
  if (stat fs (checkPath absPath)).isNone then ([], some "path not found")
  else if !isInPresetsFolder fs absPath then ([], some "presets not found on path")
  else
    match resolveToMatches fs absPath recursive excludeFolders with
    | Except.ok found => (found, none)
    | Except.error e => ([], some e)

/-- The entries of `fs` that `filepath.Glob` reaches from directory `d` by matching the
segments of a pattern one after the other: `names` are the names picked, each an entry of
the directory reached so far. -/
def GlobOk (fs : FS) : Path → List String → List String → Prop
  | _, [], [] => True
  | d, seg :: ps, n :: ns =>
    isDir fs d = true ∧ (d ++ [n]) ∈ fs.map (fun e => e.1) ∧
      filepathMatch seg.data n.data = some true ∧ GlobOk fs (d ++ [n]) ps ns
  | _, _, _ => False

def metalSub : Path := ["lib", "Presets", "Amps", "Metal", "Sub"]

def metalSubX : Path := ["lib", "Presets", "Amps", "Metal", "Sub", "x.at5p"]

def metalZed : Path := ["lib", "Presets", "Amps", "Metal", "zed"]

/-- A profile `/lib` whose folder `Presets/Amps/Metal` holds the preset `a.at5p`, the
folder `Sub` with the preset `x.at5p`, and the empty folder `zed`. -/
def libNested : World :=
  { fs := [ (["lib"], Node.dir), (["lib", "Presets.db"], Node.file (Content.raw "sqlite")),
            (["lib", "Presets"], Node.dir), (amps, Node.dir), (metal, Node.dir),
            (metalA, Node.file presetA), (metalSub, Node.dir),
            (metalSubX, Node.file presetC), (metalZed, Node.dir), (amps2, Node.dir) ],
    db := [rowA], out := [], uuids := 0, sql := [] }

/-! ## `reindex.go` -/

/-- SQLite `instr(x, y)`: the position of the first occurrence of `y` in `x`, counted
from 1, or 0 when there is none. -/
def sqlInstr (x y : String) : Nat := (strIndex x y + 1).toNat

/-- SQLite `substr(x, n)` for `n ≥ 0`: the text from position `n`, counted from 1; from
position 0 it is the whole text. -/
def sqlSubstr (x : String) (n : Nat) : String := strFrom x (n - 1)

/-- The marker `filepath.Join(string(filepath.Separator), "Presets",
string(filepath.Separator))`. -/
def presetsMarker : String := pathString (joinStr (joinStr [] PresetsFolder) "/")

/-- The statement `update pXcPresets set OriginalFileName = ? || substr(OriginalFileName,
instr(OriginalFileName, ?)), FileFolder = ? || substr(FileFolder, instr(FileFolder, ?))`
on one row, with the parameters `source`, `marker`, `source`, `marker`. -/
def reindexRow (source marker : String) (r : Row) : Row :=
  { r with
    originalFileName :=
      source ++ sqlSubstr r.originalFileName (sqlInstr r.originalFileName marker),
    fileFolder := source ++ sqlSubstr r.fileFolder (sqlInstr r.fileFolder marker) }

/-- Go `reindex`; `args` are the operands made absolute. -/
def reindex (env : Env) (args : List Path) (w : World) : World × Option String :=
  match args with
  | [] => (w, some "arg must be the root of an Amplitube profile")
  | source :: _ =>
    if !isProfileFolder w.fs source then
      (w, some "arg must be the root of an Amplitube profile")
    else if env.failPrepare then (w, some "database is locked")
    else if env.failExec (pathString source) then (w, some "database is locked")
    else ({ w with db := w.db.map (reindexRow (pathString source) presetsMarker) }, none)

/-- A row written while the profile lay in `/old/Presets/lib`. -/
def rowMovedProfile : Row :=
  { id := 7, originalFileName := "/old/Presets/lib/Presets/Amps/Metal/a.at5p",
    fileFolder := "/old/Presets/lib/Presets/Amps/Metal", name := "a", descr := "clean" }


/-- The library `lib` with the index of a profile that lay in `/old/Presets/lib`. -/
def libMoved : World := { lib with db := [rowMovedProfile] }

/-- A row whose location columns do not hold `/Presets`. -/
def rowNoMarker : Row :=
  { id := 8, originalFileName := "Amps/a.at5p", fileFolder := "Amps", name := "a",
    descr := "clean" }

/-- The library `lib` with a row that does not hold the marker. -/
def libNoMarker : World := { lib with db := [rowNoMarker] }

/-- The row of `a.at5p` as it was written while the profile lay in `/old`. -/
def rowOld : Row :=
  { rowA with originalFileName := "/old/Presets/Amps/Metal/a.at5p",
              fileFolder := "/old/Presets/Amps/Metal" }

/-- The library `lib` with the index of the profile as it lay in `/old`. -/
def libOld : World := { lib with db := [rowOld] }

/-! ## The plan of `importPresets` (`import.go`) -/

/-- The loop of `importPresets` that fills the map `files`; it ends with `slicePanic` when
the slice expression panics. -/
def importFiles (sourceProfile importPath : Path) : List Path → Plan → Except String Plan
  | [], files => Except.ok files
  | m :: rest, files =>
    match sliceFrom (pathString m)
        ((pathString sourceProfile).data.length + PresetsFolder.data.length + 1) with
    | some rel => importFiles sourceProfile importPath rest (planSet files m (joinStr importPath rel))
    | none => Except.error slicePanic

/-- The start of Go `importPresets`, up to the map `files`: the two profiles, the matches
under the presets folder of the source profile, the import folder, and for each match
`filepath.Join(importPath, match[len(sourceProfile)+len(PresetsFolder)+1:])`. The loop that
picks the import folder always ends within its fuel, so the `none` branch is never taken. -/
def importPlan (fs : FS) (sourcePath targetPath : Path) : Except String Plan :=
  match resolveToProfile fs sourcePath with
  | Except.error _ => Except.error "both args must be the root of an Amplitube profile"
  | Except.ok sourceProfile =>
    match resolveToProfile fs targetPath with
    | Except.error _ => Except.error "both args must be the root of an Amplitube profile"
    | Except.ok targetProfile =>
      if sourceProfile = targetProfile then
        Except.error "args cannot reference the same Amplitube profile"
      else
        match resolveToMatches fs (join sourceProfile PresetsFolder) true false with
        | Except.error e => Except.error e
        | Except.ok found =>
          match importDestination fs targetProfile with
          | none => Except.error "import folder not found"
          | some importPath => importFiles sourceProfile importPath found []

def otherMetal : Path := ["other", "Presets", "Metal"]

def otherMetalX : Path := ["other", "Presets", "Metal", "x.at5p"]

/-! ## Effect groups (`presets.go`, `copy_gear.go`)

A slot element is its attribute list, `none` for the nil slice of a slot without
attributes. The stored groups differ in how many slots they have: six, four (`LoopFx`),
three (`StompStereo`) or two (`Rack`). Of a preset only its effect groups are kept. -/

/-- The constant `EmptySlotGUID`. -/
def EmptySlotGUID : String := "773b8ea7-b54a-4a3c-99df-ffbbf6d29271"

/-- The field `Attrs []xml.Attr` of `Slot0` to `Slot5` and of `GenericSlot`. -/
abbrev SlotAttrs := Option (List (String × String))

structure GenericStomp where
  Bypass : Int
  Mute : Int
  OutputVolume : Int
  Stomp0 : String
  Stomp1 : String
  Stomp2 : String
  Stomp3 : String
  Stomp4 : String
  Stomp5 : String
  Slot0 : SlotAttrs
  Slot1 : SlotAttrs
  Slot2 : SlotAttrs
  Slot3 : SlotAttrs
  Slot4 : SlotAttrs
  Slot5 : SlotAttrs
  StompCount : Nat
  deriving DecidableEq, Repr

/-- The groups `StompA1`, `StompA2`, `StompB1`, `StompB2`, `StompB3`, `RackMaster`. -/
structure Stomps6 where
  Bypass : Int
  Mute : Int
  OutputVolume : Int
  Stomp0 : String
  Stomp1 : String
  Stomp2 : String
  Stomp3 : String
  Stomp4 : String
  Stomp5 : String
  Slot0 : SlotAttrs
  Slot1 : SlotAttrs
  Slot2 : SlotAttrs
  Slot3 : SlotAttrs
  Slot4 : SlotAttrs
  Slot5 : SlotAttrs
  deriving DecidableEq, Repr

/-- The groups `LoopFxA`, `LoopFxB`, `LoopFxC`. -/
structure Stomps4 where
  Bypass : Int
  Mute : Int
  OutputVolume : Int
  Stomp0 : String
  Stomp1 : String
  Stomp2 : String
  Stomp3 : String
  Slot0 : SlotAttrs
  Slot1 : SlotAttrs
  Slot2 : SlotAttrs
  Slot3 : SlotAttrs
  deriving DecidableEq, Repr

/-- The group `StompStereo`. -/
structure Stomps3 where
  Bypass : Int
  Mute : Int
  OutputVolume : Int
  Stomp0 : String
  Stomp1 : String
  Stomp2 : String
  Slot0 : SlotAttrs
  Slot1 : SlotAttrs
  Slot2 : SlotAttrs
  deriving DecidableEq, Repr

/-- The groups `RackA`, `RackB`, `RackC`, `RackDI`. -/
structure Stomps2 where
  Bypass : Int
  Mute : Int
  OutputVolume : Int
  Stomp0 : String
  Stomp1 : String
  Slot0 : SlotAttrs
  Slot1 : SlotAttrs
  deriving DecidableEq, Repr

/-- The effect groups of Go `PresetXMLV5`. -/
structure PresetXMLV5 where
  StompA1 : Stomps6
  StompA2 : Stomps6
  StompStereo : Stomps3
  StompB1 : Stomps6
  StompB2 : Stomps6
  StompB3 : Stomps6
  LoopFxA : Stomps4
  LoopFxB : Stomps4
  LoopFxC : Stomps4
  RackA : Stomps2
  RackB : Stomps2
  RackC : Stomps2
  RackDI : Stomps2
  RackMaster : Stomps6
  deriving DecidableEq, Repr

/-- Go `fromStompA1` and the other converters of the groups with six slots. -/
def fromStomps6 (stomp : Stomps6) : GenericStomp :=
  { Bypass := stomp.Bypass, Mute := stomp.Mute, OutputVolume := stomp.OutputVolume,
    Stomp0 := stomp.Stomp0, Stomp1 := stomp.Stomp1, Stomp2 := stomp.Stomp2,
    Stomp3 := stomp.Stomp3, Stomp4 := stomp.Stomp4, Stomp5 := stomp.Stomp5,
    Slot0 := stomp.Slot0, Slot1 := stomp.Slot1, Slot2 := stomp.Slot2,
    Slot3 := stomp.Slot3, Slot4 := stomp.Slot4, Slot5 := stomp.Slot5,
    StompCount := 6 }

/-- Go `fromLoopFxA`, `fromLoopFxB`, `fromLoopFxC`. -/
def fromStomps4 (stomp : Stomps4) : GenericStomp :=
  { Bypass := stomp.Bypass, Mute := stomp.Mute, OutputVolume := stomp.OutputVolume,
    Stomp0 := stomp.Stomp0, Stomp1 := stomp.Stomp1, Stomp2 := stomp.Stomp2,
    Stomp3 := stomp.Stomp3, Stomp4 := "", Stomp5 := "",
    Slot0 := stomp.Slot0, Slot1 := stomp.Slot1, Slot2 := stomp.Slot2,
    Slot3 := stomp.Slot3, Slot4 := none, Slot5 := none,
    StompCount := 4 }

/-- Go `fromStompStereo`. -/
def fromStompStereo (stomp : Stomps3) : GenericStomp :=
  { Bypass := stomp.Bypass, Mute := stomp.Mute, OutputVolume := stomp.OutputVolume,
    Stomp0 := stomp.Stomp0, Stomp1 := stomp.Stomp1, Stomp2 := stomp.Stomp2,
    Stomp3 := "", Stomp4 := "", Stomp5 := "",
    Slot0 := stomp.Slot0, Slot1 := stomp.Slot1, Slot2 := stomp.Slot2,
    Slot3 := none, Slot4 := none, Slot5 := none,
    StompCount := 3 }

/-- Go `fromRackA`, `fromRackB`, `fromRackC`, `fromRackDI`. -/
def fromStomps2 (stomp : Stomps2) : GenericStomp :=
  { Bypass := stomp.Bypass, Mute := stomp.Mute, OutputVolume := stomp.OutputVolume,
    Stomp0 := stomp.Stomp0, Stomp1 := stomp.Stomp1, Stomp2 := "",
    Stomp3 := "", Stomp4 := "", Stomp5 := "",
    Slot0 := stomp.Slot0, Slot1 := stomp.Slot1, Slot2 := none,
    Slot3 := none, Slot4 := none, Slot5 := none,
    StompCount := 2 }

/-- The zero value of `GenericStomp`. -/
def zeroStomp : GenericStomp :=
  { Bypass := 0, Mute := 0, OutputVolume := 0,
    Stomp0 := "", Stomp1 := "", Stomp2 := "", Stomp3 := "", Stomp4 := "", Stomp5 := "",
    Slot0 := none, Slot1 := none, Slot2 := none, Slot3 := none, Slot4 := none, Slot5 := none,
    StompCount := 0 }

/-- Go `fromStompType`. -/
def fromStompType (preset : PresetXMLV5) (name : String) : GenericStomp :=
  if name = "StompA1" then fromStomps6 preset.StompA1
  else if name = "StompA2" then fromStomps6 preset.StompA2
  else if name = "StompStereo" then fromStompStereo preset.StompStereo
  else if name = "StompB1" then fromStomps6 preset.StompB1
  else if name = "StompB2" then fromStomps6 preset.StompB2
  else if name = "StompB3" then fromStomps6 preset.StompB3
  else if name = "LoopFxA" then fromStomps4 preset.LoopFxA
  else if name = "LoopFxB" then fromStomps4 preset.LoopFxB
  else if name = "LoopFxC" then fromStomps4 preset.LoopFxC
  else if name = "RackA" then fromStomps2 preset.RackA
  else if name = "RackB" then fromStomps2 preset.RackB
  else if name = "RackC" then fromStomps2 preset.RackC
  else if name = "RackDI" then fromStomps2 preset.RackDI
  else if name = "RackMaster" then fromStomps6 preset.RackMaster
  else zeroStomp

/-- Go `checkForEmptySlotGUID`. -/
def checkForEmptySlotGUID (guid : String) (index total : Nat) : String :=
  if index ≥ total then EmptySlotGUID else guid

/-- Go `checkForEmptySlot0` to `checkForEmptySlot5`, with the number of the slot. -/
def checkForEmptySlot (index : Nat) (slot : SlotAttrs) (total : Nat) : SlotAttrs :=
  if index ≥ total then none else slot

/-- The composite literal that `replaceStomps` builds for a group with six slots. -/
def toStomps6 (s : GenericStomp) : Stomps6 :=
  { Bypass := s.Bypass, Mute := s.Mute, OutputVolume := s.OutputVolume,
    Stomp0 := checkForEmptySlotGUID s.Stomp0 0 s.StompCount,
    Stomp1 := checkForEmptySlotGUID s.Stomp1 1 s.StompCount,
    Stomp2 := checkForEmptySlotGUID s.Stomp2 2 s.StompCount,
    Stomp3 := checkForEmptySlotGUID s.Stomp3 3 s.StompCount,
    Stomp4 := checkForEmptySlotGUID s.Stomp4 4 s.StompCount,
    Stomp5 := checkForEmptySlotGUID s.Stomp5 5 s.StompCount,
    Slot0 := checkForEmptySlot 0 s.Slot0 s.StompCount,
    Slot1 := checkForEmptySlot 1 s.Slot1 s.StompCount,
    Slot2 := checkForEmptySlot 2 s.Slot2 s.StompCount,
    Slot3 := checkForEmptySlot 3 s.Slot3 s.StompCount,
    Slot4 := checkForEmptySlot 4 s.Slot4 s.StompCount,
    Slot5 := checkForEmptySlot 5 s.Slot5 s.StompCount }

/-- The composite literal that `replaceStomps` builds for a `LoopFx` group. -/
def toStomps4 (s : GenericStomp) : Stomps4 :=
  { Bypass := s.Bypass, Mute := s.Mute, OutputVolume := s.OutputVolume,
    Stomp0 := checkForEmptySlotGUID s.Stomp0 0 s.StompCount,
    Stomp1 := checkForEmptySlotGUID s.Stomp1 1 s.StompCount,
    Stomp2 := checkForEmptySlotGUID s.Stomp2 2 s.StompCount,
    Stomp3 := checkForEmptySlotGUID s.Stomp3 3 s.StompCount,
    Slot0 := checkForEmptySlot 0 s.Slot0 s.StompCount,
    Slot1 := checkForEmptySlot 1 s.Slot1 s.StompCount,
    Slot2 := checkForEmptySlot 2 s.Slot2 s.StompCount,
    Slot3 := checkForEmptySlot 3 s.Slot3 s.StompCount }

/-- The composite literal that `replaceStomps` builds for `StompStereo`. -/
def toStomps3 (s : GenericStomp) : Stomps3 :=
  { Bypass := s.Bypass, Mute := s.Mute, OutputVolume := s.OutputVolume,
    Stomp0 := checkForEmptySlotGUID s.Stomp0 0 s.StompCount,
    Stomp1 := checkForEmptySlotGUID s.Stomp1 1 s.StompCount,
    Stomp2 := checkForEmptySlotGUID s.Stomp2 2 s.StompCount,
    Slot0 := checkForEmptySlot 0 s.Slot0 s.StompCount,
    Slot1 := checkForEmptySlot 1 s.Slot1 s.StompCount,
    Slot2 := checkForEmptySlot 2 s.Slot2 s.StompCount }

/-- The composite literal that `replaceStomps` builds for a `Rack` group with two slots. -/
def toStomps2 (s : GenericStomp) : Stomps2 :=
  { Bypass := s.Bypass, Mute := s.Mute, OutputVolume := s.OutputVolume,
    Stomp0 := checkForEmptySlotGUID s.Stomp0 0 s.StompCount,
    Stomp1 := checkForEmptySlotGUID s.Stomp1 1 s.StompCount,
    Slot0 := checkForEmptySlot 0 s.Slot0 s.StompCount,
    Slot1 := checkForEmptySlot 1 s.Slot1 s.StompCount }

/-- Go `replaceStomps`: the preset with the named group replaced, or the error. -/
def replaceStomps (sourceStomps : GenericStomp) (targetPreset : PresetXMLV5)
    (targetStomps : String) : Except String PresetXMLV5 :=
  if targetStomps = "StompA1" then
    Except.ok { targetPreset with StompA1 := toStomps6 sourceStomps }
  else if targetStomps = "StompA2" then
    Except.ok { targetPreset with StompA2 := toStomps6 sourceStomps }
  else if targetStomps = "StompStereo" then
    Except.ok { targetPreset with StompStereo := toStomps3 sourceStomps }
  else if targetStomps = "StompB1" then
    Except.ok { targetPreset with StompB1 := toStomps6 sourceStomps }
  else if targetStomps = "StompB2" then
    Except.ok { targetPreset with StompB2 := toStomps6 sourceStomps }
  else if targetStomps = "StompB3" then
    Except.ok { targetPreset with StompB3 := toStomps6 sourceStomps }
  else if targetStomps = "LoopFxA" then
    Except.ok { targetPreset with LoopFxA := toStomps4 sourceStomps }
  else if targetStomps = "LoopFxB" then
    Except.ok { targetPreset with LoopFxB := toStomps4 sourceStomps }
  else if targetStomps = "LoopFxC" then
    Except.ok { targetPreset with LoopFxC := toStomps4 sourceStomps }
  else if targetStomps = "RackA" then
    Except.ok { targetPreset with RackA := toStomps2 sourceStomps }
  else if targetStomps = "RackB" then
    Except.ok { targetPreset with RackB := toStomps2 sourceStomps }
  else if targetStomps = "RackC" then
    Except.ok { targetPreset with RackC := toStomps2 sourceStomps }
  else if targetStomps = "RackDI" then
    Except.ok { targetPreset with RackDI := toStomps2 sourceStomps }
  else if targetStomps = "RackMaster" then
    Except.ok { targetPreset with RackMaster := toStomps6 sourceStomps }
  else Except.error "incompatible slots"

/-- The `switch i` of `appendOrInsertStomps` that reads slot `i` of a group. -/
def slotOf (s : GenericStomp) : Nat → String × SlotAttrs
  | 0 => (s.Stomp0, s.Slot0)
  | 1 => (s.Stomp1, s.Slot1)
  | 2 => (s.Stomp2, s.Slot2)
  | 3 => (s.Stomp3, s.Slot3)
  | 4 => (s.Stomp4, s.Slot4)
  | 5 => (s.Stomp5, s.Slot5)
  | _ => ("", none)

/-- The `switch i` of `appendOrInsertStomps` that writes slot `i` of a group. -/
def setSlot (s : GenericStomp) (i : Nat) (guid : String) (attrs : SlotAttrs) : GenericStomp :=
  match i with
  | 0 => { s with Stomp0 := guid, Slot0 := attrs }
  | 1 => { s with Stomp1 := guid, Slot1 := attrs }
  | 2 => { s with Stomp2 := guid, Slot2 := attrs }
  | 3 => { s with Stomp3 := guid, Slot3 := attrs }
  | 4 => { s with Stomp4 := guid, Slot4 := attrs }
  | 5 => { s with Stomp5 := guid, Slot5 := attrs }
  | _ => s

/-- Go `GUIDList.append`. -/
def guidAppend (guids : List String) (guid : String) : List String :=
  if guid != EmptySlotGUID then guids ++ [guid] else guids

/-- Go `GUIDList.insert`. -/
def guidInsert (guids : List String) (guid : String) : List String :=
  if guid != EmptySlotGUID then guid :: guids else guids

/-- Go `SlotList.append`. -/
def slotAppend (slots : List SlotAttrs) (slot : SlotAttrs) : List SlotAttrs :=
  if slot.isSome then slots ++ [slot] else slots

/-- Go `SlotList.insert`. -/
def slotInsert (slots : List SlotAttrs) (slot : SlotAttrs) : List SlotAttrs :=
  if slot.isSome then slot :: slots else slots

/-- The two loops of `appendOrInsertStomps` that read the slots `0 .. StompCount - 1` of a
group into a GUID list and a slot list, continuing the lists given. -/
def readSlots (s : GenericStomp) (lists : List String × List SlotAttrs) :
    List String × List SlotAttrs :=
  (List.range s.StompCount).foldl
    (fun acc i => (guidAppend acc.1 (slotOf s i).1, slotAppend acc.2 (slotOf s i).2)) lists

/-- The loop `for i := 0; i < 6; i++` of `appendOrInsertStomps`; `none` when
`guidList.guids[i]` is out of range. -/
def writeSlots (guids : List String) (slots : List SlotAttrs) (s : GenericStomp) :
    Option GenericStomp :=
  (List.range 6).foldl
    (fun acc i =>
      match acc with
      | none => none
      | some g =>
        if i < slots.length then
          match guids[i]? with
          | some guid => some (setSlot g i guid (slots[i]?).join)
          | none => none
        else some (setSlot g i EmptySlotGUID none))
    (some s)

/-- The loop of `appendOrInsertStomps` that puts the pedals of the source after (or, with
`insert`, before) those of the target; `none` when `sourceSlotList.slots[i]` is out of
range. -/
def mergeSlots (insert : Bool) (source target : List String × List SlotAttrs) :
    Option (List String × List SlotAttrs) :=
  (if insert then (List.range source.1.length).reverse else List.range source.1.length).foldl
    (fun acc i =>
      match acc with
      | none => none
      | some l =>
        match source.1[i]?, source.2[i]? with
        | some guid, some slot =>
          if insert then some (guidInsert l.1 guid, slotInsert l.2 slot)
          else some (guidAppend l.1 guid, slotAppend l.2 slot)
        | _, _ => none)
    (some target)

/-- Go `appendOrInsertStomps`; `none` stands for the run-time panic of an index out of
range. The merged slots are written into `sourceStomps`, which keeps its `StompCount`. -/
def appendOrInsertStomps (sourceStomps : GenericStomp) (targetPreset : PresetXMLV5)
    (targetStompName : String) (insert : Bool) : Option (Except String PresetXMLV5) :=
  let source := readSlots sourceStomps ([], [])
  let targetStomp := fromStompType targetPreset targetStompName
  let target := readSlots targetStomp ([], [])
  match mergeSlots insert source target with
  | none => none
  | some lists =>
    match writeSlots lists.1 lists.2 sourceStomps with
    | none => none
    | some merged => some (replaceStomps merged targetPreset targetStompName)

/-! ### Sample presets -/

def emptyStomps6 : Stomps6 :=
  { Bypass := 0, Mute := 0, OutputVolume := 0,
    Stomp0 := EmptySlotGUID, Stomp1 := EmptySlotGUID, Stomp2 := EmptySlotGUID,
    Stomp3 := EmptySlotGUID, Stomp4 := EmptySlotGUID, Stomp5 := EmptySlotGUID,
    Slot0 := none, Slot1 := none, Slot2 := none, Slot3 := none, Slot4 := none, Slot5 := none }

def emptyStomps4 : Stomps4 :=
  { Bypass := 0, Mute := 0, OutputVolume := 0,
    Stomp0 := EmptySlotGUID, Stomp1 := EmptySlotGUID, Stomp2 := EmptySlotGUID,
    Stomp3 := EmptySlotGUID,
    Slot0 := none, Slot1 := none, Slot2 := none, Slot3 := none }

def emptyStomps3 : Stomps3 :=
  { Bypass := 0, Mute := 0, OutputVolume := 0,
    Stomp0 := EmptySlotGUID, Stomp1 := EmptySlotGUID, Stomp2 := EmptySlotGUID,
    Slot0 := none, Slot1 := none, Slot2 := none }

def emptyStomps2 : Stomps2 :=
  { Bypass := 0, Mute := 0, OutputVolume := 0,
    Stomp0 := EmptySlotGUID, Stomp1 := EmptySlotGUID, Slot0 := none, Slot1 := none }

/-- A preset in which every slot of every effect group is empty. -/
def emptyPreset : PresetXMLV5 :=
  { StompA1 := emptyStomps6, StompA2 := emptyStomps6, StompStereo := emptyStomps3,
    StompB1 := emptyStomps6, StompB2 := emptyStomps6, StompB3 := emptyStomps6,
    LoopFxA := emptyStomps4, LoopFxB := emptyStomps4, LoopFxC := emptyStomps4,
    RackA := emptyStomps2, RackB := emptyStomps2, RackC := emptyStomps2,
    RackDI := emptyStomps2, RackMaster := emptyStomps6 }

/-- A source preset with one pedal, `chorus`, in slot 0 of `StompStereo`. -/
def stereoSource : PresetXMLV5 :=
  { emptyPreset with
    StompStereo := { emptyStomps3 with Stomp0 := "chorus", Slot0 := some [("Rate", "3")] } }

/-- A target preset with four pedals in the slots 0 to 3 of `StompA1`. -/
def fourPedals : PresetXMLV5 :=
  { emptyPreset with
    StompA1 := { emptyStomps6 with
      Stomp0 := "wah", Slot0 := some [("Pos", "1")],
      Stomp1 := "fuzz", Slot1 := some [("Gain", "7")],
      Stomp2 := "delay", Slot2 := some [("Time", "300")],
      Stomp3 := "reverb", Slot3 := some [("Mix", "5")] } }

/-! ## Grouped matches (`matches.go`) and `sort.SliceStable`

`sort.SliceStable` is modelled as the Go library runs it: insertion sort on blocks of 20
elements, then `symMerge` on pairs of blocks of doubling size. The functions work on a
list through indices, as the library does through `Less` and `Swap`. -/

/-- `data.Swap(i, j)`. -/
def swapAt (data : List Path) (i j : Nat) : List Path :=
  (data.set i (data.getD j [])).set j (data.getD i [])

/-- The inner loop of Go `insertionSort`: `for j := i; j > a && less(j, j-1); j--`. -/
def insertDown (less : Path → Path → Bool) (a : Nat) : Nat → List Path → List Path
  | 0, data => data
  | j + 1, data =>
    if j + 1 > a && less (data.getD (j + 1) []) (data.getD j []) then
      insertDown less a j (swapAt data (j + 1) j)
    else data

/-- Go `insertionSort(data, a, b)`. -/
def insertionSort (less : Path → Path → Bool) (data : List Path) (a b : Nat) : List Path :=
  (List.range' (a + 1) (b - (a + 1))).foldl (fun d i => insertDown less a i d) data

/-- Go `swapRange(data, a, b, n)`. -/
def swapRange (data : List Path) (a b n : Nat) : List Path :=
  (List.range n).foldl (fun d i => swapAt d (a + i) (b + i)) data

/-- The loop of Go `rotate`, run for at most `fuel` rounds, and the final `swapRange`. -/
def rotateLoop (m : Nat) : Nat → Nat → Nat → List Path → List Path
  | 0, _, _, data => data
  | fuel + 1, i, j, data =>
    if i ≠ j then
      if i > j then rotateLoop m fuel (i - j) j (swapRange data (m - i) m j)
      else rotateLoop m fuel i (j - i) (swapRange data (m - i) (m + j - i) i)
    else swapRange data (m - i) m i

/-- Go `rotate(data, a, m, b)`. Every round takes at least one off `i + j`. -/
def rotate (data : List Path) (a m b : Nat) : List Path :=
  rotateLoop m (b - a + 1) (m - a) (b - m) data

/-- A binary search loop `for i < j { h := (i+j)/2; if up(h) { i = h + 1 } else { j = h } }`,
run for at most `fuel` rounds; the value of `i` at the end. -/
def searchLoop (up : Nat → Bool) : Nat → Nat → Nat → Nat
  | 0, i, _ => i
  | fuel + 1, i, j =>
    if i < j then
      if up ((i + j) / 2) then searchLoop up fuel ((i + j) / 2 + 1) j
      else searchLoop up fuel i ((i + j) / 2)
    else i

/-- Go `symMerge(data, a, m, b)`, with `fuel` for the depth of its recursion. -/
def symMerge (less : Path → Path → Bool) : Nat → List Path → Nat → Nat → Nat → List Path
  | 0, data, _, _, _ => data
  | fuel + 1, data, a, m, b =>
    if m - a = 1 then
      let i := searchLoop (fun h => less (data.getD h []) (data.getD a [])) (b - m + 1) m b
      (List.range' a (i - 1 - a)).foldl (fun d k => swapAt d k (k + 1)) data
    else if b - m = 1 then
      let i := searchLoop (fun h => !less (data.getD m []) (data.getD h [])) (m - a + 1) a m
      ((List.range' (i + 1) (m - i)).reverse).foldl (fun d k => swapAt d k (k - 1)) data
    else
      let mid := (a + b) / 2
      let n := mid + m
      let start0 := if m > mid then n - b else a
      let r0 := if m > mid then mid else m
      let p := n - 1
      let start := searchLoop (fun c => !less (data.getD (p - c) []) (data.getD c []))
        (r0 - start0 + 1) start0 r0
      let stop := n - start
      let data1 := if start < m && m < stop then rotate data start m stop else data
      let data2 := if a < start && start < mid then symMerge less fuel data1 a start mid
        else data1
      if mid < stop && stop < b then symMerge less fuel data2 mid stop b else data2

/-- The first loop of Go `stable`: insertion sort on each full block of `blockSize`
elements; returns the data and the start of the last, shorter block. -/
def stableBlocks (less : Path → Path → Bool) (n blockSize : Nat) :
    Nat → List Path → Nat → List Path × Nat
  | 0, data, a => (data, a)
  | fuel + 1, data, a =>
    if a + blockSize ≤ n then
      stableBlocks less n blockSize fuel (insertionSort less data a (a + blockSize))
        (a + blockSize)
    else (data, a)

/-- The inner loop of the second phase of Go `stable`: `symMerge` on each pair of blocks;
returns the data and the start of what is left. -/
def stableMergePairs (less : Path → Path → Bool) (n blockSize : Nat) :
    Nat → List Path → Nat → List Path × Nat
  | 0, data, a => (data, a)
  | fuel + 1, data, a =>
    if a + 2 * blockSize ≤ n then
      stableMergePairs less n blockSize fuel
        (symMerge less (n + 1) data a (a + blockSize) (a + 2 * blockSize)) (a + 2 * blockSize)
    else (data, a)

/-- The second phase of Go `stable`: `for blockSize < n`, doubling the block size. -/
def stableMerge (less : Path → Path → Bool) (n : Nat) : Nat → Nat → List Path → List Path
  | 0, _, data => data
  | fuel + 1, blockSize, data =>
    if blockSize < n then
      let r := stableMergePairs less n blockSize (n + 1) data 0
      let data1 := if r.2 + blockSize < n then symMerge less (n + 1) r.1 r.2 (r.2 + blockSize) n
        else r.1
      stableMerge less n fuel (2 * blockSize) data1
    else data

/-- Go `sort.SliceStable(x, less)`, with `less` on the elements. -/
def sliceStable (less : Path → Path → Bool) (x : List Path) : List Path :=
  let r := stableBlocks less x.length 20 (x.length + 1) x 0
  stableMerge less x.length (x.length + 1) 20 (insertionSort less r.1 r.2 x.length)

/-- The function handed to `sort.SliceStable` in `sortMatches`. -/
def matchLess (fs : FS) (mi mj : Path) : Bool :=
  if dir mi == dir mj && isDir fs mi && !isDir fs mj then true
  else ltChars (pathString mi).data (pathString mj).data

/-- Go `sortMatches`. -/
def sortMatches (fs : FS) (found : List Path) : List Path := sliceStable (matchLess fs) found

/-- Go `groupedMatches[k] = append(groupedMatches[k], m)`. -/
def groupAppend : List (Path × List Path) → Path → Path → List (Path × List Path)
  | [], k, m => [(k, [m])]
  | (k0, v0) :: rest, k, m =>
    if k0 = k then (k0, v0 ++ [m]) :: rest else (k0, v0) :: groupAppend rest k m

/-- Go `groupMatchesByFolder`: the map from folder to its sorted matches. -/
def groupMatchesByFolder (fs : FS) (found : List Path) : List (Path × List Path) :=
  (found.foldl (fun g m => groupAppend g (dir m) m) []).map
    (fun e => (e.1, sortMatches fs e.2))

/-! ## The file system primitives -/

theorem stat_root (fs : FS) : stat fs [] = some Node.dir := by
  simp [stat]

theorem stat_cons (fs : FS) (p q : Path) (n : Node) :
    stat ((p, n) :: fs) q = if q = [] then some Node.dir else if p = q then some n else stat fs q := by
  unfold stat
  by_cases hq : q = []
  · simp [hq]
  · by_cases hp : p = q
    · simp [hq, hp, List.find?]
    · have : (p == q) = false := by simpa using hp
      simp [hq, hp, List.find?, this]

theorem stat_eraseNode (fs : FS) (p q : Path) :
    stat (eraseNode fs p) q = if q = [] then some Node.dir else if q = p then none else stat fs q := by
  by_cases hq : q = []
  · simp [hq, stat]
  · simp only [hq, if_false]
    induction fs with
    | nil => simp [eraseNode, stat, hq]
    | cons e fs ih =>
      obtain ⟨a, n⟩ := e
      by_cases ha : a = p
      · subst ha
        have h1 : eraseNode ((a, n) :: fs) a = eraseNode fs a := by
          simp [eraseNode]
        rw [h1, ih, stat_cons]
        by_cases hqa : q = a
        · simp [hqa]
        · have : ¬ a = q := fun h => hqa h.symm
          simp [hq, hqa, this]
      · have hb : (a == p) = false := by simpa using ha
        have h1 : eraseNode ((a, n) :: fs) p = (a, n) :: eraseNode fs p := by
          simp [eraseNode, List.filter_cons, hb]
        rw [h1, stat_cons, stat_cons, ih]
        by_cases hqa : a = q
        · have : ¬ q = p := by rw [← hqa]; exact ha
          simp [hq, hqa, this]
        · simp [hq, hqa]

theorem stat_setNode (fs : FS) (p q : Path) (n : Node) :
    stat (setNode fs p n) q =
      if q = [] then some Node.dir else if q = p then some n else stat fs q := by
  unfold setNode
  rw [stat_cons, stat_eraseNode]
  by_cases hq : q = []
  · simp [hq]
  · by_cases hp : q = p
    · simp [hq, hp]
    · have : ¬ p = q := fun h => hp h.symm
      simp [hq, hp, this]

theorem writeFile_ne_root {env : Env} {fs fs1 : FS} {p : Path} {c : Content}
    (h : writeFile env fs p c = Except.ok fs1) : p ≠ [] := by
  intro hp
  subst hp
  simp [writeFile, stat_root] at h
  split at h <;> simp at h

theorem writeFile_eq {env : Env} {fs fs1 : FS} {p : Path} {c : Content}
    (h : writeFile env fs p c = Except.ok fs1) : fs1 = setNode fs p (Node.file c) := by
  unfold writeFile at h
  split at h
  · simp at h
  · split at h
    · simp at h
    · split at h
      · simp at h; exact h.symm
      · simp at h

theorem writeFile_stat {env : Env} {fs fs1 : FS} {p : Path} {c : Content}
    (h : writeFile env fs p c = Except.ok fs1) (q : Path) :
    stat fs1 q = if q = p then some (Node.file c) else stat fs q := by
  have hp := writeFile_ne_root h
  rw [writeFile_eq h, stat_setNode]
  by_cases hq : q = []
  · subst hq
    have : ¬ [] = p := fun h => hp h.symm
    simp [this, stat_root]
  · simp [hq]

theorem osRemove_stat {fs fs1 : FS} {p : Path} (h : osRemove fs p = Except.ok fs1) (q : Path) :
    stat fs1 q = if q = p then none else stat fs q := by
  unfold osRemove at h
  split at h
  · simp at h
  · rename_i hp
    have key : fs1 = eraseNode fs p := by
      split at h
      · simp at h
      · simp at h; exact h.symm
      · split at h
        · simp at h
        · simp at h; exact h.symm
    rw [key, stat_eraseNode]
    by_cases hq : q = []
    · subst hq
      have : ¬ [] = p := fun h => hp h.symm
      simp [this, stat_root]
    · simp [hq]

theorem osRemove_file {fs : FS} {p : Path} {c : Content} (h : stat fs p = some (Node.file c)) :
    osRemove fs p = Except.ok (eraseNode fs p) := by
  have hp : p ≠ [] := by
    intro hp; subst hp; simp [stat_root] at h
  simp [osRemove, hp, h]

theorem mkdirAllFrom_stat (env : Env) (rest : List String) :
    ∀ (fs : FS) (done q : Path),
      stat (mkdirAllFrom env fs done rest).1 q = stat fs q ∨
      (stat fs q = none ∧ stat (mkdirAllFrom env fs done rest).1 q = some Node.dir) := by
  induction rest with
  | nil => intro fs done q; simp [mkdirAllFrom]
  | cons s rest ih =>
    intro fs done q
    unfold mkdirAllFrom
    split
    · exact ih fs _ q
    · simp
    · rename_i hnone
      split
      · simp
      · rcases ih ((done ++ [s], Node.dir) :: fs) (done ++ [s]) q with h | ⟨h1, h2⟩
        · rw [h, stat_cons]
          by_cases hq : q = []
          · simp [hq, stat_root]
          · by_cases hp : done ++ [s] = q
            · right
              subst hp
              simp [hq, hnone]
            · left; simp [hq, hp]
        · rw [stat_cons] at h1
          by_cases hq : q = []
          · simp [hq] at h1
          · by_cases hp : done ++ [s] = q
            · simp [hq, hp] at h1
            · simp [hq, hp] at h1
              right; exact ⟨h1, h2⟩

theorem mkdirAll_stat (env : Env) (fs : FS) (p q : Path) :
    stat (mkdirAll env fs p).1 q = stat fs q ∨
    (stat fs q = none ∧ stat (mkdirAll env fs p).1 q = some Node.dir) :=
  mkdirAllFrom_stat env p fs [] q

theorem mkdirAll_keeps (env : Env) (fs : FS) (p q : Path) (n : Node)
    (h : stat fs q = some n) : stat (mkdirAll env fs p).1 q = some n := by
  rcases mkdirAll_stat env fs p q with h1 | ⟨h1, _⟩
  · rw [h1, h]
  · rw [h] at h1; simp at h1

theorem mkdirAll_fileAt (env : Env) (fs : FS) (p q : Path) :
    fileAt (mkdirAll env fs p).1 q = fileAt fs q := by
  unfold fileAt
  rcases mkdirAll_stat env fs p q with h1 | ⟨h1, h2⟩
  · rw [h1]
  · rw [h1, h2]

/-! ## The map of planned destinations -/

theorem planGet_planSet (files : Plan) (k v q : Path) :
    planGet (planSet files k v) q = if k = q then some v else planGet files q := by
  induction files with
  | nil => simp [planSet, planGet]
  | cons e files ih =>
    obtain ⟨k0, v0⟩ := e
    unfold planSet
    by_cases h0 : k0 = k
    · subst h0
      by_cases hq : k0 = q <;> simp [planGet, hq]
    · simp only [h0, if_false]
      unfold planGet
      rw [ih]
      by_cases hq0 : k0 = q
      · have : ¬ k = q := by rw [← hq0]; exact fun h => h0 h.symm
        simp [hq0, this]
      · simp [hq0]

/-! ## Joining paths -/

theorem splitSlash_ne_nil (x : List Char) : splitSlash x ≠ [] := by
  cases x with
  | nil => simp [splitSlash]
  | cons c s =>
    unfold splitSlash
    split
    · simp
    · split <;> simp

theorem splitSlash_slash (x : List Char) : splitSlash ('/' :: x) = [] :: splitSlash x := by
  have h := splitSlash_ne_nil x
  conv_lhs => unfold splitSlash
  split
  · rename_i h0; exact absurd h0 h
  · rename_i seg rest h0; simp [h0]

theorem splitSlash_append (l : List Char) (hl : ∀ c ∈ l, c ≠ '/') (x h : List Char)
    (t : List (List Char)) (hx : splitSlash x = h :: t) :
    splitSlash (l ++ x) = (l ++ h) :: t := by
  induction l with
  | nil => simpa using hx
  | cons c l ih =>
    have hc : c ≠ '/' := hl c (by simp)
    have ih1 := ih (fun d hd => hl d (by simp [hd]))
    show splitSlash (c :: (l ++ x)) = _
    unfold splitSlash
    rw [ih1]
    simp [hc]

/-- The characters of `/seg1/seg2/...`. -/
theorem pathString_cons (s : String) (p : Path) :
    (pathString (s :: p)).data = (((s :: p).map (fun s => '/' :: s.data)).flatten) := by
  simp [pathString]

theorem isSegment_noslash {s : String} (h : isSegment s = true) : ∀ c ∈ s.data, c ≠ '/' := by
  intro c hc hEq
  subst hEq
  simp [isSegment] at h
  exact h.2 hc

theorem splitSlash_flat (rel : Path) (hrel : ∀ s ∈ rel, isSegment s = true) :
    splitSlash ((rel.map (fun s => '/' :: s.data)).flatten) =
      if rel = [] then [[]] else [] :: rel.map (fun s => s.data) := by
  induction rel with
  | nil => simp [splitSlash]
  | cons r rel ih =>
    have ih1 := ih (fun s hs => hrel s (by simp [hs]))
    have hr := isSegment_noslash (hrel r (by simp))
    simp only [List.map_cons, List.flatten_cons, List.cons_append]
    rw [splitSlash_slash]
    by_cases hnil : rel = []
    · subst hnil
      simp only [List.map_nil, List.flatten_nil]
      rw [splitSlash_append r.data hr [] [] [] (by simp [splitSlash])]
      simp
    · rw [if_neg hnil] at ih1
      rw [splitSlash_append r.data hr _ [] _ ih1]
      simp

theorem cleanStep_segment (acc : Path) (s : String) (h : isSegment s = true) :
    cleanStep acc s = acc ++ [s] := by
  simp [isSegment] at h
  obtain ⟨⟨⟨h1, h2⟩, h3⟩, _⟩ := h
  simp [cleanStep, h1, h2, h3]

theorem foldl_cleanStep (rel : Path) (hrel : ∀ s ∈ rel, isSegment s = true) :
    ∀ acc : Path, rel.foldl cleanStep acc = acc ++ rel := by
  induction rel with
  | nil => intro acc; simp
  | cons r rel ih =>
    intro acc
    simp only [List.foldl_cons]
    rw [cleanStep_segment acc r (hrel r (by simp)), ih (fun s hs => hrel s (by simp [hs]))]
    simp

theorem map_mk_data (rel : Path) : (rel.map (fun s => s.data)).map String.mk = rel := by
  induction rel with
  | nil => rfl
  | cons r rel ih => simp [ih]

/-- Joining a clean segment onto a path appends it. -/
theorem join_segment (p : Path) (s : String) (h : isSegment s = true) : join p s = p ++ [s] := by
  unfold join joinStr
  have h1 : splitSlash s.data = [s.data] := by
    have := splitSlash_append s.data (isSegment_noslash h) [] [] [] (by simp [splitSlash])
    simpa using this
  rw [h1]
  simp [cleanStep_segment p s h]

/-- Cutting the parent of the source off a path below it and joining the rest onto the
target moves the path's tail below the target. -/
theorem relocate_raw (target source rel : Path) (hrel : ∀ s ∈ rel, isSegment s = true) :
    joinStr target (strFrom (pathString (dir source ++ rel))
      (pathString (dir source)).data.length) = target ++ rel := by
  unfold joinStr strFrom
  cases hd : dir source with
  | nil =>
    cases rel with
    | nil => simp [pathString, splitSlash, cleanStep]
    | cons r rs =>
      have hr := isSegment_noslash (hrel r (by simp))
      have hrs := splitSlash_flat rs (fun s hs => hrel s (by simp [hs]))
      simp only [List.nil_append, pathString_cons]
      have hlen : (pathString []).data.length = 1 := by simp [pathString]
      rw [hlen]
      simp only [List.map_cons, List.flatten_cons, List.cons_append, List.drop_succ_cons,
        List.drop_zero]
      by_cases hnil : rs = []
      · subst hnil
        simp only [List.map_nil, List.flatten_nil]
        rw [splitSlash_append r.data hr [] [] [] (by simp [splitSlash])]
        simp [cleanStep_segment target r (hrel r (by simp))]
      · rw [if_neg hnil] at hrs
        rw [splitSlash_append r.data hr _ [] _ hrs]
        rw [List.append_nil]
        change List.foldl cleanStep target
          (List.map String.mk (List.map (fun s => s.data) (r :: rs))) = _
        rw [map_mk_data]
        exact foldl_cleanStep (r :: rs) hrel target
  | cons d ds =>
    have hsplit := splitSlash_flat rel hrel
    have h1 : (pathString (d :: ds ++ rel)).data =
        (pathString (d :: ds)).data ++ (rel.map (fun s => '/' :: s.data)).flatten := by
      simp [pathString]
    rw [h1, List.drop_left]
    rw [hsplit]
    by_cases hnil : rel = []
    · subst hnil
      simp [cleanStep]
    · rw [if_neg hnil]
      simp only [List.map_cons, List.foldl_cons]
      have h2 : cleanStep target (String.mk []) = target := by simp [cleanStep]
      rw [h2, map_mk_data]
      exact foldl_cleanStep rel hrel target

/-- The rendering of a path is at least as long as that of each of its prefixes. -/
theorem pathString_length_le (p q : Path) :
    (pathString p).data.length ≤ (pathString (p ++ q)).data.length := by
  cases p with
  | nil =>
    cases q with
    | nil => exact Nat.le_refl _
    | cons a r =>
      rw [List.nil_append, pathString_cons]
      simp [pathString]
  | cons a r =>
    rw [List.cons_append, pathString_cons, pathString_cons]
    simp only [List.map_cons, List.map_append, List.flatten_cons, List.flatten_append,
      List.length_append, List.length_cons]
    omega

theorem relocate_eq (target source rel : Path) (hrel : ∀ s ∈ rel, isSegment s = true) :
    relocate target source (dir source ++ rel) = some (target ++ rel) := by
  unfold relocate sliceFrom
  rw [if_pos (pathString_length_le (dir source) rel)]
  simp only [Option.map]
  rw [relocate_raw target source rel hrel]

/-- The slice never panics on the source itself. -/
theorem relocate_self (target source : Path) :
    relocate target source source =
      some (joinStr target (strFrom (pathString source) (pathString (dir source)).data.length)) := by
  unfold relocate sliceFrom
  have h : (pathString (dir source)).data.length ≤ (pathString source).data.length := by
    have := pathString_length_le (dir source) (source.drop (dir source).length)
    have h2 : dir source ++ source.drop (dir source).length = source := by
      unfold dir
      rw [List.dropLast_eq_take, List.length_take,
        Nat.min_eq_left (Nat.sub_le source.length 1)]
      exact List.take_append_drop _ _
    rw [h2] at this
    exact this
  rw [if_pos h]
  rfl

/-! ## Compensation in `copy` -/

theorem fileAt_of_stat {fs1 fs2 : FS} {q : Path} (h : stat fs1 q = stat fs2 q) :
    fileAt fs1 q = fileAt fs2 q := by
  unfold fileAt; rw [h]

theorem isFile_eq_fileAt (fs : FS) (q : Path) : isFile fs q = (fileAt fs q).isSome := by
  unfold isFile fileAt
  cases stat fs q with
  | none => rfl
  | some n => cases n <;> rfl

theorem writeNewGuidToFile_db (env : Env) (w : World) (p : Path) :
    (writeNewGuidToFile env w p).1.db = w.db ∧ (writeNewGuidToFile env w p).1.out = w.out := by
  unfold writeNewGuidToFile
  simp only
  split <;> simp

theorem writeNewGuidToFile_frame (env : Env) (w : World) (p q : Path) (hq : q ≠ p) :
    stat (writeNewGuidToFile env w p).1.fs q = stat w.fs q := by
  unfold writeNewGuidToFile
  simp only
  split
  · rename_i fs1 h
    simp only
    rw [writeFile_stat h q, if_neg hq]
  · simp

theorem writeNewGuidToFile_error (env : Env) (w : World) (p : Path) (e : String)
    (h : (writeNewGuidToFile env w p).2 = some e) : (writeNewGuidToFile env w p).1.fs = w.fs := by
  unfold writeNewGuidToFile at h ⊢
  simp only at h ⊢
  split
  · rename_i fs1 h1
    rw [h1] at h
    simp at h
  · simp

theorem writeNewGuidToFile_preset (env : Env) (w : World) (p : Path) (f g inner : String)
    (hp : stat w.fs p = some (Node.file (Content.preset f g inner)))
    (hf : f = "at4p" ∨ f = "at5p")
    (h : (writeNewGuidToFile env w p).2 = none) :
    stat (writeNewGuidToFile env w p).1.fs p =
        some (Node.file (Content.preset f (env.gen w.uuids) inner)) ∧
      (writeNewGuidToFile env w p).1.uuids = w.uuids + 1 := by
  have hr : readFile w.fs p = Except.ok (Content.preset f g inner) := by
    simp [readFile, hp]
  have hfmt : presetFormatVersion w.fs p = f := by
    simp [presetFormatVersion, hr]
  unfold writeNewGuidToFile at h ⊢
  simp only [hr, hfmt, hf, if_true] at h ⊢
  split
  · rename_i fs1 h1
    simp only
    rw [writeFile_stat h1 p]
    simp
  · rename_i e h1
    rw [h1] at h
    simp at h

theorem rollbackCopy_frame (files : Plan) :
    ∀ (fs : FS) (q : Path), q ∉ planTargets files → stat (rollbackCopy fs files) q = stat fs q := by
  induction files with
  | nil => intro fs q _; rfl
  | cons e files ih =>
    intro fs q hq
    obtain ⟨s, t⟩ := e
    have hqt : q ≠ t := by
      intro h; apply hq; simp [planTargets, h]
    have hq2 : q ∉ planTargets files := by
      intro h; apply hq; simp [planTargets] at h ⊢; right; exact h
    unfold rollbackCopy
    split
    · split
      · rename_i f hf
        rw [ih f q hq2, osRemove_stat hf q, if_neg hqt]
      · exact ih fs q hq2
    · exact ih fs q hq2

theorem rollbackCopy_shrinks (files : Plan) :
    ∀ (fs : FS) (q : Path),
      stat (rollbackCopy fs files) q = stat fs q ∨ stat (rollbackCopy fs files) q = none := by
  induction files with
  | nil => intro fs q; left; rfl
  | cons e files ih =>
    intro fs q
    obtain ⟨s, t⟩ := e
    unfold rollbackCopy
    split
    · split
      · rename_i f hf
        rcases ih f q with h | h
        · rw [h, osRemove_stat hf q]
          by_cases hqt : q = t
          · right; simp [hqt]
          · left; simp [hqt]
        · right; exact h
      · exact ih fs q
    · exact ih fs q

theorem rollbackCopy_keeps_nonfile (files : Plan) (fs : FS) (q : Path)
    (h : isFile fs q = false) : isFile (rollbackCopy fs files) q = false := by
  unfold isFile at h ⊢
  rcases rollbackCopy_shrinks files fs q with h1 | h1
  · rw [h1]; exact h
  · rw [h1]

theorem rollbackCopy_targets (files : Plan) :
    ∀ (fs : FS) (t : Path), t ∈ planTargets files → isFile (rollbackCopy fs files) t = false := by
  induction files with
  | nil => intro fs t ht; simp [planTargets] at ht
  | cons e files ih =>
    intro fs t ht
    obtain ⟨s, t0⟩ := e
    by_cases h0 : t = t0
    · subst h0
      unfold rollbackCopy
      cases hst : stat fs t with
      | none =>
        simp only [Option.isSome_none, Bool.false_eq_true, if_false]
        apply rollbackCopy_keeps_nonfile
        simp [isFile, hst]
      | some n =>
        simp only [Option.isSome_some, if_true]
        cases n with
        | dir =>
          have hnf : isFile fs t = false := by simp [isFile, hst]
          split
          · rename_i f hf
            apply rollbackCopy_keeps_nonfile
            unfold isFile
            rw [osRemove_stat hf t]
            simp
          · exact rollbackCopy_keeps_nonfile files fs t hnf
        | file c =>
          rw [osRemove_file hst]
          simp only
          apply rollbackCopy_keeps_nonfile
          unfold isFile
          rw [osRemove_stat (osRemove_file hst) t]
          simp
    · have ht2 : t ∈ planTargets files := by
        simp [planTargets] at ht ⊢
        rcases ht with h | h
        · exact absurd h h0
        · exact h
      unfold rollbackCopy
      split
      · split
        · exact ih _ t ht2
        · exact ih _ t ht2
      · exact ih _ t ht2

theorem mem_planTargets_cons {s t : Path} {rest : Plan} {files : Plan}
    (h : ∀ x ∈ planTargets ((s, t) :: rest), x ∈ planTargets files) :
    t ∈ planTargets files ∧ ∀ x ∈ planTargets rest, x ∈ planTargets files := by
  constructor
  · exact h t (by simp [planTargets])
  · intro x hx
    apply h
    simp [planTargets] at hx ⊢
    right; exact hx

/-- The loop of `copy` changes no file outside the planned destinations, and when it
fails it leaves no file at any planned destination. -/
theorem copyFiles_spec (env : Env) (files : Plan) :
    ∀ (rest : Plan) (w : World), (∀ t ∈ planTargets rest, t ∈ planTargets files) →
      (∀ q, q ∉ planTargets files →
        fileAt (copyFiles env files w rest).1.fs q = fileAt w.fs q) ∧
      (∀ e, (copyFiles env files w rest).2 = some e →
        ∀ t ∈ planTargets files, isFile (copyFiles env files w rest).1.fs t = false) := by
  intro rest
  induction rest with
  | nil =>
    intro w _
    constructor
    · intro q _; rfl
    · intro e he; simp [copyFiles] at he
  | cons p rest ih =>
    intro w hsub
    obtain ⟨s, t⟩ := p
    obtain ⟨ht, hrest⟩ := mem_planTargets_cons hsub
    unfold copyFiles
    by_cases hst : s = t
    · simp only [hst, if_true]
      exact ih w hrest
    · simp only [hst, if_false]
      have hroll : ∀ (fsX : FS), (∀ q, q ∉ planTargets files → fileAt fsX q = fileAt w.fs q) →
          (∀ q, q ∉ planTargets files → fileAt (rollbackCopy fsX files) q = fileAt w.fs q) := by
        intro fsX hX q hq
        rw [fileAt_of_stat (rollbackCopy_frame files fsX q hq)]
        exact hX q hq
      split
      · rename_i fs1 e1 hmk
        have h1 : fs1 = (mkdirAll env w.fs (dir t)).1 := by rw [hmk]
        constructor
        · apply hroll
          intro q _
          rw [h1]; exact mkdirAll_fileAt env w.fs (dir t) q
        · intro e _ x hx
          exact rollbackCopy_targets files _ x hx
      · rename_i fs1 hmk
        have h1 : fs1 = (mkdirAll env w.fs (dir t)).1 := by rw [hmk]
        have hf1 : ∀ q, fileAt fs1 q = fileAt w.fs q := by
          intro q; rw [h1]; exact mkdirAll_fileAt env w.fs (dir t) q
        split
        · constructor
          · apply hroll; intro q _; exact hf1 q
          · intro e _ x hx
            exact rollbackCopy_targets files _ x hx
        · rename_i data hread
          split
          · constructor
            · apply hroll; intro q _; exact hf1 q
            · intro e _ x hx
              exact rollbackCopy_targets files _ x hx
          · rename_i fs2 hwr
            have hf2 : ∀ q, q ∉ planTargets files → fileAt fs2 q = fileAt w.fs q := by
              intro q hq
              have hqt : q ≠ t := fun h => hq (h ▸ ht)
              rw [fileAt_of_stat (by rw [writeFile_stat hwr q, if_neg hqt] : stat fs2 q = stat fs1 q)]
              exact hf1 q
            split
            · rename_i w3 e3 hg
              have hw3 : w3 = (writeNewGuidToFile env { w with fs := fs2 } t).1 := by rw [hg]
              have hf3 : ∀ q, q ∉ planTargets files → fileAt w3.fs q = fileAt w.fs q := by
                intro q hq
                have hqt : q ≠ t := fun h => hq (h ▸ ht)
                rw [hw3, fileAt_of_stat (writeNewGuidToFile_frame env _ t q hqt)]
                exact hf2 q hq
              constructor
              · apply hroll; exact hf3
              · intro e _ x hx
                exact rollbackCopy_targets files _ x hx
            · rename_i w3 hg
              have hw3 : w3 = (writeNewGuidToFile env { w with fs := fs2 } t).1 := by rw [hg]
              have hf3 : ∀ q, q ∉ planTargets files → fileAt w3.fs q = fileAt w.fs q := by
                intro q hq
                have hqt : q ≠ t := fun h => hq (h ▸ ht)
                rw [hw3, fileAt_of_stat (writeNewGuidToFile_frame env _ t q hqt)]
                exact hf2 q hq
              split
              · constructor
                · apply hroll; exact hf3
                · intro e _ x hx
                  exact rollbackCopy_targets files _ x hx
              · rename_i db2 hins
                obtain ⟨ihA, ihB⟩ := ih { w3 with db := db2 } hrest
                constructor
                · intro q hq
                  rw [ihA q hq]
                  exact hf3 q hq
                · exact ihB

theorem copyPlan_fileAt (env : Env) (source target : Path) (recursive : Bool) :
    ∀ (found : List Path) (fs : FS) (out : List String) (files : Plan) (q : Path),
      fileAt (copyPlan env source target recursive found (fs, out, files)).1 q = fileAt fs q := by
  intro found
  induction found with
  | nil => intro fs out files q; rfl
  | cons a found ih =>
    intro fs out files q
    unfold copyPlan
    split
    · split
      · split
        · rw [ih]; exact mkdirAll_fileAt env fs target q
        · exact mkdirAll_fileAt env fs target q
      · split
        · rw [ih]; exact mkdirAll_fileAt env fs target q
        · rw [ih]; exact mkdirAll_fileAt env fs target q
    · rw [ih]

theorem isFile_of_stat_none {fs : FS} {q : Path} (h : stat fs q = none) : isFile fs q = false := by
  simp [isFile, h]

theorem isFile_congr {fs1 fs2 : FS} {q : Path} (h : fileAt fs1 q = fileAt fs2 q) :
    isFile fs1 q = isFile fs2 q := by
  rw [isFile_eq_fileAt, isFile_eq_fileAt, h]


/-! ## A copy of one preset file -/

theorem writeNewGuidToFile_file (env : Env) (w : World) (p : Path)
    (h : (writeNewGuidToFile env w p).2 = none) :
    ∃ c, stat (writeNewGuidToFile env w p).1.fs p = some (Node.file c) := by
  unfold writeNewGuidToFile at h ⊢
  simp only at h ⊢
  split
  · rename_i fs1 h1
    simp only
    rw [writeFile_stat h1 p]
    simp
  · rename_i e h1
    rw [h1] at h
    simp at h

theorem execCopyInsert_rows {env : Env} {db db2 : List Row} {target folder name source : String}
    (h : execCopyInsert env db target folder name source = Except.ok db2) :
    ∃ ins, db2 = db ++ ins ∧ ∀ r ∈ ins, r.originalFileName = target := by
  unfold execCopyInsert at h
  split at h
  · simp at h
  · injection h with h
    refine ⟨_, h.symm, ?_⟩
    intro r hr
    simp only [List.mem_map] at hr
    obtain ⟨ir, _, hir⟩ := hr
    rw [← hir]

/-- What a successful run of the loop of `copy` over the single pair `(s, d)` leaves. -/
theorem copyFiles_single (env : Env) (s d : Path) (w w1 : World) (c : Content)
    (hne : s ≠ d) (hs : stat w.fs s = some (Node.file c))
    (h : copyFiles env [(s, d)] w [(s, d)] = (w1, none)) :
    (∃ c1, stat w1.fs d = some (Node.file c1)) ∧
    (∀ f g inner, c = Content.preset f g inner → (f = "at4p" ∨ f = "at5p") →
      stat w1.fs d = some (Node.file (Content.preset f (env.gen w.uuids) inner))) ∧
    (isFile w.fs d = false →
      ∃ ins, w1.db = w.db ++ ins ∧ ∀ r ∈ ins, r.originalFileName = pathString d) := by
  unfold copyFiles at h
  simp only [hne, if_false] at h
  split at h
  · simp at h
  · rename_i fs1 hmk
    have h1 : fs1 = (mkdirAll env w.fs (dir d)).1 := by rw [hmk]
    have hs1 : stat fs1 s = some (Node.file c) := by
      rw [h1]; exact mkdirAll_keeps env w.fs (dir d) s _ hs
    have hread : readFile fs1 s = Except.ok c := by simp [readFile, hs1]
    rw [hread] at h
    simp only at h
    split at h
    · simp at h
    · rename_i fs2 hwr
      have hd2 : stat fs2 d = some (Node.file c) := by
        rw [writeFile_stat hwr d]; simp
      split at h
      · simp at h
      · rename_i w3 hg
        have hw3 : w3 = (writeNewGuidToFile env { w with fs := fs2 } d).1 := by rw [hg]
        have hg2 : (writeNewGuidToFile env { w with fs := fs2 } d).2 = none := by rw [hg]
        have hdb3 : w3.db = w.db := by
          rw [hw3]; exact (writeNewGuidToFile_db env _ d).1
        split at h
        · simp at h
        · rename_i db2 hins
          unfold copyFiles at h
          injection h with hw _
          subst hw
          refine ⟨?_, ?_, ?_⟩
          · obtain ⟨c1, hc1⟩ := writeNewGuidToFile_file env { w with fs := fs2 } d hg2
            exact ⟨c1, by simp only; rw [hw3]; exact hc1⟩
          · intro f g inner hc hf
            subst hc
            have := (writeNewGuidToFile_preset env { w with fs := fs2 } d f g inner hd2 hf hg2).1
            simp only
            rw [hw3]; exact this
          · intro hnf
            simp only [hnf, Bool.false_eq_true, if_false] at hins
            obtain ⟨ins, h1, h2⟩ := execCopyInsert_rows hins
            refine ⟨ins, ?_, h2⟩
            simp only
            rw [h1, hdb3]

theorem resolveToMatches_preset {fs : FS} {p : Path} {r e : Bool} {found : List Path}
    (hv : isValidPresetName p = true)
    (h : resolveToMatches fs p r e = Except.ok found) : found = [p] := by
  unfold resolveToMatches at h
  by_cases h1 : (stat fs (checkPath p)).isNone = true
  · rw [if_pos h1] at h; simp at h
  · rw [if_neg h1] at h
    by_cases h2 : (!isInPresetsFolder fs p) = true
    · rw [if_pos h2] at h; simp at h
    · rw [if_neg h2, if_pos hv] at h
      injection h with h
      exact h.symm

theorem isDir_of_file {fs : FS} {p : Path} {c : Content} (h : stat fs p = some (Node.file c)) :
    isDir fs p = false := by
  simp [isDir, h]

theorem copyPlan_single (env : Env) (s target : Path) (recursive : Bool) (fs : FS)
    (out : List String) (c : Content) (hs : stat fs s = some (Node.file c)) :
    copyPlan env s target recursive [s] (fs, out, []) =
      (if isValidPresetFolderName target then (mkdirAll env fs target).1 else fs, out,
        Except.ok [(s, copyDestination s target recursive)]) := by
  unfold copyPlan copyDestination
  by_cases hv : isValidPresetFolderName target = true
  · simp only [hv, if_true]
    by_cases hr : recursive = true
    · simp [hr, copyPlan, planSet, relocate_self]
    · have hd : isDir (mkdirAll env fs target).1 s = false :=
        isDir_of_file (mkdirAll_keeps env fs target s _ hs)
      simp [hr, hd, copyPlan, planSet]
  · simp [hv, copyPlan, planSet]

/-- What a successful `copy` of the single preset file `s` leaves. -/
theorem copy_single (env : Env) (recursive : Bool) (s target : Path) (more : List Path)
    (w w1 : World) (c : Content)
    (hv : isValidPresetName s = true) (hs : stat w.fs s = some (Node.file c))
    (hne : s ≠ copyDestination s target recursive)
    (h : copy env recursive (s :: target :: more) w = (w1, none)) :
    (∃ c1, stat w1.fs (copyDestination s target recursive) = some (Node.file c1)) ∧
    (∀ f g inner, c = Content.preset f g inner → (f = "at4p" ∨ f = "at5p") →
      stat w1.fs (copyDestination s target recursive) =
        some (Node.file (Content.preset f (env.gen w.uuids) inner))) ∧
    (isFile w.fs (copyDestination s target recursive) = false →
      ∃ ins, w1.db = w.db ++ ins ∧
        ∀ r ∈ ins, r.originalFileName = pathString (copyDestination s target recursive)) ∧
    (∀ q, q ≠ copyDestination s target recursive → fileAt w1.fs q = fileAt w.fs q) := by
  have hdir : isDir w.fs s = false := isDir_of_file hs
  unfold copy copyMatches at h
  simp only at h
  split at h
  · simp at h
  · rename_i found hres
    have hfound := resolveToMatches_preset hv hres
    subst hfound
    split at h
    · simp at h
    · split at h
      · simp at h
      · simp only [hdir, Bool.false_and, Bool.false_eq_true, if_false] at h
        split at h
        · simp at h
        · rw [copyPlan_single env s target recursive w.fs w.out c hs] at h
          simp only at h
          split at h
          · simp at h
          · have hfa : ∀ q, fileAt
                (if isValidPresetFolderName target then (mkdirAll env w.fs target).1 else w.fs) q
                = fileAt w.fs q := by
              intro q
              split
              · exact mkdirAll_fileAt env w.fs target q
              · rfl
            have hs1 : stat
                (if isValidPresetFolderName target then (mkdirAll env w.fs target).1 else w.fs) s
                = some (Node.file c) := by
              split
              · exact mkdirAll_keeps env w.fs target s _ hs
              · exact hs
            obtain ⟨hA, hB, hC⟩ := copyFiles_single env s (copyDestination s target recursive)
              _ w1 c hne hs1 h
            have hspec := (copyFiles_spec env [(s, copyDestination s target recursive)]
              [(s, copyDestination s target recursive)]
              { w with fs := (if isValidPresetFolderName target then
                          (mkdirAll env w.fs target).1 else w.fs), out := w.out }
              (fun t ht => ht)).1
            rw [h] at hspec
            refine ⟨hA, hB, ?_, ?_⟩
            · intro hnf
              apply hC
              simp only
              rw [isFile_congr (hfa _)]
              exact hnf
            · intro q hq
              have := hspec q (by simp [planTargets, hq])
              simp only at this
              rw [this]
              exact hfa q

/-! ## A removal of one preset file -/

theorem removeSort_file (fs : FS) (r : Bool) (t : Path) (files dirs : List Path)
    (out : List String) (h : isDir fs t = false) :
    removeSort fs r [t] (files, dirs, out) = (files ++ [t], dirs, out) := by
  simp [removeSort, h]

theorem execDelete_rows {env : Env} {db db1 : List Row} {key : String}
    (h : execDelete env db key = Except.ok db1) :
    db1 = db.filter (fun r => !(r.originalFileName == key)) := by
  unfold execDelete at h
  split at h
  · simp at h
  · injection h with h
    exact h.symm

/-- What a successful run of the loop of `remove` over the single file `t` leaves. -/
theorem removeFiles_single (env : Env) (t : Path) (w w2 : World) (c1 : Content)
    (ht : stat w.fs t = some (Node.file c1))
    (h : removeFiles env [t] w [t] = (w2, none)) :
    ∃ fsA, writeFile env w.fs (shadowPath t) c1 = Except.ok fsA ∧
      w2.fs = eraseNode fsA t ∧
      w2.db = w.db.filter (fun r => !(r.originalFileName == pathString t)) := by
  unfold removeFiles at h
  rw [ht] at h
  simp only at h
  have hread : readFile w.fs t = Except.ok c1 := by simp [readFile, ht]
  rw [hread] at h
  simp only at h
  split at h
  · simp at h
  · rename_i fsA hwr
    have htA : ∃ c2, stat fsA t = some (Node.file c2) := by
      rw [writeFile_stat hwr t]
      by_cases hsh : t = shadowPath t
      · exact ⟨c1, by simp [← hsh]⟩
      · exact ⟨c1, by simp [hsh, ht]⟩
    obtain ⟨c2, hc2⟩ := htA
    rw [osRemove_file hc2] at h
    simp only at h
    split at h
    · simp at h
    · rename_i db1 hdel
      unfold removeFiles at h
      injection h with hw _
      subst hw
      exact ⟨fsA, hwr, rfl, execDelete_rows hdel⟩

theorem purgeShadows_single (fs : FS) (t : Path) :
    purgeShadows fs [t] =
      match osRemove fs (shadowPath t) with
      | Except.ok f => f
      | Except.error _ => fs := by
  unfold purgeShadows
  split <;> simp_all [purgeShadows]

theorem filter_append_inserted (db ins : List Row) (key : String)
    (hdb : ∀ r ∈ db, r.originalFileName ≠ key) (hins : ∀ r ∈ ins, r.originalFileName = key) :
    (db ++ ins).filter (fun r => !(r.originalFileName == key)) = db := by
  rw [List.filter_append]
  have h1 : db.filter (fun r => !(r.originalFileName == key)) = db := by
    apply List.filter_eq_self.mpr
    intro r hr
    simpa using hdb r hr
  have h2 : ins.filter (fun r => !(r.originalFileName == key)) = [] := by
    apply List.filter_eq_nil_iff.mpr
    intro r hr
    simpa using hins r hr
  rw [h1, h2, List.append_nil]

/-! ## The planning loop of `move` -/

theorem nil_mem_ancestors (p : Path) : [] ∈ ancestors p := by
  cases p <;> simp [ancestors]

theorem cons_mem_ancestors (s : String) (p a : Path) (h : a ∈ ancestors p) :
    s :: a ∈ ancestors (s :: p) := by
  simp only [ancestors, List.mem_append, List.mem_map]
  left
  exact ⟨a, h, rfl⟩

theorem self_mem_ancestors (p : Path) : p ∈ ancestors p := by
  induction p with
  | nil => simp [ancestors]
  | cons b q ih => exact cons_mem_ancestors b q q ih

theorem mkdirAllFrom_noop (env : Env) (fs : FS) (rest : List String) :
    ∀ done : Path, (∀ a ∈ ancestors rest, isDir fs (done ++ a) = true) →
      mkdirAllFrom env fs done rest = (fs, none) := by
  induction rest with
  | nil => intro done _; rfl
  | cons s rest ih =>
    intro done h
    have h1 : isDir fs (done ++ [s]) = true :=
      h [s] (cons_mem_ancestors s rest [] (nil_mem_ancestors rest))
    have h2 : stat fs (done ++ [s]) = some Node.dir := by
      unfold isDir at h1
      split at h1
      · assumption
      · simp at h1
    unfold mkdirAllFrom
    rw [h2]
    simp only
    apply ih
    intro a ha
    have := h (s :: a) (cons_mem_ancestors s rest a ha)
    simpa using this

/-- Go `MkdirAll` of a folder that exists with all its ancestors changes nothing. -/
theorem mkdirAll_noop (env : Env) (fs : FS) (t : Path)
    (h : ∀ a ∈ ancestors t, isDir fs a = true) : mkdirAll env fs t = (fs, none) := by
  apply mkdirAllFrom_noop
  simpa using h

theorem movePlan_rejects (env : Env) (s t m : Path) (ms : List Path) (fs : FS) (files : Plan)
    (htv : isValidPresetFolderName t = true)
    (hanc : ∀ a ∈ ancestors t, isDir fs a = true)
    (hex : isDir fs (join t (base s)) = true)
    (hne : isEmpty fs (join t (base s)) false = false) :
    movePlan env s t true (m :: ms) (fs, files) =
      (fs, Except.error "cannot move: Directory is not empty") := by
  have ht : isDir fs t = true := hanc t (self_mem_ancestors t)
  unfold movePlan
  simp [htv, mkdirAll_noop env fs t hanc, ht, hex, hne]

/-! ## The destination folder of an import -/

theorem stat_isSome_mem {fs : FS} {p : Path} (hp : p ≠ []) (h : (stat fs p).isSome = true) :
    p ∈ fs.map (fun e => e.1) := by
  unfold stat at h
  simp only [hp, if_false] at h
  cases hf : fs.find? (fun e => e.1 == p) with
  | none => rw [hf] at h; simp at h
  | some e =>
    have h1 := List.mem_of_find?_eq_some hf
    have h2 := List.find?_some hf
    have h3 : e.1 = p := by simpa using h2
    rw [← h3]
    exact List.mem_map_of_mem _ h1

theorem base_appendCounter (p : Path) (n : Nat) :
    base (appendCounter p n) = base p ++ " - " ++ formatInt n := by
  simp [appendCounter, base]

theorem appendCounter_ne_nil (p : Path) (n : Nat) : appendCounter p n ≠ [] := by
  simp [appendCounter]

theorem base_length_appendCounter (p : Path) (n : Nat) :
    (base p).length < (base (appendCounter p n)).length := by
  rw [base_appendCounter]
  simp only [String.length_append]
  have : (" - " : String).length = 3 := by decide
  omega

/-- The loop that picks the import folder ends: with `fuel` rounds left after meeting the
distinct entries `seen`, all with shorter names, more rounds than unseen entries are
enough. -/
theorem importPathLoop_isSome (fs : FS) :
    ∀ (fuel counter : Nat) (p : Path) (seen : List Path),
      p ≠ [] → seen.Nodup → (∀ q ∈ seen, q ∈ fs.map (fun e => e.1)) →
      (∀ q ∈ seen, (base q).length < (base p).length) →
      fs.length < seen.length + fuel →
      (importPathLoop fs fuel counter p).isSome = true := by
  intro fuel
  induction fuel with
  | zero =>
    intro counter p seen _ hnd hsub _ hlen
    exfalso
    have h1 : seen.length ≤ (fs.map (fun e => e.1)).length :=
      (List.subperm_of_subset hnd hsub).length_le
    simp at h1
    omega
  | succ fuel ih =>
    intro counter p seen hp hnd hsub hshort hlen
    unfold importPathLoop
    by_cases hst : (stat fs p).isSome = true
    · rw [if_pos hst]
      apply ih (counter + 1) (appendCounter p (counter + 1)) (p :: seen)
        (appendCounter_ne_nil _ _)
      · refine List.nodup_cons.mpr ⟨?_, hnd⟩
        intro hmem
        exact Nat.lt_irrefl _ (hshort p hmem)
      · intro q hq
        rcases List.mem_cons.mp hq with h | h
        · rw [h]; exact stat_isSome_mem hp hst
        · exact hsub q h
      · intro q hq
        have hb := base_length_appendCounter p (counter + 1)
        rcases List.mem_cons.mp hq with h | h
        · rw [h]; exact hb
        · exact Nat.lt_trans (hshort q h) hb
      · simp only [List.length_cons]; omega
    · rw [if_neg hst]; rfl

/-- The import folder is always found: the fuel of `importDestination` is enough. -/
theorem importDestination_isSome (fs : FS) (targetProfile : Path) :
    (importDestination fs targetProfile).isSome = true := by
  unfold importDestination
  apply importPathLoop_isSome fs _ 0 _ []
  · have : join (join targetProfile PresetsFolder) "Import" =
        join targetProfile PresetsFolder ++ ["Import"] := join_segment _ _ (by decide)
    rw [this]; simp
  · exact List.nodup_nil
  · intro q hq; cases hq
  · intro q hq; cases hq
  · simp

/-! ## Ancestors and profiles -/

theorem ancestors_eq_cons (p : Path) (hp : p ≠ []) : ancestors p = p :: ancestors (dir p) := by
  induction p with
  | nil => exact absurd rfl hp
  | cons s q ih =>
    cases q with
    | nil => simp [ancestors, dir]
    | cons b r =>
      have h := ih (by simp)
      have hd : dir (s :: b :: r) = s :: dir (b :: r) := by simp [dir]
      rw [hd]
      conv_lhs => unfold ancestors
      rw [h]
      conv_rhs => rw [ancestors]
      simp

theorem dir_eq_self (p : Path) : dir p = p ↔ p = [] := by
  constructor
  · intro h
    cases p with
    | nil => rfl
    | cons s q =>
      have : (dir (s :: q)).length = (s :: q).length := by rw [h]
      simp [dir] at this
  · intro h; subst h; rfl

theorem resolveToProfileLoop_eq (fs : FS) :
    ∀ (n : Nat) (p : Path), p.length = n → ∀ fuel, n < fuel →
      resolveToProfileLoop fs fuel p =
        some (match (ancestors p).find? (fun c => isProfileFolder fs c) with
          | some c => (true, c)
          | none => (false, [])) := by
  intro n
  induction n with
  | zero =>
    intro p hp fuel hf
    have hp0 : p = [] := List.length_eq_zero.mp hp
    subst hp0
    cases fuel with
    | zero => omega
    | succ fuel =>
      unfold resolveToProfileLoop
      by_cases h : isProfileFolder fs [] = true
      · simp [h, ancestors]
      · simp [h, ancestors, dir]
  | succ n ih =>
    intro p hp fuel hf
    have hne : p ≠ [] := by intro h; subst h; simp at hp
    cases fuel with
    | zero => omega
    | succ fuel =>
      unfold resolveToProfileLoop
      rw [ancestors_eq_cons p hne]
      by_cases h : isProfileFolder fs p = true
      · simp [h]
      · have hd : ¬ dir p = p := fun hd => hne ((dir_eq_self p).mp hd)
        have hlen : (dir p).length = n := by simp [dir, hp]
        simp only [h, Bool.false_eq_true, if_false, hd]
        rw [ih (dir p) hlen fuel (by omega)]
        simp [List.find?, h]

theorem mem_ancestors_iff (p a : Path) : a ∈ ancestors p ↔ a <+: p := by
  induction p generalizing a with
  | nil => simp [ancestors]
  | cons s q ih =>
    simp only [ancestors, List.mem_append, List.mem_map, List.mem_singleton]
    rw [List.prefix_cons_iff]
    constructor
    · rintro (⟨b, hb, rfl⟩ | h)
      · right; exact ⟨b, rfl, (ih b).mp hb⟩
      · left; exact h
    · rintro (h | ⟨t, rfl, ht⟩)
      · right; exact h
      · left; exact ⟨t, (ih t).mpr ht, rfl⟩

theorem ancestors_pairwise (p : Path) :
    (ancestors p).Pairwise (fun a b => b.length < a.length) := by
  induction p with
  | nil => simp [ancestors]
  | cons s q ih =>
    simp only [ancestors]
    rw [List.pairwise_append]
    refine ⟨?_, by simp, ?_⟩
    · rw [List.pairwise_map]
      exact ih.imp (by intro a b h; simpa using h)
    · intro a ha b hb
      simp only [List.mem_map] at ha
      obtain ⟨c, _, rfl⟩ := ha
      simp only [List.mem_singleton] at hb
      subst hb
      simp

theorem isProfileFolder_iff (fs : FS) (c : Path) :
    isProfileFolder fs c = true ↔
      (stat fs (c ++ ["Presets"])).isSome = true ∧ (stat fs (c ++ ["Presets.db"])).isSome = true := by
  unfold isProfileFolder
  rw [join_segment c PresetsFolder (by decide), join_segment c "Presets.db" (by decide)]
  simp [PresetsFolder]


/-! ## Preset names and the check path -/

theorem hasPrefixL_length {s sub : List Char} (h : hasPrefixL s sub = true) :
    sub.length ≤ s.length := by
  induction s generalizing sub with
  | nil =>
    cases sub with
    | nil => simp
    | cons d t => simp [hasPrefixL] at h
  | cons c s ih =>
    cases sub with
    | nil => simp
    | cons d t =>
      simp only [hasPrefixL, Bool.and_eq_true] at h
      have := ih h.2
      simp only [List.length_cons]
      omega

theorem hasPrefixL_self_append (sub rest : List Char) : hasPrefixL (sub ++ rest) sub = true := by
  induction sub with
  | nil => cases rest <;> simp [hasPrefixL]
  | cons c s ih => simp [hasPrefixL, ih]

theorem lastIndexL_short {s sub : List Char} (h : s.length < sub.length) :
    lastIndexL s sub = -1 := by
  induction s with
  | nil =>
    cases sub with
    | nil => simp at h
    | cons d t => simp [lastIndexL]
  | cons c s ih =>
    have h1 : lastIndexL s sub = -1 := ih (by simp only [List.length_cons] at h; omega)
    have h2 : hasPrefixL (c :: s) sub = false := by
      cases hp : hasPrefixL (c :: s) sub with
      | false => rfl
      | true => have := hasPrefixL_length hp; omega
    simp [lastIndexL, h1, h2]

/-- The last occurrence of a non-empty suffix starts where the suffix starts. -/
theorem lastIndexL_suffix (front sub : List Char) (hsub : sub ≠ []) :
    lastIndexL (front ++ sub) sub = (front.length : Int) := by
  induction front with
  | nil =>
    cases sub with
    | nil => exact absurd rfl hsub
    | cons d t =>
      have h1 : lastIndexL t (d :: t) = -1 := lastIndexL_short (by simp)
      have h2 : hasPrefixL (d :: t) (d :: t) = true := by
        have := hasPrefixL_self_append (d :: t) []
        simpa using this
      simp [lastIndexL, h1, h2]
  | cons c front ih =>
    have h0 : (0 : Int) ≤ (front.length : Int) := Int.ofNat_nonneg _
    show lastIndexL (c :: (front ++ sub)) sub = _
    unfold lastIndexL
    simp only
    rw [ih, if_pos h0]
    simp

theorem isValidPresetNameS_of_suffix (path : String) (hw : hasWildcard path = false)
    (hext : PresetExtension.data <:+ path.data ∨ PresetExtension4.data <:+ path.data) :
    isValidPresetNameS path = true := by
  unfold isValidPresetNameS strLastIndex strLen
  rw [hw]
  simp only [Bool.not_false, Bool.true_and, Bool.or_eq_true, beq_iff_eq]
  rcases hext with ⟨front, h⟩ | ⟨front, h⟩
  · left
    rw [← h, lastIndexL_suffix front _ (by decide)]
    simp [PresetExtension]
  · right
    rw [← h, lastIndexL_suffix front _ (by decide)]
    simp [PresetExtension4]

theorem mem_data_pathString {p : Path} {seg : String} {c : Char} (hs : seg ∈ p)
    (hc : c ∈ seg.data) : c ∈ (pathString p).data := by
  cases p with
  | nil => cases hs
  | cons a q =>
    rw [pathString_cons]
    simp only [List.mem_flatten, List.mem_map]
    exact ⟨'/' :: seg.data, ⟨seg, hs, rfl⟩, by simp [hc]⟩

theorem hasWildcard_of_mem {p : Path} {seg : String} (hs : seg ∈ p)
    (hw : hasWildcard seg = true) : containsWildcards p = true := by
  unfold containsWildcards hasWildcard at *
  simp only [List.contains_eq_any_beq, List.any_eq_true, beq_iff_eq] at hw ⊢
  obtain ⟨c, hc, hcs⟩ := hw
  exact ⟨c, mem_data_pathString hs hc, hcs⟩

theorem stripWildRev_eq_dropWhile (l : List String) :
    stripWildRev l = l.dropWhile hasWildcard := by
  induction l with
  | nil => rfl
  | cons s rest ih =>
    unfold stripWildRev
    by_cases h : hasWildcard s = true
    · simp [h, ih, List.dropWhile]
    · simp [h, List.dropWhile]

theorem checkPath_of_no_wildcard (p : Path) (hw : containsWildcards p = false) :
    checkPath p = p := by
  unfold checkPath
  have : stripWildRev p.reverse = p.reverse := by
    cases hr : p.reverse with
    | nil => rfl
    | cons s rest =>
      have hs : s ∈ p := by
        have : s ∈ p.reverse := by rw [hr]; simp
        simpa using this
      have hns : hasWildcard s = false := by
        cases h : hasWildcard s with
        | false => rfl
        | true => rw [hasWildcard_of_mem hs h] at hw; cases hw
      simp [stripWildRev, hns]
  rw [this, List.reverse_reverse]

theorem resolveToMatches_ok (fs : FS) (p : Path) (recursive excludeFolders : Bool)
    (h1 : (stat fs (checkPath p)).isSome = true) (h2 : isInPresetsFolder fs p = true) :
    ∃ found, resolveToMatches fs p recursive excludeFolders = Except.ok found := by
  have h1n : ¬ (stat fs (checkPath p)).isNone = true := by
    cases hst : stat fs (checkPath p) with
    | none => rw [hst] at h1; cases h1
    | some n => simp
  have h2n : ¬ (!isInPresetsFolder fs p) = true := by simp [h2]
  unfold resolveToMatches
  rw [if_neg h1n, if_neg h2n]
  split
  · exact ⟨_, rfl⟩
  · split
    · split
      · exact ⟨_, rfl⟩
      · exact ⟨_, rfl⟩
    · exact ⟨_, rfl⟩

theorem isAncestorOrSelf_iff (a p : Path) : isAncestorOrSelf a p = true ↔ a <+: p := by
  induction a generalizing p with
  | nil => simp [isAncestorOrSelf]
  | cons x xs ih =>
    cases p with
    | nil => simp [isAncestorOrSelf]
    | cons y ys => simp [isAncestorOrSelf, ih]

theorem isDir_isSome {fs : FS} {p : Path} (h : isDir fs p = true) : (stat fs p).isSome = true := by
  unfold isDir at h
  cases hst : stat fs p with
  | none => rw [hst] at h; cases h
  | some n => rfl


/-! ## Glob and walk -/

theorem mem_insertName (s n : String) (l : List String) :
    n ∈ insertName s l ↔ n = s ∨ n ∈ l := by
  induction l with
  | nil => simp [insertName]
  | cons t rest ih =>
    unfold insertName
    by_cases h1 : s = t
    · subst h1; simp
    · simp only [h1, if_false]
      by_cases h2 : ltChars s.data t.data = true
      · simp [h2]
      · simp only [h2, Bool.false_eq_true, if_false, List.mem_cons, ih]
        constructor
        · rintro (h | h | h)
          · right; left; exact h
          · left; exact h
          · right; right; exact h
        · rintro (h | h | h)
          · right; left; exact h
          · left; exact h
          · right; right; exact h

theorem mem_foldr_insertName (n : String) (l : List String) :
    n ∈ l.foldr insertName [] ↔ n ∈ l := by
  induction l with
  | nil => simp
  | cons a rest ih => simp [mem_insertName, ih]

theorem mem_insertPath (s n : Path) (l : List Path) :
    n ∈ insertPath s l ↔ n = s ∨ n ∈ l := by
  induction l with
  | nil => simp [insertPath]
  | cons t rest ih =>
    unfold insertPath
    by_cases h1 : s = t
    · subst h1; simp
    · simp only [h1, if_false]
      by_cases h2 : ltPath s t = true
      · simp [h2]
      · simp only [h2, Bool.false_eq_true, if_false, List.mem_cons, ih]
        constructor
        · rintro (h | h | h)
          · right; left; exact h
          · left; exact h
          · right; right; exact h
        · rintro (h | h | h)
          · right; left; exact h
          · left; exact h
          · right; right; exact h

theorem mem_foldr_insertPath (n : Path) (l : List Path) :
    n ∈ l.foldr insertPath [] ↔ n ∈ l := by
  induction l with
  | nil => simp
  | cons a rest ih => simp [mem_insertPath, ih]

theorem dropLast_getLast_iff (p d : Path) (n : String) :
    (p.dropLast = d ∧ p.getLast? = some n) ↔ p = d ++ [n] := by
  constructor
  · rintro ⟨h1, h2⟩
    have hne : p ≠ [] := by
      intro h; subst h; simp at h2
    have := List.dropLast_append_getLast hne
    rw [List.getLast?_eq_getLast _ hne] at h2
    injection h2 with h2
    rw [← this, h1, h2]
  · intro h
    subst h
    simp

theorem mem_readDirNames (fs : FS) (d : Path) (n : String) :
    n ∈ readDirNames fs d ↔ (d ++ [n]) ∈ fs.map (fun e => e.1) := by
  unfold readDirNames
  rw [mem_foldr_insertName]
  simp only [List.mem_filterMap, List.mem_map]
  constructor
  · rintro ⟨e, he, h⟩
    split at h
    · rename_i hd
      exact ⟨e, he, (dropLast_getLast_iff e.1 d n).mp ⟨hd, h⟩⟩
    · cases h
  · rintro ⟨e, he, h⟩
    refine ⟨e, he, ?_⟩
    have := (dropLast_getLast_iff e.1 d n).mpr h
    rw [if_pos this.1]
    exact this.2

theorem hasWildcard_false_iff (s : String) :
    hasWildcard s = false ↔ ∀ c ∈ s.data, c ≠ '*' := by
  unfold hasWildcard
  constructor
  · intro h c hc heq
    subst heq
    have : s.data.contains '*' = true := by
      simp only [List.contains_eq_any_beq, List.any_eq_true, beq_iff_eq]
      exact ⟨'*', hc, rfl⟩
    rw [this] at h; cases h
  · intro h
    cases hcon : s.data.contains '*' with
    | false => rfl
    | true =>
      simp only [List.contains_eq_any_beq, List.any_eq_true, beq_iff_eq] at hcon
      obtain ⟨c, hc, heq⟩ := hcon
      exact absurd heq.symm (h c hc)

theorem no_wildcard_segments {p : Path} (h : containsWildcards p = false) :
    ∀ seg ∈ p, hasWildcard seg = false := by
  intro seg hs
  cases hw : hasWildcard seg with
  | false => rfl
  | true => rw [hasWildcard_of_mem hs hw] at h; cases h

theorem stat_of_mem {fs : FS} {p : Path} (h : p ∈ fs.map (fun e => e.1)) :
    (stat fs p).isSome = true := by
  unfold stat
  by_cases hp : p = []
  · simp [hp]
  · simp only [hp, if_false]
    cases hf : fs.find? (fun e => e.1 == p) with
    | some e => rfl
    | none =>
      simp only [List.mem_map] at h
      obtain ⟨e, he, rfl⟩ := h
      have := List.find?_eq_none.mp hf e he
      simp at this

theorem isFile_mem {fs : FS} {p : Path} (h : isFile fs p = true) :
    p ∈ fs.map (fun e => e.1) := by
  have hne : p ≠ [] := by
    intro hp; subst hp; simp [isFile, stat_root] at h
  apply stat_isSome_mem hne
  unfold isFile at h
  cases hst : stat fs p with
  | none => rw [hst] at h; cases h
  | some n => rfl

theorem isDir_mem {fs : FS} {p : Path} (hne : p ≠ []) (h : isDir fs p = true) :
    p ∈ fs.map (fun e => e.1) :=
  stat_isSome_mem hne (isDir_isSome h)

theorem mem_walk (fs : FS) (root m : Path) :
    m ∈ walk fs root ↔
      (stat fs root).isSome = true ∧
        (m = root ∨ (m ∈ fs.map (fun e => e.1) ∧ root <+: m ∧ m ≠ root)) := by
  unfold walk
  by_cases h : (stat fs root).isSome = true
  · rw [if_pos h]
    rw [List.mem_cons, mem_foldr_insertPath, List.mem_filter]
    constructor
    · rintro (h1 | ⟨h1, h2⟩)
      · exact ⟨h, Or.inl h1⟩
      · rw [Bool.and_eq_true] at h2
        refine ⟨h, Or.inr ⟨h1, (isAncestorOrSelf_iff root m).mp h2.1, ?_⟩⟩
        intro heq
        have := h2.2
        rw [heq] at this
        simp at this
    · rintro ⟨_, h1 | ⟨h1, h2, h3⟩⟩
      · exact Or.inl h1
      · refine Or.inr ⟨h1, ?_⟩
        rw [Bool.and_eq_true]
        refine ⟨(isAncestorOrSelf_iff root m).mpr h2, ?_⟩
        have : (m == root) = false := by simpa using h3
        rw [this]; rfl
  · rw [if_neg h]
    constructor
    · intro hm; cases hm
    · rintro ⟨h1, _⟩; exact absurd h1 h

theorem isFile_iff (fs : FS) (p : Path) :
    isFile fs p = true ↔ (stat fs p).isSome = true ∧ isDir fs p = false := by
  unfold isFile isDir
  cases stat fs p with
  | none => simp
  | some n => cases n <;> simp

theorem resolveToMatches_walk (fs : FS) (p : Path) (excludeFolders : Bool)
    (hex : (stat fs p).isSome = true) (hin : isInPresetsFolder fs p = true)
    (hv : isValidPresetName p = false) (hw : containsWildcards p = false) :
    resolveToMatches fs p true excludeFolders =
      Except.ok ((walk fs p).filter (keepWalked fs p excludeFolders)) := by
  have h1 : ¬ (stat fs (checkPath p)).isNone = true := by
    rw [checkPath_of_no_wildcard p hw]
    cases hst : stat fs p with
    | none => rw [hst] at hex; cases hex
    | some n => simp
  have h2 : ¬ (!isInPresetsFolder fs p) = true := by simp [hin]
  unfold resolveToMatches
  rw [if_neg h1, if_neg h2]
  simp only [hv, hw, Bool.false_eq_true, if_false, if_true]

theorem globOk_forall₂ (fs : FS) (ps : List String) :
    ∀ (d : Path) (ns : List String), GlobOk fs d ps ns →
      List.Forall₂ (fun seg n => filepathMatch seg.data n.data = some true) ps ns := by
  induction ps with
  | nil =>
    intro d ns h
    cases ns with
    | nil => exact List.Forall₂.nil
    | cons n ns => simp only [GlobOk] at h
  | cons seg ps ih =>
    intro d ns h
    cases ns with
    | nil => simp only [GlobOk] at h
    | cons n ns =>
      simp only [GlobOk] at h
      exact List.Forall₂.cons h.2.2.1 (ih _ _ h.2.2.2)

theorem globOk_mem (fs : FS) (ps : List String) :
    ∀ (d : Path) (ns : List String), GlobOk fs d ps ns → ns ≠ [] →
      (d ++ ns) ∈ fs.map (fun e => e.1) := by
  induction ps with
  | nil =>
    intro d ns h hne
    cases ns with
    | nil => exact absurd rfl hne
    | cons n ns => simp only [GlobOk] at h
  | cons seg ps ih =>
    intro d ns h _
    cases ns with
    | nil => simp only [GlobOk] at h
    | cons n ns =>
      simp only [GlobOk] at h
      cases ns with
      | nil => exact h.2.1
      | cons n2 ns2 =>
        have := ih (d ++ [n]) (n2 :: ns2) h.2.2.2 (by simp)
        rw [List.append_assoc] at this
        exact this

theorem containsWildcards_ne_nil {p : Path} (h : containsWildcards p = true) : p ≠ [] := by
  intro hp; subst hp; revert h; decide

/-! ## `strings.Index` -/

theorem hasPrefixL_iff (s sub : List Char) : hasPrefixL s sub = true ↔ sub <+: s := by
  induction s generalizing sub with
  | nil =>
    cases sub with
    | nil => simp [hasPrefixL]
    | cons d t => simp [hasPrefixL]
  | cons c s ih =>
    cases sub with
    | nil => simp [hasPrefixL]
    | cons d t =>
      simp only [hasPrefixL, Bool.and_eq_true, beq_iff_eq, ih, List.cons_prefix_cons]
      constructor
      · rintro ⟨h1, h2⟩; exact ⟨h1.symm, h2⟩
      · rintro ⟨h1, h2⟩; exact ⟨h1.symm, h2⟩

theorem indexL_ge (s sub : List Char) : -1 ≤ indexL s sub := by
  induction s with
  | nil => unfold indexL; split <;> omega
  | cons c s ih =>
    unfold indexL
    simp only
    split
    · omega
    · split <;> omega

theorem indexL_eq_zero_iff (s sub : List Char) : indexL s sub = 0 ↔ sub <+: s := by
  rw [← hasPrefixL_iff]
  cases s with
  | nil =>
    cases sub with
    | nil => simp [indexL, hasPrefixL]
    | cons d t => simp [indexL, hasPrefixL]
  | cons c s =>
    unfold indexL
    simp only
    by_cases h : hasPrefixL (c :: s) sub = true
    · simp [h]
    · simp only [h, Bool.false_eq_true, if_false, iff_false]
      have := indexL_ge s sub
      split <;> omega

/-- A prefix of `a ++ b` is a prefix of `a`, or it is `a` followed by a non-empty prefix
of `b`. -/
theorem prefix_append_cases {m a b : List Char} (h : m <+: a ++ b) :
    m <+: a ∨ ∃ m2, m2 ≠ [] ∧ m = a ++ m2 ∧ m2 <+: b := by
  rcases List.prefix_or_prefix_of_prefix h (List.prefix_append a b) with h1 | h1
  · exact Or.inl h1
  · obtain ⟨m2, hm2⟩ := h1
    by_cases he : m2 = []
    · left
      subst he
      rw [List.append_nil] at hm2
      rw [hm2]
    · right
      refine ⟨m2, he, hm2.symm, ?_⟩
      rw [← hm2] at h
      exact (List.prefix_append_right_inj a).mp h

/-- For a pattern whose first character does not come back in it: when `a` does not
hold the pattern, its first occurrence in `a ++ pattern ++ r` is right after `a`. -/
theorem indexL_append (c : Char) (t : List Char) (hc : c ∉ t) (r : List Char) :
    ∀ a : List Char, indexL a (c :: t) < 0 →
      indexL (a ++ ((c :: t) ++ r)) (c :: t) = (a.length : Int) := by
  intro a
  induction a with
  | nil =>
    intro _
    rw [List.nil_append]
    exact (indexL_eq_zero_iff _ _).mpr (List.prefix_append _ _)
  | cons x a ih =>
    intro ha
    have hnp : hasPrefixL (x :: a) (c :: t) = false := by
      cases hp : hasPrefixL (x :: a) (c :: t) with
      | false => rfl
      | true =>
        have := (indexL_eq_zero_iff (x :: a) (c :: t)).mpr ((hasPrefixL_iff _ _).mp hp)
        omega
    have ha2 : indexL a (c :: t) < 0 := by
      unfold indexL at ha
      simp only [hnp, Bool.false_eq_true, if_false] at ha
      by_contra hcon
      rw [if_neg hcon] at ha
      omega
    have hnp2 : hasPrefixL (x :: a ++ ((c :: t) ++ r)) (c :: t) = false := by
      cases hp : hasPrefixL (x :: a ++ ((c :: t) ++ r)) (c :: t) with
      | false => rfl
      | true =>
        exfalso
        rcases prefix_append_cases ((hasPrefixL_iff _ _).mp hp) with h1 | ⟨m2, hne, hm, hpre⟩
        · rw [(hasPrefixL_iff _ _).mpr h1] at hnp
          cases hnp
        · cases m2 with
          | nil => exact hne rfl
          | cons y m3 =>
            have hy : y = c := by
              have := List.cons_prefix_cons.mp
                (show y :: m3 <+: c :: (t ++ r) from hpre)
              exact this.1
            subst hy
            have : t = a ++ y :: m3 := by
              have h2 : y :: t = x :: (a ++ y :: m3) := hm
              exact (List.cons.inj h2).2
            apply hc
            rw [this]
            simp
    have hih := ih ha2
    show indexL (x :: (a ++ ((c :: t) ++ r))) (c :: t) = _
    unfold indexL
    simp only
    rw [show hasPrefixL (x :: (a ++ ((c :: t) ++ r))) (c :: t) = false from hnp2]
    simp only [Bool.false_eq_true, if_false]
    rw [hih]
    have : ¬ ((a.length : Int) < 0) := by omega
    rw [if_neg this]
    simp

/-- The first occurrence is an occurrence. -/
theorem indexL_prefix_drop (sub : List Char) :
    ∀ s : List Char, 0 ≤ indexL s sub → sub <+: s.drop (indexL s sub).toNat := by
  intro s
  induction s with
  | nil =>
    intro h
    have := (indexL_eq_zero_iff [] sub).mp (by
      unfold indexL at h ⊢
      split at h
      · simp [*]
      · omega)
    simpa using this
  | cons c s ih =>
    intro h
    by_cases hp : hasPrefixL (c :: s) sub = true
    · have h0 := (indexL_eq_zero_iff (c :: s) sub).mpr ((hasPrefixL_iff _ _).mp hp)
      rw [h0]
      exact (hasPrefixL_iff _ _).mp hp
    · have hge := indexL_ge s sub
      have hstep : indexL (c :: s) sub = if indexL s sub < 0 then -1 else indexL s sub + 1 := by
        conv_lhs => unfold indexL
        simp only [hp, Bool.false_eq_true, if_false]
      by_cases hr : indexL s sub < 0
      · rw [hstep, if_pos hr] at h
        omega
      · rw [hstep, if_neg hr]
        have h1 : 0 ≤ indexL s sub := by omega
        have := ih h1
        have h2 : (indexL s sub + 1).toNat = (indexL s sub).toNat + 1 := by omega
        rw [h2, List.drop_succ_cons]
        exact this

theorem presetsMarker_eq : presetsMarker = "/Presets" := by decide

theorem data_append3 (a b c : String) : (a ++ b ++ c).data = a.data ++ (b.data ++ c.data) := by
  simp [String.data_append]

/-- What the `substr(x, instr(x, marker))` of `reindex` keeps of a value that holds the
marker after a first part that does not hold it. -/
theorem sqlSubstr_marker (oldRoot rest : String) (h : strIndex oldRoot "/Presets" = -1) :
    sqlSubstr (oldRoot ++ "/Presets" ++ rest) (sqlInstr (oldRoot ++ "/Presets" ++ rest) "/Presets") =
      "/Presets" ++ rest := by
  have hidx : strIndex (oldRoot ++ "/Presets" ++ rest) "/Presets" = (oldRoot.data.length : Int) := by
    unfold strIndex
    rw [data_append3]
    exact indexL_append '/' "Presets".data (by decide) rest.data oldRoot.data
      (by unfold strIndex at h; rw [show ('/' :: "Presets".data) = "/Presets".data from rfl, h]; decide)
  unfold sqlSubstr sqlInstr strFrom
  rw [hidx]
  apply String.ext
  rw [data_append3]
  have : ((oldRoot.data.length : Int) + 1).toNat - 1 = oldRoot.data.length := by omega
  rw [this, String.data_append]
  simp

/-- What the `substr(x, instr(x, marker))` of `reindex` keeps of a value that holds the
marker: a text that starts with the marker. -/
theorem sqlSubstr_of_marker (x : String) (h : 0 ≤ strIndex x "/Presets") :
    ∃ rest : String, sqlSubstr x (sqlInstr x "/Presets") = "/Presets" ++ rest := by
  unfold strIndex at h
  obtain ⟨rest, hrest⟩ := indexL_prefix_drop "/Presets".data x.data h
  refine ⟨⟨rest⟩, ?_⟩
  unfold sqlSubstr sqlInstr strFrom strIndex
  apply String.ext
  have : (indexL x.data "/Presets".data + 1).toNat - 1 = (indexL x.data "/Presets".data).toNat := by
    omega
  rw [this, String.data_append, hrest]

/-- The last two steps of `makePresetPath` on a name `n ++ ".at5p"`, where `n` holds
neither a separator nor `.at5p`. -/
theorem makePresetPath_tail (n : String) (hsep : '/' ∉ n.data)
    (hext : strIndex n PresetExtension = -1) :
    strIndex (n ++ PresetExtension) "/" ≠ 0 ∧
    strIndex (n ++ PresetExtension) PresetExtension = strLen (n ++ PresetExtension) - 5 ∧
    strTo (n ++ PresetExtension) ((n ++ PresetExtension).data.length - 5) = n := by
  refine ⟨?_, ?_, ?_⟩
  · intro h
    unfold strIndex at h
    rw [String.data_append] at h
    rcases prefix_append_cases ((indexL_eq_zero_iff _ _).mp h) with h1 | ⟨m2, hne, hm, hpre⟩
    · obtain ⟨t, ht⟩ := h1
      apply hsep
      rw [← ht]
      simp
    · cases m2 with
      | nil => exact hne rfl
      | cons y m3 =>
        have hy := (List.cons_prefix_cons.mp (show y :: m3 <+: '.' :: "at5p".data from hpre)).1
        subst hy
        cases hn : n.data with
        | nil =>
          rw [hn] at hm
          have h2 : ('/' :: ([] : List Char)) = '.' :: m3 := hm
          exact absurd (List.cons.inj h2).1 (by decide)
        | cons x rest =>
          rw [hn] at hm
          have := congrArg List.length hm
          simp at this
  · have hidx : strIndex (n ++ PresetExtension) PresetExtension = (n.data.length : Int) := by
      unfold strIndex
      rw [String.data_append]
      have := indexL_append '.' "at5p".data (by decide) [] n.data
        (by unfold strIndex at hext
            rw [show ('.' :: "at5p".data) = PresetExtension.data from rfl, hext]; decide)
      rw [List.append_nil] at this
      exact this
    rw [hidx]
    unfold strLen
    rw [String.data_append]
    simp [PresetExtension]
  · unfold strTo
    apply String.ext
    rw [String.data_append]
    simp [PresetExtension]

/-! ## The plan of `importPresets` -/

theorem mem_keys_planSet (files : Plan) (k v q : Path) :
    q ∈ (planSet files k v).map (fun e => e.1) ↔ q = k ∨ q ∈ files.map (fun e => e.1) := by
  induction files with
  | nil => simp [planSet]
  | cons e files ih =>
    obtain ⟨k0, v0⟩ := e
    unfold planSet
    by_cases h0 : k0 = k
    · subst h0
      simp
    · simp only [h0, if_false, List.map_cons, List.mem_cons, ih]
      constructor
      · rintro (h | h | h)
        · exact Or.inr (Or.inl h)
        · exact Or.inl h
        · exact Or.inr (Or.inr h)
      · rintro (h | h | h)
        · exact Or.inr (Or.inl h)
        · exact Or.inl h
        · exact Or.inr (Or.inr h)

theorem mem_keys_foldl_planSet (f : Path → Path) (found : List Path) :
    ∀ (files : Plan) (q : Path),
      q ∈ (found.foldl (fun files m => planSet files m (f m)) files).map (fun e => e.1) ↔
        q ∈ found ∨ q ∈ files.map (fun e => e.1) := by
  induction found with
  | nil => intro files q; simp
  | cons a found ih =>
    intro files q
    rw [List.foldl_cons, ih, mem_keys_planSet, List.mem_cons]
    constructor
    · rintro (h | h | h)
      · exact Or.inl (Or.inr h)
      · exact Or.inl (Or.inl h)
      · exact Or.inr h
    · rintro ((h | h) | h)
      · exact Or.inr (Or.inl h)
      · exact Or.inl h
      · exact Or.inr (Or.inr h)

/-- The last occurrence is an occurrence. -/
theorem lastIndexL_prefix_drop (sub : List Char) :
    ∀ s : List Char, 0 ≤ lastIndexL s sub → sub <+: s.drop (lastIndexL s sub).toNat := by
  intro s
  induction s with
  | nil =>
    intro h
    unfold lastIndexL at h
    cases sub with
    | nil => simp
    | cons d t => simp at h
  | cons c s ih =>
    intro h
    have hstep : lastIndexL (c :: s) sub =
        if 0 ≤ lastIndexL s sub then lastIndexL s sub + 1
        else if hasPrefixL (c :: s) sub then 0 else -1 := by
      conv_lhs => unfold lastIndexL
    by_cases hr : 0 ≤ lastIndexL s sub
    · rw [hstep, if_pos hr]
      have h2 : (lastIndexL s sub + 1).toNat = (lastIndexL s sub).toNat + 1 := by omega
      rw [h2, List.drop_succ_cons]
      exact ih hr
    · rw [hstep, if_neg hr] at h ⊢
      by_cases hp : hasPrefixL (c :: s) sub = true
      · rw [if_pos hp]
        exact (hasPrefixL_iff _ _).mp hp
      · rw [if_neg hp] at h
        omega

theorem pathString_concat (p : Path) (s : String) :
    ∃ front : List Char, (pathString (p ++ [s])).data = front ++ '/' :: s.data := by
  cases p with
  | nil => exact ⟨[], by simp [pathString]⟩
  | cons a q =>
    refine ⟨((a :: q).map (fun s => '/' :: s.data)).flatten, ?_⟩
    have := pathString_cons a (q ++ [s])
    rw [List.cons_append, this]
    simp

/-- The presets folder of a profile is not named as a preset. -/
theorem isValidPresetName_presets (p : Path) :
    isValidPresetName (p ++ ["Presets"]) = false := by
  obtain ⟨front, hf⟩ := pathString_concat p "Presets"
  have key : ∀ ext : List Char, ext.length = 5 → ¬ ext <+: "esets".data →
      lastIndexL (pathString (p ++ ["Presets"])).data ext ≠
        ((pathString (p ++ ["Presets"])).data.length : Int) - 5 := by
    intro ext hlen hne heq
    have h0 : 0 ≤ lastIndexL (pathString (p ++ ["Presets"])).data ext := by
      rw [heq, hf]
      simp
      omega
    have := lastIndexL_prefix_drop ext _ h0
    rw [heq, hf] at this
    have hd : (((front ++ '/' :: "Presets".data).length : Int) - 5).toNat = front.length + 3 := by
      simp
      omega
    rw [hd, List.drop_append_eq_append_drop] at this
    have hd2 : List.drop (front.length + 3) front = [] := by
      apply List.drop_eq_nil_of_le; omega
    have hd3 : front.length + 3 - front.length = 3 := by omega
    rw [hd2, hd3, List.nil_append] at this
    exact hne this
  unfold isValidPresetName isValidPresetNameS strLastIndex strLen
  have k5 := key PresetExtension.data (by decide) (by decide)
  have k4 := key PresetExtension4.data (by decide) (by decide)
  have e5 : (PresetExtension.data.length : Int) = 5 := by decide
  have e4 : (PresetExtension4.data.length : Int) = 5 := by decide
  rw [e5, e4, beq_eq_false_iff_ne.mpr k5, beq_eq_false_iff_ne.mpr k4]
  simp

theorem containsWildcards_concat (p : Path) (s : String) (hp : containsWildcards p = false)
    (hs : hasWildcard s = false) : containsWildcards (p ++ [s]) = false := by
  have hsegs := no_wildcard_segments hp
  cases hc : containsWildcards (p ++ [s]) with
  | false => rfl
  | true =>
    exfalso
    unfold containsWildcards hasWildcard at hc
    simp only [List.contains_eq_any_beq, List.any_eq_true, beq_iff_eq] at hc
    obtain ⟨c, hcm, hcs⟩ := hc
    have hall : ∀ q : Path, (∀ seg ∈ q, hasWildcard seg = false) →
        c ∉ (pathString q).data := by
      intro q hq hmem
      cases q with
      | nil =>
        rw [← hcs] at hmem
        revert hmem
        decide
      | cons a r =>
        rw [pathString_cons] at hmem
        simp only [List.mem_flatten, List.mem_map] at hmem
        obtain ⟨l, ⟨seg, hseg, rfl⟩, hcl⟩ := hmem
        rcases List.mem_cons.mp hcl with h1 | h1
        · rw [← hcs] at h1
          exact absurd h1 (by decide)
        · exact (hasWildcard_false_iff seg).mp (hq seg hseg) c h1 hcs.symm
    apply hall (p ++ [s]) _ hcm
    intro seg hseg
    rcases List.mem_append.mp hseg with h1 | h1
    · exact hsegs seg h1
    · rw [List.mem_singleton.mp h1]; exact hs

theorem isInPresetsFolder_of_ok {fs : FS} {p : Path} {recursive excludeFolders : Bool}
    {found : List Path}
    (h : resolveToMatches fs p recursive excludeFolders = Except.ok found) :
    isInPresetsFolder fs p = true := by
  unfold resolveToMatches at h
  split at h
  · cases h
  · split at h
    · cases h
    · rename_i h2
      simpa using h2

/-- The sources of the plan that the loop of `importPresets` fills are the matches. -/
theorem importFiles_keys (sp ip : Path) (found : List Path) :
    ∀ (acc files : Plan), importFiles sp ip found acc = Except.ok files →
      ∀ q, q ∈ files.map (fun e => e.1) ↔ q ∈ found ∨ q ∈ acc.map (fun e => e.1) := by
  induction found with
  | nil =>
    intro acc files h q
    simp only [importFiles] at h
    injection h with h
    subst h
    constructor
    · intro h; exact Or.inr h
    · rintro (h | h)
      · cases h
      · exact h
  | cons m rest ih =>
    intro acc files h q
    simp only [importFiles] at h
    split at h
    · rw [ih _ _ h q, mem_keys_planSet]
      constructor
      · rintro (h1 | h1 | h1)
        · exact Or.inl (List.mem_cons_of_mem _ h1)
        · subst h1; exact Or.inl (List.mem_cons_self _ _)
        · exact Or.inr h1
      · rintro (h1 | h1)
        · rcases List.mem_cons.mp h1 with h2 | h2
          · exact Or.inr (Or.inl h2)
          · exact Or.inl h2
        · exact Or.inr (Or.inr h1)
    · cases h
/-! ### `filepath.Match` on patterns without a class or an escape -/

theorem scanBody_append_aux : ∀ (n : Nat) (l : List Char), l.length ≤ n →
    ∀ b, (scanBody b l).1 ++ (scanBody b l).2 = l := by
  intro n
  induction n with
  | zero =>
    intro l hl b
    have : l = [] := List.length_eq_zero.mp (Nat.le_zero.mp hl)
    subst this; simp [scanBody]
  | succ n ih =>
    intro l hl b
    match l with
    | [] => simp [scanBody]
    | [c] =>
      simp only [scanBody]
      split <;> simp
    | c :: d :: rest =>
      simp only [scanBody]
      have h1 := fun b => ih (d :: rest) (by simp at hl ⊢; omega) b
      have h2 := fun b => ih rest (by simp at hl ⊢; omega) b
      split
      · simp [h2]
      · split
        · simp [h1]
        · split
          · simp [h1]
          · split
            · simp
            · simp [h1]

theorem scanBody_append (l : List Char) (b : Bool) :
    (scanBody b l).1 ++ (scanBody b l).2 = l :=
  scanBody_append_aux l.length l (Nat.le_refl _) b

theorem scanBody_ne_nil (c : Char) (l : List Char) (hc : c ≠ '*') :
    (scanBody false (c :: l)).1 ≠ [] := by
  cases l with
  | nil => simp [scanBody, hc]
  | cons d rest =>
    simp only [scanBody]
    split
    · simp
    · split
      · simp
      · split
        · simp
        · split
          · rename_i h; exact absurd h.1 hc
          · simp

theorem scanChunk_append (p : List Char) :
    (scanChunk p).2.1 ++ (scanChunk p).2.2 = p.dropWhile (fun c => c == '*') := by
  simp only [scanChunk]
  exact scanBody_append _ false

theorem dropWhile_length_le (f : Char → Bool) (p : List Char) :
    (p.dropWhile f).length ≤ p.length := by
  induction p with
  | nil => simp
  | cons c l ih =>
    simp only [List.dropWhile]
    split
    · simp; omega
    · simp

theorem mem_of_mem_dropWhile (f : Char → Bool) (p : List Char) (c : Char)
    (h : c ∈ p.dropWhile f) : c ∈ p :=
  (List.dropWhile_sublist f).subset h

theorem scanChunk_rest_lt (p : List Char) (hp : p ≠ []) :
    (scanChunk p).2.2.length < p.length := by
  have happ := scanChunk_append p
  have hlen := congrArg List.length happ
  rw [List.length_append] at hlen
  cases p with
  | nil => exact absurd rfl hp
  | cons c l =>
    by_cases hc : c = '*'
    · subst hc
      have : (List.dropWhile (fun c => c == '*') ('*' :: l)).length ≤ l.length := by
        simp only [List.dropWhile]
        exact dropWhile_length_le _ l
      simp only [List.length_cons]
      omega
    · have hd : List.dropWhile (fun c => c == '*') (c :: l) = c :: l := by
        have hb : (c == '*') = false := by simp [hc]
        simp only [List.dropWhile, hb]
      have hne : (scanChunk (c :: l)).2.1 ≠ [] := by
        simp only [scanChunk, hd]
        exact scanBody_ne_nil c l hc
      have : 0 < (scanChunk (c :: l)).2.1.length := List.length_pos.mpr hne
      rw [hd] at hlen
      omega

theorem scanChunk_chunk_mem (p : List Char) (c : Char) (h : c ∈ (scanChunk p).2.1) : c ∈ p := by
  apply mem_of_mem_dropWhile (fun c => c == '*')
  rw [← scanChunk_append]
  exact List.mem_append_left _ h

theorem scanChunk_rest_mem (p : List Char) (c : Char) (h : c ∈ (scanChunk p).2.2) : c ∈ p := by
  apply mem_of_mem_dropWhile (fun c => c == '*')
  rw [← scanChunk_append]
  exact List.mem_append_right _ h

/-- A chunk without `[` and without the escape character is never a bad pattern. -/
theorem matchChunkLoop_isSome (chunk : List Char) :
    ∀ (fuel : Nat) (s : List Char) (failed : Bool), chunk.length < fuel →
      (∀ c ∈ chunk, c ≠ '[' ∧ c ≠ backslash) →
      (matchChunkLoop fuel chunk s failed).isSome = true := by
  induction chunk with
  | nil =>
    intro fuel s failed hf _
    cases fuel with
    | zero => simp at hf
    | succ fuel => simp only [matchChunkLoop]; split <;> rfl
  | cons c rest ih =>
    intro fuel s failed hf hp
    cases fuel with
    | zero => simp at hf
    | succ fuel =>
      have hc := hp c (List.mem_cons_self _ _)
      have hrest : ∀ c ∈ rest, c ≠ '[' ∧ c ≠ backslash :=
        fun x hx => hp x (List.mem_cons_of_mem _ hx)
      have hf2 : rest.length < fuel := by simp at hf; omega
      simp only [matchChunkLoop, if_neg hc.1, if_neg hc.2]
      split
      · exact ih _ _ _ hf2 hrest
      · exact ih _ _ _ hf2 hrest

theorem matchChunk_isSome (chunk s : List Char) (hp : ∀ c ∈ chunk, c ≠ '[' ∧ c ≠ backslash) :
    (matchChunk chunk s).isSome = true :=
  matchChunkLoop_isSome chunk _ s false (Nat.lt_succ_self _) hp

theorem starSearch_isSome (chunk : List Char) (last : Bool)
    (hp : ∀ c ∈ chunk, c ≠ '[' ∧ c ≠ backslash) :
    ∀ s, (starSearch chunk last s).isSome = true := by
  intro s
  induction s with
  | nil => rfl
  | cons c tl ih =>
    simp only [starSearch]
    split
    · rfl
    · have h := matchChunk_isSome chunk tl hp
      split
      · rename_i h2; rw [h2] at h; exact absurd h (by simp)
      · split
        · exact ih
        · rfl
      · exact ih

theorem checkRest_plain :
    ∀ (fuel : Nat) (p : List Char), p.length < fuel → (∀ c ∈ p, c ≠ '[' ∧ c ≠ backslash) →
      checkRest fuel p = true := by
  intro fuel
  induction fuel with
  | zero => intro p hf; simp at hf
  | succ fuel ih =>
    intro p hf hp
    simp only [checkRest]
    split
    · rfl
    · rename_i hne
      have hne2 : p ≠ [] := by intro h; subst h; simp at hne
      have h := matchChunk_isSome (scanChunk p).2.1 []
        (fun c hc => hp c (scanChunk_chunk_mem p c hc))
      split
      · rename_i h2; rw [h2] at h; exact absurd h (by simp)
      · apply ih
        · have := scanChunk_rest_lt p hne2; omega
        · exact fun c hc => hp c (scanChunk_rest_mem p c hc)

/-- A pattern without `[` and without the escape character is never a bad pattern. -/
theorem matchLoop_isSome :
    ∀ (fuel : Nat) (p name : List Char), p.length < fuel →
      (∀ c ∈ p, c ≠ '[' ∧ c ≠ backslash) → (matchLoop fuel p name).isSome = true := by
  intro fuel
  induction fuel with
  | zero => intro p name hf; simp at hf
  | succ fuel ih =>
    intro p name hf hp
    simp only [matchLoop]
    split
    · rfl
    · rename_i hne
      have hne2 : p ≠ [] := by intro h; subst h; simp at hne
      have hlt : (scanChunk p).2.2.length < fuel := by
        have := scanChunk_rest_lt p hne2; omega
      have hrest : ∀ c ∈ (scanChunk p).2.2, c ≠ '[' ∧ c ≠ backslash :=
        fun c hc => hp c (scanChunk_rest_mem p c hc)
      have hchunk : ∀ c ∈ (scanChunk p).2.1, c ≠ '[' ∧ c ≠ backslash :=
        fun c hc => hp c (scanChunk_chunk_mem p c hc)
      split
      · rfl
      · have h := matchChunk_isSome (scanChunk p).2.1 name hchunk
        split
        · rename_i h2; rw [h2] at h; exact absurd h (by simp)
        · split
          · exact ih _ _ hlt hrest
          · have hs : ∀ b, ((if b = true then starSearch (scanChunk p).2.1
                (scanChunk p).2.2.isEmpty name else some none)).isSome = true := by
              intro b; split
              · exact starSearch_isSome _ _ hchunk _
              · rfl
            split
            · rename_i h3
              have := hs (scanChunk p).1
              rw [h3] at this; exact absurd this (by simp)
            · exact ih _ _ hlt hrest
            · rw [checkRest_plain _ _ (Nat.lt_succ_self _) hrest]; rfl

theorem filepathMatch_isSome (p name : List Char) (hp : ∀ c ∈ p, c ≠ '[' ∧ c ≠ backslash) :
    (filepathMatch p name).isSome = true :=
  matchLoop_isSome _ p name (Nat.lt_succ_self _) hp

/-- The pattern `*` matches the names without a separator. -/
theorem filepathMatch_star (n : List Char) :
    filepathMatch ['*'] n = some (!n.contains '/') := by
  rfl
/-! ### `filepath.Glob` -/

theorem mem_pathString_iff (p : Path) (c : Char) :
    c ∈ (pathString p).data ↔ c = '/' ∨ ∃ s ∈ p, c ∈ s.data := by
  cases p with
  | nil => simp [pathString]
  | cons a q =>
    rw [pathString_cons]
    simp only [List.mem_flatten, List.mem_map]
    constructor
    · rintro ⟨l, ⟨s, hs, rfl⟩, hc⟩
      rcases List.mem_cons.mp hc with h | h
      · exact Or.inl h
      · exact Or.inr ⟨s, hs, h⟩
    · rintro (h | ⟨s, hs, h⟩)
      · exact ⟨'/' :: a.data, ⟨a, by simp, rfl⟩, by simp [h]⟩
      · exact ⟨'/' :: s.data, ⟨s, hs, rfl⟩, by simp [h]⟩

theorem hasMeta_false_iff (s : String) :
    hasMeta s = false ↔
      ∀ c ∈ s.data, c ≠ '*' ∧ c ≠ '?' ∧ c ≠ '[' ∧ c ≠ backslash := by
  unfold hasMeta
  rw [List.any_eq_false]
  constructor
  · intro h c hc
    have := h c hc
    simp only [Bool.or_eq_true, beq_iff_eq, not_or] at this
    exact ⟨this.1.1.1, this.1.1.2, this.1.2, this.2⟩
  · intro h c hc
    have := h c hc
    simp only [Bool.or_eq_true, beq_iff_eq, not_or]
    exact ⟨⟨⟨this.1, this.2.1⟩, this.2.2.1⟩, this.2.2.2⟩

theorem hasMeta_true_iff (s : String) :
    hasMeta s = true ↔
      ∃ c ∈ s.data, c = '*' ∨ c = '?' ∨ c = '[' ∨ c = backslash := by
  unfold hasMeta
  rw [List.any_eq_true]
  constructor
  · rintro ⟨c, hc, h⟩
    simp only [Bool.or_eq_true, beq_iff_eq] at h
    exact ⟨c, hc, by tauto⟩
  · rintro ⟨c, hc, h⟩
    refine ⟨c, hc, ?_⟩
    simp only [Bool.or_eq_true, beq_iff_eq]
    tauto

theorem hasMeta_pathString_false_iff (p : Path) :
    hasMeta (pathString p) = false ↔ ∀ s ∈ p, hasMeta s = false := by
  rw [hasMeta_false_iff]
  constructor
  · intro h s hs
    rw [hasMeta_false_iff]
    intro c hc
    exact h c ((mem_pathString_iff p c).mpr (Or.inr ⟨s, hs, hc⟩))
  · intro h c hc
    rcases (mem_pathString_iff p c).mp hc with h1 | ⟨s, hs, h1⟩
    · subst h1; decide
    · exact (hasMeta_false_iff s).mp (h s hs) c h1

theorem hasMeta_pathString_of_mem {p : Path} {s : String} (hs : s ∈ p)
    (h : hasMeta s = true) : hasMeta (pathString p) = true := by
  cases hm : hasMeta (pathString p) with
  | true => rfl
  | false =>
    rw [(hasMeta_pathString_false_iff p).mp hm s hs] at h
    cases h

/-- What the loop over the names of a directory returns. -/
theorem globNames_sound (d : Path) (pat : String) (m : Path) :
    ∀ (names : List String) (acc : List Path), m ∈ (globNames d pat names acc).1 →
      m ∈ acc ∨ ∃ n ∈ names, filepathMatch pat.data n.data = some true ∧ m = d ++ [n] := by
  intro names
  induction names with
  | nil => intro acc h; exact Or.inl h
  | cons n rest ih =>
    intro acc h
    simp only [globNames] at h
    split at h
    · exact Or.inl h
    · rename_i hm
      rcases ih _ h with h1 | ⟨x, hx, h2, h3⟩
      · rcases List.mem_append.mp h1 with h4 | h4
        · exact Or.inl h4
        · exact Or.inr ⟨n, by simp, hm, by simpa using h4⟩
      · exact Or.inr ⟨x, List.mem_cons_of_mem _ hx, h2, h3⟩
    · rcases ih _ h with h1 | ⟨x, hx, h2, h3⟩
      · exact Or.inl h1
      · exact Or.inr ⟨x, List.mem_cons_of_mem _ hx, h2, h3⟩

/-- The loop over the names of a directory, for a pattern that is well formed. -/
theorem globNames_eq (d : Path) (pat : String) :
    ∀ (names : List String) (acc : List Path),
      (∀ n ∈ names, (filepathMatch pat.data n.data).isSome = true) →
      globNames d pat names acc =
        (acc ++ (names.filter (fun n => filepathMatch pat.data n.data == some true)).map
          (fun n => d ++ [n]), false) := by
  intro names
  induction names with
  | nil => intro acc _; simp [globNames]
  | cons n rest ih =>
    intro acc h
    have hn := h n (List.mem_cons_self _ _)
    have hrest : ∀ x ∈ rest, (filepathMatch pat.data x.data).isSome = true :=
      fun x hx => h x (List.mem_cons_of_mem _ hx)
    simp only [globNames]
    split
    · rename_i h2; rw [h2] at hn; cases hn
    · rename_i h2
      rw [ih _ hrest]
      simp [List.filter_cons, h2]
    · rename_i h2
      rw [ih _ hrest]
      simp [List.filter_cons, h2]

theorem globDir_sound (fs : FS) (d : Path) (pat : String) (acc : List Path) (m : Path)
    (h : m ∈ (globDir fs d pat acc).1) :
    m ∈ acc ∨ (isDir fs d = true ∧ ∃ n, (d ++ [n]) ∈ fs.map (fun e => e.1) ∧
      filepathMatch pat.data n.data = some true ∧ m = d ++ [n]) := by
  unfold globDir at h
  split at h
  · rename_i hd
    rcases globNames_sound d pat m _ _ h with h1 | ⟨n, hn, h2, h3⟩
    · exact Or.inl h1
    · exact Or.inr ⟨hd, n, (mem_readDirNames fs d n).mp hn, h2, h3⟩
  · exact Or.inl h

theorem globDir_plain (fs : FS) (d : Path) (pat : String) (acc : List Path)
    (hp : ∀ c ∈ pat.data, c ≠ '[' ∧ c ≠ backslash) :
    (globDir fs d pat acc).2 = false ∧ ∀ m, m ∈ (globDir fs d pat acc).1 ↔
      (m ∈ acc ∨ (isDir fs d = true ∧ ∃ n, (d ++ [n]) ∈ fs.map (fun e => e.1) ∧
        filepathMatch pat.data n.data = some true ∧ m = d ++ [n])) := by
  unfold globDir
  split
  · rename_i hd
    rw [globNames_eq d pat _ _ (fun n _ => filepathMatch_isSome _ _ hp)]
    refine ⟨rfl, fun m => ?_⟩
    constructor
    · intro h
      rcases List.mem_append.mp h with h | h
      · exact Or.inl h
      · obtain ⟨n, hn, rfl⟩ := List.mem_map.mp h
        have hn2 := List.mem_filter.mp hn
        exact Or.inr ⟨hd, n, (mem_readDirNames fs d n).mp hn2.1, beq_iff_eq.mp hn2.2, rfl⟩
    · rintro (h | ⟨_, n, hn, hm, rfl⟩)
      · exact List.mem_append_left _ h
      · exact List.mem_append_right _ (List.mem_map.mpr
          ⟨n, List.mem_filter.mpr ⟨(mem_readDirNames fs d n).mpr hn, beq_iff_eq.mpr hm⟩, rfl⟩)
  · rename_i hd
    refine ⟨rfl, fun m => ?_⟩
    constructor
    · intro h; exact Or.inl h
    · rintro (h | ⟨h, _⟩)
      · exact h
      · exact absurd h hd

theorem globDirs_sound (fs : FS) (file : String) (m : Path) :
    ∀ (ds acc : List Path), m ∈ (globDirs fs file ds acc).1 →
      m ∈ acc ∨ ∃ d ∈ ds, isDir fs d = true ∧ ∃ n, (d ++ [n]) ∈ fs.map (fun e => e.1) ∧
        filepathMatch file.data n.data = some true ∧ m = d ++ [n] := by
  intro ds
  induction ds with
  | nil => intro acc h; exact Or.inl h
  | cons d rest ih =>
    intro acc h
    simp only [globDirs] at h
    have key : ∀ x, x ∈ (globDir fs d file acc).1 →
        x ∈ acc ∨ ∃ d1 ∈ d :: rest, isDir fs d1 = true ∧ ∃ n,
          (d1 ++ [n]) ∈ fs.map (fun e => e.1) ∧
          filepathMatch file.data n.data = some true ∧ x = d1 ++ [n] := by
      intro x hx
      rcases globDir_sound fs d file acc x hx with h1 | ⟨h1, h2⟩
      · exact Or.inl h1
      · exact Or.inr ⟨d, by simp, h1, h2⟩
    cases hg : globDir fs d file acc with
    | mk L b =>
      rw [hg] at h key
      cases b with
      | true => exact key m h
      | false =>
        simp only at h
        rcases ih _ h with h1 | ⟨d1, hd1, h2⟩
        · exact key m h1
        · exact Or.inr ⟨d1, List.mem_cons_of_mem _ hd1, h2⟩

theorem globDirs_plain (fs : FS) (file : String)
    (hp : ∀ c ∈ file.data, c ≠ '[' ∧ c ≠ backslash) :
    ∀ (ds acc : List Path), (globDirs fs file ds acc).2 = false ∧
      ∀ m, m ∈ (globDirs fs file ds acc).1 ↔
        (m ∈ acc ∨ ∃ d ∈ ds, isDir fs d = true ∧ ∃ n, (d ++ [n]) ∈ fs.map (fun e => e.1) ∧
          filepathMatch file.data n.data = some true ∧ m = d ++ [n]) := by
  intro ds
  induction ds with
  | nil =>
    intro acc
    refine ⟨rfl, fun m => ?_⟩
    constructor
    · intro h; exact Or.inl h
    · rintro (h | ⟨d, hd, _⟩)
      · exact h
      · cases hd
  | cons d rest ih =>
    intro acc
    have hd := globDir_plain fs d file acc hp
    simp only [globDirs]
    cases hg : globDir fs d file acc with
    | mk L b =>
      rw [hg] at hd
      simp only at hd
      obtain ⟨hb, hL⟩ := hd
      subst hb
      simp only
      refine ⟨(ih L).1, fun m => ?_⟩
      rw [(ih L).2 m, hL m]
      constructor
      · rintro ((h | h) | ⟨d1, hd1, h⟩)
        · exact Or.inl h
        · exact Or.inr ⟨d, by simp, h⟩
        · exact Or.inr ⟨d1, List.mem_cons_of_mem _ hd1, h⟩
      · rintro (h | ⟨d1, hd1, h⟩)
        · exact Or.inl (Or.inl h)
        · rcases List.mem_cons.mp hd1 with h1 | h1
          · subst h1; exact Or.inl (Or.inr h)
          · exact Or.inr ⟨d1, h1, h⟩

/-- Every match of `filepath.Glob` has one segment for each segment of the pattern. -/
theorem globRev_length (fs : FS) :
    ∀ (pr : List String) (m : Path), m ∈ (globRev fs pr).1 → m.length = pr.length := by
  intro pr
  induction pr with
  | nil => intro m h; simp [globRev] at h; subst h; rfl
  | cons file dirRev ih =>
    intro m h
    simp only [globRev] at h
    split at h
    · cases h
    · split at h
      · split at h
        · simp at h; subst h; simp
        · cases h
      · split at h
        · rcases globDir_sound fs _ file [] m h with h1 | ⟨_, n, _, _, h2⟩
          · cases h1
          · subst h2; simp
        · cases hr : globRev fs dirRev with
          | mk L b =>
            rw [hr] at h ih
            cases b with
            | true => cases h
            | false =>
              simp only at h
              rcases globDirs_sound fs file m L [] h with h1 | ⟨d, hd, _, n, _, _, h2⟩
              · cases h1
              · subst h2
                have := ih d hd
                simp [this]

theorem glob_length (fs : FS) (p m : Path) (h : m ∈ glob fs p) : m.length = p.length := by
  have := globRev_length fs p.reverse m h
  simpa using this

/-- Every match of `filepath.Glob` exists. -/
theorem globRev_mem (fs : FS) :
    ∀ (pr : List String) (m : Path), pr ≠ [] → m ∈ (globRev fs pr).1 →
      m ∈ fs.map (fun e => e.1) := by
  intro pr m hne h
  cases pr with
  | nil => exact absurd rfl hne
  | cons file dirRev =>
    simp only [globRev] at h
    split at h
    · cases h
    · split at h
      · split at h
        · rename_i hs
          rw [List.mem_singleton] at h; subst h
          unfold stat at hs
          rw [if_neg (by simp)] at hs
          split at hs
          · rename_i e he
            have h1 := List.find?_some he
            have h2 := List.mem_of_find?_eq_some he
            simp only [beq_iff_eq] at h1
            rw [← h1]
            exact List.mem_map_of_mem _ h2
          · cases hs
        · cases h
      · split at h
        · rcases globDir_sound fs _ file [] m h with h1 | ⟨_, n, hn, _, h2⟩
          · cases h1
          · subst h2; exact hn
        · cases hr : globRev fs dirRev with
          | mk L b =>
            rw [hr] at h
            cases b with
            | true => cases h
            | false =>
              simp only at h
              rcases globDirs_sound fs file m L [] h with h1 | ⟨d, hd, _, n, hn, _, h2⟩
              · cases h1
              · subst h2; exact hn

theorem glob_mem (fs : FS) (p m : Path) (hp : p ≠ []) (h : m ∈ glob fs p) :
    m ∈ fs.map (fun e => e.1) :=
  globRev_mem fs p.reverse m (by simpa using hp) h

theorem globOk_snoc (fs : FS) (seg : String) (ps : List String) :
    ∀ (d : Path) (names : List String),
      GlobOk fs d (ps ++ [seg]) names ↔
        ∃ ns n, names = ns ++ [n] ∧ GlobOk fs d ps ns ∧ isDir fs (d ++ ns) = true ∧
          (d ++ ns ++ [n]) ∈ fs.map (fun e => e.1) ∧
          filepathMatch seg.data n.data = some true := by
  induction ps with
  | nil =>
    intro d names
    constructor
    · intro h
      match names, h with
      | [n], h =>
        simp only [List.nil_append, GlobOk] at h
        exact ⟨[], n, rfl, by simp only [GlobOk], by rw [List.append_nil]; exact h.1,
          by rw [List.append_nil]; exact h.2.1, h.2.2.1⟩
      | [], h => simp only [List.nil_append, GlobOk] at h
      | n :: n2 :: ns, h => simp only [List.nil_append, GlobOk] at h; exact h.2.2.2.elim
    · rintro ⟨ns, n, rfl, h1, h2, h3, h4⟩
      cases ns with
      | nil =>
        simp only [List.nil_append, GlobOk]
        rw [List.append_nil] at h2 h3
        exact ⟨h2, h3, h4, trivial⟩
      | cons a as => simp only [GlobOk] at h1
  | cons p ps ih =>
    intro d names
    constructor
    · intro h
      cases names with
      | nil => simp only [List.cons_append, GlobOk] at h
      | cons a as =>
        simp only [List.cons_append, GlobOk] at h
        obtain ⟨h1, h2, h3, h4⟩ := h
        obtain ⟨ns, n, rfl, k1, k2, k3, k4⟩ := (ih _ _).mp h4
        refine ⟨a :: ns, n, rfl, ?_, ?_, ?_, k4⟩
        · simp only [GlobOk]; exact ⟨h1, h2, h3, k1⟩
        · rw [List.append_assoc] at k2; exact k2
        · rw [List.append_assoc d [a] ns] at k3; exact k3
    · rintro ⟨ns, n, rfl, h1, h2, h3, h4⟩
      cases ns with
      | nil => simp only [GlobOk] at h1
      | cons a as =>
        simp only [GlobOk] at h1
        obtain ⟨k1, k2, k3, k4⟩ := h1
        simp only [List.cons_append, GlobOk]
        refine ⟨k1, k2, k3, (ih _ _).mpr ⟨as, n, rfl, k4, ?_, ?_, h4⟩⟩
        · rw [List.append_assoc]; exact h2
        · rw [List.append_assoc d [a] as]; exact h3
theorem plain_pathString (p : Path) (h : ∀ s ∈ p, ∀ c ∈ s.data, c ≠ '[' ∧ c ≠ backslash) :
    ∀ c ∈ (pathString p).data, c ≠ '[' ∧ c ≠ backslash := by
  intro c hc
  rcases (mem_pathString_iff p c).mp hc with h1 | ⟨s, hs, h1⟩
  · subst h1; decide
  · exact h s hs c h1

theorem plain_of_hasMeta_false {s : String} (h : hasMeta s = false) :
    ∀ c ∈ s.data, c ≠ '[' ∧ c ≠ backslash :=
  fun c hc => ⟨((hasMeta_false_iff s).mp h c hc).2.2.1, ((hasMeta_false_iff s).mp h c hc).2.2.2⟩

/-- What `filepath.Glob` returns for a pattern without a class and without an escape: the
segments before the first one with a metacharacter name the directory the search starts
from, and the other segments are matched one after the other. -/
theorem globRev_plain (fs : FS) (lit : Path) (hlit : hasMeta (pathString lit) = false)
    (w : String) (hw : hasMeta w = true) :
    ∀ (ps : List String), (∀ s ∈ w :: ps, ∀ c ∈ s.data, c ≠ '[' ∧ c ≠ backslash) →
      (globRev fs (lit ++ w :: ps).reverse).2 = false ∧
      ∀ m, m ∈ (globRev fs (lit ++ w :: ps).reverse).1 ↔
        ∃ names, m = lit ++ names ∧ GlobOk fs lit (w :: ps) names := by
  intro ps
  induction ps using List.reverseRecOn with
  | nil =>
    intro hp
    have e1 : (lit ++ [w]).reverse = w :: lit.reverse := by simp
    have hpre : (filepathMatch (pathString (w :: lit.reverse).reverse).data []).isNone
        = false := by
      have := filepathMatch_isSome (pathString (w :: lit.reverse).reverse).data []
        (plain_pathString _ (by
          intro s hs
          rw [List.reverse_cons, List.reverse_reverse] at hs
          rcases List.mem_append.mp hs with h | h
          · exact plain_of_hasMeta_false ((hasMeta_pathString_false_iff lit).mp hlit s h)
          · rw [List.mem_singleton] at h; subst h; exact hp s (by simp)))
      cases hm : filepathMatch (pathString (w :: lit.reverse).reverse).data [] with
      | none => rw [hm] at this; cases this
      | some b => rfl
    have hmeta : hasMeta (pathString (w :: lit.reverse).reverse) = true :=
      hasMeta_pathString_of_mem (by simp) hw
    rw [e1]
    simp only [globRev, hpre, hmeta, List.reverse_reverse, hlit]
    simp only [Bool.false_eq_true, if_false, Bool.not_true, Bool.not_false, if_true]
    have hd := globDir_plain fs lit w [] (hp w (by simp))
    refine ⟨hd.1, fun m => ?_⟩
    rw [hd.2 m]
    constructor
    · rintro (h | ⟨h1, n, h2, h3, rfl⟩)
      · cases h
      · exact ⟨[n], rfl, by simp only [GlobOk]; exact ⟨h1, h2, h3, trivial⟩⟩
    · rintro ⟨names, rfl, hok⟩
      match names, hok with
      | [n], hok =>
        simp only [GlobOk] at hok
        exact Or.inr ⟨hok.1, n, hok.2.1, hok.2.2.1, rfl⟩
      | [], hok => simp only [GlobOk] at hok
      | n :: n2 :: ns, hok => simp only [GlobOk] at hok; exact hok.2.2.2.elim
  | append_singleton ps file ih =>
    intro hp
    have hp1 : ∀ s ∈ w :: ps, ∀ c ∈ s.data, c ≠ '[' ∧ c ≠ backslash := by
      intro s hs
      apply hp s
      rcases List.mem_cons.mp hs with h | h
      · subst h; simp
      · simp [h]
    have hfile : ∀ c ∈ file.data, c ≠ '[' ∧ c ≠ backslash := hp file (by simp)
    obtain ⟨ih1, ih2⟩ := ih hp1
    have e1 : (lit ++ w :: (ps ++ [file])).reverse = file :: (lit ++ w :: ps).reverse := by
      simp
    have e2 : (file :: (lit ++ w :: ps).reverse).reverse = lit ++ w :: ps ++ [file] := by
      simp
    have hpre : (filepathMatch (pathString (file :: (lit ++ w :: ps).reverse).reverse).data
        []).isNone = false := by
      have := filepathMatch_isSome
        (pathString (file :: (lit ++ w :: ps).reverse).reverse).data []
        (plain_pathString _ (by
          intro s hs
          rw [e2] at hs
          rcases List.mem_append.mp hs with h | h
          · rcases List.mem_append.mp h with h | h
            · exact plain_of_hasMeta_false ((hasMeta_pathString_false_iff lit).mp hlit s h)
            · exact hp1 s h
          · rw [List.mem_singleton] at h; subst h; exact hfile))
      cases hm : filepathMatch
          (pathString (file :: (lit ++ w :: ps).reverse).reverse).data [] with
      | none => rw [hm] at this; cases this
      | some b => rfl
    have hmeta : hasMeta (pathString (file :: (lit ++ w :: ps).reverse).reverse) = true :=
      hasMeta_pathString_of_mem (by rw [e2]; simp) hw
    have hmeta2 : hasMeta (pathString (lit ++ w :: ps)) = true :=
      hasMeta_pathString_of_mem (by simp) hw
    rw [e1]
    simp only [globRev, hpre, hmeta, List.reverse_reverse, hmeta2]
    simp only [Bool.false_eq_true, if_false, Bool.not_true]
    cases hr : globRev fs (lit ++ w :: ps).reverse with
    | mk L b =>
      rw [hr] at ih1 ih2
      simp only at ih1 ih2
      subst ih1
      simp only
      have hd := globDirs_plain fs file hfile L []
      refine ⟨hd.1, fun m => ?_⟩
      rw [hd.2 m]
      have hsn := globOk_snoc fs file (w :: ps) lit
      constructor
      · rintro (h | ⟨d, hdL, h1, n, h2, h3, rfl⟩)
        · cases h
        · obtain ⟨ns, rfl, hok⟩ := (ih2 d).mp hdL
          refine ⟨ns ++ [n], by rw [List.append_assoc], ?_⟩
          exact (hsn (ns ++ [n])).mpr ⟨ns, n, rfl, hok, h1, h2, h3⟩
      · rintro ⟨names, rfl, hok⟩
        obtain ⟨ns, n, rfl, k1, k2, k3, k4⟩ := (hsn names).mp hok
        exact Or.inr ⟨lit ++ ns, (ih2 _).mpr ⟨ns, rfl, k1⟩, k2, n, k3, k4,
          by rw [List.append_assoc]⟩

/-- What `filepath.Glob` returns for `d/*` when no segment of `d` holds a metacharacter:
the entries of directory `d`, in the order of their names. -/
theorem globRev_star (fs : FS) (d : Path) (hd : hasMeta (pathString d) = false) :
    globRev fs (d ++ ["*"]).reverse =
      (if isDir fs d = true then
        ((readDirNames fs d).filter (fun n => !n.data.contains '/')).map (fun n => d ++ [n])
       else [], false) := by
  have e1 : (d ++ ["*"]).reverse = "*" :: d.reverse := by simp
  have hpre : (filepathMatch (pathString ("*" :: d.reverse).reverse).data []).isNone
      = false := by
    have := filepathMatch_isSome (pathString ("*" :: d.reverse).reverse).data []
      (plain_pathString _ (by
        intro s hs
        rw [List.reverse_cons, List.reverse_reverse] at hs
        rcases List.mem_append.mp hs with h | h
        · exact plain_of_hasMeta_false ((hasMeta_pathString_false_iff d).mp hd s h)
        · rw [List.mem_singleton] at h; subst h; decide))
    cases hm : filepathMatch (pathString ("*" :: d.reverse).reverse).data [] with
    | none => rw [hm] at this; cases this
    | some b => rfl
  have hmeta : hasMeta (pathString ("*" :: d.reverse).reverse) = true :=
    @hasMeta_pathString_of_mem ("*" :: d.reverse).reverse "*" (by simp)
      (by decide)
  rw [e1]
  simp only [globRev, hpre, hmeta, List.reverse_reverse, hd]
  simp only [Bool.false_eq_true, if_false, Bool.not_true, Bool.not_false, if_true]
  unfold globDir
  split
  · rw [globNames_eq d "*" _ _ (fun n _ => by
      show (filepathMatch ['*'] n.data).isSome = true
      rw [filepathMatch_star]; rfl)]
    have : (fun n : String => filepathMatch "*".data n.data == some true) =
        (fun n : String => !n.data.contains '/') := by
      funext n
      show (filepathMatch ['*'] n.data == some true) = _
      rw [filepathMatch_star]
      cases (n.data.contains '/') <;> rfl
    rw [this]
    simp
  · rfl

theorem glob_star (fs : FS) (d : Path) (hd : hasMeta (pathString d) = false) :
    glob fs (d ++ ["*"]) =
      (if isDir fs d = true then
        ((readDirNames fs d).filter (fun n => !n.data.contains '/')).map (fun n => d ++ [n])
       else []) := by
  unfold glob; rw [globRev_star fs d hd]

theorem globErr_star (fs : FS) (d : Path) (hd : hasMeta (pathString d) = false) :
    globErr fs (d ++ ["*"]) = false := by
  unfold globErr; rw [globRev_star fs d hd]
/-- The two errors of `resolveToMatches`, by the tests the code makes. -/
theorem resolveToMatchesResult_spec (fs : FS) (p : Path) (recursive excludeFolders : Bool) :
    ((resolveToMatchesResult fs p recursive excludeFolders).2 = some "path not found" ↔
      stat fs (checkPath p) = none) ∧
    ((stat fs (checkPath p)).isSome = true →
      ((resolveToMatchesResult fs p recursive excludeFolders).2 =
          some "presets not found on path" ↔ isInPresetsFolder fs p = false)) ∧
    ((resolveToMatchesResult fs p recursive excludeFolders).2 ≠ none →
      (resolveToMatchesResult fs p recursive excludeFolders).1 = []) ∧
    ((stat fs (checkPath p)).isSome = true → isInPresetsFolder fs p = true →
      (resolveToMatchesResult fs p recursive excludeFolders).2 = none) ∧
    (resolveToMatches fs p recursive excludeFolders =
      match (resolveToMatchesResult fs p recursive excludeFolders).2 with
      | some e => Except.error e
      | none => Except.ok (resolveToMatchesResult fs p recursive excludeFolders).1) ∧
    (∃ tail, p = checkPath p ++ tail ∧ (∀ s ∈ tail, hasWildcard s = true) ∧
      ∀ s, (checkPath p).getLast? = some s → hasWildcard s = false) := by
  have hok : ∀ h1 : ¬ (stat fs (checkPath p)).isNone = true,
      ∀ h2 : ¬ (!isInPresetsFolder fs p) = true,
      ∃ found, resolveToMatches fs p recursive excludeFolders = Except.ok found := by
    intro h1 h2
    unfold resolveToMatches
    rw [if_neg h1, if_neg h2]
    split
    · exact ⟨_, rfl⟩
    · split
      · split
        · exact ⟨_, rfl⟩
        · exact ⟨_, rfl⟩
      · exact ⟨_, rfl⟩
  refine ⟨?_, ?_, ?_, ?_, ?_, ?_⟩
  · unfold resolveToMatchesResult
    by_cases h1 : (stat fs (checkPath p)).isNone = true
    · rw [if_pos h1]
      simpa using h1
    · rw [if_neg h1]
      have hne : stat fs (checkPath p) ≠ none := by simpa using h1
      by_cases h2 : (!isInPresetsFolder fs p) = true
      · rw [if_pos h2]
        simp [hne]
      · rw [if_neg h2]
        obtain ⟨found, hf⟩ := hok h1 h2
        rw [hf]
        simp [hne]
  · intro hex
    have h1 : ¬ (stat fs (checkPath p)).isNone = true := by
      cases hst : stat fs (checkPath p) with
      | none => rw [hst] at hex; cases hex
      | some n => simp
    unfold resolveToMatchesResult
    rw [if_neg h1]
    by_cases h2 : (!isInPresetsFolder fs p) = true
    · rw [if_pos h2]
      simpa using h2
    · rw [if_neg h2]
      obtain ⟨found, hf⟩ := hok h1 h2
      rw [hf]
      simpa using h2
  · intro hne
    unfold resolveToMatchesResult at hne ⊢
    by_cases h1 : (stat fs (checkPath p)).isNone = true
    · rw [if_pos h1]
    · rw [if_neg h1] at hne ⊢
      by_cases h2 : (!isInPresetsFolder fs p) = true
      · rw [if_pos h2]
      · rw [if_neg h2] at hne ⊢
        obtain ⟨found, hf⟩ := hok h1 h2
        rw [hf] at hne
        simp at hne
  · intro hex hin
    have h1 : ¬ (stat fs (checkPath p)).isNone = true := by
      cases hst : stat fs (checkPath p) with
      | none => rw [hst] at hex; cases hex
      | some n => simp
    have h2 : ¬ (!isInPresetsFolder fs p) = true := by simp [hin]
    unfold resolveToMatchesResult
    rw [if_neg h1, if_neg h2]
    obtain ⟨found, hf⟩ := hok h1 h2
    rw [hf]
  · by_cases h1 : (stat fs (checkPath p)).isNone = true
    · unfold resolveToMatchesResult resolveToMatches
      rw [if_pos h1, if_pos h1]
    · by_cases h2 : (!isInPresetsFolder fs p) = true
      · unfold resolveToMatchesResult resolveToMatches
        rw [if_neg h1, if_neg h1, if_pos h2, if_pos h2]
      · obtain ⟨found, hf⟩ := hok h1 h2
        unfold resolveToMatchesResult
        rw [if_neg h1, if_neg h2, hf]
  · unfold checkPath
    rw [stripWildRev_eq_dropWhile]
    refine ⟨(p.reverse.takeWhile hasWildcard).reverse, ?_, ?_, ?_⟩
    · rw [← List.reverse_append, List.takeWhile_append_dropWhile, List.reverse_reverse]
    · intro s hs
      rw [List.mem_reverse] at hs
      exact List.mem_takeWhile_imp hs
    · intro s hs
      rw [List.getLast?_reverse] at hs
      cases hd : List.dropWhile hasWildcard p.reverse with
      | nil => rw [hd] at hs; cases hs
      | cons a rest =>
        rw [hd] at hs
        simp only [List.head?_cons, Option.some.injEq] at hs
        subst hs
        have := List.head_dropWhile_not hasWildcard p.reverse (by rw [hd]; simp)
        simpa [hd] using this

/-- A path passes `isInPresetsFolder` exactly when the folder `Presets` of a profile, a
folder that holds an entry `Presets` and an entry `Presets.db`, is the path or one of its
ancestors. -/
theorem isInPresetsFolder_iff (fs : FS) (p : Path) :
    isInPresetsFolder fs p = true ↔
      ∃ r : Path, (r ++ ["Presets"]) <+: p ∧ (stat fs (r ++ ["Presets"])).isSome = true ∧
        (stat fs (r ++ ["Presets.db"])).isSome = true := by
  unfold isInPresetsFolder
  rw [List.any_eq_true]
  constructor
  · rintro ⟨c, hc, h⟩
    rw [Bool.and_eq_true] at h
    obtain ⟨h1, h2⟩ := h
    have hb : base c = "Presets" := by simpa [PresetsFolder] using h2
    have hne : c ≠ [] := by
      intro h0; subst h0; revert hb; decide
    have hcd : c = dir c ++ ["Presets"] := by
      have := List.dropLast_append_getLast hne
      unfold base at hb
      rw [List.getLast?_eq_getLast _ hne] at hb
      simp only at hb
      unfold dir
      rw [← hb]
      exact this.symm
    have hp := (isProfileFolder_iff fs (dir c)).mp h1
    refine ⟨dir c, ?_, hp.1, hp.2⟩
    rw [← hcd]
    exact (mem_ancestors_iff p c).mp hc
  · rintro ⟨r, hpre, h1, h2⟩
    refine ⟨r ++ ["Presets"], (mem_ancestors_iff p _).mpr hpre, ?_⟩
    rw [Bool.and_eq_true]
    constructor
    · have : dir (r ++ ["Presets"]) = r := by simp [dir]
      rw [this]
      exact (isProfileFolder_iff fs r).mpr ⟨h1, h2⟩
    · have : base (r ++ ["Presets"]) = "Presets" := by simp [base]
      rw [this]
      decide
/-! ## `isValidPresetName` -/

/-- On a string that is not four characters long, `isValidPresetName` holds exactly when
the string has no `*` and ends with one of the two extensions. -/
theorem isValidPresetNameS_iff (path : String) (hlen : path.data.length ≠ 4) :
    isValidPresetNameS path = true ↔
      hasWildcard path = false ∧
        (PresetExtension.data <:+ path.data ∨ PresetExtension4.data <:+ path.data) := by
  constructor
  · intro h
    unfold isValidPresetNameS strLastIndex strLen at h
    rw [Bool.and_eq_true, Bool.or_eq_true] at h
    obtain ⟨hw, hext⟩ := h
    have hw2 : hasWildcard path = false := by
      cases hh : hasWildcard path with
      | false => rfl
      | true => rw [hh] at hw; cases hw
    refine ⟨hw2, ?_⟩
    have key : ∀ ext : List Char, ext.length = 5 →
        lastIndexL path.data ext = (path.data.length : Int) - 5 → ext <:+ path.data := by
      intro ext he hidx
      by_cases hs : path.data.length < 5
      · have := @lastIndexL_short path.data ext (by omega)
        rw [this] at hidx
        exfalso; omega
      · have h0 : 0 ≤ lastIndexL path.data ext := by omega
        have hpre := lastIndexL_prefix_drop ext path.data h0
        rw [hidx] at hpre
        have hn : ((path.data.length : Int) - 5).toNat = path.data.length - 5 := by omega
        rw [hn] at hpre
        have hl : (path.data.drop (path.data.length - 5)).length = ext.length := by
          rw [List.length_drop]; omega
        have heq : ext = path.data.drop (path.data.length - 5) :=
          List.IsPrefix.eq_of_length hpre hl.symm
        rw [heq]
        exact List.drop_suffix _ _
    rcases hext with h5 | h4
    · left
      exact key _ (by decide) (by simpa [PresetExtension] using h5)
    · right
      exact key _ (by decide) (by simpa [PresetExtension4] using h4)
  · rintro ⟨hw, hext⟩
    exact isValidPresetNameS_of_suffix path hw hext

/-- An absolute path under a presets folder is rendered with eight characters or more. -/
theorem pathString_length_of_presets {fs : FS} {p : Path}
    (h : isInPresetsFolder fs p = true) : 8 ≤ (pathString p).data.length := by
  obtain ⟨r, ⟨t, ht⟩, _, _⟩ := (isInPresetsFolder_iff fs p).mp h
  rw [← ht]
  have h1 := pathString_length_le (r ++ ["Presets"]) t
  obtain ⟨front, hf⟩ := pathString_concat r "Presets"
  rw [hf] at h1
  simp only [List.length_append, List.length_cons] at h1
  have : "Presets".data.length = 7 := by decide
  omega
/-! ## File systems with cleaned paths -/

theorem namesOk_mem {fs : FS} (h : namesOk fs = true) {p : Path}
    (hp : p ∈ fs.map (fun e => e.1)) : ∀ s ∈ p, isSegment s = true := by
  obtain ⟨e, he, rfl⟩ := List.mem_map.mp hp
  unfold namesOk at h
  rw [List.all_eq_true] at h
  have := h e he
  rw [List.all_eq_true] at this
  exact this

theorem hasWildcard_of_hasMeta_false {s : String} (h : hasMeta s = false) :
    hasWildcard s = false :=
  (hasWildcard_false_iff s).mpr (fun c hc => ((hasMeta_false_iff s).mp h c hc).1)

theorem noslash_contains {s : String} (h : isSegment s = true) :
    s.data.contains '/' = false := by
  cases hc : s.data.contains '/' with
  | false => rfl
  | true =>
    simp only [List.contains_eq_any_beq, List.any_eq_true, beq_iff_eq] at hc
    obtain ⟨c, hc1, hc2⟩ := hc
    exact absurd hc2.symm (isSegment_noslash h c hc1)

/-- The matches of `d/*`, for a directory `d` without a metacharacter in its path, are the
entries of `d`. -/
theorem mem_glob_star (fs : FS) (hfs : namesOk fs = true) (d : Path)
    (hd : hasMeta (pathString d) = false) (hdir : isDir fs d = true) (m : Path) :
    m ∈ glob fs (d ++ ["*"]) ↔ m ∈ fs.map (fun e => e.1) ∧ ∃ n, m = d ++ [n] := by
  rw [glob_star fs d hd, if_pos hdir]
  constructor
  · intro h
    obtain ⟨n, hn, rfl⟩ := List.mem_map.mp h
    exact ⟨(mem_readDirNames fs d n).mp (List.mem_filter.mp hn).1, n, rfl⟩
  · rintro ⟨hm, n, rfl⟩
    refine List.mem_map.mpr ⟨n, List.mem_filter.mpr ⟨(mem_readDirNames fs d n).mpr hm, ?_⟩, rfl⟩
    have := noslash_contains (namesOk_mem hfs hm n (by simp))
    rw [this]; rfl
/-! ## What `copy` prints -/

/-- The loop of `copy` over the map `files` prints nothing. -/
theorem copyFiles_out (env : Env) (files : Plan) :
    ∀ (rest : Plan) (w : World), (copyFiles env files w rest).1.out = w.out := by
  intro rest
  induction rest with
  | nil => intro w; rfl
  | cons p rest ih =>
    intro w
    obtain ⟨s, t⟩ := p
    unfold copyFiles
    split
    · exact ih w
    · simp only
      split
      · rfl
      · split
        · rfl
        · split
          · rfl
          · rename_i fs1 _ data _ fs2 _
            have hg := (writeNewGuidToFile_db env { w with fs := fs2 } t).2
            split
            · rename_i w3 e hw
              rw [hw] at hg
              exact hg
            · rename_i w3 hw
              rw [hw] at hg
              simp only at hg
              split
              · exact hg
              · rw [ih]
                exact hg

theorem isDir_congr_stat {fs1 fs2 : FS} {p : Path} (h : stat fs1 p = stat fs2 p) :
    isDir fs1 p = isDir fs2 p := by
  unfold isDir; rw [h]

/-- Without `-r` and with a folder as target, the loop of `copy` that fills the map prints
the advisory once for each match that is a directory. -/
theorem copyPlan_out_flat (env : Env) (source target : Path)
    (ht : isValidPresetFolderName target = true) :
    ∀ (found : List Path) (fs : FS) (out : List String) (files : Plan),
      (∀ m ∈ found, (stat fs m).isSome = true) →
      (copyPlan env source target false found (fs, out, files)).2.1 =
        out ++ List.replicate (found.filter (fun m => isDir fs m)).length cpOmitting := by
  intro found
  induction found with
  | nil => intro fs out files _; simp [copyPlan]
  | cons m rest ih =>
    intro fs out files hex
    have hkeep : ∀ q, (stat fs q).isSome = true →
        stat (mkdirAll env fs target).1 q = stat fs q := by
      intro q hq
      cases hs : stat fs q with
      | none => rw [hs] at hq; cases hq
      | some n => exact mkdirAll_keeps env fs target q n hs
    have hrest : ∀ q ∈ rest, (stat (mkdirAll env fs target).1 q).isSome = true := by
      intro q hq
      rw [hkeep q (hex q (List.mem_cons_of_mem _ hq))]
      exact hex q (List.mem_cons_of_mem _ hq)
    have hfilter : rest.filter (fun q => isDir (mkdirAll env fs target).1 q) =
        rest.filter (fun q => isDir fs q) := by
      apply List.filter_congr
      intro q hq
      exact isDir_congr_stat (hkeep q (hex q (List.mem_cons_of_mem _ hq)))
    have hm : isDir (mkdirAll env fs target).1 m = isDir fs m :=
      isDir_congr_stat (hkeep m (hex m (List.mem_cons_self _ _)))
    unfold copyPlan
    rw [if_pos ht]
    simp only [Bool.false_eq_true, if_false]
    rw [hm]
    by_cases hd : isDir fs m = true
    · rw [if_pos hd, ih _ _ _ hrest, hfilter, List.filter_cons, if_pos (by simpa using hd)]
      simp [List.replicate_succ, List.append_assoc]
    · rw [if_neg hd, ih _ _ _ hrest, hfilter, List.filter_cons, if_neg (by simpa using hd)]
/-! ## File systems that are trees -/

theorem mem_keys_of_stat {fs : FS} {p : Path} (hp : p ≠ []) (h : (stat fs p).isSome = true) :
    p ∈ fs.map (fun e => e.1) := by
  unfold stat at h
  rw [if_neg hp] at h
  split at h
  · rename_i e he
    have h1 := List.find?_some he
    have h2 := List.mem_of_find?_eq_some he
    simp only [beq_iff_eq] at h1
    rw [← h1]
    exact List.mem_map_of_mem _ h2
  · cases h

theorem prefix_dropLast_of_ne {q k : Path} (h : q <+: k) (hne : q ≠ k) : q <+: k.dropLast := by
  obtain ⟨x, hx⟩ := h
  have hx0 : x ≠ [] := by
    intro h0; subst h0; rw [List.append_nil] at hx; exact hne hx
  rw [← hx, List.dropLast_append_of_ne_nil _ hx0]
  exact List.prefix_append _ _

theorem treeOk_mem {fs : FS} (h : treeOk fs = true) {k : Path}
    (hk : k ∈ fs.map (fun e => e.1)) : isDir fs (dir k) = true := by
  obtain ⟨e, he, rfl⟩ := List.mem_map.mp hk
  unfold treeOk at h
  rw [List.all_eq_true] at h
  exact h e he

/-- In a tree every proper ancestor of an entry is a directory. -/
theorem tree_prefix {fs : FS} (h : treeOk fs = true) :
    ∀ (n : Nat) (k : Path), k.length ≤ n → k ∈ fs.map (fun e => e.1) →
      ∀ q, q <+: k → q ≠ k → isDir fs q = true := by
  intro n
  induction n with
  | zero =>
    intro k hlen _ q hq hne
    have : k = [] := List.length_eq_zero.mp (Nat.le_zero.mp hlen)
    subst this
    exact absurd (List.prefix_nil.mp hq) hne
  | succ n ih =>
    intro k hlen hk q hq hne
    have hd := treeOk_mem h hk
    have hq2 : q <+: dir k := prefix_dropLast_of_ne hq hne
    by_cases heq : q = dir k
    · rw [heq]; exact hd
    · have hdne : dir k ≠ [] := by
        intro h0
        rw [h0] at hq2
        exact heq ((List.prefix_nil.mp hq2).trans h0.symm)
      have hk0 : k ≠ [] := by
        intro h0; subst h0; exact hdne rfl
      have hlen2 : (dir k).length ≤ n := by
        unfold dir
        rw [List.length_dropLast]
        have := List.length_pos.mpr hk0
        omega
      exact ih (dir k) hlen2 (isDir_mem hdne hd) q hq2 heq

theorem tree_ancestor_isDir {fs : FS} (h : treeOk fs = true) {k q : Path}
    (hk : (stat fs k).isSome = true) (hq : q <+: k) (hne : q ≠ k) : isDir fs q = true := by
  have hk0 : k ≠ [] := by
    intro h0; subst h0; exact hne (List.prefix_nil.mp hq)
  exact tree_prefix h k.length k (Nat.le_refl _) (mem_keys_of_stat hk0 hk) q hq hne

theorem isDir_of_stat_dir {fs : FS} {p : Path} (h : stat fs p = some Node.dir) :
    isDir fs p = true := by
  unfold isDir; rw [h]

theorem stat_of_isDir {fs : FS} {p : Path} (h : isDir fs p = true) :
    stat fs p = some Node.dir := by
  unfold isDir at h
  split at h
  · assumption
  · cases h

/-- With no failure from outside, `os.MkdirAll` succeeds when no file is in the way, and
makes a directory of every ancestor of the path and of the path. -/
theorem mkdirAllFrom_ok (env : Env) (hmk : ∀ p, env.failMkdir p = false)
    (rest : List String) :
    ∀ (fs : FS) (done : Path),
      (∀ q, q <+: done → stat fs q = some Node.dir) →
      (∀ q, q <+: done ++ rest → ∀ c, stat fs q ≠ some (Node.file c)) →
      (mkdirAllFrom env fs done rest).2 = none ∧
      ∀ q, stat (mkdirAllFrom env fs done rest).1 q =
        if q <+: done ++ rest then some Node.dir else stat fs q := by
  induction rest with
  | nil =>
    intro fs done hdone _
    refine ⟨rfl, fun q => ?_⟩
    simp only [mkdirAllFrom, List.append_nil]
    split
    · rename_i hq; exact hdone q hq
    · rfl
  | cons s rest ih =>
    intro fs done hdone hno
    have happ : done ++ [s] ++ rest = done ++ s :: rest := by simp
    have hpre : done ++ [s] <+: done ++ s :: rest := by
      rw [← happ]; exact List.prefix_append _ _
    have hdone2 : ∀ fs2 : FS, (∀ q, q <+: done → stat fs2 q = some Node.dir) →
        stat fs2 (done ++ [s]) = some Node.dir →
        ∀ q, q <+: done ++ [s] → stat fs2 q = some Node.dir := by
      intro fs2 h1 h2 q hq
      rcases List.prefix_concat_iff.mp hq with h3 | h3
      · rw [h3]; exact h2
      · exact h1 q h3
    unfold mkdirAllFrom
    split
    · rename_i hst
      have := ih fs (done ++ [s]) (hdone2 fs hdone hst) (by rw [happ]; exact hno)
      rw [happ] at this
      exact this
    · rename_i c hst
      exact absurd hst (hno _ hpre c)
    · rename_i hst
      rw [hmk]
      simp only [Bool.false_eq_true, if_false]
      have hne : ∀ q, q <+: done → ¬ done ++ [s] = q := by
        intro q hq heq
        have := hq.length_le
        rw [← heq] at this
        simp at this
      have h1 : ∀ q, q <+: done → stat ((done ++ [s], Node.dir) :: fs) q = some Node.dir := by
        intro q hq
        rw [stat_cons]
        by_cases hq0 : q = []
        · simp [hq0]
        · rw [if_neg hq0, if_neg (hne q hq)]
          exact hdone q hq
      have h2 : stat ((done ++ [s], Node.dir) :: fs) (done ++ [s]) = some Node.dir := by
        rw [stat_cons]; simp
      have h3 : ∀ q, q <+: done ++ [s] ++ rest → ∀ c,
          stat ((done ++ [s], Node.dir) :: fs) q ≠ some (Node.file c) := by
        intro q hq c hst2
        rw [stat_cons] at hst2
        by_cases hq0 : q = []
        · simp [hq0] at hst2
        · rw [if_neg hq0] at hst2
          by_cases hq1 : done ++ [s] = q
          · rw [if_pos hq1] at hst2; cases hst2
          · rw [if_neg hq1] at hst2
            rw [happ] at hq
            exact hno q hq c hst2
      have := ih ((done ++ [s], Node.dir) :: fs) (done ++ [s])
        (hdone2 _ h1 h2) h3
      rw [happ] at this
      refine ⟨this.1, fun q => ?_⟩
      rw [this.2 q]
      split
      · rfl
      · rename_i hq
        rw [stat_cons]
        by_cases hq0 : q = []
        · subst hq0; exact absurd (List.nil_prefix) hq
        · rw [if_neg hq0]
          by_cases hq1 : done ++ [s] = q
          · rw [← hq1] at hq; exact absurd hpre hq
          · rw [if_neg hq1]

theorem mkdirAll_ok (env : Env) (hmk : ∀ p, env.failMkdir p = false) (fs : FS) (p : Path)
    (hno : ∀ q, q <+: p → ∀ c, stat fs q ≠ some (Node.file c)) :
    (mkdirAll env fs p).2 = none ∧
    ∀ q, stat (mkdirAll env fs p).1 q = if q <+: p then some Node.dir else stat fs q := by
  have := mkdirAllFrom_ok env hmk p fs []
    (fun q hq => by rw [List.prefix_nil.mp hq]; exact stat_root fs)
    (by simpa using hno)
  simpa [mkdirAll] using this

/-- With no failure from outside, `os.Rename` moves a file to a path that is no directory
and whose parent is one. -/
theorem osRename_file_ok (env : Env) (hrn : ∀ p, env.failRename p = false) (fs : FS)
    (s t : Path) (c : Content) (hs : stat fs s = some (Node.file c))
    (ht : isDir fs t = false) (hd : isDir fs (dir t) = true) (hne : s ≠ t) :
    osRename env fs s t = Except.ok (setNode (eraseNode fs s) t (Node.file c)) := by
  unfold osRename
  rw [hrn, hs]
  simp [ht, hd, hne]

theorem stat_removeAll (fs : FS) (p q : Path) :
    stat (removeAll fs p) q =
      if q = [] then some Node.dir else if p <+: q then none else stat fs q := by
  by_cases hq : q = []
  · simp [hq, stat]
  · rw [if_neg hq]
    unfold removeAll stat
    rw [if_neg hq, if_neg hq]
    induction fs with
    | nil => simp
    | cons e fs ih =>
      by_cases he : e.1 = q
      · by_cases hp : p <+: q
        · have h1 : (!isAncestorOrSelf p e.1) = false := by
            rw [he]; simp [(isAncestorOrSelf_iff p q).mpr hp]
          rw [List.filter_cons, h1]
          simp only [Bool.false_eq_true, if_false]
          rw [ih, if_pos hp, if_pos hp]
        · have h1 : (!isAncestorOrSelf p e.1) = true := by
            rw [he]
            cases hh : isAncestorOrSelf p q with
            | false => rfl
            | true => exact absurd ((isAncestorOrSelf_iff p q).mp hh) hp
          rw [List.filter_cons, h1]
          simp only [if_true, if_neg hp]
          have hb : (e.1 == q) = true := by simpa using he
          simp [List.find?, hb]
      · have hb : (e.1 == q) = false := by simpa using he
        have hf : List.find? (fun e => e.1 == q) (e :: fs) =
            List.find? (fun e => e.1 == q) fs := by
          simp [List.find?, hb]
        rw [hf, List.filter_cons]
        by_cases hk : (!isAncestorOrSelf p e.1) = true
        · rw [if_pos hk]
          have hf2 : List.find? (fun e => e.1 == q)
              (e :: List.filter (fun e => !isAncestorOrSelf p e.1) fs) =
              List.find? (fun e => e.1 == q)
                (List.filter (fun e => !isAncestorOrSelf p e.1) fs) := by
            simp [List.find?, hb]
          rw [hf2]
          exact ih
        · rw [if_neg hk]
          exact ih
/-! ## Moving the files of a folder into an empty folder -/

theorem isFile_of_stat_file {fs : FS} {p : Path} {c : Content}
    (h : stat fs p = some (Node.file c)) : isFile fs p = true := by
  unfold isFile; rw [h]

theorem stat_file_of_isFile {fs : FS} {p : Path} (h : isFile fs p = true) :
    ∃ c, stat fs p = some (Node.file c) := by
  unfold isFile at h
  split at h
  · rename_i c hc; exact ⟨c, hc⟩
  · cases h

/-- In a tree no file lies above another entry. -/
theorem tree_file_prefix {fs : FS} (htree : treeOk fs = true) (s : Path) (r1 r2 : List String)
    (h1 : isFile fs (s ++ r1) = true) (h2 : (stat fs (s ++ r2)).isSome = true)
    (hp : r1 <+: r2) : r1 = r2 := by
  by_contra hne
  have hd := tree_ancestor_isDir htree h2
    ((List.prefix_append_right_inj s).mpr hp) (fun h => hne (List.append_cancel_left h))
  obtain ⟨c, hc⟩ := stat_file_of_isFile h1
  rw [stat_of_isDir hd] at hc
  cases hc

theorem dir_append (b : Path) (r : List String) (hr : r ≠ []) :
    dir (b ++ r) = b ++ r.dropLast := by
  unfold dir
  exact List.dropLast_append_of_ne_nil _ hr

theorem prefix_dir_iff (q p : Path) (hp : p ≠ []) : q <+: dir p ↔ (q <+: p ∧ q ≠ p) := by
  constructor
  · intro h
    have hd : dir p <+: p := List.dropLast_prefix p
    refine ⟨h.trans hd, ?_⟩
    intro heq
    subst heq
    have := h.length_le
    unfold dir at this
    rw [List.length_dropLast] at this
    have := List.length_pos.mpr hp
    omega
  · rintro ⟨h, hne⟩
    exact prefix_dropLast_of_ne h hne

/-- One round of the loop of `move` over the map `files`, for a file `s/r` that goes to
`b/r`: the round succeeds and keeps the invariant of the loop. -/
theorem move_step (env : Env) (hmk : ∀ p, env.failMkdir p = false)
    (hrn : ∀ p, env.failRename p = false)
    (fs0 : FS) (htree : treeOk fs0 = true) (s b : Path)
    (hdisj : ∀ q, s <+: q → b <+: q → False)
    (hanc : ∀ q, q <+: b → q ≠ b → stat fs0 q = some Node.dir ∧ ¬ s <+: q)
    (done : List (List String)) (fs : FS)
    (h0 : isDir fs b = true)
    (h1 : ∀ q, ¬ b <+: q → (∀ r ∈ done, q ≠ s ++ r) → stat fs q = stat fs0 q)
    (h2 : ∀ r ∈ done, stat fs (s ++ r) = none)
    (h3 : ∀ r ∈ done, stat fs (b ++ r) = stat fs0 (s ++ r))
    (h4 : ∀ q, b <+: q → q ≠ b → (stat fs q).isSome = true → ∃ r ∈ done, q <+: b ++ r)
    (h5 : ∀ r ∈ done, ∀ q, b <+: q → q <+: b ++ r → q ≠ b ++ r → isDir fs q = true)
    (h6 : ∀ r ∈ done, isFile fs0 (s ++ r) = true)
    (r : List String) (c : Content) (hr : r ≠ [])
    (hrf : stat fs0 (s ++ r) = some (Node.file c)) (hrd : r ∉ done) :
    stat fs (s ++ r) = some (Node.file c) ∧
    (mkdirAll env fs (dir (b ++ r))).2 = none ∧
    osRename env (mkdirAll env fs (dir (b ++ r))).1 (s ++ r) (b ++ r) =
      Except.ok (setNode (eraseNode (mkdirAll env fs (dir (b ++ r))).1 (s ++ r)) (b ++ r)
        (Node.file c)) ∧
    (isDir (setNode (eraseNode (mkdirAll env fs (dir (b ++ r))).1 (s ++ r)) (b ++ r)
        (Node.file c)) b = true ∧
     (∀ q, ¬ b <+: q → (∀ r1 ∈ r :: done, q ≠ s ++ r1) →
        stat (setNode (eraseNode (mkdirAll env fs (dir (b ++ r))).1 (s ++ r)) (b ++ r)
          (Node.file c)) q = stat fs0 q) ∧
     (∀ r1 ∈ r :: done,
        stat (setNode (eraseNode (mkdirAll env fs (dir (b ++ r))).1 (s ++ r)) (b ++ r)
          (Node.file c)) (s ++ r1) = none) ∧
     (∀ r1 ∈ r :: done,
        stat (setNode (eraseNode (mkdirAll env fs (dir (b ++ r))).1 (s ++ r)) (b ++ r)
          (Node.file c)) (b ++ r1) = stat fs0 (s ++ r1)) ∧
     (∀ q, b <+: q → q ≠ b →
        (stat (setNode (eraseNode (mkdirAll env fs (dir (b ++ r))).1 (s ++ r)) (b ++ r)
          (Node.file c)) q).isSome = true → ∃ r1 ∈ r :: done, q <+: b ++ r1) ∧
     (∀ r1 ∈ r :: done, ∀ q, b <+: q → q <+: b ++ r1 → q ≠ b ++ r1 →
        isDir (setNode (eraseNode (mkdirAll env fs (dir (b ++ r))).1 (s ++ r)) (b ++ r)
          (Node.file c)) q = true)) := by
  -- facts about the paths
  have hsr0 : s ++ r ≠ [] := by
    intro h; exact hr (List.append_eq_nil.mp h).2
  have hbr0 : b ++ r ≠ [] := by
    intro h; exact hr (List.append_eq_nil.mp h).2
  have hb_br : b <+: b ++ r := List.prefix_append _ _
  have hs_sr : ∀ x, s <+: s ++ x := fun x => List.prefix_append _ _
  have hnb_s : ∀ x, ¬ b <+: s ++ x := fun x hx => hdisj _ (hs_sr x) hx
  have hns_b : ∀ x, ¬ s <+: b ++ x := fun x hx => hdisj _ hx (List.prefix_append _ _)
  have hne_sb : ∀ x y, s ++ x ≠ b ++ y := by
    intro x y h
    exact hnb_s x (by rw [h]; exact List.prefix_append _ _)
  have hrsome : (stat fs0 (s ++ r)).isSome = true := by rw [hrf]; rfl
  have hfile_r : isFile fs0 (s ++ r) = true := isFile_of_stat_file hrf
  -- the source is still there
  have hsrc : stat fs (s ++ r) = some (Node.file c) := by
    rw [h1 (s ++ r) (hnb_s r) (fun r1 hr1 heq =>
      hrd (by rw [List.append_cancel_left heq]; exact hr1))]
    exact hrf
  -- the proper ancestors of `b` are directories
  have hancfs : ∀ q, q <+: b → q ≠ b → stat fs q = some Node.dir := by
    intro q hq hne
    have hnb : ¬ b <+: q := by
      intro hbq
      exact hne (List.IsPrefix.eq_of_length hq (Nat.le_antisymm hq.length_le hbq.length_le))
    rw [h1 q hnb (fun r1 _ heq => (hanc q hq hne).2 (by rw [heq]; exact hs_sr r1))]
    exact (hanc q hq hne).1
  -- no file is in the way of MkdirAll
  have hnofile : ∀ q, q <+: dir (b ++ r) → ∀ c1, stat fs q ≠ some (Node.file c1) := by
    intro q hq c1 hst
    obtain ⟨hq1, hq2⟩ := (prefix_dir_iff q (b ++ r) hbr0).mp hq
    rcases List.prefix_or_prefix_of_prefix hq1 hb_br with hqb | hbq
    · by_cases hqeq : q = b
      · rw [hqeq, stat_of_isDir h0] at hst; cases hst
      · rw [hancfs q hqb hqeq] at hst; cases hst
    · by_cases hqeq : q = b
      · rw [hqeq, stat_of_isDir h0] at hst; cases hst
      · obtain ⟨r1, hr1, hq3⟩ := h4 q hbq hqeq (by rw [hst]; rfl)
        by_cases hq4 : q = b ++ r1
        · -- a moved file above the new target
          rw [hq4] at hq1 hq2
          have hp : r1 <+: r := (List.prefix_append_right_inj b).mp hq1
          have := tree_file_prefix htree s r1 r (h6 r1 hr1) hrsome hp
          exact hq2 (by rw [this])
        · have := h5 r1 hr1 q hbq hq3 hq4
          rw [stat_of_isDir this] at hst; cases hst
  obtain ⟨hmk1, hmk2⟩ := mkdirAll_ok env hmk fs (dir (b ++ r)) hnofile
  -- the target is no directory
  have htgt_fs : isDir fs (b ++ r) = false := by
    cases hd : isDir fs (b ++ r) with
    | false => rfl
    | true =>
      exfalso
      obtain ⟨r1, hr1, hq3⟩ := h4 (b ++ r) hb_br
        (fun h => hr (by simpa using h)) (isDir_isSome hd)
      have hp : r <+: r1 := (List.prefix_append_right_inj b).mp hq3
      have hs1 : (stat fs0 (s ++ r1)).isSome = true := by
        obtain ⟨c1, hc1⟩ := stat_file_of_isFile (h6 r1 hr1)
        rw [hc1]; rfl
      have := tree_file_prefix htree s r r1 hfile_r hs1 hp
      exact hrd (by rw [this]; exact hr1)
  have hnot_pre : ¬ (b ++ r) <+: dir (b ++ r) := by
    intro h
    exact ((prefix_dir_iff _ _ hbr0).mp h).2 rfl
  have htgt : isDir (mkdirAll env fs (dir (b ++ r))).1 (b ++ r) = false := by
    unfold isDir
    rw [hmk2, if_neg hnot_pre]
    exact htgt_fs
  have hdirt : isDir (mkdirAll env fs (dir (b ++ r))).1 (dir (b ++ r)) = true := by
    unfold isDir
    rw [hmk2, if_pos (List.prefix_refl _)]
  have hsrc1 : stat (mkdirAll env fs (dir (b ++ r))).1 (s ++ r) = some (Node.file c) :=
    mkdirAll_keeps env fs _ _ _ hsrc
  have hren := osRename_file_ok env hrn _ (s ++ r) (b ++ r) c hsrc1 htgt hdirt (hne_sb r r)
  -- the file system after the round
  have hst2 : ∀ q, q ≠ [] →
      stat (setNode (eraseNode (mkdirAll env fs (dir (b ++ r))).1 (s ++ r)) (b ++ r)
        (Node.file c)) q =
        if q = b ++ r then some (Node.file c) else if q = s ++ r then none
        else if q <+: dir (b ++ r) then some Node.dir else stat fs q := by
    intro q hq
    rw [stat_setNode, if_neg hq, stat_eraseNode, if_neg hq, hmk2]
  refine ⟨hsrc, hmk1, hren, ?_, ?_, ?_, ?_, ?_, ?_⟩
  · -- b is a directory
    have hb0 : b ≠ [] := by
      intro hb; subst hb; exact hdisj s (List.prefix_refl _) List.nil_prefix
    unfold isDir
    rw [hst2 b hb0, if_neg (fun h => hr (by simpa using h)),
      if_neg (fun h => hne_sb r [] (by rw [List.append_nil]; exact h.symm)),
      if_pos ((prefix_dir_iff b _ hbr0).mpr ⟨hb_br, fun h => hr (by simpa using h)⟩)]
  · -- outside b
    intro q hnb hns
    by_cases hq : q = []
    · subst hq; rw [stat_root, stat_root]
    · rw [hst2 q hq, if_neg (fun h => hnb (by rw [h]; exact hb_br)),
        if_neg (hns r (List.mem_cons_self _ _))]
      split
      · rename_i hpre
        obtain ⟨hq1, hq2⟩ := (prefix_dir_iff q (b ++ r) hbr0).mp hpre
        rcases List.prefix_or_prefix_of_prefix hq1 hb_br with hqb | hbq
        · have hqne : q ≠ b := fun h => hnb (by rw [h])
          exact (hanc q hqb hqne).1.symm
        · exact absurd hbq hnb
      · exact h1 q hnb (fun r1 hr1 => hns r1 (List.mem_cons_of_mem _ hr1))
  · -- the sources moved so far are gone
    intro r1 hr1
    have hq : s ++ r1 ≠ [] := by
      intro h
      have hs0 : s = [] := (List.append_eq_nil.mp h).1
      exact hdisj b (by rw [hs0]; exact List.nil_prefix) (List.prefix_refl _)
    rw [hst2 _ hq, if_neg (hne_sb r1 r)]
    rcases List.mem_cons.mp hr1 with h | h
    · rw [h, if_pos rfl]
    · by_cases heq : s ++ r1 = s ++ r
      · rw [if_pos heq]
      · rw [if_neg heq, if_neg (fun hp =>
          hns_b r.dropLast (by rw [← dir_append b r hr]; exact (hs_sr r1).trans hp))]
        exact h2 r1 h
  · -- the files moved so far are in b
    intro r1 hr1
    have hq : b ++ r1 ≠ [] := by
      intro h
      have hb0 : b = [] := (List.append_eq_nil.mp h).1
      exact hdisj s (List.prefix_refl _) (by rw [hb0]; exact List.nil_prefix)
    rw [hst2 _ hq]
    rcases List.mem_cons.mp hr1 with h | h
    · rw [h, if_pos rfl]; exact hrf.symm
    · have hne1 : r1 ≠ r := fun h1 => hrd (by rw [← h1]; exact h)
      rw [if_neg (fun he => hne1 (List.append_cancel_left he)),
        if_neg (fun he => hne_sb r r1 he.symm)]
      have hnp : ¬ (b ++ r1) <+: dir (b ++ r) := by
        intro hp
        obtain ⟨hp1, hp2⟩ := (prefix_dir_iff _ _ hbr0).mp hp
        have := tree_file_prefix htree s r1 r (h6 r1 h) hrsome
          ((List.prefix_append_right_inj b).mp hp1)
        exact hne1 this
      rw [if_neg hnp]
      exact h3 r1 h
  · -- every entry below b is above a moved file
    intro q hbq hqb hsome
    have hq : q ≠ [] := by
      intro h; subst h
      exact hqb (List.prefix_nil.mp hbq).symm
    rw [hst2 q hq] at hsome
    by_cases hq1 : q = b ++ r
    · exact ⟨r, List.mem_cons_self _ _, by rw [hq1]⟩
    · rw [if_neg hq1] at hsome
      by_cases hq2 : q = s ++ r
      · rw [if_pos hq2] at hsome; cases hsome
      · rw [if_neg hq2] at hsome
        by_cases hq3 : q <+: dir (b ++ r)
        · exact ⟨r, List.mem_cons_self _ _, ((prefix_dir_iff _ _ hbr0).mp hq3).1⟩
        · rw [if_neg hq3] at hsome
          obtain ⟨r1, hr1, hp⟩ := h4 q hbq hqb hsome
          exact ⟨r1, List.mem_cons_of_mem _ hr1, hp⟩
  · -- what lies above a moved file is a directory
    intro r1 hr1 q hbq hq1 hq2
    have hq : q ≠ [] := by
      intro h; subst h
      have hb0 : b = [] := List.prefix_nil.mp hbq
      exact hdisj s (List.prefix_refl _) (by rw [hb0]; exact List.nil_prefix)
    have hr1file : isFile fs0 (s ++ r1) = true := by
      rcases List.mem_cons.mp hr1 with h | h
      · rw [h]; exact hfile_r
      · exact h6 r1 h
    have hr1some : (stat fs0 (s ++ r1)).isSome = true := by
      obtain ⟨c1, hc1⟩ := stat_file_of_isFile hr1file
      rw [hc1]; rfl
    obtain ⟨x, hx⟩ := hbq
    have hqne : q ≠ b ++ r := by
      intro heq
      rw [heq] at hq1 hq2
      have := tree_file_prefix htree s r r1 hfile_r hr1some
        ((List.prefix_append_right_inj b).mp hq1)
      exact hq2 (by rw [this])
    have hqns : q ≠ s ++ r := by
      intro heq
      exact hnb_s r (by rw [← heq, ← hx]; exact List.prefix_append _ _)
    apply isDir_of_stat_dir
    rw [hst2 q hq, if_neg hqne, if_neg hqns]
    by_cases hnp : q <+: dir (b ++ r)
    · rw [if_pos hnp]
    · rw [if_neg hnp]
      rcases List.mem_cons.mp hr1 with h | h
      · rw [h] at hq1 hq2
        exact absurd ((prefix_dir_iff _ _ hbr0).mpr ⟨hq1, hq2⟩) hnp
      · exact stat_of_isDir (h5 r1 h q ⟨x, hx⟩ hq1 hq2)
/-- The loop of `move` over the map `files`, for the files `s/r` of a tree that go to
`b/r`, with nothing failing from outside: the loop succeeds, every file is then at its
destination and no longer at its source, and nothing else outside `b` has changed. -/
theorem moveFiles_into (env : Env) (hmk : ∀ p, env.failMkdir p = false)
    (hrn : ∀ p, env.failRename p = false) (hex : ∀ k, env.failExec k = false)
    (fs0 : FS) (htree : treeOk fs0 = true) (s b : Path)
    (hdisj : ∀ q, s <+: q → b <+: q → False)
    (hanc : ∀ q, q <+: b → q ≠ b → stat fs0 q = some Node.dir ∧ ¬ s <+: q)
    (files : Plan) :
    ∀ (rs : List (List String)) (done : List (List String)) (w : World),
      (∀ r ∈ rs, r ≠ [] ∧ isFile fs0 (s ++ r) = true ∧ r ∉ done) → rs.Nodup →
      isDir w.fs b = true →
      (∀ q, ¬ b <+: q → (∀ r ∈ done, q ≠ s ++ r) → stat w.fs q = stat fs0 q) →
      (∀ r ∈ done, stat w.fs (s ++ r) = none) →
      (∀ r ∈ done, stat w.fs (b ++ r) = stat fs0 (s ++ r)) →
      (∀ q, b <+: q → q ≠ b → (stat w.fs q).isSome = true → ∃ r ∈ done, q <+: b ++ r) →
      (∀ r ∈ done, ∀ q, b <+: q → q <+: b ++ r → q ≠ b ++ r → isDir w.fs q = true) →
      (∀ r ∈ done, isFile fs0 (s ++ r) = true) →
      ∃ w1, moveFiles env files w (rs.map (fun r => (s ++ r, b ++ r))) = (w1, none) ∧
        (∀ q, ¬ b <+: q → (∀ r, r ∈ rs ∨ r ∈ done → q ≠ s ++ r) →
          stat w1.fs q = stat fs0 q) ∧
        (∀ r, r ∈ rs ∨ r ∈ done → stat w1.fs (s ++ r) = none) ∧
        (∀ r, r ∈ rs ∨ r ∈ done → stat w1.fs (b ++ r) = stat fs0 (s ++ r)) := by
  intro rs
  induction rs with
  | nil =>
    intro done w _ _ _ h1 h2 h3 _ _ _
    refine ⟨w, rfl, ?_, ?_, ?_⟩
    · intro q hq hn
      exact h1 q hq (fun r hr => hn r (Or.inr hr))
    · intro r hr
      rcases hr with hr | hr
      · cases hr
      · exact h2 r hr
    · intro r hr
      rcases hr with hr | hr
      · cases hr
      · exact h3 r hr
  | cons r rs ih =>
    intro done w hrs hnd h0 h1 h2 h3 h4 h5 h6
    obtain ⟨hr0, hrfile, hrd⟩ := hrs r (List.mem_cons_self _ _)
    obtain ⟨c, hc⟩ := stat_file_of_isFile hrfile
    obtain ⟨hsrc, hmk1, hren, k0, k1, k2, k3, k4, k5⟩ :=
      move_step env hmk hrn fs0 htree s b hdisj hanc done w.fs h0 h1 h2 h3 h4 h5 h6 r c
        hr0 hc hrd
    have hnd2 := List.nodup_cons.mp hnd
    have hrs2 : ∀ r1 ∈ rs, r1 ≠ [] ∧ isFile fs0 (s ++ r1) = true ∧ r1 ∉ r :: done := by
      intro r1 hr1
      obtain ⟨a1, a2, a3⟩ := hrs r1 (List.mem_cons_of_mem _ hr1)
      refine ⟨a1, a2, ?_⟩
      intro hm
      rcases List.mem_cons.mp hm with h | h
      · exact hnd2.1 (by rw [← h]; exact hr1)
      · exact a3 h
    have k6 : ∀ r1 ∈ r :: done, isFile fs0 (s ++ r1) = true := by
      intro r1 hr1
      rcases List.mem_cons.mp hr1 with h | h
      · rw [h]; exact hrfile
      · exact h6 r1 h
    obtain ⟨db1, hdb⟩ : ∃ db1, execMoveUpdate env w.db (pathString (b ++ r))
        (pathString (dir (b ++ r))) (makePresetPath (base (b ++ r)))
        (pathString (s ++ r)) = Except.ok db1 := by
      unfold execMoveUpdate
      rw [hex]
      exact ⟨_, rfl⟩
    obtain ⟨w1, hw1, e1, e2, e3⟩ := ih (r :: done)
      { w with fs := (setNode (eraseNode (mkdirAll env w.fs (dir (b ++ r))).1 (s ++ r))
          (b ++ r) (Node.file c)), db := db1 }
      hrs2 hnd2.2 k0 k1 k2 k3 k4 k5 k6
    refine ⟨w1, ?_, ?_, ?_, ?_⟩
    · rw [List.map_cons]
      unfold moveFiles
      rw [hsrc]
      simp only
      cases hm : mkdirAll env w.fs (dir (b ++ r)) with
      | mk fs1 res =>
        rw [hm] at hmk1 hren hw1
        simp only at hmk1 hren hw1
        subst hmk1
        simp only
        rw [hren]
        simp only
        rw [hdb]
        exact hw1
    · intro q hq hn
      apply e1 q hq
      intro r1 hr1
      rcases hr1 with h | h
      · exact hn r1 (Or.inl (List.mem_cons_of_mem _ h))
      · rcases List.mem_cons.mp h with h | h
        · exact hn r1 (Or.inl (by rw [h]; exact List.mem_cons_self _ _))
        · exact hn r1 (Or.inr h)
    · intro r1 hr1
      apply e2
      rcases hr1 with h | h
      · rcases List.mem_cons.mp h with h | h
        · exact Or.inr (by rw [h]; exact List.mem_cons_self _ _)
        · exact Or.inl h
      · exact Or.inr (List.mem_cons_of_mem _ h)
    · intro r1 hr1
      apply e3
      rcases hr1 with h | h
      · rcases List.mem_cons.mp h with h | h
        · exact Or.inr (by rw [h]; exact List.mem_cons_self _ _)
        · exact Or.inl h
      · exact Or.inr (List.mem_cons_of_mem _ h)
/-! ## The plan of `move` for a folder that goes into an empty folder -/

theorem isEmpty_flat_true (fs : FS) (b : Path) (hb : hasMeta (pathString b) = false)
    (hdir : isDir fs b = true) (hnone : ∀ n, stat fs (b ++ [n]) = none) :
    isEmpty fs b false = true := by
  unfold isEmpty
  rw [if_pos hdir]
  simp only [Bool.not_false, if_true, Bool.and_eq_true, Bool.not_eq_true']
  refine ⟨globErr_star fs b hb, ?_⟩
  rw [glob_star fs b hb, if_pos hdir]
  have : readDirNames fs b = [] := by
    cases hrd : readDirNames fs b with
    | nil => rfl
    | cons n rest =>
      have hn : n ∈ readDirNames fs b := by rw [hrd]; exact List.mem_cons_self _ _
      have := stat_of_mem ((mem_readDirNames fs b n).mp hn)
      rw [hnone n] at this
      cases this
  rw [this]
  rfl

theorem isEmpty_flat_false (fs : FS) (hfs : namesOk fs = true) (b : Path)
    (hb : hasMeta (pathString b) = false) (hdir : isDir fs b = true) (n : String)
    (hn : (stat fs (b ++ [n])).isSome = true) :
    isEmpty fs b false = false := by
  have hmem : (b ++ [n]) ∈ glob fs (b ++ ["*"]) :=
    (mem_glob_star fs hfs b hb hdir _).mpr ⟨mem_keys_of_stat (by simp) hn, n, rfl⟩
  unfold isEmpty
  rw [if_pos hdir]
  simp only [Bool.not_false, if_true]
  cases hg : glob fs (b ++ ["*"]) with
  | nil => rw [hg] at hmem; cases hmem
  | cons x rest => simp

/-- A tree has no entry below a directory without entries in it. -/
theorem tree_no_descendant {fs : FS} (htree : treeOk fs = true) (b : Path)
    (hnone : ∀ n, stat fs (b ++ [n]) = none) (x : List String) (hx : x ≠ []) :
    stat fs (b ++ x) = none := by
  cases x with
  | nil => exact absurd rfl hx
  | cons n rest =>
    cases hst : stat fs (b ++ n :: rest) with
    | none => rfl
    | some nd =>
      exfalso
      have hsome : (stat fs (b ++ n :: rest)).isSome = true := by rw [hst]; rfl
      have hpre : b ++ [n] <+: b ++ n :: rest :=
        (List.prefix_append_right_inj b).mpr ⟨rest, rfl⟩
      by_cases heq : b ++ [n] = b ++ n :: rest
      · rw [← heq, hnone n] at hst; cases hst
      · have := stat_of_isDir (tree_ancestor_isDir htree hsome hpre heq)
        rw [hnone n] at this
        cases this

theorem mem_foldl_planSet (f : Path → Path) (found : List Path) :
    ∀ (files : Plan) (e : Path × Path),
      e ∈ found.foldl (fun files m => planSet files m (f m)) files →
        e ∈ files ∨ (e.1 ∈ found ∧ e.2 = f e.1) := by
  have hset : ∀ (files : Plan) (k v : Path) (e : Path × Path),
      e ∈ planSet files k v → e ∈ files ∨ e = (k, v) := by
    intro files
    induction files with
    | nil =>
      intro k v e he
      simp only [planSet, List.mem_singleton] at he
      exact Or.inr he
    | cons a files ih =>
      intro k v e he
      obtain ⟨k0, v0⟩ := a
      unfold planSet at he
      split at he
      · rcases List.mem_cons.mp he with h | h
        · exact Or.inr h
        · exact Or.inl (List.mem_cons_of_mem _ h)
      · rcases List.mem_cons.mp he with h | h
        · exact Or.inl (by rw [h]; exact List.mem_cons_self _ _)
        · rcases ih k v e h with h1 | h1
          · exact Or.inl (List.mem_cons_of_mem _ h1)
          · exact Or.inr h1
  induction found with
  | nil => intro files e he; exact Or.inl he
  | cons m found ih =>
    intro files e he
    rw [List.foldl_cons] at he
    rcases ih _ e he with h | ⟨h1, h2⟩
    · rcases hset files m (f m) e h with h3 | h3
      · exact Or.inl h3
      · right
        rw [h3]
        exact ⟨List.mem_cons_self _ _, rfl⟩
    · exact Or.inr ⟨List.mem_cons_of_mem _ h1, h2⟩

theorem planSet_keys_nodup (files : Plan) (k v : Path)
    (h : (files.map (fun e => e.1)).Nodup) :
    ((planSet files k v).map (fun e => e.1)).Nodup := by
  induction files with
  | nil => simp [planSet]
  | cons a files ih =>
    obtain ⟨k0, v0⟩ := a
    rw [List.map_cons, List.nodup_cons] at h
    unfold planSet
    split
    · rename_i heq
      rw [List.map_cons, List.nodup_cons]
      simp only at heq ⊢
      rw [← heq]
      exact h
    · rename_i hne
      rw [List.map_cons, List.nodup_cons]
      refine ⟨?_, ih h.2⟩
      intro hm
      rcases (mem_keys_planSet files k v _).mp hm with h1 | h1
      · exact hne h1
      · exact h.1 h1

theorem foldl_planSet_keys_nodup (f : Path → Path) (found : List Path) :
    ∀ (files : Plan), (files.map (fun e => e.1)).Nodup →
      ((found.foldl (fun files m => planSet files m (f m)) files).map (fun e => e.1)).Nodup := by
  induction found with
  | nil => intro files h; exact h
  | cons m found ih =>
    intro files h
    rw [List.foldl_cons]
    exact ih _ (planSet_keys_nodup files m (f m) h)

/-- The loop of `move` that fills the map `files`, when the folder below the target that
has the name of the source is an empty directory: every match below the parent of the
source gets the target joined with its path below that parent. -/
theorem movePlan_into (env : Env) (s t : Path) (fs : FS)
    (htv : isValidPresetFolderName t = true)
    (hanc : ∀ a ∈ ancestors t, isDir fs a = true)
    (hb : isDir fs (join t (base s)) = true)
    (hem : isEmpty fs (join t (base s)) false = true) :
    ∀ (found : List Path) (files : Plan),
      (∀ m ∈ found, ∃ rel, m = dir s ++ rel ∧ ∀ x ∈ rel, isSegment x = true) →
      movePlan env s t true found (fs, files) =
        (fs, Except.ok (found.foldl
          (fun files m => planSet files m (t ++ m.drop (dir s).length)) files)) := by
  have ht : isDir fs t = true := hanc t (self_mem_ancestors t)
  intro found
  induction found with
  | nil => intro files _; rfl
  | cons m found ih =>
    intro files hf
    obtain ⟨rel, hm, hseg⟩ := hf m (List.mem_cons_self _ _)
    have hrel : relocate t s m = some (t ++ m.drop (dir s).length) := by
      rw [hm, relocate_eq t s rel hseg, List.drop_left]
    unfold movePlan
    simp only [htv, if_true, mkdirAll_noop env fs t hanc, ht, hb, hem, hrel]
    rw [List.foldl_cons]
    exact ih _ (fun x hx => hf x (List.mem_cons_of_mem _ hx))
theorem indexL_nonneg_of_suffix (sub : List Char) :
    ∀ front : List Char, 0 ≤ indexL (front ++ sub) sub := by
  intro front
  induction front with
  | nil =>
    cases sub with
    | nil => simp [indexL]
    | cons d t =>
      have h2 : hasPrefixL (d :: t) (d :: t) = true := by
        have := hasPrefixL_self_append (d :: t) []
        simpa using this
      simp [indexL, h2]
  | cons c front ih =>
    show 0 ≤ indexL (c :: (front ++ sub)) sub
    unfold indexL
    split
    · exact Int.le_refl 0
    · simp only
      split
      · rename_i h; omega
      · omega

/-- A path under a presets folder that holds no preset extension is not named as a
preset. -/
theorem isValidPresetName_of_folderName {fs : FS} {p : Path}
    (hv : isValidPresetFolderName p = true) (hin : isInPresetsFolder fs p = true) :
    isValidPresetName p = false := by
  cases h : isValidPresetName p with
  | false => rfl
  | true =>
    exfalso
    have hlen := pathString_length_of_presets hin
    have := (isValidPresetNameS_iff (pathString p) (by omega)).mp h
    unfold isValidPresetFolderName isValidPresetFolderNameS strIndex at hv
    rw [Bool.and_eq_true] at hv
    rcases this.2 with ⟨front, hf⟩ | ⟨front, hf⟩
    · have h1 := indexL_nonneg_of_suffix PresetExtension.data front
      rw [hf] at h1
      have h2 : indexL (pathString p).data PresetExtension.data = -1 := by simpa using hv.1
      omega
    · have h1 := indexL_nonneg_of_suffix PresetExtension4.data front
      rw [hf] at h1
      have h2 : indexL (pathString p).data PresetExtension4.data = -1 := by simpa using hv.2
      omega

theorem foldl_last_true (f : Path → Bool) :
    ∀ (l : List Path) (b : Bool), b = true → (∀ p ∈ l, f p = true) →
      l.foldl (fun _ p => f p) b = true := by
  intro l
  induction l with
  | nil => intro b hb _; exact hb
  | cons a l ih =>
    intro b _ h
    rw [List.foldl_cons]
    exact ih _ (h a (List.mem_cons_self _ _)) (fun p hp => h p (List.mem_cons_of_mem _ hp))

/-- The recursive form of `isEmpty` holds of a directory with only directories below
it. -/
theorem isEmpty_recursive_true (fs : FS) (s : Path) (hs : isDir fs s = true)
    (hall : ∀ p, (stat fs p).isSome = true → s <+: p → isDir fs p = true) :
    isEmpty fs s true = true := by
  unfold isEmpty
  rw [if_pos hs]
  simp only [Bool.not_true, Bool.false_eq_true, if_false]
  apply foldl_last_true (fun p => isDir fs p) _ true rfl
  intro p hp
  rcases (mem_walk fs s p).mp hp with ⟨_, h | ⟨h1, h2, _⟩⟩
  · rw [h]; exact hs
  · exact hall p (stat_of_mem h1) h2

theorem isInPresetsFolder_ne_nil {fs : FS} {p : Path} (h : isInPresetsFolder fs p = true) :
    p ≠ [] := by
  intro h0
  subst h0
  obtain ⟨r, hr, _⟩ := (isInPresetsFolder_iff fs []).mp h
  have := List.prefix_nil.mp hr
  simp at this

theorem dir_append_base (p : Path) (hp : p ≠ []) : dir p ++ [base p] = p := by
  unfold dir base
  rw [List.getLast?_eq_getLast _ hp]
  exact List.dropLast_append_getLast hp

theorem base_mem (p : Path) (hp : p ≠ []) : base p ∈ p := by
  unfold base
  rw [List.getLast?_eq_getLast _ hp]
  exact List.getLast_mem hp

/-- The matches of the recursive resolve of a directory with folders excluded are the
entries below it that are no directories. -/
theorem mem_resolve_files (fs : FS) (s : Path) (hs : isDir fs s = true) (m : Path) :
    m ∈ (walk fs s).filter (keepWalked fs s true) ↔
      (stat fs m).isSome = true ∧ s <+: m ∧ isDir fs m = false := by
  rw [List.mem_filter, mem_walk]
  constructor
  · rintro ⟨⟨_, h⟩, hk⟩
    have hnd : isDir fs m = false := by
      unfold keepWalked at hk
      simpa using hk
    rcases h with h | ⟨h1, h2, _⟩
    · rw [h, hs] at hnd; cases hnd
    · exact ⟨stat_of_mem h1, h2, hnd⟩
  · rintro ⟨h1, h2, h3⟩
    have hne : m ≠ s := by
      intro h; rw [h, hs] at h3; cases h3
    have hm0 : m ≠ [] := by
      intro h; subst h
      exact hne (List.prefix_nil.mp h2).symm
    refine ⟨⟨isDir_isSome hs, Or.inr ⟨mem_keys_of_stat hm0 h1, h2, hne⟩⟩, ?_⟩
    unfold keepWalked
    simp [h3]
/-- The loop of `move` over the map `files` for a folder `s` of a tree that goes into the
folder `t`, where `t/basename(s)` is a directory with nothing in it: with nothing failing
from outside the loop succeeds; then only directories are left in `s`, and every file that
was below `s` is below `t/basename(s)` at the same relative path. -/
theorem moveFiles_folder (env : Env) (hmk : ∀ p, env.failMkdir p = false)
    (hrn : ∀ p, env.failRename p = false) (hex : ∀ k, env.failExec k = false)
    (w : World) (htree : treeOk w.fs = true) (s t : Path) (hs0 : s ≠ [])
    (hsd : isDir w.fs s = true) (htd : isDir w.fs t = true) (hnsub : ¬ s <+: t)
    (hB : isDir w.fs (t ++ [base s]) = true)
    (hnone : ∀ n, stat w.fs (t ++ [base s] ++ [n]) = none)
    (found : List Path)
    (hfound : ∀ m, m ∈ found ↔
      ((stat w.fs m).isSome = true ∧ s <+: m ∧ isDir w.fs m = false)) :
    ∃ w1, moveFiles env
        (found.foldl (fun files m => planSet files m (t ++ m.drop (dir s).length)) []) w
        (found.foldl (fun files m => planSet files m (t ++ m.drop (dir s).length)) []) =
          (w1, none) ∧
      isDir w1.fs s = true ∧
      (∀ p, (stat w1.fs p).isSome = true → s <+: p → isDir w1.fs p = true) ∧
      (∀ rel c, stat w.fs (s ++ rel) = some (Node.file c) →
        stat w1.fs (t ++ [base s] ++ rel) = some (Node.file c) ∧
          ¬ s <+: t ++ [base s] ++ rel) := by
  have hfile_found : ∀ rel c, stat w.fs (s ++ rel) = some (Node.file c) →
      s ++ rel ∈ found := by
    intro rel c hc
    refine (hfound _).mpr ⟨by rw [hc]; rfl, List.prefix_append _ _, ?_⟩
    unfold isDir; rw [hc]
  by_cases hfe : found = []
  · subst hfe
    refine ⟨w, rfl, hsd, ?_, ?_⟩
    · intro p hp hsp
      cases hd : isDir w.fs p with
      | true => rfl
      | false =>
        have := (hfound p).mpr ⟨hp, hsp, hd⟩
        cases this
    · intro rel c hc
      have := hfile_found rel c hc
      cases this
  · obtain ⟨m0, hm0⟩ := List.exists_mem_of_ne_nil found hfe
    obtain ⟨hm0s, ⟨x0, hx0⟩, hm0d⟩ := (hfound m0).mp hm0
    have hx00 : x0 ≠ [] := by
      intro h; subst h
      rw [List.append_nil] at hx0
      rw [← hx0, hsd] at hm0d; cases hm0d
    -- the two subtrees are apart
    have hnBs : ¬ (t ++ [base s]) <+: s := by
      rintro ⟨y, hy⟩
      have := tree_no_descendant htree (t ++ [base s]) hnone (y ++ x0)
        (by intro h; exact hx00 (List.append_eq_nil.mp h).2)
      rw [← List.append_assoc, hy, hx0] at this
      rw [this] at hm0s; cases hm0s
    have hdisj : ∀ q, s <+: q → (t ++ [base s]) <+: q → False := by
      intro q h1 h2
      rcases List.prefix_or_prefix_of_prefix h1 h2 with h | h
      · rcases List.prefix_concat_iff.mp h with h3 | h3
        · exact hnBs (h3 ▸ List.prefix_refl s)
        · exact hnsub h3
      · exact hnBs h
    have hanc : ∀ q, q <+: t ++ [base s] → q ≠ t ++ [base s] →
        stat w.fs q = some Node.dir ∧ ¬ s <+: q := by
      intro q hq hne
      rcases List.prefix_concat_iff.mp hq with h3 | h3
      · exact absurd h3 hne
      · refine ⟨?_, fun hsq => hnsub (hsq.trans h3)⟩
        by_cases hqt : q = t
        · rw [hqt]; exact stat_of_isDir htd
        · exact stat_of_isDir (tree_ancestor_isDir htree (isDir_isSome htd) h3 hqt)
    -- the plan
    have hPmem : ∀ e ∈ found.foldl
        (fun files m => planSet files m (t ++ m.drop (dir s).length)) [],
        e.1 ∈ found ∧ e.2 = t ++ e.1.drop (dir s).length := by
      intro e he
      rcases mem_foldl_planSet (fun m => t ++ m.drop (dir s).length) found [] e he with h | h
      · cases h
      · exact h
    have hPnodup := foldl_planSet_keys_nodup (fun m => t ++ m.drop (dir s).length) found []
      List.nodup_nil
    have hPkeys := mem_keys_foldl_planSet (fun m => t ++ m.drop (dir s).length) found []
    have hsplit : ∀ m ∈ found, m = s ++ m.drop s.length ∧
        t ++ m.drop (dir s).length = t ++ [base s] ++ m.drop s.length := by
      intro m hm
      obtain ⟨_, hpre, _⟩ := (hfound m).mp hm
      have h1 : s ++ m.drop s.length = m := List.prefix_iff_eq_append.mp hpre
      refine ⟨h1.symm, ?_⟩
      have h2 : m = dir s ++ ([base s] ++ m.drop s.length) := by
        rw [← List.append_assoc, dir_append_base s hs0, h1]
      conv_lhs => rw [h2, List.drop_left]
      rw [List.append_assoc]
    have hPeq : found.foldl (fun files m => planSet files m (t ++ m.drop (dir s).length)) [] =
        ((found.foldl (fun files m => planSet files m (t ++ m.drop (dir s).length)) []).map
          (fun e => e.1.drop s.length)).map (fun r => (s ++ r, t ++ [base s] ++ r)) := by
      rw [List.map_map]
      conv_lhs => rw [← List.map_id (found.foldl
        (fun files m => planSet files m (t ++ m.drop (dir s).length)) [])]
      apply List.map_congr_left
      intro e he
      obtain ⟨h1, h2⟩ := hPmem e he
      obtain ⟨h3, h4⟩ := hsplit e.1 h1
      simp only [id, Function.comp]
      rw [← h3, ← h4, ← h2]
    have hrs_mem : ∀ r, r ∈ (found.foldl
        (fun files m => planSet files m (t ++ m.drop (dir s).length)) []).map
          (fun e => e.1.drop s.length) ↔ s ++ r ∈ found := by
      intro r
      constructor
      · intro hr
        obtain ⟨e, he, rfl⟩ := List.mem_map.mp hr
        obtain ⟨h1, _⟩ := hPmem e he
        rw [← (hsplit e.1 h1).1]
        exact h1
      · intro hr
        have := (hPkeys (s ++ r)).mpr (Or.inl hr)
        obtain ⟨e, he, heq⟩ := List.mem_map.mp this
        refine List.mem_map.mpr ⟨e, he, ?_⟩
        rw [heq, List.drop_left]
    have hrs_nodup : ((found.foldl
        (fun files m => planSet files m (t ++ m.drop (dir s).length)) []).map
          (fun e => e.1.drop s.length)).Nodup := by
      have hk : (found.foldl (fun files m =>
          planSet files m (t ++ m.drop (dir s).length)) []).map (fun e => e.1) =
          ((found.foldl (fun files m => planSet files m (t ++ m.drop (dir s).length)) []).map
            (fun e => e.1.drop s.length)).map (fun r => s ++ r) := by
        rw [List.map_map]
        apply List.map_congr_left
        intro e he
        simp only [Function.comp]
        exact (hsplit e.1 (hPmem e he).1).1
      rw [hk] at hPnodup
      exact List.Nodup.of_map _ hPnodup
    have hrs_ok : ∀ r ∈ (found.foldl
        (fun files m => planSet files m (t ++ m.drop (dir s).length)) []).map
          (fun e => e.1.drop s.length),
        r ≠ [] ∧ isFile w.fs (s ++ r) = true ∧ r ∉ ([] : List (List String)) := by
      intro r hr
      obtain ⟨h1, _, h3⟩ := (hfound _).mp ((hrs_mem r).mp hr)
      refine ⟨?_, (isFile_iff _ _).mpr ⟨h1, h3⟩, List.not_mem_nil _⟩
      intro h0
      rw [h0, List.append_nil, hsd] at h3
      cases h3
    obtain ⟨w1, hw1, e1, e2, e3⟩ := moveFiles_into env hmk hrn hex w.fs htree s
      (t ++ [base s]) hdisj hanc
      (found.foldl (fun files m => planSet files m (t ++ m.drop (dir s).length)) [])
      ((found.foldl (fun files m => planSet files m (t ++ m.drop (dir s).length)) []).map
          (fun e => e.1.drop s.length)) [] w hrs_ok hrs_nodup hB
      (fun q _ _ => rfl) (fun r hr => absurd hr (List.not_mem_nil _))
      (fun r hr => absurd hr (List.not_mem_nil _))
      (by
        intro q ⟨x, hx⟩ hne hsome
        have hx0 : x ≠ [] := by
          intro h; subst h; rw [List.append_nil] at hx; exact hne hx.symm
        rw [← hx, tree_no_descendant htree _ hnone x hx0] at hsome
        cases hsome)
      (fun r hr => absurd hr (List.not_mem_nil _))
      (fun r hr => absurd hr (List.not_mem_nil _))
    rw [← hPeq] at hw1
    have hnsr : ∀ r, r ∈ (found.foldl
        (fun files m => planSet files m (t ++ m.drop (dir s).length)) []).map
          (fun e => e.1.drop s.length) ∨ r ∈ ([] : List (List String)) → s ≠ s ++ r := by
      intro r hr heq
      rcases hr with hr | hr
      · exact (hrs_ok r hr).1 (by
          have := congrArg List.length heq
          rw [List.length_append] at this
          exact List.length_eq_zero.mp (by omega))
      · cases hr
    have hs1 : stat w1.fs s = stat w.fs s :=
      e1 s (fun h => hdisj s (List.prefix_refl _) h) hnsr
    refine ⟨w1, hw1, ?_, ?_, ?_⟩
    · unfold isDir; rw [hs1]; exact hsd
    · intro p hp hsp
      have hnb : ¬ (t ++ [base s]) <+: p := fun h => hdisj p hsp h
      by_cases hmoved : ∃ r, (r ∈ (found.foldl
          (fun files m => planSet files m (t ++ m.drop (dir s).length)) []).map
            (fun e => e.1.drop s.length) ∨ r ∈ ([] : List (List String))) ∧ p = s ++ r
      · obtain ⟨r, hr, hpr⟩ := hmoved
        rw [hpr, e2 r hr] at hp
        cases hp
      · have hst : stat w1.fs p = stat w.fs p :=
          e1 p hnb (fun r hr heq => hmoved ⟨r, hr, heq⟩)
        rw [hst] at hp
        unfold isDir
        rw [hst]
        cases hd : isDir w.fs p with
        | true => unfold isDir at hd; exact hd
        | false =>
          exfalso
          have hin := (hfound p).mpr ⟨hp, hsp, hd⟩
          exact hmoved ⟨p.drop s.length,
            Or.inl ((hrs_mem _).mpr (by rw [← (hsplit p hin).1]; exact hin)),
            (hsplit p hin).1⟩
    · intro rel c hc
      have hin := hfile_found rel c hc
      refine ⟨?_, fun h => hdisj _ h (List.prefix_append _ _)⟩
      rw [e3 rel (Or.inl ((hrs_mem rel).mpr hin))]
      exact hc
/-! ## `sort.SliceStable`: the steps on a slice -/

theorem getD_mid (pre : List Path) (x : Path) (post : List Path) :
    (pre ++ x :: post).getD pre.length [] = x := by
  rw [List.getD_eq_getElem?_getD, List.getElem?_append_right (Nat.le_refl _)]
  simp

theorem set_mid (pre : List Path) (x y : Path) (post : List Path) :
    (pre ++ x :: post).set pre.length y = pre ++ y :: post := by
  simp

/-- `data.Swap(i, j)` on two positions of a slice. -/
theorem swapAt_far (pre : List Path) (x : Path) (mid : List Path) (y : Path)
    (post : List Path) :
    swapAt (pre ++ x :: (mid ++ y :: post)) pre.length (pre.length + 1 + mid.length) =
      pre ++ y :: (mid ++ x :: post) := by
  unfold swapAt
  have e1 : pre ++ x :: (mid ++ y :: post) = (pre ++ x :: mid) ++ y :: post := by simp
  have l1 : (pre ++ x :: mid).length = pre.length + 1 + mid.length := by simp; omega
  have h1 : (pre ++ x :: (mid ++ y :: post)).getD (pre.length + 1 + mid.length) [] = y := by
    rw [e1, ← l1]; exact getD_mid _ _ _
  have h2 : (pre ++ x :: (mid ++ y :: post)).getD pre.length [] = x := getD_mid _ _ _
  rw [h1, h2, set_mid]
  have e2 : pre ++ y :: (mid ++ y :: post) = (pre ++ y :: mid) ++ y :: post := by simp
  have l2 : (pre ++ y :: mid).length = pre.length + 1 + mid.length := by simp; omega
  rw [e2, ← l2, set_mid]
  simp

theorem swapAt_comm (data : List Path) (i j : Nat) : swapAt data i j = swapAt data j i := by
  unfold swapAt
  by_cases h : i = j
  · subst h; rfl
  · exact List.set_comm _ _ _ h

theorem swapAt_adj (pre : List Path) (x y : Path) (post : List Path) :
    swapAt (pre ++ x :: y :: post) pre.length (pre.length + 1) = pre ++ y :: x :: post := by
  have := swapAt_far pre x [] y post
  simpa using this

theorem swapAt_adj_rev (pre : List Path) (x y : Path) (post : List Path) :
    swapAt (pre ++ x :: y :: post) (pre.length + 1) pre.length = pre ++ y :: x :: post := by
  rw [swapAt_comm]; exact swapAt_adj pre x y post
/-- The inner loop of `insertionSort`: the element after the run `s` goes down past the
elements it is less than, one after the other from the end of the run. -/
theorem insertDown_spec (less : Path → Path → Bool) (pre : List Path) (x : Path) :
    ∀ (s post : List Path), ∃ s1 s2, s = s1 ++ s2 ∧
      insertDown less pre.length (pre.length + s.length) (pre ++ s ++ x :: post) =
        pre ++ s1 ++ x :: (s2 ++ post) ∧
      (∀ y ∈ s2, less x y = true) ∧ (∀ z, s1.getLast? = some z → less x z = false) := by
  intro s
  induction s using List.reverseRecOn with
  | nil =>
    intro post
    refine ⟨[], [], rfl, ?_, (fun y hy => by cases hy), (fun z hz => by cases hz)⟩
    simp only [List.length_nil, Nat.add_zero, List.append_nil, List.nil_append]
    cases hp : pre.length with
    | zero => rfl
    | succ k =>
      rw [← hp]
      unfold insertDown
      rw [hp]
      simp
  | append_singleton s y ih =>
    intro post
    have hlen : pre.length + (s ++ [y]).length = (pre.length + s.length) + 1 := by
      simp; omega
    have hdata : pre ++ (s ++ [y]) ++ x :: post = (pre ++ s) ++ y :: x :: post := by simp
    have hl : (pre ++ s).length = pre.length + s.length := by simp
    have hx : ((pre ++ s) ++ y :: x :: post).getD (pre.length + s.length + 1) [] = x := by
      have e : (pre ++ s) ++ y :: x :: post = (pre ++ s ++ [y]) ++ x :: post := by simp
      have l2 : (pre ++ s ++ [y]).length = pre.length + s.length + 1 := by simp; omega
      rw [e, ← l2]; exact getD_mid _ _ _
    have hy : ((pre ++ s) ++ y :: x :: post).getD (pre.length + s.length) [] = y := by
      rw [← hl]; exact getD_mid _ _ _
    rw [hlen, hdata]
    unfold insertDown
    rw [hx, hy]
    by_cases hless : less x y = true
    · have hc : (decide (pre.length + s.length + 1 > pre.length) && less x y) = true := by
        simp [hless]; omega
      rw [if_pos hc]
      have hsw : swapAt (pre ++ s ++ y :: x :: post) (pre.length + s.length + 1)
          (pre.length + s.length) = pre ++ s ++ x :: y :: post := by
        rw [← hl]; exact swapAt_adj_rev _ _ _ _
      rw [hsw]
      obtain ⟨s1, s2, h1, h2, h3, h4⟩ := ih (y :: post)
      refine ⟨s1, s2 ++ [y], by rw [h1, List.append_assoc], ?_, ?_, h4⟩
      · rw [h2]; simp
      · intro z hz
        rcases List.mem_append.mp hz with h | h
        · exact h3 z h
        · rw [List.mem_singleton.mp h]; exact hless
    · have hless2 : less x y = false := by
        cases h : less x y with
        | false => rfl
        | true => exact absurd h hless
      simp only [hless2, Bool.and_false, Bool.false_eq_true, if_false]
      refine ⟨s ++ [y], [], by simp, by simp, (fun z hz => by cases hz), ?_⟩
      intro z hz
      simp at hz
      rw [← hz]; exact hless2

/-- Go `insertionSort` sorts a block, when its comparisons of a later element with an
earlier one are those of a total preorder. -/
theorem insertionSort_loop (less lt : Path → Path → Bool)
    (htrans : ∀ x y z, lt y x = false → lt z y = false → lt z x = false)
    (htot : ∀ x y, lt x y = true → lt y x = false)
    (pre post : List Path) :
    ∀ (b2 b1 : List Path), b1 ≠ [] → b1.Pairwise (fun x y => lt y x = false) →
      (∀ l ∈ b1, ∀ r ∈ b2, less r l = lt r l) →
      b2.Pairwise (fun l r => less r l = lt r l) →
      ∃ b, (List.range' (pre.length + b1.length) b2.length).foldl
          (fun d i => insertDown less pre.length i d) (pre ++ b1 ++ b2 ++ post) =
          pre ++ b ++ post ∧
        b.Perm (b1 ++ b2) ∧ b.Pairwise (fun x y => lt y x = false) := by
  intro b2
  induction b2 with
  | nil =>
    intro b1 _ hs _ _
    exact ⟨b1, by simp, by simp, hs⟩
  | cons x b2 ih =>
    intro b1 hne hs hcross hg
    obtain ⟨s1, s2, h1, h2, h3, h4⟩ := insertDown_spec less pre x b1 (b2 ++ post)
    have hs12 : (s1 ++ s2).Pairwise (fun x y => lt y x = false) := by rw [← h1]; exact hs
    rw [List.pairwise_append] at hs12
    obtain ⟨hs1, hs2, hs3⟩ := hs12
    have hgx : ∀ y ∈ b1, less x y = lt x y :=
      fun y hy => hcross y hy x (List.mem_cons_self _ _)
    have hmem1 : ∀ y ∈ s1, y ∈ b1 := fun y hy => by rw [h1]; exact List.mem_append_left _ hy
    have hmem2 : ∀ y ∈ s2, y ∈ b1 := fun y hy => by rw [h1]; exact List.mem_append_right _ hy
    -- the new run is sorted
    have hsorted : (s1 ++ x :: s2).Pairwise (fun x y => lt y x = false) := by
      rw [List.pairwise_append]
      refine ⟨hs1, ?_, ?_⟩
      · rw [List.pairwise_cons]
        refine ⟨?_, hs2⟩
        intro y hy
        have := h3 y hy
        rw [hgx y (hmem2 y hy)] at this
        exact htot x y this
      · intro a ha c hc
        have hax : lt x a = false := by
          cases hl : s1.getLast? with
          | none =>
            rw [List.getLast?_eq_none_iff] at hl
            rw [hl] at ha; cases ha
          | some z =>
            have hz : z ∈ s1 := List.mem_of_getLast?_eq_some hl
            have hxz : lt x z = false := by
              rw [← hgx z (hmem1 z hz)]; exact h4 z hl
            by_cases haz : a = z
            · rw [haz]; exact hxz
            · -- a is before z in s1
              have hs1' := hs1
              have hz2 : lt z a = false := by
                obtain ⟨init, hinit⟩ : ∃ init, s1 = init ++ [z] := by
                  have hne1 : s1 ≠ [] := List.ne_nil_of_mem hz
                  refine ⟨s1.dropLast, ?_⟩
                  have := List.dropLast_append_getLast hne1
                  rw [List.getLast?_eq_getLast _ hne1] at hl
                  injection hl with hl
                  rw [hl] at this
                  exact this.symm
                rw [hinit] at hs1' ha
                rw [List.pairwise_append] at hs1'
                rcases List.mem_append.mp ha with h | h
                · exact hs1'.2.2 a h z (List.mem_singleton.mpr rfl)
                · exact absurd (List.mem_singleton.mp h) haz
              exact htrans a z x hz2 hxz
        rcases List.mem_cons.mp hc with h | h
        · rw [h]; exact hax
        · exact hs3 a ha c h
    have hperm : (s1 ++ x :: s2).Perm (b1 ++ [x]) := by
      rw [h1]
      have : (s1 ++ x :: s2).Perm (x :: (s1 ++ s2)) := List.perm_middle
      exact this.trans (List.perm_append_singleton x (s1 ++ s2)).symm
    have hcross2 : ∀ l ∈ s1 ++ x :: s2, ∀ r ∈ b2, less r l = lt r l := by
      intro l hl r hr
      have hl2 := hperm.subset hl
      rcases List.mem_append.mp hl2 with h | h
      · exact hcross l h r (List.mem_cons_of_mem _ hr)
      · rw [List.mem_singleton.mp h]
        exact (List.pairwise_cons.mp hg).1 r hr
    obtain ⟨b, k1, k2, k3⟩ := ih (s1 ++ x :: s2) (by simp) hsorted hcross2
      (List.pairwise_cons.mp hg).2
    refine ⟨b, ?_, ?_, k3⟩
    · rw [List.length_cons, List.range'_succ, List.foldl_cons]
      have e1 : pre ++ b1 ++ x :: b2 ++ post = pre ++ b1 ++ x :: (b2 ++ post) := by simp
      rw [e1, h2]
      have e2 : pre ++ s1 ++ x :: (s2 ++ (b2 ++ post)) = pre ++ (s1 ++ x :: s2) ++ b2 ++ post := by
        simp
      have e3 : pre.length + b1.length + 1 = pre.length + (s1 ++ x :: s2).length := by
        rw [h1]; simp; omega
      rw [e2, e3]
      exact k1
    · refine k2.trans ?_
      have : (s1 ++ x :: s2 ++ b2).Perm (b1 ++ [x] ++ b2) := List.Perm.append_right b2 hperm
      simpa using this

theorem insertionSort_spec (less lt : Path → Path → Bool)
    (htrans : ∀ x y z, lt y x = false → lt z y = false → lt z x = false)
    (htot : ∀ x y, lt x y = true → lt y x = false)
    (pre post blk : List Path) (hg : blk.Pairwise (fun l r => less r l = lt r l)) :
    ∃ b, insertionSort less (pre ++ blk ++ post) pre.length (pre.length + blk.length) =
        pre ++ b ++ post ∧
      b.Perm blk ∧ b.Pairwise (fun x y => lt y x = false) := by
  unfold insertionSort
  cases blk with
  | nil =>
    refine ⟨[], ?_, List.Perm.refl _, List.Pairwise.nil⟩
    simp
  | cons x b2 =>
    obtain ⟨b, k1, k2, k3⟩ := insertionSort_loop less lt htrans htot pre post b2 [x]
      (by simp) (List.pairwise_singleton _ _)
      (fun l hl r hr => by
        rw [List.mem_singleton.mp hl]; exact (List.pairwise_cons.mp hg).1 r hr)
      (List.pairwise_cons.mp hg).2
    refine ⟨b, ?_, by simpa using k2, k3⟩
    have e1 : pre.length + (x :: b2).length - (pre.length + 1) = b2.length := by
      simp; omega
    rw [e1]
    have e2 : pre ++ x :: b2 ++ post = pre ++ [x] ++ b2 ++ post := by simp
    rw [e2]
    simpa using k1
/-- The binary searches of `symMerge`: on a test that holds up to some index and fails
from there on, the loop ends at that index. -/
theorem searchLoop_spec (up : Nat → Bool) :
    ∀ (fuel i j : Nat), i ≤ j → j - i < fuel →
      (∀ h h1, i ≤ h → h ≤ h1 → h1 < j → up h1 = true → up h = true) →
      i ≤ searchLoop up fuel i j ∧ searchLoop up fuel i j ≤ j ∧
      (∀ h, i ≤ h → h < searchLoop up fuel i j → up h = true) ∧
      (∀ h, searchLoop up fuel i j ≤ h → h < j → up h = false) := by
  intro fuel
  induction fuel with
  | zero => intro i j _ h; omega
  | succ fuel ih =>
    intro i j hij hfuel hmono
    unfold searchLoop
    by_cases hlt : i < j
    · rw [if_pos hlt]
      have hmid1 : i ≤ (i + j) / 2 := by omega
      have hmid2 : (i + j) / 2 < j := by omega
      by_cases hup : up ((i + j) / 2) = true
      · rw [if_pos hup]
        obtain ⟨k1, k2, k3, k4⟩ := ih ((i + j) / 2 + 1) j (by omega) (by omega)
          (fun h h1 a1 a2 a3 a4 => hmono h h1 (by omega) a2 a3 a4)
        refine ⟨by omega, k2, ?_, k4⟩
        intro h a1 a2
        by_cases hh : h ≤ (i + j) / 2
        · exact hmono h ((i + j) / 2) a1 hh hmid2 hup
        · exact k3 h (by omega) a2
      · rw [if_neg hup]
        obtain ⟨k1, k2, k3, k4⟩ := ih i ((i + j) / 2) hmid1 (by omega)
          (fun h h1 a1 a2 a3 a4 => hmono h h1 a1 a2 (by omega) a4)
        refine ⟨k1, by omega, k3, ?_⟩
        intro h a1 a2
        by_cases hh : h < (i + j) / 2
        · exact k4 h a1 hh
        · cases hu : up h with
          | false => rfl
          | true => exact absurd (hmono ((i + j) / 2) h hmid1 (by omega) a2 hu) hup
    · rw [if_neg hlt]
      refine ⟨Nat.le_refl _, hij, ?_, ?_⟩
      · intro h a1 a2; omega
      · intro h a1 a2; omega

/-- Go `swapRange` exchanges two runs of the same length. -/
theorem swapRange_spec :
    ∀ (xs ys pre mid post : List Path), xs.length = ys.length →
      swapRange (pre ++ xs ++ mid ++ ys ++ post) pre.length
          (pre.length + xs.length + mid.length) xs.length =
        pre ++ ys ++ mid ++ xs ++ post := by
  intro xs
  induction xs with
  | nil =>
    intro ys pre mid post h
    have : ys = [] := List.length_eq_zero.mp h.symm
    subst this
    simp [swapRange]
  | cons x xs ih =>
    intro ys pre mid post h
    cases ys with
    | nil => simp at h
    | cons y ys =>
      have hlen : xs.length = ys.length := by simpa using h
      unfold swapRange
      rw [List.length_cons, List.range_succ_eq_map, List.foldl_cons, List.foldl_map]
      have e1 : pre ++ x :: xs ++ mid ++ y :: ys ++ post =
          pre ++ x :: ((xs ++ mid) ++ y :: (ys ++ post)) := by simp
      have e2 : pre.length + (xs.length + 1) + mid.length =
          pre.length + 1 + (xs ++ mid).length := by simp; omega
      simp only [Nat.add_zero]
      rw [e1, e2, swapAt_far]
      have e3 : (fun (d : List Path) (i : Nat) =>
          swapAt d (pre.length + i.succ) (pre.length + 1 + (xs ++ mid).length + i.succ)) =
          (fun d i => swapAt d ((pre ++ [y]).length + i)
            ((pre ++ [y]).length + xs.length + (mid ++ [x]).length + i)) := by
        funext d i
        congr 1
        · simp; omega
        · simp; omega
      rw [e3]
      have e4 : pre ++ y :: (xs ++ mid ++ x :: (ys ++ post)) =
          (pre ++ [y]) ++ xs ++ (mid ++ [x]) ++ ys ++ post := by simp
      rw [e4]
      have := ih ys (pre ++ [y]) (mid ++ [x]) post hlen
      unfold swapRange at this
      rw [this]
      simp

/-- The loop of Go `rotate` exchanges two adjacent runs. -/
theorem rotateLoop_spec :
    ∀ (fuel : Nat) (u v pre post : List Path), u ≠ [] → v ≠ [] →
      u.length + v.length ≤ fuel →
      rotateLoop (pre.length + u.length) fuel u.length v.length (pre ++ u ++ v ++ post) =
        pre ++ v ++ u ++ post := by
  intro fuel
  induction fuel with
  | zero =>
    intro u v pre post hu _ h
    have : u.length = 0 := by omega
    exact absurd (List.length_eq_zero.mp this) hu
  | succ fuel ih =>
    intro u v pre post hu hv hfuel
    have hul : 0 < u.length := List.length_pos.mpr hu
    have hvl : 0 < v.length := List.length_pos.mpr hv
    unfold rotateLoop
    by_cases hne : u.length ≠ v.length
    · rw [if_pos hne]
      by_cases hgt : u.length > v.length
      · rw [if_pos hgt]
        -- the first elements of u change places with v
        have hu12 : u = u.take v.length ++ u.drop v.length := (List.take_append_drop _ _).symm
        have hl1 : (u.take v.length).length = v.length := by
          rw [List.length_take]; omega
        have hl2 : (u.drop v.length).length = u.length - v.length := List.length_drop _ _
        have e1 : pre ++ u ++ v ++ post =
            pre ++ u.take v.length ++ u.drop v.length ++ v ++ post := by
          conv_lhs => rw [hu12]
          simp
        have e2 : pre.length + u.length - u.length = pre.length := by omega
        have e3 : pre.length + u.length =
            pre.length + (u.take v.length).length + (u.drop v.length).length := by
          rw [hl1, hl2]; omega
        have hsw := swapRange_spec (u.take v.length) v pre (u.drop v.length) post hl1
        rw [hl1] at hsw
        rw [e2]
        have e4 : pre.length + v.length + (u.drop v.length).length = pre.length + u.length := by
          rw [hl2]; omega
        rw [e4] at hsw
        rw [e1, hsw]
        have hdne : u.drop v.length ≠ [] := by
          intro h0
          have := congrArg List.length h0
          rw [hl2, List.length_nil] at this
          omega
        have htne : u.take v.length ≠ [] := by
          intro h0
          have := congrArg List.length h0
          rw [hl1, List.length_nil] at this
          omega
        have := ih (u.drop v.length) (u.take v.length) (pre ++ v) post hdne htne
          (by have a1 := hl1; have a2 := hl2; omega)
        have e5 : (pre ++ v).length + (u.drop v.length).length = pre.length + u.length := by
          rw [List.length_append, hl2]; omega
        rw [e5, hl2, hl1] at this
        have e6 : pre ++ v ++ u.drop v.length ++ u.take v.length ++ post =
            pre ++ v ++ List.drop v.length u ++ List.take v.length u ++ post := rfl
        rw [this]
        conv_rhs => rw [hu12]
        simp
      · rw [if_neg hgt]
        have hlt : u.length < v.length := by omega
        have hv12 : v = v.take (v.length - u.length) ++ v.drop (v.length - u.length) :=
          (List.take_append_drop _ _).symm
        have hl1 : (v.take (v.length - u.length)).length = v.length - u.length := by
          rw [List.length_take]; omega
        have hl2 : (v.drop (v.length - u.length)).length = u.length := by
          rw [List.length_drop]; omega
        have e1 : pre ++ u ++ v ++ post =
            pre ++ u ++ v.take (v.length - u.length) ++ v.drop (v.length - u.length) ++ post := by
          conv_lhs => rw [hv12]
          simp
        have hsw := swapRange_spec u (v.drop (v.length - u.length)) pre
          (v.take (v.length - u.length)) post hl2.symm
        rw [hl1] at hsw
        have e2 : pre.length + u.length - u.length = pre.length := by omega
        have e3 : pre.length + u.length + v.length - u.length =
            pre.length + u.length + (v.length - u.length) := by omega
        rw [e2, e3, e1, hsw]
        have hdne : v.drop (v.length - u.length) ≠ [] := by
          intro h0
          have := congrArg List.length h0
          rw [hl2, List.length_nil] at this
          omega
        have htne : v.take (v.length - u.length) ≠ [] := by
          intro h0
          have := congrArg List.length h0
          rw [hl1, List.length_nil] at this
          omega
        have := ih (v.drop (v.length - u.length)) (v.take (v.length - u.length)) pre
          (u ++ post) hdne htne (by have a1 := hl1; have a2 := hl2; omega)
        rw [hl2, hl1] at this
        have e4 : pre ++ v.drop (v.length - u.length) ++ v.take (v.length - u.length) ++ u ++ post =
            pre ++ v.drop (v.length - u.length) ++ v.take (v.length - u.length) ++ (u ++ post) := by
          simp
        rw [e4, this]
        conv_rhs => rw [hv12]
        simp
    · rw [if_neg hne]
      have heq : u.length = v.length := by omega
      have := swapRange_spec u v pre [] post heq
      simp only [List.append_nil, List.length_nil, Nat.add_zero] at this
      have e2 : pre.length + u.length - u.length = pre.length := by omega
      rw [e2]
      exact this

theorem rotate_spec (u v pre post : List Path) (hu : u ≠ []) (hv : v ≠ []) :
    rotate (pre ++ u ++ v ++ post) pre.length (pre.length + u.length)
        (pre.length + u.length + v.length) =
      pre ++ v ++ u ++ post := by
  unfold rotate
  have e1 : pre.length + u.length - pre.length = u.length := by omega
  have e2 : pre.length + u.length + v.length - (pre.length + u.length) = v.length := by omega
  rw [e1, e2]
  exact rotateLoop_spec _ u v pre post hu hv (by omega)

/-! ### Reading a slice by index -/

theorem getD_seg1 (pre a b post : List Path) (i : Nat) (hi : i < a.length) :
    (pre ++ a ++ b ++ post).getD (pre.length + i) [] = a.getD i [] := by
  rw [List.getD_eq_getElem?_getD, List.getD_eq_getElem?_getD]
  have e : pre ++ a ++ b ++ post = pre ++ (a ++ (b ++ post)) := by simp
  rw [e, List.getElem?_append_right (Nat.le_add_right _ _), Nat.add_sub_cancel_left,
    List.getElem?_append_left hi]

theorem getD_seg2 (pre a b post : List Path) (j : Nat) (hj : j < b.length) :
    (pre ++ a ++ b ++ post).getD (pre.length + a.length + j) [] = b.getD j [] := by
  rw [List.getD_eq_getElem?_getD, List.getD_eq_getElem?_getD]
  have e : pre ++ a ++ b ++ post = (pre ++ a) ++ (b ++ post) := by simp
  have l : (pre ++ a).length = pre.length + a.length := by simp
  rw [e, List.getElem?_append_right (by rw [l]; omega), l, Nat.add_sub_cancel_left,
    List.getElem?_append_left hj]

theorem sorted_getD (lt : Path → Path → Bool) (htot : ∀ x y, lt x y = true → lt y x = false)
    (l : List Path) (hs : l.Pairwise (fun x y => lt y x = false)) (i j : Nat) (hij : i ≤ j)
    (hj : j < l.length) : lt (l.getD j []) (l.getD i []) = false := by
  have hi : i < l.length := by omega
  rw [List.getD_eq_getElem _ _ hj, List.getD_eq_getElem _ _ hi]
  by_cases heq : i = j
  · subst heq
    cases h : lt l[i] l[i] with
    | false => rfl
    | true => have := htot _ _ h; rw [h] at this; cases this
  · exact (List.pairwise_iff_getElem.mp hs) i j hi hj (by omega)

theorem mem_take_getD (l : List Path) (k : Nat) (x : Path) (h : x ∈ l.take k) :
    ∃ i, i < k ∧ i < l.length ∧ l.getD i [] = x := by
  obtain ⟨i, hi, hx⟩ := List.mem_iff_getElem.mp h
  rw [List.length_take] at hi
  rw [List.getElem_take] at hx
  exact ⟨i, by omega, by omega, by rw [List.getD_eq_getElem _ _ (by omega)]; exact hx⟩

theorem mem_drop_getD (l : List Path) (k : Nat) (x : Path) (h : x ∈ l.drop k) :
    ∃ i, k ≤ i ∧ i < l.length ∧ l.getD i [] = x := by
  obtain ⟨i, hi, hx⟩ := List.mem_iff_getElem.mp h
  rw [List.length_drop] at hi
  rw [List.getElem_drop] at hx
  exact ⟨k + i, by omega, by omega, by rw [List.getD_eq_getElem _ _ (by omega)]; exact hx⟩

/-- The loop of `symMerge` that takes `data[a]` up to the position before `i`. -/
theorem shiftRight_spec (x : Path) :
    ∀ (b1 pre post : List Path),
      (List.range' pre.length b1.length).foldl (fun d t => swapAt d t (t + 1))
          (pre ++ x :: b1 ++ post) =
        pre ++ b1 ++ x :: post := by
  intro b1
  induction b1 with
  | nil => intro pre post; simp
  | cons y b1 ih =>
    intro pre post
    rw [List.length_cons, List.range'_succ, List.foldl_cons]
    have e1 : pre ++ x :: y :: b1 ++ post = pre ++ x :: y :: (b1 ++ post) := by simp
    rw [e1, swapAt_adj]
    have e2 : pre ++ y :: x :: (b1 ++ post) = (pre ++ [y]) ++ x :: b1 ++ post := by simp
    have e3 : pre.length + 1 = (pre ++ [y]).length := by simp
    rw [e2, e3, ih]
    simp

/-- The loop of `symMerge` that takes `data[m]` down to position `i`. -/
theorem shiftLeft_spec (y : Path) :
    ∀ (a2 pre post : List Path),
      ((List.range' (pre.length + 1) a2.length).reverse).foldl (fun d t => swapAt d t (t - 1))
          (pre ++ a2 ++ y :: post) =
        pre ++ y :: a2 ++ post := by
  intro a2
  induction a2 using List.reverseRecOn with
  | nil => intro pre post; simp
  | append_singleton a2 z ih =>
    intro pre post
    have e0 : (a2 ++ [z]).length = a2.length + 1 := by simp
    rw [e0, List.range'_concat, List.reverse_append, List.reverse_singleton,
      List.singleton_append, List.foldl_cons]
    have e1 : pre ++ (a2 ++ [z]) ++ y :: post = (pre ++ a2) ++ z :: y :: post := by simp
    have e2 : pre.length + 1 + 1 * a2.length = (pre ++ a2).length + 1 := by simp; omega
    rw [e1, e2, Nat.add_sub_cancel, swapAt_adj_rev]
    have e3 : pre ++ a2 ++ y :: z :: post = pre ++ a2 ++ y :: (z :: post) := rfl
    rw [ih pre (z :: post)]
    simp
/-! ## `symMerge` -/

theorem getD_mem (l : List Path) (i : Nat) (hi : i < l.length) : l.getD i [] ∈ l := by
  rw [List.getD_eq_getElem _ _ hi]
  exact List.getElem_mem hi

theorem rotate_at (u v pre post : List Path) (hu : u ≠ []) (hv : v ≠ []) (i1 i2 i3 : Nat)
    (h1 : i1 = pre.length) (h2 : i2 = i1 + u.length) (h3 : i3 = i2 + v.length) :
    rotate (pre ++ u ++ v ++ post) i1 i2 i3 = pre ++ v ++ u ++ post := by
  subst h1 h2 h3
  exact rotate_spec u v pre post hu hv

/-- The merge of two sorted runs that are split so that everything in the first halves is
before everything in the second halves. -/
theorem split_sorted (lt : Path → Path → Bool)
    (a1 a2 b1 b2 m1 m2 : List Path)
    (ha : (a1 ++ a2).Pairwise (fun x y => lt y x = false))
    (hb : (b1 ++ b2).Pairwise (fun x y => lt y x = false))
    (c1 : ∀ x ∈ a1, ∀ y ∈ b2, lt y x = false)
    (c2 : ∀ x ∈ b1, ∀ y ∈ a2, lt y x = false)
    (hm1 : m1.Pairwise (fun x y => lt y x = false)) (hp1 : m1.Perm (a1 ++ b1))
    (hm2 : m2.Pairwise (fun x y => lt y x = false)) (hp2 : m2.Perm (a2 ++ b2)) :
    (m1 ++ m2).Pairwise (fun x y => lt y x = false) ∧
      (m1 ++ m2).Perm ((a1 ++ a2) ++ (b1 ++ b2)) := by
  constructor
  · rw [List.pairwise_append]
    refine ⟨hm1, hm2, ?_⟩
    intro x hx y hy
    have hx2 := hp1.subset hx
    have hy2 := hp2.subset hy
    rcases List.mem_append.mp hx2 with h | h
    · rcases List.mem_append.mp hy2 with k | k
      · exact (List.pairwise_append.mp ha).2.2 x h y k
      · exact c1 x h y k
    · rcases List.mem_append.mp hy2 with k | k
      · exact c2 x h y k
      · exact (List.pairwise_append.mp hb).2.2 x h y k
  · have h1 : (m1 ++ m2).Perm ((a1 ++ b1) ++ (a2 ++ b2)) := List.Perm.append hp1 hp2
    refine h1.trans ?_
    have h2 : (a1 ++ b1 ++ (a2 ++ b2)).Perm (a1 ++ (b1 ++ a2) ++ b2) := by
      simp only [List.append_assoc]; exact List.Perm.refl _
    have h3 : (a1 ++ (b1 ++ a2) ++ b2).Perm (a1 ++ (a2 ++ b1) ++ b2) :=
      List.Perm.append_right b2 (List.Perm.append_left a1 List.perm_append_comm)
    refine h2.trans (h3.trans ?_)
    simp only [List.append_assoc]; exact List.Perm.refl _

/-- The first special case of `symMerge`: a run of one element before a sorted run. -/
theorem symMerge_one_left (less lt : Path → Path → Bool)
    (htrans : ∀ x y z, lt y x = false → lt z y = false → lt z x = false)
    (htot : ∀ x y, lt x y = true → lt y x = false)
    (x : Path) (bs pre post : List Path) (a m b : Nat)
    (h1 : a = pre.length) (h2 : m = a + 1) (h3 : b = m + bs.length)
    (hs : bs.Pairwise (fun x y => lt y x = false))
    (hg : ∀ r ∈ bs, less r x = lt r x) :
    ∃ ms, (List.range' a
        (searchLoop (fun h => less ((pre ++ [x] ++ bs ++ post).getD h [])
          ((pre ++ [x] ++ bs ++ post).getD a [])) (b - m + 1) m b - 1 - a)).foldl
        (fun d k => swapAt d k (k + 1)) (pre ++ [x] ++ bs ++ post) = pre ++ ms ++ post ∧
      ms.Perm ([x] ++ bs) ∧ ms.Pairwise (fun x y => lt y x = false) := by
  have hB : ∀ h, m ≤ h → h < b → (pre ++ [x] ++ bs ++ post).getD h [] = bs.getD (h - m) [] := by
    intro h k1 k2
    have := getD_seg2 pre [x] bs post (h - m) (by omega)
    rw [← this]
    congr 1
    simp; omega
  have hX : (pre ++ [x] ++ bs ++ post).getD a [] = x := by
    have := getD_seg1 pre [x] bs post 0 (by simp)
    rw [h1]
    simpa using this
  have hup : ∀ h, m ≤ h → h < b →
      less ((pre ++ [x] ++ bs ++ post).getD h []) ((pre ++ [x] ++ bs ++ post).getD a []) =
        lt (bs.getD (h - m) []) x := by
    intro h k1 k2
    rw [hB h k1 k2, hX]
    exact hg _ (getD_mem bs (h - m) (by omega))
  obtain ⟨k1, k2, k3, k4⟩ := searchLoop_spec
    (fun h => less ((pre ++ [x] ++ bs ++ post).getD h [])
      ((pre ++ [x] ++ bs ++ post).getD a [])) (b - m + 1) m b (by omega) (by omega)
    (by
      intro h h' a1 a2 a3 a4
      simp only at a4 ⊢
      rw [hup h' (by omega) a3] at a4
      rw [hup h a1 (by omega)]
      cases hc : lt (bs.getD (h - m) []) x with
      | true => rfl
      | false =>
        have hs2 := sorted_getD lt htot bs hs (h - m) (h' - m) (by omega) (by omega)
        have := htrans x _ _ hc hs2
        rw [this] at a4; cases a4)
  generalize searchLoop (fun h => less ((pre ++ [x] ++ bs ++ post).getD h [])
      ((pre ++ [x] ++ bs ++ post).getD a [])) (b - m + 1) m b = i at k1 k2 k3 k4 ⊢
  have hsplit : bs = bs.take (i - m) ++ bs.drop (i - m) := (List.take_append_drop _ _).symm
  have hlt : (bs.take (i - m)).length = i - m := by rw [List.length_take]; omega
  refine ⟨bs.take (i - m) ++ x :: bs.drop (i - m), ?_, ?_, ?_⟩
  · have e0 : bs.take (i - m) ++ (bs.drop (i - m) ++ post) = bs ++ post := by
      rw [← List.append_assoc, List.take_append_drop]
    have e1 : pre ++ [x] ++ bs ++ post =
        pre ++ x :: bs.take (i - m) ++ (bs.drop (i - m) ++ post) := by
      simp only [List.append_assoc, List.singleton_append, List.cons_append, e0, List.nil_append]
    have e2 : i - 1 - a = (bs.take (i - m)).length := by rw [hlt]; omega
    rw [e1, e2, h1, shiftRight_spec]
    simp
  · have : (bs.take (i - m) ++ x :: bs.drop (i - m)).Perm
        (x :: (bs.take (i - m) ++ bs.drop (i - m))) := List.perm_middle
    rw [← hsplit] at this
    exact this
  · have hs' := hs
    rw [hsplit, List.pairwise_append] at hs'
    rw [List.pairwise_append]
    refine ⟨hs'.1, ?_, ?_⟩
    · rw [List.pairwise_cons]
      refine ⟨?_, hs'.2.1⟩
      intro y hy
      obtain ⟨j, j1, j2, j3⟩ := mem_drop_getD bs (i - m) y hy
      have := k4 (m + j) (by omega) (by omega)
      rw [hup (m + j) (by omega) (by omega), Nat.add_sub_cancel_left, j3] at this
      exact this
    · intro y hy z hz
      rcases List.mem_cons.mp hz with h | h
      · obtain ⟨j, j1, j2, j3⟩ := mem_take_getD bs (i - m) y hy
        have := k3 (m + j) (by omega) (by omega)
        rw [hup (m + j) (by omega) (by omega), Nat.add_sub_cancel_left, j3] at this
        rw [h]
        exact htot y x this
      · exact hs'.2.2 y hy z h

/-- The second special case of `symMerge`: a sorted run before a run of one element. -/
theorem symMerge_one_right (less lt : Path → Path → Bool)
    (htrans : ∀ x y z, lt y x = false → lt z y = false → lt z x = false)
    (htot : ∀ x y, lt x y = true → lt y x = false)
    (y : Path) (as pre post : List Path) (a m b : Nat)
    (h1 : a = pre.length) (h2 : m = a + as.length) (h3 : b = m + 1)
    (hs : as.Pairwise (fun x y => lt y x = false))
    (hg : ∀ l ∈ as, less y l = lt y l) :
    ∃ ms, ((List.range'
        (searchLoop (fun h => !less ((pre ++ as ++ [y] ++ post).getD m [])
          ((pre ++ as ++ [y] ++ post).getD h [])) (m - a + 1) a m + 1)
        (m - searchLoop (fun h => !less ((pre ++ as ++ [y] ++ post).getD m [])
          ((pre ++ as ++ [y] ++ post).getD h [])) (m - a + 1) a m)).reverse).foldl
        (fun d k => swapAt d k (k - 1)) (pre ++ as ++ [y] ++ post) = pre ++ ms ++ post ∧
      ms.Perm (as ++ [y]) ∧ ms.Pairwise (fun x y => lt y x = false) := by
  have hA : ∀ h, a ≤ h → h < m → (pre ++ as ++ [y] ++ post).getD h [] = as.getD (h - a) [] := by
    intro h k1 k2
    have := getD_seg1 pre as [y] post (h - a) (by omega)
    rw [← this]
    congr 1
    omega
  have hY : (pre ++ as ++ [y] ++ post).getD m [] = y := by
    have := getD_seg2 pre as [y] post 0 (by simp)
    rw [h2, h1]
    simpa using this
  have hup : ∀ h, a ≤ h → h < m →
      (!less ((pre ++ as ++ [y] ++ post).getD m []) ((pre ++ as ++ [y] ++ post).getD h [])) =
        !lt y (as.getD (h - a) []) := by
    intro h k1 k2
    rw [hA h k1 k2, hY]
    rw [hg _ (getD_mem as (h - a) (by omega))]
  obtain ⟨k1, k2, k3, k4⟩ := searchLoop_spec
    (fun h => !less ((pre ++ as ++ [y] ++ post).getD m [])
      ((pre ++ as ++ [y] ++ post).getD h [])) (m - a + 1) a m (by omega) (by omega)
    (by
      intro h h' a1 a2 a3 a4
      simp only at a4 ⊢
      rw [hup h' (by omega) a3] at a4
      rw [hup h a1 (by omega)]
      have a5 : lt y (as.getD (h' - a) []) = false := by simpa using a4
      have hs2 := sorted_getD lt htot as hs (h - a) (h' - a) (by omega) (by omega)
      have := htrans _ _ _ hs2 a5
      rw [this]; rfl)
  generalize searchLoop (fun h => !less ((pre ++ as ++ [y] ++ post).getD m [])
      ((pre ++ as ++ [y] ++ post).getD h [])) (m - a + 1) a m = i at k1 k2 k3 k4 ⊢
  have hsplit : as = as.take (i - a) ++ as.drop (i - a) := (List.take_append_drop _ _).symm
  have hlt : (as.take (i - a)).length = i - a := by rw [List.length_take]; omega
  have hld : (as.drop (i - a)).length = m - i := by rw [List.length_drop]; omega
  refine ⟨as.take (i - a) ++ y :: as.drop (i - a), ?_, ?_, ?_⟩
  · have e0 : as.take (i - a) ++ (as.drop (i - a) ++ y :: post) = as ++ y :: post := by
      rw [← List.append_assoc, List.take_append_drop]
    have e1 : pre ++ as ++ [y] ++ post =
        (pre ++ as.take (i - a)) ++ as.drop (i - a) ++ y :: post := by
      simp only [List.append_assoc, List.singleton_append, List.cons_append, e0, List.nil_append]
    have e2 : i + 1 = (pre ++ as.take (i - a)).length + 1 := by
      rw [List.length_append, hlt]; omega
    rw [e1, e2, ← hld, shiftLeft_spec]
    simp
  · have : (as.take (i - a) ++ y :: as.drop (i - a)).Perm
        (y :: (as.take (i - a) ++ as.drop (i - a))) := List.perm_middle
    rw [← hsplit] at this
    exact this.trans (List.perm_append_singleton y as).symm
  · have hs' := hs
    rw [hsplit, List.pairwise_append] at hs'
    rw [List.pairwise_append]
    refine ⟨hs'.1, ?_, ?_⟩
    · rw [List.pairwise_cons]
      refine ⟨?_, hs'.2.1⟩
      intro z hz
      obtain ⟨j, j1, j2, j3⟩ := mem_drop_getD as (i - a) z hz
      have := k4 (a + j) (by omega) (by omega)
      rw [hup (a + j) (by omega) (by omega), Nat.add_sub_cancel_left, j3] at this
      have h5 : lt y z = true := by simpa using this
      exact htot y z h5
    · intro z hz w hw
      rcases List.mem_cons.mp hw with h | h
      · obtain ⟨j, j1, j2, j3⟩ := mem_take_getD as (i - a) z hz
        have := k3 (a + j) (by omega) (by omega)
        rw [hup (a + j) (by omega) (by omega), Nat.add_sub_cancel_left, j3] at this
        rw [h]
        simpa using this
      · exact hs'.2.2 z hz w h

/-! ### `symMerge`: the general case -/

/-- The general case of `symMerge`, after the search for the place `s` where the runs are
cut: the rotation and the two recursive calls. -/
theorem symMerge_tail (less lt : Path → Path → Bool) (fuel : Nat)
    (ih : ∀ (as bs pre post : List Path) (a m b : Nat),
      a = pre.length → m = a + as.length → b = m + bs.length →
      as ≠ [] → bs ≠ [] → as.length + bs.length ≤ fuel →
      as.Pairwise (fun x y => lt y x = false) → bs.Pairwise (fun x y => lt y x = false) →
      (∀ l ∈ as, ∀ r ∈ bs, less r l = lt r l) →
      ∃ ms, symMerge less fuel (pre ++ as ++ bs ++ post) a m b = pre ++ ms ++ post ∧
        ms.Perm (as ++ bs) ∧ ms.Pairwise (fun x y => lt y x = false))
    (as bs pre post : List Path) (a m b : Nat)
    (h1 : a = pre.length) (h2 : m = a + as.length) (h3 : b = m + bs.length)
    (hsa : as.Pairwise (fun x y => lt y x = false))
    (hsb : bs.Pairwise (fun x y => lt y x = false))
    (hg : ∀ l ∈ as, ∀ r ∈ bs, less r l = lt r l)
    (mid s : Nat) (hs1 : a ≤ s) (hs2 : s ≤ m) (hs3 : s ≤ mid) (hs4 : mid + m ≤ b + s)
    (hf1 : mid - a ≤ fuel) (hf2 : b - mid ≤ fuel)
    (c1 : ∀ x ∈ as.take (s - a), ∀ y ∈ bs.drop (mid - s), lt y x = false)
    (c2 : ∀ x ∈ bs.take (mid - s), ∀ y ∈ as.drop (s - a), lt y x = false) :
    ∃ ms,
      (if (decide (mid < mid + m - s) && decide (mid + m - s < b)) = true then
        symMerge less fuel
          (if (decide (a < s) && decide (s < mid)) = true then
            symMerge less fuel
              (if (decide (s < m) && decide (m < mid + m - s)) = true then
                rotate (pre ++ as ++ bs ++ post) s m (mid + m - s)
              else pre ++ as ++ bs ++ post) a s mid
          else
            if (decide (s < m) && decide (m < mid + m - s)) = true then
              rotate (pre ++ as ++ bs ++ post) s m (mid + m - s)
            else pre ++ as ++ bs ++ post) mid (mid + m - s) b
      else
        if (decide (a < s) && decide (s < mid)) = true then
          symMerge less fuel
            (if (decide (s < m) && decide (m < mid + m - s)) = true then
              rotate (pre ++ as ++ bs ++ post) s m (mid + m - s)
            else pre ++ as ++ bs ++ post) a s mid
        else
          if (decide (s < m) && decide (m < mid + m - s)) = true then
            rotate (pre ++ as ++ bs ++ post) s m (mid + m - s)
          else pre ++ as ++ bs ++ post) = pre ++ ms ++ post ∧
      ms.Perm (as ++ bs) ∧ ms.Pairwise (fun x y => lt y x = false) := by
  have hA : as.take (s - a) ++ as.drop (s - a) = as := List.take_append_drop _ _
  have hB : bs.take (mid - s) ++ bs.drop (mid - s) = bs := List.take_append_drop _ _
  have la1 : (as.take (s - a)).length = s - a := by rw [List.length_take]; omega
  have la2 : (as.drop (s - a)).length = m - s := by rw [List.length_drop]; omega
  have lb1 : (bs.take (mid - s)).length = mid - s := by rw [List.length_take]; omega
  have lb2 : (bs.drop (mid - s)).length = b - (mid + m - s) := by
    rw [List.length_drop]; omega
  have hsa' := hsa
  have hsb' := hsb
  rw [← hA, List.pairwise_append] at hsa'
  rw [← hB, List.pairwise_append] at hsb'
  have hdec : ∀ p q : Prop, ∀ [Decidable p] [Decidable q],
      ((decide p && decide q) = true) ↔ (p ∧ q) := by
    intro p q _ _; simp
  -- the rotation
  have hrot : (if (decide (s < m) && decide (m < mid + m - s)) = true then
        rotate (pre ++ as ++ bs ++ post) s m (mid + m - s)
      else pre ++ as ++ bs ++ post) =
      pre ++ as.take (s - a) ++ bs.take (mid - s) ++
        (as.drop (s - a) ++ bs.drop (mid - s) ++ post) := by
    have e0 : pre ++ as ++ bs ++ post =
        (pre ++ as.take (s - a)) ++ as.drop (s - a) ++ bs.take (mid - s) ++
          (bs.drop (mid - s) ++ post) := by
      conv_lhs => rw [← hA, ← hB]
      simp only [List.append_assoc]
    by_cases hc : s < m ∧ m < mid + m - s
    · rw [if_pos ((hdec _ _).mpr hc), e0,
        rotate_at (as.drop (s - a)) (bs.take (mid - s)) (pre ++ as.take (s - a))
          (bs.drop (mid - s) ++ post)
          (List.ne_nil_of_length_pos (by rw [la2]; omega))
          (List.ne_nil_of_length_pos (by rw [lb1]; omega))
          s m (mid + m - s)
          (by rw [List.length_append, la1]; omega) (by rw [la2]; omega) (by rw [lb1]; omega)]
      simp only [List.append_assoc]
    · rw [if_neg (fun k => hc ((hdec _ _).mp k)), e0]
      have : as.drop (s - a) = [] ∨ bs.take (mid - s) = [] := by
        by_cases h : s < m
        · right
          exact List.length_eq_zero.mp (by rw [lb1]; omega)
        · left
          exact List.length_eq_zero.mp (by rw [la2]; omega)
      rcases this with h | h
      · rw [h]; simp only [List.append_assoc, List.nil_append, List.append_nil]
      · rw [h]; simp only [List.append_assoc, List.nil_append, List.append_nil]
  rw [hrot]
  -- the first recursive call
  have hgsub1 : ∀ l ∈ as.take (s - a), ∀ r ∈ bs.take (mid - s), less r l = lt r l :=
    fun l hl r hr => hg l (List.mem_of_mem_take hl) r (List.mem_of_mem_take hr)
  have hgsub2 : ∀ l ∈ as.drop (s - a), ∀ r ∈ bs.drop (mid - s), less r l = lt r l :=
    fun l hl r hr => hg l (List.mem_of_mem_drop hl) r (List.mem_of_mem_drop hr)
  obtain ⟨m1, hm1, hp1, hsm1⟩ : ∃ m1,
      (if (decide (a < s) && decide (s < mid)) = true then
        symMerge less fuel (pre ++ as.take (s - a) ++ bs.take (mid - s) ++
          (as.drop (s - a) ++ bs.drop (mid - s) ++ post)) a s mid
      else pre ++ as.take (s - a) ++ bs.take (mid - s) ++
          (as.drop (s - a) ++ bs.drop (mid - s) ++ post)) =
        pre ++ m1 ++ (as.drop (s - a) ++ bs.drop (mid - s) ++ post) ∧
      m1.Perm (as.take (s - a) ++ bs.take (mid - s)) ∧
      m1.Pairwise (fun x y => lt y x = false) := by
    by_cases hc : a < s ∧ s < mid
    · rw [if_pos ((hdec _ _).mpr hc)]
      exact ih (as.take (s - a)) (bs.take (mid - s)) pre
        (as.drop (s - a) ++ bs.drop (mid - s) ++ post) a s mid h1
        (by rw [la1]; omega) (by rw [lb1]; omega)
        (List.ne_nil_of_length_pos (by rw [la1]; omega))
        (List.ne_nil_of_length_pos (by rw [lb1]; omega))
        (by rw [la1, lb1]; omega) hsa'.1 hsb'.1 hgsub1
    · rw [if_neg (fun k => hc ((hdec _ _).mp k))]
      refine ⟨as.take (s - a) ++ bs.take (mid - s), by simp only [List.append_assoc],
        List.Perm.refl _, ?_⟩
      have : as.take (s - a) = [] ∨ bs.take (mid - s) = [] := by
        by_cases h : a < s
        · right
          exact List.length_eq_zero.mp (by rw [lb1]; omega)
        · left
          exact List.length_eq_zero.mp (by rw [la1]; omega)
      rcases this with h | h
      · rw [h, List.nil_append]; exact hsb'.1
      · rw [h, List.append_nil]; exact hsa'.1
  rw [hm1]
  have lm1 : m1.length = mid - a := by
    rw [hp1.length_eq, List.length_append, la1, lb1]; omega
  -- the second recursive call
  obtain ⟨m2, hm2, hp2, hsm2⟩ : ∃ m2,
      (if (decide (mid < mid + m - s) && decide (mid + m - s < b)) = true then
        symMerge less fuel (pre ++ m1 ++ (as.drop (s - a) ++ bs.drop (mid - s) ++ post))
          mid (mid + m - s) b
      else pre ++ m1 ++ (as.drop (s - a) ++ bs.drop (mid - s) ++ post)) =
        pre ++ m1 ++ m2 ++ post ∧
      m2.Perm (as.drop (s - a) ++ bs.drop (mid - s)) ∧
      m2.Pairwise (fun x y => lt y x = false) := by
    have e0 : pre ++ m1 ++ (as.drop (s - a) ++ bs.drop (mid - s) ++ post) =
        (pre ++ m1) ++ as.drop (s - a) ++ bs.drop (mid - s) ++ post := by
      simp only [List.append_assoc]
    by_cases hc : mid < mid + m - s ∧ mid + m - s < b
    · rw [if_pos ((hdec _ _).mpr hc), e0]
      exact ih (as.drop (s - a)) (bs.drop (mid - s)) (pre ++ m1) post mid (mid + m - s) b
        (by rw [List.length_append, lm1]; omega)
        (by rw [la2]; omega) (by rw [lb2]; omega)
        (List.ne_nil_of_length_pos (by rw [la2]; omega))
        (List.ne_nil_of_length_pos (by rw [lb2]; omega))
        (by rw [la2, lb2]; omega) hsa'.2.1 hsb'.2.1 hgsub2
    · rw [if_neg (fun k => hc ((hdec _ _).mp k))]
      refine ⟨as.drop (s - a) ++ bs.drop (mid - s), by simp only [List.append_assoc],
        List.Perm.refl _, ?_⟩
      have : as.drop (s - a) = [] ∨ bs.drop (mid - s) = [] := by
        by_cases h : mid < mid + m - s
        · right
          exact List.length_eq_zero.mp (by rw [lb2]; omega)
        · left
          exact List.length_eq_zero.mp (by rw [la2]; omega)
      rcases this with h | h
      · rw [h, List.nil_append]; exact hsb'.2.1
      · rw [h, List.append_nil]; exact hsa'.2.1
  rw [hm2]
  have hfin := split_sorted lt (as.take (s - a)) (as.drop (s - a)) (bs.take (mid - s))
    (bs.drop (mid - s)) m1 m2 (by rw [hA]; exact hsa) (by rw [hB]; exact hsb) c1 c2
    hsm1 hp1 hsm2 hp2
  rw [hA, hB] at hfin
  exact ⟨m1 ++ m2, by simp only [List.append_assoc], hfin.2, hfin.1⟩
/-- Where the search of `symMerge` ends, the runs can be cut: what is before the cut in one
run is not after what is behind the cut in the other. -/
theorem symMerge_cut (less lt : Path → Path → Bool)
    (htrans : ∀ x y z, lt y x = false → lt z y = false → lt z x = false)
    (htot : ∀ x y, lt x y = true → lt y x = false)
    (as bs pre post : List Path) (a m b : Nat)
    (h1 : a = pre.length) (h2 : m = a + as.length) (h3 : b = m + bs.length)
    (hsa : as.Pairwise (fun x y => lt y x = false))
    (hsb : bs.Pairwise (fun x y => lt y x = false))
    (hg : ∀ l ∈ as, ∀ r ∈ bs, less r l = lt r l)
    (mid start0 r0 fuel : Nat) (hmid1 : a ≤ mid) (_hmid2 : mid ≤ b)
    (k1 : a ≤ start0) (k2 : start0 ≤ r0) (k3 : r0 ≤ m) (k4 : r0 ≤ mid)
    (k5 : mid + m ≤ b + start0) (k6 : start0 = a ∨ mid + m = b + start0)
    (k7 : r0 = m ∨ r0 = mid) (hfuel : r0 - start0 < fuel) :
    start0 ≤ searchLoop (fun c => !less ((pre ++ as ++ bs ++ post).getD (mid + m - 1 - c) [])
        ((pre ++ as ++ bs ++ post).getD c [])) fuel start0 r0 ∧
    searchLoop (fun c => !less ((pre ++ as ++ bs ++ post).getD (mid + m - 1 - c) [])
        ((pre ++ as ++ bs ++ post).getD c [])) fuel start0 r0 ≤ r0 ∧
    (∀ x ∈ as.take (searchLoop (fun c =>
        !less ((pre ++ as ++ bs ++ post).getD (mid + m - 1 - c) [])
          ((pre ++ as ++ bs ++ post).getD c [])) fuel start0 r0 - a),
      ∀ y ∈ bs.drop (mid - searchLoop (fun c =>
        !less ((pre ++ as ++ bs ++ post).getD (mid + m - 1 - c) [])
          ((pre ++ as ++ bs ++ post).getD c [])) fuel start0 r0), lt y x = false) ∧
    (∀ x ∈ bs.take (mid - searchLoop (fun c =>
        !less ((pre ++ as ++ bs ++ post).getD (mid + m - 1 - c) [])
          ((pre ++ as ++ bs ++ post).getD c [])) fuel start0 r0),
      ∀ y ∈ as.drop (searchLoop (fun c =>
        !less ((pre ++ as ++ bs ++ post).getD (mid + m - 1 - c) [])
          ((pre ++ as ++ bs ++ post).getD c [])) fuel start0 r0 - a), lt y x = false) := by
  have hA : ∀ c, a ≤ c → c < m → (pre ++ as ++ bs ++ post).getD c [] = as.getD (c - a) [] := by
    intro c q1 q2
    have := getD_seg1 pre as bs post (c - a) (by omega)
    rw [← this]
    congr 1
    omega
  have hB : ∀ c, m ≤ c → c < b → (pre ++ as ++ bs ++ post).getD c [] = bs.getD (c - m) [] := by
    intro c q1 q2
    have := getD_seg2 pre as bs post (c - m) (by omega)
    rw [← this]
    congr 1
    omega
  have hup : ∀ c, start0 ≤ c → c < r0 →
      (!less ((pre ++ as ++ bs ++ post).getD (mid + m - 1 - c) [])
        ((pre ++ as ++ bs ++ post).getD c [])) =
      !lt (bs.getD (mid - 1 - c) []) (as.getD (c - a) []) := by
    intro c q1 q2
    rw [hA c (by omega) (by omega), hB (mid + m - 1 - c) (by omega) (by omega)]
    have e : mid + m - 1 - c - m = mid - 1 - c := by omega
    rw [e, hg _ (getD_mem as (c - a) (by omega)) _ (getD_mem bs (mid - 1 - c) (by omega))]
  obtain ⟨s1, s2, s3, s4⟩ := searchLoop_spec
    (fun c => !less ((pre ++ as ++ bs ++ post).getD (mid + m - 1 - c) [])
        ((pre ++ as ++ bs ++ post).getD c [])) fuel start0 r0 k2 hfuel
    (by
      intro c c' q1 q2 q3 q4
      beta_reduce at q4 ⊢
      rw [hup c' (by omega) q3] at q4
      rw [hup c q1 (by omega)]
      have q5 : lt (bs.getD (mid - 1 - c') []) (as.getD (c' - a) []) = false := by
        simpa using q4
      have t1 := sorted_getD lt htot as hsa (c - a) (c' - a) (by omega) (by omega)
      have t2 := sorted_getD lt htot bs hsb (mid - 1 - c') (mid - 1 - c) (by omega) (by omega)
      have t3 := htrans _ _ _ t1 q5
      have t4 := htrans _ _ _ t3 t2
      rw [t4]; rfl)
  generalize searchLoop (fun c => !less ((pre ++ as ++ bs ++ post).getD (mid + m - 1 - c) [])
        ((pre ++ as ++ bs ++ post).getD c [])) fuel start0 r0 = s at s1 s2 s3 s4 ⊢
  refine ⟨s1, s2, ?_, ?_⟩
  · intro x hx y hy
    obtain ⟨i, i1, i2, i3⟩ := mem_take_getD as (s - a) x hx
    obtain ⟨j, j1, j2, j3⟩ := mem_drop_getD bs (mid - s) y hy
    have hs0 : start0 < s := by
      rcases k6 with h | h
      · omega
      · omega
    have q := s3 (s - 1) (by omega) (by omega)
    beta_reduce at q
    rw [hup (s - 1) (by omega) (by omega)] at q
    have q5 : lt (bs.getD (mid - 1 - (s - 1)) []) (as.getD (s - 1 - a) []) = false := by
      simpa using q
    have t1 := sorted_getD lt htot as hsa i (s - 1 - a) (by omega) (by omega)
    have t2 := sorted_getD lt htot bs hsb (mid - 1 - (s - 1)) j (by omega) (by omega)
    have t3 := htrans _ _ _ t1 q5
    have t4 := htrans _ _ _ t3 t2
    rw [i3, j3] at t4
    exact t4
  · intro x hx y hy
    obtain ⟨j, j1, j2, j3⟩ := mem_take_getD bs (mid - s) x hx
    obtain ⟨i, i1, i2, i3⟩ := mem_drop_getD as (s - a) y hy
    have hs0 : s < r0 := by
      rcases k7 with h | h
      · omega
      · omega
    have q := s4 s (Nat.le_refl _) hs0
    beta_reduce at q
    rw [hup s s1 hs0] at q
    have q5 : lt (bs.getD (mid - 1 - s) []) (as.getD (s - a) []) = true := by
      simpa using q
    have q6 := htot _ _ q5
    have t1 := sorted_getD lt htot bs hsb j (mid - 1 - s) (by omega) (by omega)
    have t2 := sorted_getD lt htot as hsa (s - a) i (by omega) (by omega)
    have t3 := htrans _ _ _ t1 q6
    have t4 := htrans _ _ _ t3 t2
    rw [i3, j3] at t4
    exact t4

/-- Go `symMerge` merges two adjacent sorted runs, when its comparisons of an element of
the second run with an element of the first are those of a total preorder. -/
theorem symMerge_spec (less lt : Path → Path → Bool)
    (htrans : ∀ x y z, lt y x = false → lt z y = false → lt z x = false)
    (htot : ∀ x y, lt x y = true → lt y x = false) :
    ∀ (fuel : Nat) (as bs pre post : List Path) (a m b : Nat),
      a = pre.length → m = a + as.length → b = m + bs.length →
      as ≠ [] → bs ≠ [] → as.length + bs.length ≤ fuel →
      as.Pairwise (fun x y => lt y x = false) → bs.Pairwise (fun x y => lt y x = false) →
      (∀ l ∈ as, ∀ r ∈ bs, less r l = lt r l) →
      ∃ ms, symMerge less fuel (pre ++ as ++ bs ++ post) a m b = pre ++ ms ++ post ∧
        ms.Perm (as ++ bs) ∧ ms.Pairwise (fun x y => lt y x = false) := by
  intro fuel
  induction fuel with
  | zero =>
    intro as bs pre post a m b _ _ _ hane _ hfuel
    have := List.length_pos.mpr hane
    omega
  | succ fuel ih =>
    intro as bs pre post a m b h1 h2 h3 hane hbne hfuel hsa hsb hg
    have hla := List.length_pos.mpr hane
    have hlb := List.length_pos.mpr hbne
    unfold symMerge
    by_cases c1 : m - a = 1
    · rw [if_pos c1]
      obtain ⟨x, hx⟩ : ∃ x, as = [x] := List.length_eq_one.mp (by omega)
      subst hx
      exact symMerge_one_left less lt htrans htot x bs pre post a m b h1
        (by simpa using h2) h3 hsb (fun r hr => hg x (List.mem_singleton.mpr rfl) r hr)
    · rw [if_neg c1]
      by_cases c2 : b - m = 1
      · rw [if_pos c2]
        obtain ⟨y, hy⟩ : ∃ y, bs = [y] := List.length_eq_one.mp (by omega)
        subst hy
        exact symMerge_one_right less lt htrans htot y as pre post a m b h1 h2
          (by simpa using h3) hsa (fun l hl => hg l hl y (List.mem_singleton.mpr rfl))
      · rw [if_neg c2]
        dsimp only
        by_cases hm : m > (a + b) / 2
        · rw [if_pos hm, if_pos hm]
          obtain ⟨q1, q2, q3, q4⟩ := symMerge_cut less lt htrans htot as bs pre post a m b
            h1 h2 h3 hsa hsb hg ((a + b) / 2) ((a + b) / 2 + m - b) ((a + b) / 2)
            ((a + b) / 2 - ((a + b) / 2 + m - b) + 1)
            (by omega) (by omega) (by omega) (by omega) (by omega) (Nat.le_refl _)
            (by omega) (Or.inr (by omega)) (Or.inr rfl) (by omega)
          generalize searchLoop (fun c =>
            !less ((pre ++ as ++ bs ++ post).getD ((a + b) / 2 + m - 1 - c) [])
              ((pre ++ as ++ bs ++ post).getD c []))
            ((a + b) / 2 - ((a + b) / 2 + m - b) + 1) ((a + b) / 2 + m - b) ((a + b) / 2) = s
            at q1 q2 q3 q4 ⊢
          exact symMerge_tail less lt fuel ih as bs pre post a m b h1 h2 h3 hsa hsb hg
            ((a + b) / 2) s (by omega) (by omega) q2 (by omega) (by omega) (by omega) q3 q4
        · rw [if_neg hm, if_neg hm]
          obtain ⟨q1, q2, q3, q4⟩ := symMerge_cut less lt htrans htot as bs pre post a m b
            h1 h2 h3 hsa hsb hg ((a + b) / 2) a m (m - a + 1)
            (by omega) (by omega) (Nat.le_refl _) (by omega) (Nat.le_refl _) (by omega)
            (by omega) (Or.inl rfl) (Or.inl rfl) (by omega)
          generalize searchLoop (fun c =>
            !less ((pre ++ as ++ bs ++ post).getD ((a + b) / 2 + m - 1 - c) [])
              ((pre ++ as ++ bs ++ post).getD c [])) (m - a + 1) a m = s
            at q1 q2 q3 q4 ⊢
          exact symMerge_tail less lt fuel ih as bs pre post a m b h1 h2 h3 hsa hsb hg
            ((a + b) / 2) s q1 q2 (by omega) (by omega) (by omega) (by omega) q3 q4

/-! ### `stable`: blocks and merges -/

/-- The first loop of Go `stable` sorts the full blocks and leaves the rest as it was. -/
theorem stableBlocks_spec (less lt : Path → Path → Bool)
    (htrans : ∀ x y z, lt y x = false → lt z y = false → lt z x = false)
    (htot : ∀ x y, lt x y = true → lt y x = false) (bsz : Nat) (_hbs : 0 < bsz) :
    ∀ (fuel : Nat) (pre rest : List Path) (n : Nat),
      n = pre.length + rest.length → rest.length < fuel * bsz →
      rest.Pairwise (fun l r => less r l = lt r l) →
      ∃ (blocks : List (List Path)) (tail : List Path),
        stableBlocks less n bsz fuel (pre ++ rest) pre.length =
          (pre ++ blocks.flatten ++ tail, (pre ++ blocks.flatten).length) ∧
        (∀ b ∈ blocks, b.length = bsz) ∧
        (∀ b ∈ blocks, b.Pairwise (fun x y => lt y x = false)) ∧
        tail.length < bsz ∧ tail.Pairwise (fun l r => less r l = lt r l) ∧
        (blocks ++ [tail]).Pairwise (fun B1 B2 => ∀ l ∈ B1, ∀ r ∈ B2, less r l = lt r l) ∧
        (blocks.flatten ++ tail).Perm rest := by
  intro fuel
  induction fuel with
  | zero =>
    intro pre rest n _ h
    simp at h
  | succ fuel ih =>
    intro pre rest n hn hf hg
    unfold stableBlocks
    by_cases hc : pre.length + bsz ≤ n
    · rw [if_pos hc]
      have hsplit : rest = rest.take bsz ++ rest.drop bsz := (List.take_append_drop bsz rest).symm
      have hlt : (rest.take bsz).length = bsz := by
        rw [List.length_take]; omega
      have hld : (rest.drop bsz).length = rest.length - bsz := List.length_drop bsz rest
      have hg2 := hg
      rw [hsplit, List.pairwise_append] at hg2
      obtain ⟨g1, g2, g3⟩ := hg2
      obtain ⟨b, e1, e2, e3⟩ := insertionSort_spec less lt htrans htot pre (rest.drop bsz)
        (rest.take bsz) g1
      rw [hlt] at e1
      have e0 : pre ++ rest = pre ++ rest.take bsz ++ rest.drop bsz := by
        rw [List.append_assoc, List.take_append_drop]
      rw [e0, e1]
      have hbl : b.length = bsz := by rw [e2.length_eq, hlt]
      have hf2 : (rest.drop bsz).length < fuel * bsz := by
        rw [hld]
        have : (fuel + 1) * bsz = fuel * bsz + bsz := Nat.succ_mul fuel bsz
        omega
      obtain ⟨blocks, tail, r1, r2, r3, r4, r5, r6, r7⟩ := ih (pre ++ b) (rest.drop bsz) n
        (by rw [List.length_append, hbl, hld]; omega) hf2 g2
      have e4 : pre.length + bsz = (pre ++ b).length := by rw [List.length_append, hbl]
      rw [e4, r1]
      refine ⟨b :: blocks, tail, ?_, ?_, ?_, r4, r5, ?_, ?_⟩
      · simp only [List.flatten_cons, List.append_assoc]
      · intro c hc2
        rcases List.mem_cons.mp hc2 with h | h
        · rw [h]; exact hbl
        · exact r2 c h
      · intro c hc2
        rcases List.mem_cons.mp hc2 with h | h
        · rw [h]; exact e3
        · exact r3 c h
      · rw [List.cons_append, List.pairwise_cons]
        refine ⟨?_, r6⟩
        intro B hB l hl r hr
        have hr2 : r ∈ rest.drop bsz := by
          apply r7.subset
          rcases List.mem_append.mp hB with h | h
          · exact List.mem_append_left _ (List.mem_flatten.mpr ⟨B, h, hr⟩)
          · rw [List.mem_singleton] at h
            rw [h] at hr
            exact List.mem_append_right _ hr
        exact g3 l (e2.subset hl) r hr2
      · rw [List.flatten_cons, List.append_assoc]
        have := List.Perm.append e2 r7
        rw [List.take_append_drop] at this
        exact this
    · rw [if_neg hc]
      refine ⟨[], rest, ?_, ?_, ?_, ?_, hg, ?_, ?_⟩
      · simp
      · intro b hb; cases hb
      · intro b hb; cases hb
      · omega
      · simp
      · simp

/-- The inner loop of the second phase of Go `stable` merges the full blocks in pairs. -/
theorem stableMergePairs_spec (less lt : Path → Path → Bool)
    (htrans : ∀ x y z, lt y x = false → lt z y = false → lt z x = false)
    (htot : ∀ x y, lt x y = true → lt y x = false) (bsz : Nat) (hbs : 0 < bsz) :
    ∀ (fuel : Nat) (full : List (List Path)) (pre tail : List Path) (n : Nat),
      full.length < 2 * fuel →
      n = pre.length + full.flatten.length + tail.length →
      (∀ b ∈ full, b.length = bsz) → tail.length < bsz →
      (∀ b ∈ full, b.Pairwise (fun x y => lt y x = false)) →
      (full ++ [tail]).Pairwise (fun B1 B2 => ∀ l ∈ B1, ∀ r ∈ B2, less r l = lt r l) →
      ∃ (merged rest : List (List Path)),
        stableMergePairs less n bsz fuel (pre ++ full.flatten ++ tail) pre.length =
          (pre ++ merged.flatten ++ rest.flatten ++ tail, (pre ++ merged.flatten).length) ∧
        (∀ b ∈ merged, b.length = 2 * bsz) ∧
        (∀ b ∈ merged, b.Pairwise (fun x y => lt y x = false)) ∧
        (rest = [] ∨ ∃ b, rest = [b] ∧ b.length = bsz ∧ b.Pairwise (fun x y => lt y x = false)) ∧
        (merged ++ rest ++ [tail]).Pairwise
          (fun B1 B2 => ∀ l ∈ B1, ∀ r ∈ B2, less r l = lt r l) ∧
        (merged.flatten ++ rest.flatten).Perm full.flatten := by
  intro fuel
  induction fuel with
  | zero =>
    intro full pre tail n h
    simp at h
  | succ fuel ih =>
    intro full pre tail n hf hn hlen htail hsorted hcg
    unfold stableMergePairs
    rcases full with _ | ⟨b1, _ | ⟨b2, full2⟩⟩
    · have hc : ¬ pre.length + 2 * bsz ≤ n := by
        simp only [List.flatten_nil, List.length_nil] at hn
        omega
      rw [if_neg hc]
      refine ⟨[], [], ?_, ?_, ?_, Or.inl rfl, ?_, ?_⟩
      · simp
      · intro b hb; cases hb
      · intro b hb; cases hb
      · simp
      · simp
    · have hb := hlen b1 (List.mem_singleton.mpr rfl)
      have hc : ¬ pre.length + 2 * bsz ≤ n := by
        simp only [List.flatten_cons, List.flatten_nil, List.append_nil] at hn
        omega
      rw [if_neg hc]
      refine ⟨[], [b1], ?_, ?_, ?_,
        Or.inr ⟨b1, rfl, hb, hsorted b1 (List.mem_singleton.mpr rfl)⟩, ?_, ?_⟩
      · simp
      · intro b hb; cases hb
      · intro b hb; cases hb
      · simpa using hcg
      · simp
    · have hb1 := hlen b1 (List.mem_cons_self _ _)
      have hb2 := hlen b2 (List.mem_cons_of_mem _ (List.mem_cons_self _ _))
      have hc : pre.length + 2 * bsz ≤ n := by
        simp only [List.flatten_cons, List.length_append] at hn
        omega
      rw [if_pos hc]
      rw [List.cons_append, List.cons_append, List.pairwise_cons, List.pairwise_cons] at hcg
      obtain ⟨cg1, cg2, cg3⟩ := hcg
      have hne1 : b1 ≠ [] := by
        intro h; rw [h, List.length_nil] at hb1; omega
      have hne2 : b2 ≠ [] := by
        intro h; rw [h, List.length_nil] at hb2; omega
      obtain ⟨ms, m1, m2, m3⟩ := symMerge_spec less lt htrans htot (n + 1) b1 b2 pre
        (full2.flatten ++ tail) pre.length (pre.length + bsz) (pre.length + 2 * bsz)
        rfl (by rw [hb1]) (by rw [hb2]; omega) hne1 hne2
        (by
          simp only [List.flatten_cons, List.length_append] at hn
          omega)
        (hsorted b1 (List.mem_cons_self _ _))
        (hsorted b2 (List.mem_cons_of_mem _ (List.mem_cons_self _ _)))
        (fun l hl r hr => cg1 b2 (List.mem_cons_self _ _) l hl r hr)
      have e0 : pre ++ (b1 :: b2 :: full2).flatten ++ tail =
          pre ++ b1 ++ b2 ++ (full2.flatten ++ tail) := by
        simp only [List.flatten_cons, List.append_assoc]
      rw [e0, m1]
      have hml : ms.length = 2 * bsz := by
        rw [m2.length_eq, List.length_append, hb1, hb2]; omega
      obtain ⟨merged, rest, r1, r2, r3, r4, r5, r6⟩ := ih full2 (pre ++ ms) tail n
        (by simp only [List.length_cons] at hf; omega)
        (by
          simp only [List.flatten_cons, List.length_append] at hn
          rw [List.length_append, hml]
          omega)
        (fun b hb => hlen b (List.mem_cons_of_mem _ (List.mem_cons_of_mem _ hb)))
        htail
        (fun b hb => hsorted b (List.mem_cons_of_mem _ (List.mem_cons_of_mem _ hb)))
        cg3
      have e4 : pre.length + 2 * bsz = (pre ++ ms).length := by
        rw [List.length_append, hml]
      have e5 : pre ++ ms ++ (full2.flatten ++ tail) = pre ++ ms ++ full2.flatten ++ tail := by
        simp only [List.append_assoc]
      rw [e4, e5, r1]
      refine ⟨ms :: merged, rest, ?_, ?_, ?_, r4, ?_, ?_⟩
      · simp only [List.flatten_cons, List.append_assoc]
      · intro c hc2
        rcases List.mem_cons.mp hc2 with h | h
        · rw [h]; exact hml
        · exact r2 c h
      · intro c hc2
        rcases List.mem_cons.mp hc2 with h | h
        · rw [h]; exact m3
        · exact r3 c h
      · rw [List.cons_append, List.cons_append, List.pairwise_cons]
        refine ⟨?_, r5⟩
        intro B hB l hl r hr
        have hl2 : l ∈ b1 ∨ l ∈ b2 := List.mem_append.mp (m2.subset hl)
        have hr2 : ∃ B2 ∈ full2 ++ [tail], r ∈ B2 := by
          rcases List.mem_append.mp hB with h | h
          · have : r ∈ merged.flatten ++ rest.flatten := by
              rw [← List.flatten_append]
              exact List.mem_flatten.mpr ⟨B, h, hr⟩
            obtain ⟨B2, k1, k2⟩ := List.mem_flatten.mp (r6.subset this)
            exact ⟨B2, List.mem_append_left _ k1, k2⟩
          · exact ⟨B, List.mem_append_right _ h, hr⟩
        obtain ⟨B2, k1, k2⟩ := hr2
        rcases hl2 with h | h
        · exact cg1 B2 (List.mem_cons_of_mem _ k1) l h r k2
        · exact cg2 B2 k1 l h r k2
      · simp only [List.flatten_cons, List.append_assoc]
        have := List.Perm.append m2 r6
        simpa only [List.append_assoc] using this
theorem flatten_length_blocks (bsz : Nat) :
    ∀ (full : List (List Path)), (∀ b ∈ full, b.length = bsz) →
      full.flatten.length = full.length * bsz := by
  intro full
  induction full with
  | nil => intro _; simp
  | cons b rest ih =>
    intro h
    rw [List.flatten_cons, List.length_append, h b (List.mem_cons_self _ _),
      ih (fun c hc => h c (List.mem_cons_of_mem _ hc)), List.length_cons, Nat.succ_mul]
    omega

/-- The second phase of Go `stable` ends with one sorted run. -/
theorem stableMerge_spec (less lt : Path → Path → Bool)
    (htrans : ∀ x y z, lt y x = false → lt z y = false → lt z x = false)
    (htot : ∀ x y, lt x y = true → lt y x = false) :
    ∀ (fuel bsz : Nat) (full : List (List Path)) (tail : List Path) (n : Nat),
      0 < bsz → n < fuel + bsz → n = full.flatten.length + tail.length →
      (∀ b ∈ full, b.length = bsz) → tail.length < bsz →
      (∀ b ∈ full, b.Pairwise (fun x y => lt y x = false)) →
      tail.Pairwise (fun x y => lt y x = false) →
      (full ++ [tail]).Pairwise (fun B1 B2 => ∀ l ∈ B1, ∀ r ∈ B2, less r l = lt r l) →
      (stableMerge less n fuel bsz (full.flatten ++ tail)).Perm (full.flatten ++ tail) ∧
      (stableMerge less n fuel bsz (full.flatten ++ tail)).Pairwise
        (fun x y => lt y x = false) := by
  intro fuel
  have hdone : ∀ (bsz : Nat) (full : List (List Path)) (tail : List Path) (n : Nat),
      0 < bsz → ¬ bsz < n → n = full.flatten.length + tail.length →
      (∀ b ∈ full, b.length = bsz) →
      (∀ b ∈ full, b.Pairwise (fun x y => lt y x = false)) →
      tail.Pairwise (fun x y => lt y x = false) →
      (full.flatten ++ tail).Pairwise (fun x y => lt y x = false) := by
    intro bsz full tail n hb hc hn hlen hs ht
    have hfl := flatten_length_blocks bsz full hlen
    rcases full with _ | ⟨b1, _ | ⟨b2, full2⟩⟩
    · simpa using ht
    · have h1 := hlen b1 (List.mem_singleton.mpr rfl)
      simp only [List.flatten_cons, List.flatten_nil, List.append_nil] at hn ⊢
      have : tail = [] := List.length_eq_zero.mp (by omega)
      rw [this, List.append_nil]
      exact hs b1 (List.mem_singleton.mpr rfl)
    · exfalso
      simp only [List.length_cons] at hfl
      have : (full2.length + 1 + 1) * bsz = full2.length * bsz + bsz + bsz := by
        rw [Nat.add_mul, Nat.add_mul]; omega
      omega
  induction fuel with
  | zero =>
    intro bsz full tail n hb hf hn hlen htail hs ht hcg
    unfold stableMerge
    exact ⟨List.Perm.refl _, hdone bsz full tail n hb (by omega) hn hlen hs ht⟩
  | succ fuel ih =>
    intro bsz full tail n hb hf hn hlen htail hs ht hcg
    unfold stableMerge
    by_cases hc : bsz < n
    · rw [if_pos hc]
      dsimp only
      have hfl := flatten_length_blocks bsz full hlen
      have hfl2 : full.length ≤ full.length * bsz := Nat.le_mul_of_pos_right _ hb
      obtain ⟨merged, rest, r1, r2, r3, r4, r5, r6⟩ := stableMergePairs_spec less lt htrans htot
        bsz hb (n + 1) full [] tail n (by omega) (by simp only [List.length_nil]; omega)
        hlen htail hs hcg
      simp only [List.nil_append, List.length_nil] at r1
      rw [r1]
      dsimp only
      have hlen6 := r6.length_eq
      rw [List.length_append] at hlen6
      rcases r4 with h4 | ⟨b, h4, h5, h6⟩
      · subst h4
        simp only [List.flatten_nil, List.append_nil, List.length_nil, Nat.add_zero] at hlen6 r5 r6 ⊢
        have hc2 : ¬ merged.flatten.length + bsz < n := by omega
        rw [if_neg hc2]
        obtain ⟨q1, q2⟩ := ih (2 * bsz) merged tail n (by omega) (by omega) (by omega) r2
          (by omega) r3 ht r5
        exact ⟨q1.trans (List.Perm.append_right _ r6), q2⟩
      · subst h4
        simp only [List.flatten_cons, List.flatten_nil, List.append_nil] at hlen6 r6 ⊢
        by_cases hc2 : merged.flatten.length + bsz < n
        · rw [if_pos hc2]
          have htne : tail ≠ [] := by
            intro h; rw [h, List.length_nil] at hn; omega
          have hbne : b ≠ [] := by
            intro h; rw [h, List.length_nil] at h5; omega
          have r5b := r5
          rw [List.append_assoc, List.pairwise_append] at r5b
          obtain ⟨p1, p2, p3⟩ := r5b
          have p2b : ∀ l ∈ b, ∀ r ∈ tail, less r l = lt r l := by
            have := p2
            simp only [List.singleton_append, List.pairwise_cons, List.mem_singleton,
              forall_eq] at this
            exact this.1
          obtain ⟨ms, m1, m2, m3⟩ := symMerge_spec less lt htrans htot (n + 1) b tail
            merged.flatten [] merged.flatten.length (merged.flatten.length + bsz) n
            rfl (by rw [h5]) (by omega) hbne htne (by omega) h6 ht p2b
          rw [List.append_nil] at m1
          rw [m1, List.append_nil]
          have hml := m2.length_eq
          rw [List.length_append] at hml
          obtain ⟨q1, q2⟩ := ih (2 * bsz) merged ms n (by omega) (by omega) (by omega) r2
            (by omega) r3 m3
            (by
              rw [List.pairwise_append]
              refine ⟨p1, by simp, ?_⟩
              intro B1 hB1 B2 hB2 l hl r hr
              rw [List.mem_singleton] at hB2
              rw [hB2] at hr
              rcases List.mem_append.mp (m2.subset hr) with h | h
              · exact p3 B1 hB1 b (by simp) l hl r h
              · exact p3 B1 hB1 tail (by simp) l hl r h)
          refine ⟨q1.trans ?_, q2⟩
          have k1 : (merged.flatten ++ ms).Perm (merged.flatten ++ (b ++ tail)) :=
            List.Perm.append_left _ m2
          have k2 : (merged.flatten ++ (b ++ tail)).Perm (full.flatten ++ tail) := by
            rw [← List.append_assoc]
            exact List.Perm.append_right _ r6
          exact k1.trans k2
        · rw [if_neg hc2]
          have : tail = [] := List.length_eq_zero.mp (by omega)
          subst this
          rw [List.append_nil]
          have r5b := r5
          rw [List.pairwise_append] at r5b
          obtain ⟨q1, q2⟩ := ih (2 * bsz) merged b n (by omega) (by omega) (by omega) r2
            (by omega) r3 h6 r5b.1
          rw [List.append_nil]
          exact ⟨q1.trans r6, q2⟩
    · rw [if_neg hc]
      exact ⟨List.Perm.refl _, hdone bsz full tail n hb hc hn hlen hs ht⟩

/-- Go `sort.SliceStable` sorts a list on which every comparison of a later element with
an earlier one is that of a total preorder. -/
theorem sliceStable_spec (less lt : Path → Path → Bool)
    (htrans : ∀ x y z, lt y x = false → lt z y = false → lt z x = false)
    (htot : ∀ x y, lt x y = true → lt y x = false)
    (x : List Path) (hg : x.Pairwise (fun l r => less r l = lt r l)) :
    (sliceStable less x).Perm x ∧ (sliceStable less x).Pairwise (fun a b => lt b a = false) := by
  unfold sliceStable
  obtain ⟨blocks, tail, r1, r2, r3, r4, r5, r6, r7⟩ := stableBlocks_spec less lt htrans htot 20
    (by decide) (x.length + 1) [] x x.length (by simp) (by omega) hg
  simp only [List.nil_append, List.length_nil] at r1
  dsimp only
  rw [r1]
  dsimp only
  have hlen := r7.length_eq
  rw [List.length_append] at hlen
  obtain ⟨b, e1, e2, e3⟩ := insertionSort_spec less lt htrans htot blocks.flatten [] tail r5
  rw [List.append_nil, List.append_nil] at e1
  rw [← hlen, e1]
  have hbl := e2.length_eq
  obtain ⟨q1, q2⟩ := stableMerge_spec less lt htrans htot (blocks.flatten.length + tail.length + 1)
    20 blocks b (blocks.flatten.length + tail.length) (by decide) (by omega) (by omega) r2
    (by omega) r3 e3
    (by
      rw [List.pairwise_append] at r6 ⊢
      refine ⟨r6.1, by simp, ?_⟩
      intro B1 hB1 B2 hB2 l hl r hr
      rw [List.mem_singleton] at hB2
      rw [hB2] at hr
      exact r6.2.2 B1 hB1 tail (by simp) l hl r (e2.subset hr))
  exact ⟨q1.trans ((List.Perm.append_left _ e2).trans r7), q2⟩

/-! ## The order of the matches

Go compares strings byte by byte; `Readdirnames` with `sort.Strings` and `filepath.Walk`
deliver the entries of a directory in that order. -/

theorem ltChars_irrefl : ∀ (s : List Char), ltChars s s = false := by
  intro s
  induction s with
  | nil => rfl
  | cons c s ih => simp [ltChars, ih]

theorem char_eq_of_toNat (c d : Char) (h : c.toNat = d.toNat) : c = d := by
  apply Char.ext
  apply UInt32.ext
  exact h

theorem ltChars_trans : ∀ (s t u : List Char), ltChars s t = true → ltChars t u = true →
    ltChars s u = true := by
  intro s
  induction s with
  | nil =>
    intro t u h1 h2
    cases t with
    | nil => simp [ltChars] at h1
    | cons d t =>
      cases u with
      | nil => simp [ltChars] at h2
      | cons e u => simp [ltChars]
  | cons c s ih =>
    intro t u h1 h2
    cases t with
    | nil => simp [ltChars] at h1
    | cons d t =>
      cases u with
      | nil => simp [ltChars] at h2
      | cons e u =>
        simp only [ltChars, Bool.or_eq_true, decide_eq_true_eq, Bool.and_eq_true,
          beq_iff_eq] at h1 h2 ⊢
        rcases h1 with h1 | ⟨h1, h1b⟩
        · rcases h2 with h2 | ⟨h2, _⟩
          · left; omega
          · left; rw [← h2]; exact h1
        · rcases h2 with h2 | ⟨h2, h2b⟩
          · left; rw [h1]; exact h2
          · right; exact ⟨h1.trans h2, ih t u h1b h2b⟩

theorem ltChars_total : ∀ (s t : List Char), ltChars s t = false → ltChars t s = false →
    s = t := by
  intro s
  induction s with
  | nil =>
    intro t h1 _
    cases t with
    | nil => rfl
    | cons d t => simp [ltChars] at h1
  | cons c s ih =>
    intro t h1 h2
    cases t with
    | nil => simp [ltChars] at h2
    | cons d t =>
      simp only [ltChars, Bool.or_eq_false_iff, decide_eq_false_iff_not, Bool.and_eq_false_iff,
        beq_eq_false_iff_ne, ne_eq] at h1 h2
      have hcd : c = d := char_eq_of_toNat c d (by omega)
      subst hcd
      have k1 : ltChars s t = false := by
        rcases h1.2 with h | h
        · exact absurd rfl h
        · exact h
      have k2 : ltChars t s = false := by
        rcases h2.2 with h | h
        · exact absurd rfl h
        · exact h
      rw [ih t k1 k2]

theorem ltChars_asymm (s t : List Char) (h : ltChars s t = true) : ltChars t s = false := by
  cases h2 : ltChars t s with
  | false => rfl
  | true =>
    have := ltChars_trans s t s h h2
    rw [ltChars_irrefl] at this
    cases this

/-- Being not less is transitive: `ltChars` is a strict total order. -/
theorem ltChars_le_trans (s t u : List Char) (h1 : ltChars t s = false)
    (h2 : ltChars u t = false) : ltChars u s = false := by
  cases h3 : ltChars u s with
  | false => rfl
  | true =>
    cases h4 : ltChars s t with
    | false =>
      have := ltChars_total s t h4 h1
      subst this
      rw [h3] at h2
      cases h2
    | true =>
      have := ltChars_trans u s t h3 h4
      rw [this] at h2
      cases h2

theorem ltChars_append_left : ∀ (p s t : List Char), ltChars (p ++ s) (p ++ t) = ltChars s t := by
  intro p
  induction p with
  | nil => intro s t; rfl
  | cons c p ih =>
    intro s t
    simp [ltChars, ih]

theorem pathString_snoc_data (p : Path) (a : String) :
    (pathString (p ++ [a])).data = (p.map (fun s => '/' :: s.data)).flatten ++ '/' :: a.data := by
  have : pathString (p ++ [a]) = ⟨((p ++ [a]).map (fun s => '/' :: s.data)).flatten⟩ := by
    cases p <;> rfl
  rw [this]
  simp

/-- Two entries of one directory compare as their names do. -/
theorem ltChars_pathString_snoc (p : Path) (a b : String) :
    ltChars (pathString (p ++ [a])).data (pathString (p ++ [b])).data =
      ltChars a.data b.data := by
  rw [pathString_snoc_data, pathString_snoc_data, ltChars_append_left]
  simp [ltChars]

theorem ltPath_irrefl : ∀ (p : Path), ltPath p p = false := by
  intro p
  induction p with
  | nil => rfl
  | cons a p ih => simp [ltPath, ih, ltChars_irrefl]

theorem ltPath_trans : ∀ (p q r : Path), ltPath p q = true → ltPath q r = true →
    ltPath p r = true := by
  intro p
  induction p with
  | nil =>
    intro q r h1 h2
    cases q with
    | nil => simp [ltPath] at h1
    | cons b q =>
      cases r with
      | nil => simp [ltPath] at h2
      | cons c r => simp [ltPath]
  | cons a p ih =>
    intro q r h1 h2
    cases q with
    | nil => simp [ltPath] at h1
    | cons b q =>
      cases r with
      | nil => simp [ltPath] at h2
      | cons c r =>
        simp only [ltPath, Bool.or_eq_true, Bool.and_eq_true, beq_iff_eq] at h1 h2 ⊢
        rcases h1 with h1 | ⟨h1, h1b⟩
        · rcases h2 with h2 | ⟨h2, _⟩
          · left; exact ltChars_trans _ _ _ h1 h2
          · left; rw [← h2]; exact h1
        · rcases h2 with h2 | ⟨h2, h2b⟩
          · left; rw [h1]; exact h2
          · right; exact ⟨h1.trans h2, ih q r h1b h2b⟩

theorem ltPath_total : ∀ (p q : Path), ltPath p q = false → ltPath q p = false → p = q := by
  intro p
  induction p with
  | nil =>
    intro q h1 _
    cases q with
    | nil => rfl
    | cons b q => simp [ltPath] at h1
  | cons a p ih =>
    intro q h1 h2
    cases q with
    | nil => simp [ltPath] at h2
    | cons b q =>
      simp only [ltPath, Bool.or_eq_false_iff, Bool.and_eq_false_iff,
        beq_eq_false_iff_ne, ne_eq] at h1 h2
      have hab : a = b := by
        have := ltChars_total a.data b.data h1.1 h2.1
        exact String.ext this
      subst hab
      have k1 : ltPath p q = false := by
        rcases h1.2 with h | h
        · exact absurd rfl h
        · exact h
      have k2 : ltPath q p = false := by
        rcases h2.2 with h | h
        · exact absurd rfl h
        · exact h
      rw [ih q k1 k2]

theorem ltPath_snoc : ∀ (p : Path) (a b : String),
    ltPath (p ++ [a]) (p ++ [b]) = ltChars a.data b.data := by
  intro p
  induction p with
  | nil => intro a b; simp [ltPath]
  | cons c p ih => intro a b; simp [ltPath, ih, ltChars_irrefl]

/-- The names of a directory come in strictly increasing order. -/
theorem insertName_sorted (s : String) :
    ∀ (l : List String), l.Pairwise (fun a b => ltChars a.data b.data = true) →
      (insertName s l).Pairwise (fun a b => ltChars a.data b.data = true) := by
  intro l
  induction l with
  | nil => intro _; simp [insertName]
  | cons t rest ih =>
    intro h
    rw [List.pairwise_cons] at h
    unfold insertName
    split
    · exact List.pairwise_cons.mpr h
    · rename_i hst
      split
      · rename_i hlt
        refine List.pairwise_cons.mpr ⟨?_, List.pairwise_cons.mpr h⟩
        intro x hx
        rcases List.mem_cons.mp hx with hx | hx
        · rw [hx]; exact hlt
        · exact ltChars_trans _ _ _ hlt (h.1 x hx)
      · rename_i hlt
        refine List.pairwise_cons.mpr ⟨?_, ih h.2⟩
        intro x hx
        rcases (mem_insertName s x rest).mp hx with hx | hx
        · rw [hx]
          cases h3 : ltChars t.data s.data with
          | true => rfl
          | false =>
            exfalso
            apply hst
            exact String.ext (ltChars_total s.data t.data (by simpa using hlt) h3)
        · exact h.1 x hx

theorem readDirNames_sorted (fs : FS) (d : Path) :
    (readDirNames fs d).Pairwise (fun a b => ltChars a.data b.data = true) := by
  unfold readDirNames
  generalize fs.filterMap (fun e => if e.1.dropLast = d then e.1.getLast? else none) = l
  induction l with
  | nil => simp
  | cons s l ih => exact insertName_sorted s _ ih

theorem insertPath_sorted (s : Path) :
    ∀ (l : List Path), l.Pairwise (fun a b => ltPath a b = true) →
      (insertPath s l).Pairwise (fun a b => ltPath a b = true) := by
  intro l
  induction l with
  | nil => intro _; simp [insertPath]
  | cons t rest ih =>
    intro h
    rw [List.pairwise_cons] at h
    unfold insertPath
    split
    · exact List.pairwise_cons.mpr h
    · rename_i hst
      split
      · rename_i hlt
        refine List.pairwise_cons.mpr ⟨?_, List.pairwise_cons.mpr h⟩
        intro x hx
        rcases List.mem_cons.mp hx with hx | hx
        · rw [hx]; exact hlt
        · exact ltPath_trans _ _ _ hlt (h.1 x hx)
      · rename_i hlt
        refine List.pairwise_cons.mpr ⟨?_, ih h.2⟩
        intro x hx
        rcases (mem_insertPath s x rest).mp hx with hx | hx
        · rw [hx]
          cases h3 : ltPath t s with
          | true => rfl
          | false =>
            exfalso
            apply hst
            exact ltPath_total s t (by simpa using hlt) h3
        · exact h.1 x hx

theorem foldr_insertPath_sorted (l : List Path) :
    (l.foldr insertPath []).Pairwise (fun a b => ltPath a b = true) := by
  induction l with
  | nil => simp
  | cons s l ih => exact insertPath_sorted s _ ih

/-! ### The order of `filepath.Glob` -/

theorem dir_snoc (d : Path) (n : String) : dir (d ++ [n]) = d := by
  unfold dir
  exact List.dropLast_concat

/-- The loop of the library function `glob` adds names of the directory in their order. -/
theorem globNames_sublist (d : Path) (pat : String) :
    ∀ (names : List String) (acc : List Path),
      ∃ ns : List String, ns.Sublist names ∧
        (globNames d pat names acc).1 = acc ++ ns.map (fun n => d ++ [n]) := by
  intro names
  induction names with
  | nil => intro acc; exact ⟨[], List.Sublist.refl _, by simp [globNames]⟩
  | cons n rest ih =>
    intro acc
    unfold globNames
    split
    · exact ⟨[], List.nil_sublist _, by simp⟩
    · obtain ⟨ns, h1, h2⟩ := ih (acc ++ [d ++ [n]])
      refine ⟨n :: ns, h1.cons₂ n, ?_⟩
      rw [h2]
      simp
    · obtain ⟨ns, h1, h2⟩ := ih acc
      exact ⟨ns, h1.cons n, h2⟩

theorem globDir_inc (fs : FS) (d : Path) (pat : String) (acc : List Path) :
    ∃ L, (globDir fs d pat acc).1 = acc ++ L ∧ (∀ m ∈ L, dir m = d) ∧
      L.Pairwise (fun l r => ltChars (pathString l).data (pathString r).data = true) := by
  unfold globDir
  split
  · obtain ⟨ns, h1, h2⟩ := globNames_sublist d pat (readDirNames fs d) acc
    refine ⟨ns.map (fun n => d ++ [n]), h2, ?_, ?_⟩
    · intro m hm
      obtain ⟨n, _, hn⟩ := List.mem_map.mp hm
      rw [← hn]
      exact dir_snoc d n
    · rw [List.pairwise_map]
      have := (readDirNames_sorted fs d).sublist h1
      refine this.imp ?_
      intro a b hab
      rw [ltChars_pathString_snoc]
      exact hab
  · refine ⟨[], by simp, ?_, by simp⟩
    intro m hm
    cases hm

theorem pairwise_same_dir (L : List Path)
    (h : L.Pairwise (fun l r => ltChars (pathString l).data (pathString r).data = true)) :
    L.Pairwise (fun l r => dir l = dir r →
      ltChars (pathString l).data (pathString r).data = true) := by
  refine h.imp ?_
  intro a b hab _
  exact hab

theorem globDirs_inc (fs : FS) (file : String) :
    ∀ (ds acc : List Path), ds.Nodup →
      ∃ L, (globDirs fs file ds acc).1 = acc ++ L ∧ (∀ m ∈ L, dir m ∈ ds) ∧
        L.Pairwise (fun l r => dir l = dir r →
          ltChars (pathString l).data (pathString r).data = true) := by
  intro ds
  induction ds with
  | nil =>
    intro acc _
    refine ⟨[], by simp [globDirs], ?_, by simp⟩
    intro m hm
    cases hm
  | cons d rest ih =>
    intro acc hnd
    rw [List.nodup_cons] at hnd
    obtain ⟨L1, h1, h2, h3⟩ := globDir_inc fs d file acc
    unfold globDirs
    cases hg : globDir fs d file acc with
    | mk m flag =>
      rw [hg] at h1
      dsimp only at h1
      cases flag with
      | true =>
        dsimp only
        refine ⟨L1, h1, ?_, pairwise_same_dir L1 h3⟩
        intro x hx
        rw [h2 x hx]
        exact List.mem_cons_self _ _
      | false =>
        dsimp only
        obtain ⟨L2, k1, k2, k3⟩ := ih m hnd.2
        refine ⟨L1 ++ L2, ?_, ?_, ?_⟩
        · rw [k1, h1, List.append_assoc]
        · intro x hx
          rcases List.mem_append.mp hx with hx | hx
          · rw [h2 x hx]
            exact List.mem_cons_self _ _
          · exact List.mem_cons_of_mem _ (k2 x hx)
        · rw [List.pairwise_append]
          refine ⟨pairwise_same_dir L1 h3, k3, ?_⟩
          intro l hl r hr hdir
          exfalso
          apply hnd.1
          rw [← h2 l hl, hdir]
          exact k2 r hr

/-- The matches of `filepath.Glob` that share a directory come in the order of their
names. -/
theorem globRev_inc (fs : FS) :
    ∀ (pr : List String), (globRev fs pr).1.Pairwise (fun l r => dir l = dir r →
      ltChars (pathString l).data (pathString r).data = true) := by
  intro pr
  induction pr with
  | nil => simp [globRev]
  | cons file dirRev ih =>
    unfold globRev
    split
    · simp
    · split
      · split
        · simp
        · simp
      · split
        · obtain ⟨L, h1, _, h3⟩ := globDir_inc fs dirRev.reverse file []
          rw [h1, List.nil_append]
          exact pairwise_same_dir L h3
        · cases hg : globRev fs dirRev with
          | mk m flag =>
            cases flag with
            | true => simp
            | false =>
              dsimp only
              rw [hg] at ih
              dsimp only at ih
              have hnd : m.Nodup := by
                refine ih.imp ?_
                intro a b hab heq
                subst heq
                have := hab rfl
                rw [ltChars_irrefl] at this
                cases this
              obtain ⟨L, h1, _, h3⟩ := globDirs_inc fs file m [] hnd
              rw [h1, List.nil_append]
              exact h3

theorem glob_inc (fs : FS) (p : Path) :
    (glob fs p).Pairwise (fun l r => dir l = dir r →
      ltChars (pathString l).data (pathString r).data = true) :=
  globRev_inc fs p.reverse

theorem glob_nodup (fs : FS) (p : Path) : (glob fs p).Nodup := by
  refine (glob_inc fs p).imp ?_
  intro a b hab heq
  subst heq
  have := hab rfl
  rw [ltChars_irrefl] at this
  cases this

/-! ### The order of `filepath.Walk` and of `resolveToMatches` -/

theorem length_dir (p : Path) : (dir p).length = p.length - 1 := by
  unfold dir
  exact List.length_dropLast p

theorem length_lt_of_prefix_ne {q k : Path} (h : q <+: k) (hne : k ≠ q) : q.length < k.length := by
  obtain ⟨x, hx⟩ := h
  have hx0 : x ≠ [] := by
    intro h0; subst h0; rw [List.append_nil] at hx; exact hne hx.symm
  rw [← hx, List.length_append]
  have := List.length_pos.mpr hx0
  omega

theorem ltChars_of_ltPath_same_dir (l r : Path) (hl : l ≠ []) (hr : r ≠ [])
    (hd : dir l = dir r) (h : ltPath l r = true) :
    ltChars (pathString l).data (pathString r).data = true := by
  rw [← dir_append_base l hl, ← dir_append_base r hr, hd, ltPath_snoc] at h
  rw [← dir_append_base l hl, ← dir_append_base r hr, hd, ltChars_pathString_snoc]
  exact h

/-- The entries of one directory come in the order of their names in `filepath.Walk`. -/
theorem walk_inc (fs : FS) (root : Path) (hroot : root ≠ []) :
    (walk fs root).Pairwise (fun l r => dir l = dir r →
      ltChars (pathString l).data (pathString r).data = true) := by
  unfold walk
  split
  · rw [List.pairwise_cons]
    constructor
    · intro x hx hd
      exfalso
      rw [mem_foldr_insertPath, List.mem_filter] at hx
      have hx2 := hx.2
      simp only [Bool.and_eq_true, Bool.not_eq_true', beq_eq_false_iff_ne, ne_eq] at hx2
      have h1 := length_lt_of_prefix_ne ((isAncestorOrSelf_iff root x).mp hx2.1) hx2.2
      have h2 := congrArg List.length hd
      rw [length_dir, length_dir] at h2
      have := List.length_pos.mpr hroot
      omega
    · refine (foldr_insertPath_sorted _).imp_of_mem ?_
      intro a b ha hb hab hd
      rw [mem_foldr_insertPath, List.mem_filter] at ha hb
      have ha2 := ha.2
      have hb2 := hb.2
      simp only [Bool.and_eq_true, Bool.not_eq_true', beq_eq_false_iff_ne, ne_eq] at ha2 hb2
      have h1 := length_lt_of_prefix_ne ((isAncestorOrSelf_iff root a).mp ha2.1) ha2.2
      have h2 := length_lt_of_prefix_ne ((isAncestorOrSelf_iff root b).mp hb2.1) hb2.2
      exact ltChars_of_ltPath_same_dir a b
        (by intro h; rw [h, List.length_nil] at h1; omega)
        (by intro h; rw [h, List.length_nil] at h2; omega) hd hab
  · simp

/-- Two walks from roots of the same depth: entries of one directory come in the order of
their names, as the roots do. -/
theorem walk_cross (fs : FS) (d1 d2 x y : Path) (hlen : d1.length = d2.length) (hne : d1 ≠ [])
    (hq : dir d1 = dir d2 → ltChars (pathString d1).data (pathString d2).data = true)
    (hx : x ∈ walk fs d1) (hy : y ∈ walk fs d2) (hd : dir x = dir y) :
    ltChars (pathString x).data (pathString y).data = true := by
  have hpos := List.length_pos.mpr hne
  have hdl := congrArg List.length hd
  rw [length_dir, length_dir] at hdl
  rcases ((mem_walk fs d1 x).mp hx).2 with h1 | ⟨_, h1, h1n⟩
  · rcases ((mem_walk fs d2 y).mp hy).2 with h2 | ⟨_, h2, h2n⟩
    · subst h1; subst h2
      exact hq hd
    · subst h1
      have := length_lt_of_prefix_ne h2 h2n
      omega
  · rcases ((mem_walk fs d2 y).mp hy).2 with h2 | ⟨_, h2, h2n⟩
    · subst h2
      have := length_lt_of_prefix_ne h1 h1n
      omega
    · exfalso
      have p1 : d1 <+: dir x := prefix_dropLast_of_ne h1 (fun h => h1n h.symm)
      have p2 : d2 <+: dir x := by
        rw [hd]
        exact prefix_dropLast_of_ne h2 (fun h => h2n h.symm)
      have p3 : d1 <+: d2 := List.prefix_of_prefix_length_le p1 p2 (by omega)
      have p4 : d1 = d2 := p3.eq_of_length hlen
      subst p4
      have := hq rfl
      rw [ltChars_irrefl] at this
      cases this

/-- Matches of one directory come in the order of their names, or a file comes first. -/
theorem resolveToMatches_order (fs : FS) (absPath : Path) (recursive excludeFolders : Bool)
    (found : List Path)
    (h : resolveToMatches fs absPath recursive excludeFolders = Except.ok found) :
    found.Pairwise (fun l r => dir l = dir r →
      ltChars (pathString l).data (pathString r).data = true ∨ isDir fs l = false) := by
  have weaken : ∀ (L : List Path), L.Pairwise (fun l r => dir l = dir r →
      ltChars (pathString l).data (pathString r).data = true) →
      L.Pairwise (fun l r => dir l = dir r →
        ltChars (pathString l).data (pathString r).data = true ∨ isDir fs l = false) := by
    intro L hL
    refine hL.imp ?_
    intro a b hab hd
    exact Or.inl (hab hd)
  unfold resolveToMatches at h
  split at h
  · cases h
  · split at h
    · cases h
    · rename_i hin
      have hin2 : isInPresetsFolder fs absPath = true := by simpa using hin
      have hne : absPath ≠ [] := isInPresetsFolder_ne_nil hin2
      split at h
      · injection h with h
        subst h
        simp
      · split at h
        · split at h
          · injection h with h
            subst h
            rw [List.pairwise_append]
            refine ⟨?_, ?_, ?_⟩
            · exact weaken _ ((glob_inc fs absPath).sublist (List.filter_sublist _))
            · rw [List.pairwise_flatMap]
              constructor
              · intro d hd
                split
                · have hdl := glob_length fs absPath d hd
                  have hdne : d ≠ [] := by
                    intro h0
                    rw [h0, List.length_nil] at hdl
                    exact hne (List.length_eq_zero.mp hdl.symm)
                  exact weaken _ ((walk_inc fs d hdne).sublist (List.filter_sublist _))
                · simp
              · refine (glob_inc fs absPath).imp_of_mem ?_
                intro d1 d2 hd1 hd2 hq x hx y hy hd
                left
                have hl1 := glob_length fs absPath d1 hd1
                have hl2 := glob_length fs absPath d2 hd2
                have hdne : d1 ≠ [] := by
                  intro h0
                  rw [h0, List.length_nil] at hl1
                  exact hne (List.length_eq_zero.mp hl1.symm)
                split at hx
                · split at hy
                  · exact walk_cross fs d1 d2 x y (hl1.trans hl2.symm) hdne hq
                      (List.mem_filter.mp hx).1 (List.mem_filter.mp hy).1 hd
                  · cases hy
                · cases hx
            · intro x hx y _ _
              right
              have := (List.mem_filter.mp hx).2
              simpa using this
          · injection h with h
            subst h
            exact weaken _ ((walk_inc fs absPath hne).sublist (List.filter_sublist _))
        · injection h with h
          subst h
          split
          · exact weaken _ ((glob_inc fs absPath).sublist (List.filter_sublist _))
          · exact weaken _ ((glob_inc fs _).sublist (List.filter_sublist _))

/-! ### `groupMatchesByFolder` and `sortMatches` -/

/-- What `append(groupedMatches[k], m)` does to the groups, when no key is there twice. -/
theorem groupAppend_spec (k m : Path) :
    ∀ (g : List (Path × List Path)), (g.map (fun e => e.1)).Nodup →
      ((groupAppend g k m).map (fun e => e.1)).Nodup ∧
      (∀ e ∈ groupAppend g k m,
        (e.1 ≠ k ∧ e ∈ g) ∨
        (e.1 = k ∧ ((∃ v, (k, v) ∈ g ∧ e.2 = v ++ [m]) ∨
          (k ∉ g.map (fun e => e.1) ∧ e.2 = [m])))) ∧
      (∀ x, x ∈ (groupAppend g k m).map (fun e => e.1) ↔ x = k ∨ x ∈ g.map (fun e => e.1)) := by
  intro g
  induction g with
  | nil =>
    intro _
    refine ⟨by simp [groupAppend], ?_, by simp [groupAppend]⟩
    intro e he
    simp only [groupAppend, List.mem_singleton] at he
    subst he
    exact Or.inr ⟨rfl, Or.inr ⟨by simp, rfl⟩⟩
  | cons e0 rest ih =>
    intro hnd
    obtain ⟨k0, v0⟩ := e0
    rw [List.map_cons, List.nodup_cons] at hnd
    unfold groupAppend
    by_cases hk : k0 = k
    · rw [if_pos hk]
      subst hk
      refine ⟨?_, ?_, ?_⟩
      · rw [List.map_cons, List.nodup_cons]
        exact hnd
      · intro e he
        rcases List.mem_cons.mp he with he | he
        · subst he
          exact Or.inr ⟨rfl, Or.inl ⟨v0, List.mem_cons_self _ _, rfl⟩⟩
        · left
          refine ⟨?_, List.mem_cons_of_mem _ he⟩
          intro h
          apply hnd.1
          rw [← h]
          exact List.mem_map.mpr ⟨e, he, rfl⟩
      · intro x
        simp only [List.map_cons, List.mem_cons]
        constructor
        · intro h; exact Or.inr h
        · rintro (h | h)
          · exact Or.inl h
          · exact h
    · rw [if_neg hk]
      obtain ⟨i1, i2, i3⟩ := ih hnd.2
      refine ⟨?_, ?_, ?_⟩
      · rw [List.map_cons, List.nodup_cons]
        refine ⟨?_, i1⟩
        intro h
        rcases (i3 k0).mp h with h | h
        · exact hk h
        · exact hnd.1 h
      · intro e he
        rcases List.mem_cons.mp he with he | he
        · subst he
          exact Or.inl ⟨hk, List.mem_cons_self _ _⟩
        · rcases i2 e he with ⟨h1, h2⟩ | ⟨h1, h2⟩
          · exact Or.inl ⟨h1, List.mem_cons_of_mem _ h2⟩
          · right
            refine ⟨h1, ?_⟩
            rcases h2 with ⟨v, hv, h3⟩ | ⟨h3, h4⟩
            · exact Or.inl ⟨v, List.mem_cons_of_mem _ hv, h3⟩
            · right
              refine ⟨?_, h4⟩
              intro h
              rcases List.mem_cons.mp h with h | h
              · exact hk h.symm
              · exact h3 h
      · intro x
        simp only [List.map_cons, List.mem_cons]
        rw [i3 x]
        constructor
        · rintro (h | h | h)
          · exact Or.inr (Or.inl h)
          · exact Or.inl h
          · exact Or.inr (Or.inr h)
        · rintro (h | h | h)
          · exact Or.inr (Or.inl h)
          · exact Or.inl h
          · exact Or.inr (Or.inr h)

/-- The first loop of `groupMatchesByFolder`: each group holds the matches of its folder,
in the order of the list. -/
theorem group_foldl_spec :
    ∀ (rest seen : List Path) (g : List (Path × List Path)),
      (g.map (fun e => e.1)).Nodup →
      (∀ e ∈ g, e.2 = seen.filter (fun m => dir m = e.1) ∧ e.2 ≠ []) →
      (∀ m ∈ seen, dir m ∈ g.map (fun e => e.1)) →
      ((rest.foldl (fun g m => groupAppend g (dir m) m) g).map (fun e => e.1)).Nodup ∧
      (∀ e ∈ rest.foldl (fun g m => groupAppend g (dir m) m) g,
        e.2 = (seen ++ rest).filter (fun m => dir m = e.1) ∧ e.2 ≠ []) ∧
      (∀ m ∈ seen ++ rest,
        dir m ∈ (rest.foldl (fun g m => groupAppend g (dir m) m) g).map (fun e => e.1)) := by
  intro rest
  induction rest with
  | nil =>
    intro seen g h1 h2 h3
    simp only [List.foldl_nil, List.append_nil]
    exact ⟨h1, h2, h3⟩
  | cons m rest ih =>
    intro seen g h1 h2 h3
    obtain ⟨i1, i2, i3⟩ := groupAppend_spec (dir m) m g h1
    have e0 : seen ++ m :: rest = (seen ++ [m]) ++ rest := by simp
    rw [List.foldl_cons, e0]
    apply ih (seen ++ [m]) (groupAppend g (dir m) m) i1
    · intro e he
      rw [List.filter_append]
      rcases i2 e he with ⟨k1, k2⟩ | ⟨k1, k2⟩
      · have : [m].filter (fun m => decide (dir m = e.1)) = [] := by
          simp [List.filter, Ne.symm k1]
        rw [this, List.append_nil]
        exact h2 e k2
      · have : [m].filter (fun m => decide (dir m = e.1)) = [m] := by
          simp [List.filter, k1]
        rw [this]
        rcases k2 with ⟨v, hv, k3⟩ | ⟨k3, k4⟩
        · have := (h2 (dir m, v) hv).1
          dsimp only at this
          rw [k3, this, k1]
          simp
        · have hnone : seen.filter (fun x => decide (dir x = e.1)) = [] := by
            rw [List.filter_eq_nil_iff]
            intro x hx hd
            apply k3
            have := h3 x hx
            rw [← k1]
            simp only [decide_eq_true_eq] at hd
            rw [← hd]
            exact this
          rw [hnone, k4]
          simp
    · intro x hx
      rw [i3]
      rcases List.mem_append.mp hx with hx | hx
      · exact Or.inr (h3 x hx)
      · rw [List.mem_singleton] at hx
        exact Or.inl (by rw [hx])

/-- Every group of `groupMatchesByFolder` is the sorted list of the matches of its key. -/
theorem groupMatchesByFolder_groups (fs : FS) (found : List Path) :
    (∀ e ∈ groupMatchesByFolder fs found,
      e.2 = sortMatches fs (found.filter (fun m => dir m = e.1)) ∧
      found.filter (fun m => dir m = e.1) ≠ []) ∧
    (∀ m ∈ found, ∃ e ∈ groupMatchesByFolder fs found, e.1 = dir m) := by
  obtain ⟨_, h2, h3⟩ := group_foldl_spec found [] [] (by simp) (by intro e he; cases he)
    (by intro m hm; cases hm)
  rw [List.nil_append] at h2 h3
  unfold groupMatchesByFolder
  constructor
  · intro e he
    obtain ⟨e1, he1, he2⟩ := List.mem_map.mp he
    obtain ⟨k1, k2⟩ := h2 e1 he1
    rw [← he2]
    dsimp only
    rw [k1] at k2
    exact ⟨by rw [k1], k2⟩
  · intro m hm
    obtain ⟨e1, he1, he2⟩ := List.mem_map.mp (h3 m hm)
    exact ⟨(e1.1, sortMatches fs e1.2), List.mem_map.mpr ⟨e1, he1, rfl⟩, he2⟩

/-- The order `sortMatches` is after, folders first and then by path string, is a total
preorder. -/
theorem matchOrder_le_trans (fs : FS) (x y z : Path)
    (h1 : ((isDir fs y && !isDir fs x) || ((isDir fs y == isDir fs x) &&
      ltChars (pathString y).data (pathString x).data)) = false)
    (h2 : ((isDir fs z && !isDir fs y) || ((isDir fs z == isDir fs y) &&
      ltChars (pathString z).data (pathString y).data)) = false) :
    ((isDir fs z && !isDir fs x) || ((isDir fs z == isDir fs x) &&
      ltChars (pathString z).data (pathString x).data)) = false := by
  have key := ltChars_le_trans (pathString x).data (pathString y).data (pathString z).data
  cases hx : isDir fs x <;> cases hy : isDir fs y <;> cases hz : isDir fs z <;>
    simp [hx, hy, hz] at h1 h2 ⊢ <;> exact key h1 h2

theorem matchOrder_asymm (fs : FS) (x y : Path)
    (h : ((isDir fs x && !isDir fs y) || ((isDir fs x == isDir fs y) &&
      ltChars (pathString x).data (pathString y).data)) = true) :
    ((isDir fs y && !isDir fs x) || ((isDir fs y == isDir fs x) &&
      ltChars (pathString y).data (pathString x).data)) = false := by
  have key := ltChars_asymm (pathString x).data (pathString y).data
  cases hx : isDir fs x <;> cases hy : isDir fs y <;>
    simp [hx, hy] at h ⊢ <;> exact key h

/-- The function of `sortMatches` agrees with the order on a later and an earlier match
of one folder, when the earlier has the smaller path or is no folder. -/
theorem matchLess_eq_order (fs : FS) (l r : Path) (hd : dir l = dir r)
    (h : ltChars (pathString l).data (pathString r).data = true ∨ isDir fs l = false) :
    matchLess fs r l = ((isDir fs r && !isDir fs l) || ((isDir fs r == isDir fs l) &&
      ltChars (pathString r).data (pathString l).data)) := by
  unfold matchLess
  rw [hd]
  cases hl : isDir fs l <;> cases hr : isDir fs r
  · simp
  · simp
  · rcases h with h | h
    · simp [ltChars_asymm _ _ h]
    · rw [hl] at h; cases h
  · simp

/-- When the matches of one folder come in the order of their names, or files before
folders, `sortMatches` lists the folders first. -/
theorem sortMatches_folders_first (fs : FS) (v : List Path) (k : Path)
    (hk : ∀ m ∈ v, dir m = k)
    (hv : v.Pairwise (fun l r => dir l = dir r →
      ltChars (pathString l).data (pathString r).data = true ∨ isDir fs l = false)) :
    (sortMatches fs v).Perm v ∧
    (sortMatches fs v).Pairwise (fun x y => isDir fs y = true → isDir fs x = true) := by
  unfold sortMatches
  obtain ⟨h1, h2⟩ := sliceStable_spec (matchLess fs)
    (fun x y => (isDir fs x && !isDir fs y) || ((isDir fs x == isDir fs y) &&
      ltChars (pathString x).data (pathString y).data))
    (fun x y z => matchOrder_le_trans fs x y z) (fun x y => matchOrder_asymm fs x y) v
    (by
      refine hv.imp_of_mem ?_
      intro l r hl hr hlr
      have hd : dir l = dir r := by rw [hk l hl, hk r hr]
      exact matchLess_eq_order fs l r hd (hlr hd))
  refine ⟨h1, h2.imp ?_⟩
  intro x y hxy hy
  cases hx : isDir fs x with
  | true => rfl
  | false =>
    rw [hx, hy] at hxy
    simp at hxy

/-! ## Properties of the operators -/

set_option maxRecDepth 100000

/-- C1 (code bug): `remove` without `-r` on the non-empty folder `Presets/Amps/Metal` writes
the advisory and nevertheless deletes the two files, their index rows and the folder. -/
theorem remove_without_recursive_deletes_folder :
    isDir lib.fs metal = true ∧ isEmpty lib.fs metal false = false ∧
    stat lib.fs metalA = some (Node.file presetA) ∧ lib.db = [rowA, rowB] ∧
    (remove noFaults false [metal] lib).2 = none ∧
    (remove noFaults false [metal] lib).1.out = [omitting] ∧
    stat (remove noFaults false [metal] lib).1.fs metal = none ∧
    stat (remove noFaults false [metal] lib).1.fs metalA = none ∧
    stat (remove noFaults false [metal] lib).1.fs metalB = none ∧
    (remove noFaults false [metal] lib).1.db = [] := by
  decide

/-- C2 (code bug): `remove` of `Metal/*` fails at the index delete of the first file
`a.at5p`; `rollbackRemove` then also rewrites the second file `b.at5p`, which had no shadow
copy yet, and leaves it empty. -/
theorem rollbackRemove_truncates_unprocessed :
    (remove (execFailsOn (pathString metalA)) false [metalAll] lib).2 =
      some "Failed to remove file: database is locked" ∧
    stat lib.fs metalB = some (Node.file presetB) ∧
    stat (remove (execFailsOn (pathString metalA)) false [metalAll] lib).1.fs metalA =
      some (Node.file presetA) ∧
    stat (remove (execFailsOn (pathString metalA)) false [metalAll] lib).1.fs metalB =
      some (Node.file (Content.raw "")) := by
  decide

/-- C3 (code bug): `move` of `Metal/*` to `Amps2` fails at the rename of the second file;
it returns without `rollbackMove`, so the first file stays at its destination. -/
theorem move_rename_failure_not_reverted :
    (move (renameFailsOn metalB) [metalAll, amps2] lib).2 =
      some "Failed to move preset with error: permission denied" ∧
    stat lib.fs metalA = some (Node.file presetA) ∧
    stat (move (renameFailsOn metalB) [metalAll, amps2] lib).1.fs metalA = none ∧
    stat (move (renameFailsOn metalB) [metalAll, amps2] lib).1.fs amps2A =
      some (Node.file presetA) := by
  decide

/-- C4 (counterexample): `copy` of `Metal/b.at5p` into `Amps2` overwrites the existing
`Amps2/b.at5p` and then fails at the index insert; `rollbackCopy` deletes the written
destination, so the file that existed before the operation is gone. -/
theorem copy_rollback_deletes_existing_destination :
    (copy (execFailsOn (pathString amps2B)) false [metalB, amps2] libWithTarget).2 =
      some "Copy failed.  Failed to update database: database is locked" ∧
    stat libWithTarget.fs amps2B = some (Node.file presetC) ∧
    stat (copy (execFailsOn (pathString amps2B)) false [metalB, amps2] libWithTarget).1.fs
      amps2B = none := by
  decide

/-- C4 (amended): when `copy` returns an error, no file is left at a planned destination
that did not exist before, and every file that is not a planned destination, so every
such source file, still has its content. -/
theorem copy_failure_compensation (env : Env) (recursive : Bool) (source target : Path)
    (more : List Path) (w w1 : World) (e : String)
    (h : copy env recursive (source :: target :: more) w = (w1, some e)) :
    (∀ d ∈ planTargets (copyPlanned env recursive source target w),
        stat w.fs d = none → isFile w1.fs d = false) ∧
    (∀ q, q ∉ planTargets (copyPlanned env recursive source target w) →
        fileAt w1.fs q = fileAt w.fs q) := by
  unfold copy copyMatches at h
  simp only at h
  split at h
  · injection h with hw _
    subst hw
    exact ⟨fun d _ hd => isFile_of_stat_none hd, fun q _ => rfl⟩
  · rename_i found hres
    have hplan : ∀ q, fileAt
        (copyPlan env source target recursive found (w.fs, w.out, [])).1 q =
        fileAt w.fs q := copyPlan_fileAt env source target recursive found _ _ _
    cases hcp : copyPlan env source target recursive found (w.fs, w.out, []) with
    | mk fs1 r =>
      obtain ⟨out1, ex⟩ := r
      rw [hcp] at hplan
      simp only at hplan
      cases ex with
      | error e1 =>
        have hp : copyPlanned env recursive source target w = [] := by
          simp only [copyPlanned, copyMatches, hres, hcp]
        rw [hp]
        rw [hcp] at h
        simp only at h
        split at h
        · injection h with hw _
          subst hw
          exact ⟨fun d _ hd => isFile_of_stat_none hd, fun q _ => rfl⟩
        · split at h
          · injection h with hw _
            subst hw
            exact ⟨fun d _ hd => isFile_of_stat_none hd, fun q _ => rfl⟩
          · split at h
            · injection h with _ he
              simp at he
            · split at h
              · injection h with hw _
                subst hw
                exact ⟨fun d _ hd => isFile_of_stat_none hd, fun q _ => rfl⟩
              · injection h with hw _
                subst hw
                constructor
                · intro d hd _
                  cases hd
                · intro q _
                  exact hplan q
      | ok files =>
        have hp : copyPlanned env recursive source target w = files := by
          simp only [copyPlanned, copyMatches, hres, hcp]
        rw [hp]
        rw [hcp] at h
        simp only at h
        split at h
        · injection h with hw _
          subst hw
          exact ⟨fun d _ hd => isFile_of_stat_none hd, fun q _ => rfl⟩
        · split at h
          · injection h with hw _
            subst hw
            exact ⟨fun d _ hd => isFile_of_stat_none hd, fun q _ => rfl⟩
          · split at h
            · injection h with _ he
              simp at he
            · split at h
              · injection h with hw _
                subst hw
                exact ⟨fun d _ hd => isFile_of_stat_none hd, fun q _ => rfl⟩
              · split at h
                · injection h with hw _
                  subst hw
                  constructor
                  · intro d _ hd
                    simp only
                    rw [isFile_congr (hplan d)]
                    exact isFile_of_stat_none hd
                  · intro q _
                    exact hplan q
                · obtain ⟨hA, hB⟩ := copyFiles_spec env files files
                    { w with fs := fs1, out := out1 } (fun t ht => ht)
                  rw [h] at hA hB
                  constructor
                  · intro d hd _
                    exact hB e rfl d hd
                  · intro q hq
                    rw [hA q hq]
                    exact hplan q

/-- C4 (witness): the failed copy of `Metal/*` to `Amps2` leaves no file at the new
destination `Amps2/a.at5p` and keeps the source `Metal/a.at5p`. -/
theorem copy_failure_compensation_witness :
    stat libWithTarget.fs amps2A = none ∧
    isFile (copy (execFailsOn (pathString amps2A)) false [metalAll, amps2] libWithTarget).1.fs
      amps2A = false ∧
    fileAt (copy (execFailsOn (pathString amps2A)) false [metalAll, amps2] libWithTarget).1.fs
      metalA = some presetA :=
  ⟨by decide,
   (copy_failure_compensation (execFailsOn (pathString amps2A)) false metalAll amps2 []
      libWithTarget _ "Copy failed.  Failed to update database: database is locked"
      (Prod.ext rfl (by decide))).1 amps2A (by decide) (by decide),
   ((copy_failure_compensation (execFailsOn (pathString amps2A)) false metalAll amps2 []
      libWithTarget _ "Copy failed.  Failed to update database: database is locked"
      (Prod.ext rfl (by decide))).2 metalA (by decide)).trans (by decide)⟩

/-- C5 (code bug): `tx` runs `remove` on `Metal/*`; the index delete of the second file
fails after the row of the first was deleted. `tx` rolls back and returns the error, the
files are restored, and the row of `a.at5p` is still gone. -/
theorem tx_rollback_keeps_index_changes :
    (tx (execFailsOn (pathString metalB))
        (remove (execFailsOn (pathString metalB)) false [metalAll]) lib).2 =
      some "Failed to remove file: database is locked" ∧
    (tx (execFailsOn (pathString metalB))
        (remove (execFailsOn (pathString metalB)) false [metalAll]) lib).1.sql =
      [SqlEvent.begin, SqlEvent.rollback, SqlEvent.close] ∧
    lib.db = [rowA, rowB] ∧
    (tx (execFailsOn (pathString metalB))
        (remove (execFailsOn (pathString metalB)) false [metalAll]) lib).1.db = [rowB] ∧
    stat (tx (execFailsOn (pathString metalB))
        (remove (execFailsOn (pathString metalB)) false [metalAll]) lib).1.fs metalA =
      some (Node.file presetA) := by
  decide

/-- C6 (counterexample): in a library of three presets, each with its row, the copy of
`Metal/a.at5p` to the new `Metal/c.at5p` and the remove of `Metal/c.at5p` both succeed,
and the preset `Metal/_c.at5p` is gone while its row is still in the index. -/
theorem copy_then_remove_loses_underscore_preset :
    (copy noFaults false [metalA, metalC] libWithUnderscore).2 = none ∧
    (remove noFaults false [metalC]
        (copy noFaults false [metalA, metalC] libWithUnderscore).1).2 = none ∧
    stat libWithUnderscore.fs metalC = none ∧
    stat libWithUnderscore.fs metalShadowC = some (Node.file presetC) ∧
    stat (remove noFaults false [metalC]
        (copy noFaults false [metalA, metalC] libWithUnderscore).1).1.fs metalShadowC = none ∧
    rowShadowC ∈ (remove noFaults false [metalC]
        (copy noFaults false [metalA, metalC] libWithUnderscore).1).1.db := by
  decide

/-- C6 (amended): in a library where the preset path `t` does not exist, is not indexed,
and has nothing at its shadow path `_` + base name beside it, a successful copy of the
existing preset file `s` to `t` followed by a successful remove of `t` leaves every file
with the content it had before the copy, no file more and none less, and the index rows
as they were. -/
theorem copy_then_remove_restores (env : Env) (rec1 rec2 : Bool) (s t : Path)
    (more1 more2 : List Path) (w w1 w2 : World) (c : Content)
    (hvs : isValidPresetName s = true) (hvt : isValidPresetName t = true)
    (hft : isValidPresetFolderName t = false)
    (hs : stat w.fs s = some (Node.file c)) (ht : stat w.fs t = none)
    (hsh : stat w.fs (shadowPath t) = none)
    (hrows : ∀ r ∈ w.db, r.originalFileName ≠ pathString t)
    (hcopy : copy env rec1 (s :: t :: more1) w = (w1, none))
    (hrm : remove env rec2 (t :: more2) w1 = (w2, none)) :
    (∀ q, fileAt w2.fs q = fileAt w.fs q) ∧ w2.db = w.db := by
  have hst : s ≠ t := by
    intro h; rw [h, ht] at hs; cases hs
  have hdest : copyDestination s t rec1 = t := by simp [copyDestination, hft]
  obtain ⟨⟨c1, hA⟩, _, hC, hD⟩ := copy_single env rec1 s t more1 w w1 c hvs hs
    (by rw [hdest]; exact hst) hcopy
  rw [hdest] at hA hC hD
  obtain ⟨ins, hdb, hins⟩ := hC (isFile_of_stat_none ht)
  have hdir : isDir w1.fs t = false := isDir_of_file hA
  unfold remove at hrm
  simp only [hdir, Bool.false_and, Bool.false_eq_true, if_false] at hrm
  split at hrm
  · simp at hrm
  · rename_i found hres
    have hfound := resolveToMatches_preset hvt hres
    subst hfound
    rw [removeSort_file _ _ _ _ _ _ hdir] at hrm
    simp only [List.nil_append] at hrm
    split at hrm
    · simp at hrm
    · split at hrm
      · simp at hrm
      · rename_i w3 hfiles
        injection hrm with hw _
        subst hw
        obtain ⟨fsA, hwr, hfs3, hdb3⟩ := removeFiles_single env t _ w3 c1 hA hfiles
        simp only [List.foldl_nil]
        constructor
        · intro q
          rw [purgeShadows_single]
          have hB : ∀ x, stat w3.fs x =
              if x = t then none else if x = shadowPath t then some (Node.file c1)
              else stat w1.fs x := by
            intro x
            rw [hfs3, stat_eraseNode]
            by_cases hx0 : x = []
            · subst hx0
              have h1 : ¬ ([] : Path) = t := by
                intro h; rw [← h, stat_root] at ht; cases ht
              have h2 : ¬ ([] : Path) = shadowPath t := by
                intro h; rw [← h, stat_root] at hsh; cases hsh
              simp [h1, h2, stat_root]
            · simp only [hx0, if_false]
              by_cases hxt : x = t
              · simp [hxt]
              · simp only [hxt, if_false]
                rw [writeFile_stat hwr x]
          by_cases hqt : q = t
          · subst hqt
            have hq3 : stat w3.fs q = none := by rw [hB q]; simp
            have : fileAt w.fs q = none := by simp [fileAt, ht]
            rw [this]
            split
            · rename_i f hf
              have hfq : stat f q = none := by
                rw [osRemove_stat hf q, hq3]; simp
              simp [fileAt, hfq]
            · simp [fileAt, hq3]
          · by_cases hqs : q = shadowPath t
            · subst hqs
              have hq3 : stat w3.fs (shadowPath t) = some (Node.file c1) := by
                rw [hB]; simp [hqt]
              rw [osRemove_file hq3]
              simp only
              unfold fileAt
              rw [osRemove_stat (osRemove_file hq3), hsh]
              simp
            · have hq3 : stat w3.fs q = stat w1.fs q := by
                rw [hB q]; simp [hqt, hqs]
              rw [← hD q hqt]
              split
              · rename_i f hf
                apply fileAt_of_stat
                rw [osRemove_stat hf q, if_neg hqs, hq3]
              · exact fileAt_of_stat hq3
        · rw [hdb3, hdb]
          exact filter_append_inserted w.db ins (pathString t) hrows hins

/-- C6 (witness): in `lib`, copying `Metal/a.at5p` to `Metal/c.at5p` and removing
`Metal/c.at5p` gives back the files and the rows of `lib`. -/
theorem copy_then_remove_restores_witness :
    stat lib.fs metalC = none ∧ stat lib.fs (shadowPath metalC) = none ∧
    (∀ q, fileAt (remove noFaults false [metalC]
        (copy noFaults false [metalA, metalC] lib).1).1.fs q = fileAt lib.fs q) ∧
    (remove noFaults false [metalC] (copy noFaults false [metalA, metalC] lib).1).1.db =
      lib.db :=
  ⟨by decide, by decide,
   copy_then_remove_restores noFaults false false metalA metalC [] [] lib _ _ presetA
     (by decide) (by decide) (by decide) (by decide) (by decide) (by decide) (by decide)
     (Prod.ext rfl (by decide)) (Prod.ext rfl (by decide))⟩

/-- C7 (code bug): with `Import` and `Import - 1` present, the destination picked is
`Import - 1 - 2`, not `Import - 2`: each round appends to the name of the round before. -/
theorem importDestination_after_two_imports :
    importDestination importedTwice ["lib"] = some ["lib", "Presets", "Import - 1 - 2"] ∧
    stat importedTwice ["lib", "Presets", "Import - 2"] = none := by
  decide

/-- C8 (code bug): `cp -r Presets/Amps/*/* Presets/Amps2` in `lib`. The target is a
preset-folder path and the matches are the two presets of `Presets/Amps/Metal`. The parent
of the source is the pattern `Presets/Amps/*`, which names no entry, and the slice
`match[len(filepath.Dir(source)):]` cuts each match by the length of that pattern:
`Presets/Amps/Metal/a.at5p` is planned to go to `Presets/Amps2/etal/a.at5p`, which is
not the target joined with a path of the match relative to a directory. The run returns
nil and leaves the copy there. -/
theorem copy_recursive_cuts_by_pattern_length :
    isValidPresetFolderName amps2 = true ∧
    copyMatches true ampsDeep lib = Except.ok [metalA, metalB] ∧
    dir ampsDeep = ampsAll ∧ stat lib.fs ampsAll = none ∧
    copyPlanned noFaults true ampsDeep amps2 lib =
      [ (metalA, ["lib", "Presets", "Amps2", "etal", "a.at5p"]),
        (metalB, ["lib", "Presets", "Amps2", "etal", "b.at5p"]) ] ∧
    (copy noFaults true [ampsDeep, amps2] lib).2 = none ∧
    isFile (copy noFaults true [ampsDeep, amps2] lib).1.fs
      ["lib", "Presets", "Amps2", "etal", "a.at5p"] = true ∧
    isFile (copy noFaults true [ampsDeep, amps2] lib).1.fs
      ["lib", "Presets", "Amps2", "Metal", "a.at5p"] = false ∧
    isFile (copy noFaults true [ampsDeep, amps2] lib).1.fs
      ["lib", "Presets", "Amps2", "a.at5p"] = false :=
  ⟨by decide, rfl, by decide, by decide, by decide, by decide, by decide, by decide,
   by decide⟩

/-- C9 (counterexample): copying `Metal/a.at5p` onto itself succeeds, generates no
identifier and leaves the file with the GUID it had. -/
theorem copy_onto_itself_keeps_guid :
    (copy noFaults false [metalA, metalA] lib).2 = none ∧
    (copy noFaults false [metalA, metalA] lib).1.uuids = lib.uuids ∧
    guidAt lib.fs metalA = some "guid-a" ∧
    guidAt (copy noFaults false [metalA, metalA] lib).1.fs metalA = some "guid-a" ∧
    noFaults.gen lib.uuids ≠ "guid-a" := by
  decide

/-- C9 (amended): after a successful copy of a preset file `s` of a recognized format to a
destination other than `s` itself, new or overwritten, the GUID of the destination is the
identifier generated for this copy, the source keeps its GUID, and the two differ when the
generated identifier differs from the source's. -/
theorem copy_assigns_new_guid (env : Env) (recursive : Bool) (s target : Path)
    (more : List Path) (w w1 : World) (f g inner : String)
    (hv : isValidPresetName s = true)
    (hs : stat w.fs s = some (Node.file (Content.preset f g inner)))
    (hf : f = "at4p" ∨ f = "at5p")
    (hne : copyDestination s target recursive ≠ s)
    (h : copy env recursive (s :: target :: more) w = (w1, none)) :
    guidAt w1.fs (copyDestination s target recursive) = some (env.gen w.uuids) ∧
    guidAt w1.fs s = some g ∧
    (env.gen w.uuids ≠ g →
      guidAt w1.fs (copyDestination s target recursive) ≠ guidAt w1.fs s) := by
  obtain ⟨_, hB, _, hD⟩ := copy_single env recursive s target more w w1 _ hv hs
    (fun h => hne h.symm) h
  have h1 : guidAt w1.fs (copyDestination s target recursive) = some (env.gen w.uuids) := by
    unfold guidAt
    rw [hB f g inner rfl hf]
  have h2 : guidAt w1.fs s = some g := by
    have h3 := hD s (fun h => hne h.symm)
    unfold fileAt at h3
    rw [hs] at h3
    unfold guidAt
    cases hst : stat w1.fs s with
    | none => rw [hst] at h3; simp at h3
    | some n =>
      rw [hst] at h3
      cases n with
      | dir => simp at h3
      | file c =>
        simp at h3
        subst h3
        rfl
  refine ⟨h1, h2, ?_⟩
  intro hg
  rw [h1, h2]
  intro heq
  injection heq with heq
  exact hg heq

/-- C9 (witness): the copy of `Metal/a.at5p` to the new `Metal/c.at5p` gives the
destination the first generated identifier. -/
theorem copy_assigns_new_guid_witness :
    guidAt lib.fs metalA = some "guid-a" ∧
    guidAt (copy noFaults false [metalA, metalC] lib).1.fs metalC = some "uuid-0" :=
  ⟨by decide,
   (copy_assigns_new_guid noFaults false metalA metalC [] lib _ "at5p" "guid-a" "<Chain/>"
      (by decide) (by decide) (Or.inr rfl) (by decide) (Prod.ext rfl (by decide))).1.trans
     (by decide)⟩

/-- C10 (counterexample): the target `/other/Presets` holds a non-empty `Metal`, and
`move` of `/lib/Presets/Amps/Metal` onto it returns the error of the profile check. -/
theorem move_across_profiles_other_error :
    isDir twoProfiles.fs metal = true ∧ isDir twoProfiles.fs otherPresets = true ∧
    isDir twoProfiles.fs (join otherPresets (base metal)) = true ∧
    isEmpty twoProfiles.fs (join otherPresets (base metal)) false = false ∧
    (move noFaults [metal, otherPresets] twoProfiles).2 =
      some "source and target are not in the same profile" := by
  decide

/-- C10 (amended): take a file system that is a tree with cleaned names, and folders `s`
and `t` that pass the checks of `move`: their paths hold no preset extension and none of
`*`, `?`, `[` and the backslash, both are under a presets folder of the same profile, and
`t` is not `s` or below it; let `t/basename(s)` be a directory. When an entry lies in
`t/basename(s)` and `s` holds a file at some depth, `move` returns
`cannot move: Directory is not empty` and leaves the world as it was. When no entry lies
in `t/basename(s)` and nothing fails from outside, `move` returns nil, every file that was
below `s` is then below `t/basename(s)` at the same relative path with its content, and
`s` is gone. -/
theorem move_onto_same_named_folder (env : Env) (s t : Path) (more : List Path) (w : World)
    (hfs : namesOk w.fs = true) (htree : treeOk w.fs = true)
    (hsv : isValidPresetFolderName s = true) (htv : isValidPresetFolderName t = true)
    (hsm : hasMeta (pathString s) = false) (htm : hasMeta (pathString t) = false)
    (hsd : isDir w.fs s = true) (htd : isDir w.fs t = true)
    (hsin : isInPresetsFolder w.fs s = true) (hin : isInPresetsFolder w.fs t = true)
    (hsub : isSubDir s t = false)
    (hprof : (resolveToProfile w.fs s).toOption = (resolveToProfile w.fs t).toOption)
    (hex : isDir w.fs (join t (base s)) = true) :
    ((∃ n, (stat w.fs (join t (base s) ++ [n])).isSome = true) →
      (∃ m, s <+: m ∧ isFile w.fs m = true) →
      move env (s :: t :: more) w = (w, some "cannot move: Directory is not empty")) ∧
    ((∀ n, stat w.fs (join t (base s) ++ [n]) = none) →
      (∀ p, env.failMkdir p = false) → (∀ p, env.failRename p = false) →
      (∀ k, env.failExec k = false) → env.failPrepare = false →
      (move env (s :: t :: more) w).2 = none ∧
      (∀ rel c, stat w.fs (s ++ rel) = some (Node.file c) →
        stat (move env (s :: t :: more) w).1.fs (join t (base s) ++ rel) =
          some (Node.file c)) ∧
      stat (move env (s :: t :: more) w).1.fs s = none) := by
  have hs0 : s ≠ [] := isInPresetsFolder_ne_nil hsin
  have hskey : s ∈ w.fs.map (fun e => e.1) := isDir_mem hs0 hsd
  have hbseg : isSegment (base s) = true := namesOk_mem hfs hskey _ (base_mem s hs0)
  have hjoin : join t (base s) = t ++ [base s] := join_segment t (base s) hbseg
  rw [hjoin] at hex ⊢
  have hsw : containsWildcards s = false := hasWildcard_of_hasMeta_false hsm
  have hnsub : ¬ s <+: t := by
    intro h
    unfold isSubDir at hsub
    rw [hsw] at hsub
    simp only [Bool.false_eq_true, if_false] at hsub
    rw [(isAncestorOrSelf_iff s t).mpr h] at hsub
    cases hsub
  have hanc : ∀ a ∈ ancestors t, isDir w.fs a = true := by
    intro a ha
    have hpre := (mem_ancestors_iff t a).mp ha
    by_cases hat : a = t
    · rw [hat]; exact htd
    · exact tree_ancestor_isDir htree (isDir_isSome htd) hpre hat
  have hbm : hasMeta (pathString (t ++ [base s])) = false := by
    rw [hasMeta_pathString_false_iff] at hsm htm ⊢
    intro x hx
    rcases List.mem_append.mp hx with h | h
    · exact htm x h
    · rw [List.mem_singleton] at h
      rw [h]
      exact hsm _ (base_mem s hs0)
  have hres := resolveToMatches_walk w.fs s true (isDir_isSome hsd) hsin
    (isValidPresetName_of_folderName hsv hsin) hsw
  have hfound := mem_resolve_files w.fs s hsd
  constructor
  · rintro ⟨n, hn⟩ ⟨m, hm1, hm2⟩
    have hne := isEmpty_flat_false w.fs hfs (t ++ [base s]) hbm hex n hn
    have hmf : m ∈ (walk w.fs s).filter (keepWalked w.fs s true) :=
      (hfound m).mpr ⟨((isFile_iff _ _).mp hm2).1, hm1, ((isFile_iff _ _).mp hm2).2⟩
    rw [← hjoin] at hex hne
    cases hf : (walk w.fs s).filter (keepWalked w.fs s true) with
    | nil => rw [hf] at hmf; cases hmf
    | cons m1 ms =>
      rw [hf] at hres
      unfold move
      simp only [hsv, htv, Bool.and_self, hres, hin, hsub, hprof, Bool.and_false,
        Bool.not_true, Bool.false_eq_true, if_false, bne_self_eq_false,
        movePlan_rejects env s t m1 ms w.fs [] htv hanc hex hne]
  · intro hnone hmk hrn hexe hprep
    have hem := isEmpty_flat_true w.fs (t ++ [base s]) hbm hex hnone
    have hseg : ∀ m ∈ (walk w.fs s).filter (keepWalked w.fs s true),
        ∃ rel, m = dir s ++ rel ∧ ∀ x ∈ rel, isSegment x = true := by
      intro m hm
      obtain ⟨h1, h2, h3⟩ := (hfound m).mp hm
      have hm0 : m ≠ [] := by
        intro h; subst h; exact hs0 (List.prefix_nil.mp h2)
      have hd : dir s <+: m := (List.dropLast_prefix s).trans h2
      refine ⟨m.drop (dir s).length, (List.prefix_iff_eq_append.mp hd).symm, ?_⟩
      intro x hx
      exact namesOk_mem hfs (mem_keys_of_stat hm0 h1) x (List.mem_of_mem_drop hx)
    have hplan := movePlan_into env s t w.fs htv hanc (by rw [hjoin]; exact hex)
      (by rw [hjoin]; exact hem) _ [] hseg
    obtain ⟨w1, hw1, k1, k2, k3⟩ := moveFiles_folder env hmk hrn hexe w htree s t hs0 hsd htd
      hnsub hex hnone _ hfound
    have hemp := isEmpty_recursive_true w1.fs s k1 k2
    have hmove : move env (s :: t :: more) w = ({ w1 with fs := removeAll w1.fs s }, none) := by
      unfold move
      simp only [hsv, htv, Bool.and_self, hres, hin, hsub, hprof, Bool.and_false,
        Bool.not_true, Bool.false_eq_true, if_false, bne_self_eq_false, hplan, hprep,
        hw1, k1, hemp, if_true]
    rw [hmove]
    refine ⟨rfl, ?_, ?_⟩
    · intro rel c hc
      obtain ⟨h1, h2⟩ := k3 rel c hc
      show stat (removeAll w1.fs s) (t ++ [base s] ++ rel) = some (Node.file c)
      rw [stat_removeAll, if_neg (by simp), if_neg h2]
      exact h1
    · show stat (removeAll w1.fs s) s = none
      rw [stat_removeAll, if_neg hs0, if_pos (List.prefix_refl _)]

/-- C10 (witness): in `libClash` the folder `Presets/Amps2/Metal` holds a preset, and
`move` of `Presets/Amps/Metal` onto `Presets/Amps2` is rejected with the world unchanged;
in `libEmptyClash` that folder is empty, and the move returns nil, leaves the preset
`a.at5p` of `Metal` in `Presets/Amps2/Metal` and removes `Presets/Amps/Metal`. -/
theorem move_onto_same_named_folder_witness :
    move noFaults [metal, amps2] libClash =
      (libClash, some "cannot move: Directory is not empty") ∧
    (move noFaults [metal, amps2] libEmptyClash).2 = none ∧
    stat (move noFaults [metal, amps2] libEmptyClash).1.fs
      (join amps2 (base metal) ++ ["a.at5p"]) = some (Node.file presetA) ∧
    stat (move noFaults [metal, amps2] libEmptyClash).1.fs metal = none :=
  have hnone : ∀ n, stat libEmptyClash.fs (join amps2 (base metal) ++ [n]) = none := by
    intro n
    have hj : join amps2 (base metal) = ["lib", "Presets", "Amps2", "Metal"] := by decide
    rw [hj]
    simp [stat, libEmptyClash, lib, amps, metal, metalA, metalB, amps2, amps2Metal, List.find?]
  have h2 := (move_onto_same_named_folder noFaults metal amps2 [] libEmptyClash
      (by decide) (by decide) (by decide) (by decide) (by decide) (by decide) (by decide)
      (by decide) (by decide) (by decide) (by decide) (by decide) (by decide)).2 hnone
      (fun _ => rfl) (fun _ => rfl) (fun _ => rfl) rfl
  ⟨(move_onto_same_named_folder noFaults metal amps2 [] libClash
      (by decide) (by decide) (by decide) (by decide) (by decide) (by decide) (by decide)
      (by decide) (by decide) (by decide) (by decide) (by decide) (by decide)).1
      ⟨"x.at5p", by decide⟩ ⟨metalA, by decide, by decide⟩,
   h2.1, h2.2.1 ["a.at5p"] presetA (by decide), h2.2.2⟩

/-- C11 (code bug): `move` of the indexed preset `Metal/a.at5p` onto the existing, indexed
`Metal/b.at5p` succeeds and leaves two rows whose `OriginalFileName` is the destination:
the row of the source, rewritten, and the stale row of the overwritten file. -/
theorem move_over_existing_leaves_two_rows :
    (move noFaults [metalA, metalB] lib).2 = none ∧
    stat (move noFaults [metalA, metalB] lib).1.fs metalA = none ∧
    stat (move noFaults [metalA, metalB] lib).1.fs metalB = some (Node.file presetA) ∧
    (lib.db.filter (fun r => r.originalFileName == pathString metalA)).length = 1 ∧
    ((move noFaults [metalA, metalB] lib).1.db.filter
      (fun r => r.originalFileName == pathString metalB)).length = 2 := by
  decide


/-- C12 (counterexample): the target `Metal/c.at5p` lies in the source folder `Metal`, and
`copy` returns no error: the target names a preset, so the check for a subfolder is not
made, and the copy ends with the advisory for a folder without `-r`. -/
theorem copy_folder_to_preset_inside_no_error :
    isDir lib.fs metal = true ∧ isInPresetsFolder lib.fs metalC = true ∧
    isAncestorOrSelf metal metalC = true ∧
    (copy noFaults false [metal, metalC] lib).2 = none := by
  decide

/-- C12 (amended): for an existing source folder `s` under a presets folder, without `*`
in its path, and a target `t` under a presets folder whose path holds no preset extension
and which is `s` or lies below `s`, `copy` and `move` return their error `cannot copy/move
folder to subfolder of itself` and leave the world as it was. -/
theorem self_subfolder_rejected (env : Env) (recursive : Bool) (s t : Path)
    (more : List Path) (w : World)
    (hs : isDir w.fs s = true) (hsw : containsWildcards s = false)
    (hsin : isInPresetsFolder w.fs s = true) (htin : isInPresetsFolder w.fs t = true)
    (htv : isValidPresetFolderName t = true) (hsub : s <+: t) :
    copy env recursive (s :: t :: more) w =
        (w, some "cannot copy folder to subfolder of itself") ∧
    move env (s :: t :: more) w = (w, some "cannot move folder to subfolder of itself") := by
  have hcp : (stat w.fs (checkPath s)).isSome = true := by
    rw [checkPath_of_no_wildcard s hsw]; exact isDir_isSome hs
  have hsd : isSubDir s t = true := by
    unfold isSubDir
    rw [hsw]
    simpa using (isAncestorOrSelf_iff s t).mpr hsub
  constructor
  · obtain ⟨found, hf⟩ := resolveToMatches_ok w.fs s recursive
      (!containsWildcards s || recursive) hcp hsin
    unfold copy copyMatches
    simp only [hf, htin, hs, htv, hsd, Bool.not_true, Bool.false_eq_true, if_false,
      Bool.and_self, if_true]
  · obtain ⟨found, hf⟩ := resolveToMatches_ok w.fs s
      (isValidPresetFolderName s && isValidPresetFolderName t) true hcp hsin
    unfold move
    rw [htv] at hf
    simp only [htin, hs, htv, hsd, Bool.not_true, Bool.false_eq_true, if_false,
      Bool.and_self, if_true]
    rw [hf]

/-- C12 (witness): copying or moving `Presets/Amps` into `Presets/Amps/Metal` is rejected
with the world unchanged. -/
theorem self_subfolder_rejected_witness :
    amps <+: metal ∧
    copy noFaults true [amps, metal] lib =
        (lib, some "cannot copy folder to subfolder of itself") ∧
    move noFaults [amps, metal] lib = (lib, some "cannot move folder to subfolder of itself") :=
  ⟨by decide,
   self_subfolder_rejected noFaults true amps metal [] lib (by decide) (by decide) (by decide)
     (by decide) (by decide) (by decide)⟩
/-- C13 (counterexample): with `-r`, the match set `copy` works on for the folder
`Presets/Amps` is the two files below it and no folder, though the folder `Metal` lies
below it; without `-r`, the match set for the wildcard source `Presets/Amps/*` is the
folder `Metal`, and `copy` prints the advisory for it. -/
theorem copy_matches_folders_without_recursive :
    isDir lib.fs metal = true ∧
    copyMatches true amps lib = Except.ok [metalA, metalB] ∧
    copyMatches false ampsAll lib = Except.ok [metal] ∧
    (copy noFaults false [ampsAll, amps2] lib).1.out = [cpOmitting] :=
  ⟨by decide, rfl, rfl, by decide⟩

/-- C13 (amended): `copy` resolves its source with folders excluded exactly when the
source has no `*` or `-r` is given. For a source not named as a preset, the match set then
holds no folder. For a source with `*` and without `-r` the match set is what the pattern
matches, folders included, and when such a source names no directory itself and is copied
into a folder of its profile, `copy` prints the advisory once for each folder of the match
set. -/
theorem copy_matches_folders (env : Env) (w : World) (source target : Path)
    (more : List Path) (recursive : Bool) (found : List Path)
    (hv : isValidPresetName source = false)
    (h : copyMatches recursive source w = Except.ok found) :
    (containsWildcards source = false ∨ recursive = true →
      ∀ m ∈ found, isDir w.fs m = false) ∧
    (containsWildcards source = true → recursive = false →
      (∀ m, m ∈ found ↔ m ∈ glob w.fs source) ∧
      (isInPresetsFolder w.fs target = true → isValidPresetFolderName target = true →
        isDir w.fs source = false →
        (resolveToProfile w.fs source).toOption = (resolveToProfile w.fs target).toOption →
        (copy env recursive (source :: target :: more) w).1.out =
          w.out ++ List.replicate (found.filter (fun m => isDir w.fs m)).length
            cpOmitting)) := by
  constructor
  · intro hcase m hm
    have hex : (!containsWildcards source || recursive) = true := by
      rcases hcase with h1 | h1 <;> simp [h1]
    unfold copyMatches at h
    rw [hex] at h
    unfold resolveToMatches at h
    split at h
    · cases h
    · split at h
      · cases h
      · simp only [hv, Bool.false_eq_true, if_false] at h
        split at h
        · split at h
          · injection h with h
            subst h
            simp only [List.mem_append, List.mem_filter, List.mem_flatMap] at hm
            rcases hm with ⟨_, hd⟩ | ⟨r, _, hr⟩
            · simpa using hd
            · split at hr
              · simp only [List.mem_filter, keepWalked] at hr
                simpa using hr.2
              · cases hr
          · injection h with h
            subst h
            simp only [List.mem_filter, keepWalked] at hm
            simpa using hm.2
        · injection h with h
          subst h
          simp only [List.mem_filter] at hm
          have := hm.2
          cases hd : isDir w.fs m with
          | false => rfl
          | true => simp [hd] at this
  · intro hwc hrec
    subst hrec
    have hfound : found = (glob w.fs source).filter (fun q =>
        (stat w.fs q).isSome && (!isDir w.fs q || (isDir w.fs q && !false))) := by
      have h2 := h
      unfold copyMatches resolveToMatches at h2
      split at h2
      · cases h2
      · split at h2
        · cases h2
        · simp only [hv, Bool.false_eq_true, if_false, hwc, if_true, Bool.not_true,
            Bool.or_false] at h2
          injection h2 with h2
          exact h2.symm
    have hex : ∀ m ∈ found, (stat w.fs m).isSome = true := by
      intro m hm
      rw [hfound] at hm
      have := (List.mem_filter.mp hm).2
      rw [Bool.and_eq_true] at this
      exact this.1
    constructor
    · intro m
      constructor
      · intro hm
        rw [hfound] at hm
        exact (List.mem_filter.mp hm).1
      · intro hm
        rw [hfound]
        refine List.mem_filter.mpr ⟨hm, ?_⟩
        have hmem := glob_mem w.fs source m (containsWildcards_ne_nil hwc) hm
        rw [stat_of_mem hmem]
        cases isDir w.fs m <;> rfl
    · intro hin htv hsd hprof
      have hout := copyPlan_out_flat env source target htv found w.fs w.out [] hex
      unfold copy
      simp only
      rw [h]
      simp only [hin, hsd, hprof, Bool.not_true, Bool.false_eq_true, if_false,
        Bool.false_and, bne_self_eq_false]
      cases hcp : copyPlan env source target false found (w.fs, w.out, []) with
      | mk fs1 r =>
        obtain ⟨out1, ex⟩ := r
        rw [hcp] at hout
        simp only at hout
        cases ex with
        | error e => exact hout
        | ok files =>
          simp only
          split
          · exact hout
          · rw [copyFiles_out]
            exact hout

/-- C13 (witness): the match set of `copy Presets/Amps/* Presets/Amps2` without `-r` is
the folder `Metal`, which the pattern matches, and `copy` prints the advisory once. -/
theorem copy_matches_folders_witness :
    copyMatches false ampsAll lib = Except.ok [metal] ∧
    (∀ m, m ∈ [metal] ↔ m ∈ glob lib.fs ampsAll) ∧
    (copy noFaults false [ampsAll, amps2] lib).1.out =
      lib.out ++ List.replicate ([metal].filter (fun m => isDir lib.fs m)).length
        cpOmitting :=
  ⟨rfl,
   ((copy_matches_folders noFaults lib ampsAll amps2 [] false [metal] (by decide) rfl).2
      (by decide) rfl).1,
   ((copy_matches_folders noFaults lib ampsAll amps2 [] false [metal] (by decide) rfl).2
      (by decide) rfl).2 (by decide) (by decide) (by decide) (by decide)⟩

/-- C14: for a path `p` under a presets folder, without `*` and ending in `.at5p` or
`.at4p`, `resolveToMatches` returns the list `[p]` when `p` exists, whatever the two
flags are, and the error `path not found` when `p` does not exist. -/
theorem resolveToMatches_literal_preset (fs : FS) (p : Path) (recursive excludeFolders : Bool)
    (hw : containsWildcards p = false)
    (hext : PresetExtension.data <:+ (pathString p).data ∨
      PresetExtension4.data <:+ (pathString p).data)
    (hin : isInPresetsFolder fs p = true) :
    ((stat fs p).isSome = true →
      resolveToMatches fs p recursive excludeFolders = Except.ok [p]) ∧
    (stat fs p = none →
      resolveToMatches fs p recursive excludeFolders = Except.error "path not found") := by
  have hcp := checkPath_of_no_wildcard p hw
  have hv : isValidPresetName p = true := isValidPresetNameS_of_suffix _ hw hext
  constructor
  · intro hex
    unfold resolveToMatches
    rw [hcp]
    have h1 : ¬ (stat fs p).isNone = true := by
      cases hst : stat fs p with
      | none => rw [hst] at hex; cases hex
      | some n => simp
    rw [if_neg h1]
    simp [hin, hv]
  · intro hnone
    unfold resolveToMatches
    rw [hcp, hnone]
    simp

/-- C14 (witness): the existing preset `Metal/a.at5p` resolves to itself, with both flags
set. -/
theorem resolveToMatches_literal_preset_witness :
    (stat lib.fs metalA).isSome = true ∧
    resolveToMatches lib.fs metalA true true = Except.ok [metalA] :=
  ⟨by decide,
   (resolveToMatches_literal_preset lib.fs metalA true true (by decide) (Or.inl (by decide))
      (by decide)).1 (by decide)⟩


/-- C15: `resolveToMatches` returns the error `path not found` exactly when the check path
does not exist; when it exists, it returns `presets not found on path` exactly when the
expression is not under the presets subtree of a profile, that is when no folder that holds
an entry `Presets` and an entry `Presets.db` has its `Presets` as the expression or as an
ancestor of it; with either error the list returned is empty, and in every other case the
error is nil. The check path is the expression without its trailing segments that contain
`*`. -/
theorem resolveToMatches_errors (fs : FS) (p : Path) (recursive excludeFolders : Bool) :
    ((resolveToMatchesResult fs p recursive excludeFolders).2 = some "path not found" ↔
      stat fs (checkPath p) = none) ∧
    ((stat fs (checkPath p)).isSome = true →
      ((resolveToMatchesResult fs p recursive excludeFolders).2 =
          some "presets not found on path" ↔
        ¬ ∃ r : Path, (r ++ ["Presets"]) <+: p ∧ (stat fs (r ++ ["Presets"])).isSome = true ∧
            (stat fs (r ++ ["Presets.db"])).isSome = true)) ∧
    ((resolveToMatchesResult fs p recursive excludeFolders).2 ≠ none →
      (resolveToMatchesResult fs p recursive excludeFolders).1 = []) ∧
    ((stat fs (checkPath p)).isSome = true →
      (∃ r : Path, (r ++ ["Presets"]) <+: p ∧ (stat fs (r ++ ["Presets"])).isSome = true ∧
            (stat fs (r ++ ["Presets.db"])).isSome = true) →
      (resolveToMatchesResult fs p recursive excludeFolders).2 = none) ∧
    (resolveToMatches fs p recursive excludeFolders =
      match (resolveToMatchesResult fs p recursive excludeFolders).2 with
      | some e => Except.error e
      | none => Except.ok (resolveToMatchesResult fs p recursive excludeFolders).1) ∧
    (∃ tail, p = checkPath p ++ tail ∧ (∀ s ∈ tail, hasWildcard s = true) ∧
      ∀ s, (checkPath p).getLast? = some s → hasWildcard s = false) := by
  have h := resolveToMatchesResult_spec fs p recursive excludeFolders
  have hin := isInPresetsFolder_iff fs p
  refine ⟨h.1, fun hex => ?_, h.2.2.1, fun hex hu => h.2.2.2.1 hex (hin.mpr hu),
    h.2.2.2.2.1, h.2.2.2.2.2⟩
  rw [h.2.1 hex]
  constructor
  · intro hf hu
    rw [hin.mpr hu] at hf
    cases hf
  · intro hn
    cases hb : isInPresetsFolder fs p with
    | false => rfl
    | true => exact absurd (hin.mp hb) hn

/-- C16 (counterexample): the flat resolve of `Metal` with folders excluded returns the
text file `notes.txt` along with the two presets. -/
theorem resolve_flat_returns_other_files :
    isDir libWithNotes.fs metal = true ∧
    resolveToMatches libWithNotes.fs metal false true =
      Except.ok [metalA, metalB, metalNotes] :=
  ⟨by decide, rfl⟩

/-- C16 (amended): for a directory `d` under a presets folder whose path holds none of
`*`, `?`, `[` and the backslash and is not named as a preset, in a file system whose names
are cleaned, the flat resolve with folders excluded returns exactly the files that are
immediate children of `d`, preset or not: no entry from a deeper level and no folder. -/
theorem resolve_flat_files (fs : FS) (d : Path) (hfs : namesOk fs = true)
    (hd : isDir fs d = true)
    (hin : isInPresetsFolder fs d = true)
    (hv : isValidPresetName d = false) (hm : hasMeta (pathString d) = false) :
    ∃ found, resolveToMatches fs d false true = Except.ok found ∧
      ∀ m, m ∈ found ↔ (dir m = d ∧ isFile fs m = true) := by
  have hw : containsWildcards d = false := hasWildcard_of_hasMeta_false hm
  have h1 : ¬ (stat fs (checkPath d)).isNone = true := by
    rw [checkPath_of_no_wildcard d hw]
    have := isDir_isSome hd
    cases hst : stat fs d with
    | none => rw [hst] at this; cases this
    | some n => simp
  have h2 : ¬ (!isInPresetsFolder fs d) = true := by simp [hin]
  refine ⟨_, by
    unfold resolveToMatches
    rw [if_neg h1, if_neg h2]
    simp only [hv, hw, Bool.false_eq_true, if_false]
    rfl, ?_⟩
  intro m
  rw [List.mem_filter, join_segment d "*" (by decide), mem_glob_star fs hfs d hm hd m]
  constructor
  · rintro ⟨⟨_, n, rfl⟩, hcond⟩
    refine ⟨by simp [dir], ?_⟩
    rw [isFile_iff]
    simp only [Bool.and_eq_true] at hcond
    refine ⟨hcond.1, ?_⟩
    cases hdm : isDir fs (d ++ [n]) with
    | false => rfl
    | true => have := hcond.2; simp [hdm] at this
  · rintro ⟨hdir, hfile⟩
    have hmem := isFile_mem hfile
    have hne : m ≠ [] := by
      intro h; subst h; simp [isFile, stat_root] at hfile
    have hm : m = d ++ [m.getLast hne] := by
      rw [← hdir]; exact (List.dropLast_append_getLast hne).symm
    obtain ⟨hs, hnd⟩ := (isFile_iff fs m).mp hfile
    exact ⟨⟨hmem, _, hm⟩, by simp [hs, hnd]⟩

/-- C16 (witness): the flat resolve of `Metal` in `lib` is the list of its two files. -/
theorem resolve_flat_files_witness :
    isDir lib.fs metal = true ∧
    ∃ found, resolveToMatches lib.fs metal false true = Except.ok found ∧
      ∀ m, m ∈ found ↔ (dir m = metal ∧ isFile lib.fs m = true) :=
  ⟨by decide,
   resolve_flat_files lib.fs metal (by decide) (by decide) (by decide) (by decide)
     (by decide)⟩

/-- C17 (counterexample): the recursive resolve, folders excluded, of the directory
`Presets/Old.at5p`, which holds a subfolder with a preset, returns the directory itself
and nothing below it: the name ends in a preset extension. -/
theorem resolve_recursive_of_preset_named_folder :
    isDir libWithOddFolder.fs oldFolder = true ∧ isDir libWithOddFolder.fs oldSub = true ∧
    isFile libWithOddFolder.fs oldPreset = true ∧
    isInPresetsFolder libWithOddFolder.fs oldFolder = true ∧
    resolveToMatches libWithOddFolder.fs oldFolder true true = Except.ok [oldFolder] :=
  ⟨by decide, by decide, by decide, by decide, rfl⟩

/-- C17 (amended): for a directory `d` under a presets folder whose path holds no `*` and
is not named as a preset, the recursive resolve with folders excluded returns exactly the
files below `d` at every depth, so every preset file below `d`; it holds no folder and
not `d` itself. -/
theorem resolve_recursive_files (fs : FS) (d : Path)
    (hd : isDir fs d = true) (hin : isInPresetsFolder fs d = true)
    (hv : isValidPresetName d = false) (hw : containsWildcards d = false) :
    ∃ found, resolveToMatches fs d true true = Except.ok found ∧
      (∀ m, m ∈ found ↔ (d <+: m ∧ isFile fs m = true)) ∧
      (∀ m ∈ found, isDir fs m = false) ∧ d ∉ found := by
  have hmem : ∀ m, m ∈ (walk fs d).filter (keepWalked fs d true) ↔
      (d <+: m ∧ isFile fs m = true) := by
    intro m
    rw [List.mem_filter, mem_walk, isFile_iff]
    unfold keepWalked
    simp only [Bool.not_true, Bool.and_false, Bool.false_or, Bool.not_eq_true']
    constructor
    · rintro ⟨⟨_, h | ⟨hk, hp, _⟩⟩, hnd⟩
      · rw [h, hd] at hnd; cases hnd
      · exact ⟨hp, stat_of_mem hk, hnd⟩
    · rintro ⟨hp, hs, hnd⟩
      have hne : m ≠ d := by
        intro h; rw [h, hd] at hnd; cases hnd
      have hfile : isFile fs m = true := (isFile_iff fs m).mpr ⟨hs, hnd⟩
      exact ⟨⟨isDir_isSome hd, Or.inr ⟨isFile_mem hfile, hp, hne⟩⟩, hnd⟩
  refine ⟨_, resolveToMatches_walk fs d true (isDir_isSome hd) hin hv hw, hmem, ?_, ?_⟩
  · intro m hm
    exact ((isFile_iff fs m).mp ((hmem m).mp hm).2).2
  · intro hm
    have := ((isFile_iff fs d).mp ((hmem d).mp hm).2).2
    rw [hd] at this; cases this

/-- C17 (witness): the recursive resolve of `Presets/Amps` in `lib`, folders excluded. -/
theorem resolve_recursive_files_witness :
    isDir lib.fs amps = true ∧
    ∃ found, resolveToMatches lib.fs amps true true = Except.ok found ∧
      (∀ m, m ∈ found ↔ (amps <+: m ∧ isFile lib.fs m = true)) ∧
      (∀ m ∈ found, isDir lib.fs m = false) ∧ amps ∉ found :=
  ⟨by decide,
   resolve_recursive_files lib.fs amps (by decide) (by decide) (by decide) (by decide)⟩

/-- C18 (counterexample): in the recursive resolve of `Presets/Amps/*` with folders
included, the folder `Metal`, matched by the wildcard and so the root of a walk, is in the
result. -/
theorem resolve_recursive_wildcard_keeps_roots :
    isDir lib.fs metal = true ∧ metal ∈ glob lib.fs ampsAll ∧
    resolveToMatches lib.fs ampsAll true false = Except.ok [metal, metalA, metalB] :=
  ⟨by decide, by decide, rfl⟩

/-- C18 (amended): in a recursive resolve with folders included, of an expression not
named as a preset: a directory whose path is the expression itself is never in the result;
every other directory that a wildcard expression matches is in the result; and every folder
strictly below a walk root (the named directory, or a directory the wildcard matches) is in
the result. -/
theorem resolve_recursive_folders (fs : FS) (p : Path) (found : List Path)
    (hv : isValidPresetName p = false)
    (h : resolveToMatches fs p true false = Except.ok found) :
    (isDir fs p = true → p ∉ found) ∧
    (containsWildcards p = false → isDir fs p = true →
      ∀ m, p <+: m → m ≠ p → isDir fs m = true → m ∈ found) ∧
    (containsWildcards p = true →
      ∀ r ∈ glob fs p, isDir fs r = true →
        (r ≠ p → r ∈ found) ∧ ∀ m, r <+: m → m ≠ r → isDir fs m = true → m ∈ found) := by
  unfold resolveToMatches at h
  split at h
  · cases h
  · split at h
    · cases h
    · simp only [hv, Bool.false_eq_true, if_false, if_true] at h
      have hkeep : ∀ m, m ≠ p → keepWalked fs p false m = true := by
        intro m hne
        have : (p == m) = false := by
          simpa using fun h => hne h.symm
        simp [keepWalked, this]
      refine ⟨?_, ?_, ?_⟩
      · intro hd hm
        have hk : keepWalked fs p false p = false := by simp [keepWalked, hd]
        split at h
        · injection h with h
          subst h
          rcases List.mem_append.mp hm with h1 | h1
          · have := (List.mem_filter.mp h1).2
            rw [hd] at this; cases this
          · obtain ⟨r, _, h2⟩ := List.mem_flatMap.mp h1
            split at h2
            · have := (List.mem_filter.mp h2).2
              rw [hk] at this; cases this
            · cases h2
        · injection h with h
          subst h
          have := (List.mem_filter.mp hm).2
          rw [hk] at this; cases this
      · intro hw hd
        simp only [hw, Bool.false_eq_true, if_false] at h
        injection h with h
        subst h
        intro m hpm hne hdm
        rw [List.mem_filter, mem_walk]
        have hm0 : m ≠ [] := by
          intro h0; subst h0
          have := List.prefix_nil.mp hpm
          exact hne this.symm
        exact ⟨⟨isDir_isSome hd, Or.inr ⟨isDir_mem hm0 hdm, hpm, hne⟩⟩, hkeep m hne⟩
      · intro hw r hr hdr
        simp only [hw, if_true] at h
        injection h with h
        subst h
        have hin : ∀ m, m ∈ walk fs r → m ≠ p →
            m ∈ List.filter (fun m => !isDir fs m) (glob fs p) ++
              (glob fs p).flatMap (fun wcPath =>
                if isDir fs wcPath = true then
                  List.filter (keepWalked fs p false) (walk fs wcPath)
                else []) := by
          intro m hm hne
          rw [List.mem_append, List.mem_flatMap]
          right
          refine ⟨r, hr, ?_⟩
          rw [if_pos hdr, List.mem_filter]
          exact ⟨hm, hkeep m hne⟩
        constructor
        · intro hne
          exact hin r ((mem_walk fs r r).mpr ⟨isDir_isSome hdr, Or.inl rfl⟩) hne
        · intro m hrm hmr hdm
          have hm0 : m ≠ [] := by
            intro h0; subst h0
            exact hmr (List.prefix_nil.mp hrm).symm
          have hlen : m ≠ p := by
            intro heq
            subst heq
            have h1 := glob_length fs m r hr
            obtain ⟨t, ht⟩ := hrm
            have h2 := congrArg List.length ht
            rw [List.length_append] at h2
            have : t = [] := List.length_eq_zero.mp (by omega)
            subst this
            rw [List.append_nil] at ht
            exact hmr ht.symm
          exact hin m ((mem_walk fs r m).mpr
            ⟨isDir_isSome hdr, Or.inr ⟨isDir_mem hm0 hdm, hrm, hmr⟩⟩) hlen

/-- C18 (witness): the recursive resolve of `Presets/Amps` in `lib`, folders included,
leaves out `Presets/Amps` and holds the folder `Metal` below it; the resolve of
`Presets/Amps/*` holds `Metal`, which the wildcard matches. -/
theorem resolve_recursive_folders_witness :
    resolveToMatches lib.fs amps true false = Except.ok [metal, metalA, metalB] ∧
    amps ∉ [metal, metalA, metalB] ∧ metal ∈ [metal, metalA, metalB] ∧
    (metal ≠ ampsAll → metal ∈ [metal, metalA, metalB]) :=
  ⟨rfl,
   (resolve_recursive_folders lib.fs amps [metal, metalA, metalB] (by decide) rfl).1
      (by decide),
   (resolve_recursive_folders lib.fs amps [metal, metalA, metalB] (by decide) rfl).2.1
      (by decide) (by decide) metal (by decide) (by decide) (by decide),
   ((resolve_recursive_folders lib.fs ampsAll [metal, metalA, metalB] (by decide) rfl).2.2
      (by decide) metal (by decide) (by decide)).1⟩
/-- C19 (counterexample): the expression `Presets/Amps/*/*` returns the two presets of
`Presets/Amps/Metal`: the `*` of the segment before the last one was matched against
`Metal`. -/
theorem resolve_expands_earlier_wildcard :
    resolveToMatches lib.fs ["lib", "Presets", "Amps", "*", "*"] false false =
      Except.ok [metalA, metalB] ∧
    metalA = ["lib", "Presets", "Amps", "Metal", "a.at5p"] ∧
    hasWildcard "*" = true ∧ filepathMatch "*".data "Metal".data = some true :=
  ⟨rfl, rfl, by decide, by decide⟩

/-- C19 (amended): `resolveToMatches` expands `*` in every segment of the expression. Take
an expression with a `*` and without `[` and the backslash, `lit` being its segments before
the first one with a metacharacter and `w :: ps` the others. When its non-recursive
resolve returns, an entry is returned exactly when it is reached from `lit` by matching the
segments `w :: ps` one after the other with `filepath.Match`, each against an entry of the
directory reached so far (and, with folders excluded, it is no directory); every returned
entry is `lit` followed by one name for each segment of `w :: ps`, each matching its
segment. -/
theorem resolve_expands_every_segment (fs : FS) (lit : Path) (w : String)
    (ps : List String) (excludeFolders : Bool) (found : List Path)
    (hlit : hasMeta (pathString lit) = false) (hw : hasMeta w = true)
    (hstar : containsWildcards (lit ++ w :: ps) = true)
    (hplain : ∀ s ∈ w :: ps, ∀ c ∈ s.data, c ≠ '[' ∧ c ≠ backslash)
    (h : resolveToMatches fs (lit ++ w :: ps) false excludeFolders = Except.ok found) :
    (∀ m, m ∈ found ↔
      ∃ names, m = lit ++ names ∧ GlobOk fs lit (w :: ps) names ∧
        (isDir fs m = false ∨ excludeFolders = false)) ∧
    (∀ m ∈ found, ∃ names, m = lit ++ names ∧
      List.Forall₂ (fun seg n => filepathMatch seg.data n.data = some true) (w :: ps) names) := by
  have hv : isValidPresetName (lit ++ w :: ps) = false := by
    unfold isValidPresetName isValidPresetNameS
    unfold containsWildcards at hstar
    rw [hstar]; rfl
  have hg := (globRev_plain fs lit hlit w hw ps hplain).2
  have key : ∀ m, m ∈ found ↔
      ∃ names, m = lit ++ names ∧ GlobOk fs lit (w :: ps) names ∧
        (isDir fs m = false ∨ excludeFolders = false) := by
    unfold resolveToMatches at h
    split at h
    · cases h
    · split at h
      · cases h
      · simp only [hv, hstar, Bool.false_eq_true, if_false, if_true] at h
        injection h with h
        subst h
        intro m
        rw [List.mem_filter]
        unfold glob
        rw [hg m]
        constructor
        · rintro ⟨⟨names, hm, hok⟩, hk⟩
          refine ⟨names, hm, hok, ?_⟩
          cases hdm : isDir fs m with
          | false => exact Or.inl rfl
          | true =>
            right
            cases he : excludeFolders with
            | false => rfl
            | true => rw [hdm, he] at hk; simp at hk
        · rintro ⟨names, hm, hok, hk⟩
          refine ⟨⟨names, hm, hok⟩, ?_⟩
          have hne : names ≠ [] := by
            intro h0; subst h0
            simp only [GlobOk] at hok
          have hmem := globOk_mem fs (w :: ps) lit names hok hne
          rw [← hm] at hmem
          rw [stat_of_mem hmem]
          rcases hk with hk | hk
          · rw [hk]; rfl
          · rw [hk]; cases isDir fs m <;> rfl
  refine ⟨key, fun m hm => ?_⟩
  obtain ⟨names, h1, h2, _⟩ := (key m).mp hm
  exact ⟨names, h1, globOk_forall₂ fs (w :: ps) lit names h2⟩

/-- C19 (witness): for `Presets/Amps/*/*` in `lib`, the preset `a.at5p` of `Metal` is
returned, and its last two segments match the two `*` of the expression. -/
theorem resolve_expands_every_segment_witness :
    containsWildcards (amps ++ ["*", "*"]) = true ∧
    resolveToMatches lib.fs (amps ++ ["*", "*"]) false false = Except.ok [metalA, metalB] ∧
    ∃ names, metalA = amps ++ names ∧
      List.Forall₂ (fun seg n => filepathMatch seg.data n.data = some true) ["*", "*"] names :=
  ⟨by decide, rfl,
   (resolve_expands_every_segment lib.fs amps "*" ["*"] false
      [metalA, metalB] (by decide) (by decide) (by decide) (by decide) rfl).2 metalA
      (by decide)⟩

/-- C20: the loop of `resolveToProfile` ends within one round per segment of `p` plus one,
and `resolveToProfile` returns what it found. The folder returned is `p` or an ancestor of
`p`, holds an entry `Presets` and an entry `Presets.db`, and no nearer one among `p` and
its ancestors does; the error `... is not part of Amplitube profile.` is returned exactly
when neither `p` nor any ancestor holds both entries. -/
theorem resolveToProfile_nearest (fs : FS) (p : Path) :
    (∃ r, resolveToProfileLoop fs (p.length + 1) p = some r ∧
      resolveToProfile fs p =
        if r.1 then Except.ok r.2
        else Except.error (pathString p ++ " is not part of Amplitube profile.")) ∧
    (∀ c, resolveToProfile fs p = Except.ok c →
      c <+: p ∧
      (stat fs (c ++ ["Presets"])).isSome = true ∧
      (stat fs (c ++ ["Presets.db"])).isSome = true ∧
      ∀ a, a <+: p → (stat fs (a ++ ["Presets"])).isSome = true →
        (stat fs (a ++ ["Presets.db"])).isSome = true → a.length ≤ c.length) ∧
    (resolveToProfile fs p =
        Except.error (pathString p ++ " is not part of Amplitube profile.") ↔
      ∀ a, a <+: p →
        ¬ ((stat fs (a ++ ["Presets"])).isSome = true ∧
           (stat fs (a ++ ["Presets.db"])).isSome = true)) := by
  refine ⟨?_, ?_, ?_⟩
  · refine ⟨_, resolveToProfileLoop_eq fs p.length p rfl _ (Nat.lt_succ_self _), ?_⟩
    unfold resolveToProfile
    cases (ancestors p).find? (fun c => isProfileFolder fs c) <;> simp
  · intro c hc
    unfold resolveToProfile at hc
    cases hf : (ancestors p).find? (fun c => isProfileFolder fs c) with
    | none => rw [hf] at hc; simp at hc
    | some d =>
      rw [hf] at hc
      injection hc with hc
      subst hc
      obtain ⟨hd, nearer, farther, hsplit, hnear⟩ := List.find?_eq_some.mp hf
      have hmem : d ∈ ancestors p := by rw [hsplit]; simp
      have hpw := ancestors_pairwise p
      rw [hsplit, List.pairwise_append] at hpw
      obtain ⟨_, hpw2, hpw3⟩ := hpw
      have hd2 := (isProfileFolder_iff fs d).mp hd
      refine ⟨(mem_ancestors_iff p d).mp hmem, hd2.1, hd2.2, ?_⟩
      intro a ha h1 h2
      have haq : isProfileFolder fs a = true := (isProfileFolder_iff fs a).mpr ⟨h1, h2⟩
      have hamem : a ∈ nearer ++ d :: farther := by
        rw [← hsplit]; exact (mem_ancestors_iff p a).mpr ha
      rcases List.mem_append.mp hamem with h | h
      · have := hnear a h
        simp [haq] at this
      · rcases List.mem_cons.mp h with h | h
        · rw [h]
        · have := (List.pairwise_cons.mp hpw2).1 a h
          omega
  · unfold resolveToProfile
    cases hf : (ancestors p).find? (fun c => isProfileFolder fs c) with
    | none =>
      simp only [true_iff]
      intro a ha hq
      have := List.find?_eq_none.mp hf a ((mem_ancestors_iff p a).mpr ha)
      exact this ((isProfileFolder_iff fs a).mpr hq)
    | some d =>
      simp only [false_iff, reduceCtorEq]
      intro hall
      have hd := List.find?_some hf
      have hmem := List.mem_of_find?_eq_some hf
      exact hall d ((mem_ancestors_iff p d).mp hmem) ((isProfileFolder_iff fs d).mp hd)

/-- C21: when `Begin` fails, `tx` closes the handle and returns the error, and the world
is otherwise the one it was given: the operator has not run. When `Begin` succeeds, the
result is that of one run of the operator on the world with the transaction begun: `tx`
returns the operator's error unchanged, leaves the files, rows, output and identifiers as
the operator left them, and after the operator's calls it commits when the operator
returned nil and rolls back otherwise, and then closes the handle. -/
theorem tx_runs_operator_once (env : Env) (runner : Runner) (w : World) :
    (env.failBegin = true →
      tx env runner w =
        ({ w with sql := w.sql ++ [SqlEvent.close] }, some "unable to open database file")) ∧
    (env.failBegin = false →
      (tx env runner w).2 = (runner { w with sql := w.sql ++ [SqlEvent.begin] }).2 ∧
      (tx env runner w).1.fs = (runner { w with sql := w.sql ++ [SqlEvent.begin] }).1.fs ∧
      (tx env runner w).1.db = (runner { w with sql := w.sql ++ [SqlEvent.begin] }).1.db ∧
      (tx env runner w).1.out = (runner { w with sql := w.sql ++ [SqlEvent.begin] }).1.out ∧
      (tx env runner w).1.uuids =
        (runner { w with sql := w.sql ++ [SqlEvent.begin] }).1.uuids ∧
      (tx env runner w).1.sql =
        (runner { w with sql := w.sql ++ [SqlEvent.begin] }).1.sql ++
          [if (runner { w with sql := w.sql ++ [SqlEvent.begin] }).2 = none
            then SqlEvent.commit else SqlEvent.rollback, SqlEvent.close]) := by
  constructor
  · intro h
    simp [tx, h]
  · intro h
    unfold tx
    simp only [h, Bool.false_eq_true, if_false]
    rcases hr : runner { w with sql := w.sql ++ [SqlEvent.begin] } with ⟨w1, r⟩
    cases r with
    | none => simp [txCommit]
    | some e => simp [txRollback]

/-- C22 (counterexample): the row was written for the profile root `/old/Presets/lib`;
`reindex /lib` keeps the value from the first `/Presets` on and gives
`/lib/Presets/lib/Presets/Amps/Metal/a.at5p`, not `/lib/Presets/Amps/Metal/a.at5p`. -/
theorem reindex_first_marker_only :
    rowMovedProfile.originalFileName =
      "/old/Presets/lib" ++ "/Presets" ++ "/Amps/Metal/a.at5p" ∧
    (reindex noFaults [["lib"]] libMoved).2 = none ∧
    (reindex noFaults [["lib"]] libMoved).1.db.map (fun r => r.originalFileName) =
      ["/lib/Presets/lib/Presets/Amps/Metal/a.at5p"] ∧
    pathString ["lib"] ++ "/Presets" ++ "/Amps/Metal/a.at5p" = "/lib/Presets/Amps/Metal/a.at5p" := by
  decide

/-- C22 (amended): when `reindex root` returns nil, every row has gone through the update;
a value `oldRoot ++ "/Presets" ++ rest` of `OriginalFileName` or of `FileFolder` in which
`oldRoot` does not hold `/Presets` has become `root ++ "/Presets" ++ rest`, and the other
columns of the row are as they were. -/
theorem reindex_rewrites_root (env : Env) (root : Path) (more : List Path) (w : World)
    (h : (reindex env (root :: more) w).2 = none) :
    (reindex env (root :: more) w).1.db =
      w.db.map (reindexRow (pathString root) presetsMarker) ∧
    (∀ (r : Row) (oldRoot rest : String), strIndex oldRoot "/Presets" = -1 →
      (r.originalFileName = oldRoot ++ "/Presets" ++ rest →
        (reindexRow (pathString root) presetsMarker r).originalFileName =
          pathString root ++ "/Presets" ++ rest) ∧
      (r.fileFolder = oldRoot ++ "/Presets" ++ rest →
        (reindexRow (pathString root) presetsMarker r).fileFolder =
          pathString root ++ "/Presets" ++ rest)) ∧
    (∀ r : Row, (reindexRow (pathString root) presetsMarker r).id = r.id ∧
      (reindexRow (pathString root) presetsMarker r).name = r.name ∧
      (reindexRow (pathString root) presetsMarker r).descr = r.descr) := by
  refine ⟨?_, ?_, fun r => ⟨rfl, rfl, rfl⟩⟩
  · unfold reindex at h ⊢
    simp only at h ⊢
    split
    · rename_i h1; rw [if_pos h1] at h; cases h
    · split
      · rename_i h1 h2; rw [if_neg h1, if_pos h2] at h; cases h
      · split
        · rename_i h1 h2 h3; rw [if_neg h1, if_neg h2, if_pos h3] at h; cases h
        · rfl
  · intro r oldRoot rest hold
    rw [presetsMarker_eq]
    constructor
    · intro hr
      show pathString root ++ sqlSubstr r.originalFileName
        (sqlInstr r.originalFileName "/Presets") = _
      rw [hr, sqlSubstr_marker oldRoot rest hold, String.append_assoc]
    · intro hr
      show pathString root ++ sqlSubstr r.fileFolder (sqlInstr r.fileFolder "/Presets") = _
      rw [hr, sqlSubstr_marker oldRoot rest hold, String.append_assoc]

/-- C22 (witness): `reindex /lib` on the index of the profile as it lay in `/old` gives the
row of `a.at5p` its path below `/lib`. -/
theorem reindex_rewrites_root_witness :
    (reindex noFaults [["lib"]] libOld).2 = none ∧
    (reindex noFaults [["lib"]] libOld).1.db =
      libOld.db.map (reindexRow (pathString ["lib"]) presetsMarker) ∧
    (reindexRow (pathString ["lib"]) presetsMarker rowOld).originalFileName =
      pathString ["lib"] ++ "/Presets" ++ "/Amps/Metal/a.at5p" ∧
    (reindexRow (pathString ["lib"]) presetsMarker rowOld).fileFolder =
      pathString ["lib"] ++ "/Presets" ++ "/Amps/Metal" :=
  ⟨by decide,
   (reindex_rewrites_root noFaults ["lib"] [] libOld (by decide)).1,
   ((reindex_rewrites_root noFaults ["lib"] [] libOld (by decide)).2.1 rowOld "/old"
      "/Amps/Metal/a.at5p" (by decide)).1 (by decide),
   ((reindex_rewrites_root noFaults ["lib"] [] libOld (by decide)).2.1 rowOld "/old"
      "/Amps/Metal" (by decide)).2 (by decide)⟩

/-- C23 (counterexample): importing the profile `/other` into `/lib`, the plan holds the
folder `Presets/Metal` of `/other` beside the preset in it. -/
theorem import_plan_holds_folder :
    isDir twoProfiles.fs otherMetal = true ∧
    importPlan twoProfiles.fs ["other"] ["lib"] =
      Except.ok [ (otherMetal, ["lib", "Presets", "Import", "Metal"]),
                  (otherMetalX, ["lib", "Presets", "Import", "Metal", "x.at5p"]) ] :=
  ⟨by decide, rfl⟩

/-- C23 (amended): `importPresets` resolves the presets folder of the source profile
recursively with folders included: the entries it plans to import are the matches of
`resolveToMatches(sourceProfile/Presets, true, false)`. For a source profile without `*` in
its path whose `Presets` is a directory, these are the files and the folders below the
presets folder, at every depth, and not the presets folder itself. -/
theorem import_plans_folders (fs : FS) (sourcePath targetPath : Path) (files : Plan)
    (h : importPlan fs sourcePath targetPath = Except.ok files) :
    ∃ sourceProfile found,
      resolveToProfile fs sourcePath = Except.ok sourceProfile ∧
      resolveToMatches fs (sourceProfile ++ ["Presets"]) true false = Except.ok found ∧
      (∀ m, m ∈ files.map (fun e => e.1) ↔ m ∈ found) ∧
      (containsWildcards sourceProfile = false →
        isDir fs (sourceProfile ++ ["Presets"]) = true →
        ∀ m, m ∈ found ↔
          ((sourceProfile ++ ["Presets"]) <+: m ∧ m ≠ sourceProfile ++ ["Presets"] ∧
            (isFile fs m = true ∨ isDir fs m = true))) := by
  unfold importPlan at h
  cases hsp : resolveToProfile fs sourcePath with
  | error e => rw [hsp] at h; cases h
  | ok sp =>
    rw [hsp] at h
    simp only at h
    cases htp : resolveToProfile fs targetPath with
    | error e => rw [htp] at h; cases h
    | ok tp =>
      rw [htp] at h
      simp only at h
      by_cases heq : sp = tp
      · rw [if_pos heq] at h; cases h
      · rw [if_neg heq, join_segment sp PresetsFolder (by decide)] at h
        cases hf : resolveToMatches fs (sp ++ [PresetsFolder]) true false with
        | error e => rw [hf] at h; cases h
        | ok found =>
          rw [hf] at h
          simp only at h
          cases hd : importDestination fs tp with
          | none => rw [hd] at h; cases h
          | some importPath =>
            rw [hd] at h
            simp only at h
            refine ⟨sp, found, rfl, hf, ?_, ?_⟩
            · intro m
              rw [importFiles_keys sp importPath found [] files h m]
              constructor
              · rintro (h1 | h1)
                · exact h1
                · cases h1
              · intro h1; exact Or.inl h1
            · intro hw hdir m
              have hin := isInPresetsFolder_of_ok hf
              have hwalk := resolveToMatches_walk fs (sp ++ ["Presets"]) false
                (isDir_isSome hdir) hin (isValidPresetName_presets sp)
                (containsWildcards_concat sp "Presets" hw (by decide))
              have hfound : found =
                  (walk fs (sp ++ ["Presets"])).filter (keepWalked fs (sp ++ ["Presets"]) false) := by
                have := hf.symm.trans hwalk
                injection this
              rw [hfound, List.mem_filter, mem_walk]
              constructor
              · rintro ⟨⟨_, hm⟩, hk⟩
                rcases hm with hm | ⟨hmem, hpre, hne⟩
                · subst hm
                  simp [keepWalked, hdir] at hk
                · refine ⟨hpre, hne, ?_⟩
                  have hs := stat_of_mem hmem
                  cases hdm : isDir fs m with
                  | true => exact Or.inr rfl
                  | false => exact Or.inl ((isFile_iff fs m).mpr ⟨hs, hdm⟩)
              · rintro ⟨hpre, hne, hfd⟩
                have hm0 : m ≠ [] := by
                  intro h0
                  subst h0
                  have := List.prefix_nil.mp hpre
                  simp at this
                have hmem : m ∈ fs.map (fun e => e.1) := by
                  rcases hfd with h1 | h1
                  · exact isFile_mem h1
                  · exact isDir_mem hm0 h1
                refine ⟨⟨isDir_isSome hdir, Or.inr ⟨hmem, hpre, hne⟩⟩, ?_⟩
                have : (sp ++ ["Presets"] == m) = false := by
                  simpa using fun h => hne h.symm
                simp [keepWalked, this]

/-- C23 (witness): importing `/other` into `/lib` plans the folder `Presets/Metal` and the
preset in it. -/
theorem import_plans_folders_witness :
    ∃ sourceProfile found,
      resolveToProfile twoProfiles.fs ["other"] = Except.ok sourceProfile ∧
      resolveToMatches twoProfiles.fs (sourceProfile ++ ["Presets"]) true false =
        Except.ok found ∧
      (∀ m, m ∈ [otherMetal, otherMetalX] ↔ m ∈ found) ∧
      (containsWildcards sourceProfile = false →
        isDir twoProfiles.fs (sourceProfile ++ ["Presets"]) = true →
        ∀ m, m ∈ found ↔
          ((sourceProfile ++ ["Presets"]) <+: m ∧ m ≠ sourceProfile ++ ["Presets"] ∧
            (isFile twoProfiles.fs m = true ∨ isDir twoProfiles.fs m = true))) :=
  import_plans_folders twoProfiles.fs ["other"] ["lib"]
    [ (otherMetal, ["lib", "Presets", "Import", "Metal"]),
      (otherMetalX, ["lib", "Presets", "Import", "Metal", "x.at5p"]) ] rfl

/-- C24: for every list of matches that `resolveToMatches` returns, each group of
`groupMatchesByFolder` holds the matches whose parent directory is its key, all of them and
no other, and lists none that is no folder before a folder; every match is in the group
of its parent directory. -/
theorem groupMatchesByFolder_folders_first (fs : FS) (p : Path)
    (recursive excludeFolders : Bool) (found : List Path)
    (h : resolveToMatches fs p recursive excludeFolders = Except.ok found) :
    (∀ e ∈ groupMatchesByFolder fs found,
      e.2.Perm (found.filter (fun m => dir m = e.1)) ∧
      (∀ m ∈ e.2, dir m = e.1) ∧
      e.2.Pairwise (fun x y => isDir fs y = true → isDir fs x = true)) ∧
    (∀ m ∈ found, ∃ e ∈ groupMatchesByFolder fs found, e.1 = dir m ∧ m ∈ e.2) := by
  have hord := resolveToMatches_order fs p recursive excludeFolders found h
  obtain ⟨g1, g2⟩ := groupMatchesByFolder_groups fs found
  have key : ∀ e ∈ groupMatchesByFolder fs found,
      e.2.Perm (found.filter (fun m => dir m = e.1)) ∧
      e.2.Pairwise (fun x y => isDir fs y = true → isDir fs x = true) := by
    intro e he
    obtain ⟨k1, _⟩ := g1 e he
    rw [k1]
    exact sortMatches_folders_first fs _ e.1
      (fun m hm => by simpa using (List.mem_filter.mp hm).2)
      (hord.sublist (List.filter_sublist _))
  constructor
  · intro e he
    obtain ⟨k1, k2⟩ := key e he
    refine ⟨k1, ?_, k2⟩
    intro m hm
    simpa using (List.mem_filter.mp (k1.subset hm)).2
  · intro m hm
    obtain ⟨e, he, hd⟩ := g2 m hm
    refine ⟨e, he, hd, ?_⟩
    apply (key e he).1.symm.subset
    rw [List.mem_filter]
    exact ⟨hm, by simp [hd]⟩

/-- C24 at the folder `Metal` of `libNested`, walked recursively: the walk lists the preset
`a.at5p` before the folder `zed`, the group of `Metal` lists both folders first. -/
theorem groupMatchesByFolder_folders_first_witness :
    resolveToMatches libNested.fs metal true false =
      Except.ok [metalSub, metalSubX, metalA, metalZed] ∧
    groupMatchesByFolder libNested.fs [metalSub, metalSubX, metalA, metalZed] =
      [(metal, [metalSub, metalZed, metalA]), (metalSub, [metalSubX])] ∧
    [metalSub, metalZed, metalA].Pairwise
      (fun x y => isDir libNested.fs y = true → isDir libNested.fs x = true) :=
  ⟨rfl, by decide,
   ((groupMatchesByFolder_folders_first libNested.fs metal true false
      [metalSub, metalSubX, metalA, metalZed] rfl).1
      (metal, [metalSub, metalZed, metalA]) (by decide)).2.2⟩

/-- C25 (code bug): the target group `StompA1` (six slots) holds four pedals, the source
group `StompStereo` (three slots) one. After `appendOrInsertStomps` with `insert = false`
the target group holds only its first three pedals: `reverb`, the pedal of slot 3, is gone,
and the pedal `chorus` of the source is not there: `replaceStomps` empties every slot from
the slot count of the source on. -/
theorem append_cuts_at_source_slot_count :
    (fromStompStereo stereoSource.StompStereo).StompCount = 3 ∧
    (fromStompType fourPedals "StompA1").StompCount = 6 ∧
    fourPedals.StompA1.Stomp3 = "reverb" ∧
    stereoSource.StompStereo.Stomp0 = "chorus" ∧
    appendOrInsertStomps (fromStompStereo stereoSource.StompStereo) fourPedals "StompA1" false =
      some (Except.ok { fourPedals with
        StompA1 := { fourPedals.StompA1 with Stomp3 := EmptySlotGUID, Slot3 := none } }) ∧
    [fourPedals.StompA1.Stomp0, fourPedals.StompA1.Stomp1, fourPedals.StompA1.Stomp2,
      EmptySlotGUID, EmptySlotGUID, EmptySlotGUID] =
      ["wah", "fuzz", "delay", EmptySlotGUID, EmptySlotGUID, EmptySlotGUID] :=
  ⟨by decide, by decide, by decide, by decide, rfl, by decide⟩

/-- C26 (code bug): `Presets/Amps/Metal` holds the file `Sub/x.at5p` and, last in the walk,
the empty folder `zed`; `isEmpty(Metal, true)` is true. Moving `Metal` onto the preset name
`Amps2/a.at5p` renames the one preset at the top of `Metal`, returns nil and removes
`Metal` with the file `Sub/x.at5p` that was still below it. -/
theorem move_removes_folder_with_file :
    isFile libNested.fs metalSubX = true ∧
    walk libNested.fs metal = [metal, metalSub, metalSubX, metalA, metalZed] ∧
    isEmpty libNested.fs metal true = true ∧
    (move noFaults [metal, amps2A] libNested).2 = none ∧
    stat (move noFaults [metal, amps2A] libNested).1.fs amps2A = some (Node.file presetA) ∧
    stat (move noFaults [metal, amps2A] libNested).1.fs metal = none ∧
    stat (move noFaults [metal, amps2A] libNested).1.fs metalSubX = none := by
  decide

/-- C27: for every string that the program passes to `isValidPresetName`, an absolute path
that passed `isInPresetsFolder` (`matches.go`, the only call), `isValidPresetName` is true
exactly when the string contains no `*` and ends with `.at5p` or `.at4p`. -/
theorem isValidPresetName_iff (fs : FS) (p : Path) (h : isInPresetsFolder fs p = true) :
    isValidPresetName p = true ↔
      hasWildcard (pathString p) = false ∧
        (".at5p".data <:+ (pathString p).data ∨ ".at4p".data <:+ (pathString p).data) := by
  have hlen := pathString_length_of_presets h
  exact isValidPresetNameS_iff (pathString p) (by omega)

/-- C27 (witness): the preset `Presets/Amps/Metal/a.at5p` of the sample library is under
the presets folder and is named as a preset. -/
theorem isValidPresetName_iff_witness :
    isInPresetsFolder lib.fs metalA = true ∧
    (isValidPresetName metalA = true ↔
      hasWildcard (pathString metalA) = false ∧
        (".at5p".data <:+ (pathString metalA).data ∨
          ".at4p".data <:+ (pathString metalA).data)) :=
  ⟨by decide, isValidPresetName_iff lib.fs metalA (by decide)⟩

/-- C28 (counterexample): for the base name `PresetsOld.at5p`, `makePresetPath` returns
`Old`: the leading `Presets` is removed with the extension. -/
theorem makePresetPath_drops_leading_presets :
    makePresetPath ("PresetsOld" ++ PresetExtension) = "Old" ∧
    '/' ∉ "PresetsOld".data := by
  decide

/-- C28 (amended): for a name `n` that holds neither a separator nor `.at5p`,
`makePresetPath (n ++ ".at5p")` is `n` when `n` does not begin with `Presets`, and
`makePresetPath ("Presets" ++ n ++ ".at5p")` is `n`: one leading `Presets` goes with the
extension. -/
theorem makePresetPath_strips_at5p (n : String) (hsep : '/' ∉ n.data)
    (hext : strIndex n PresetExtension = -1) :
    (¬ PresetsFolder.data <+: n.data → makePresetPath (n ++ PresetExtension) = n) ∧
    makePresetPath (PresetsFolder ++ n ++ PresetExtension) = n := by
  obtain ⟨t1, t2, t3⟩ := makePresetPath_tail n hsep hext
  have t1b : (strIndex (n ++ PresetExtension) "/" == 0) = false := by simpa using t1
  have t2b : (strIndex (n ++ PresetExtension) PresetExtension > -1) := by
    rw [t2]
    unfold strLen
    rw [String.data_append]
    simp [PresetExtension]
    omega
  constructor
  · intro hpre
    have h0 : (strIndex (n ++ PresetExtension) PresetsFolder == 0) = false := by
      have : strIndex (n ++ PresetExtension) PresetsFolder ≠ 0 := by
        intro h
        unfold strIndex at h
        rw [String.data_append] at h
        rcases prefix_append_cases ((indexL_eq_zero_iff _ _).mp h) with h1 | ⟨m2, hne, hm, hp⟩
        · exact hpre h1
        · cases m2 with
          | nil => exact hne rfl
          | cons y m3 =>
            have hy := (List.cons_prefix_cons.mp
              (show y :: m3 <+: '.' :: "at5p".data from hp)).1
            subst hy
            have hmem : '.' ∈ PresetsFolder.data := by
              rw [hm]; simp
            revert hmem
            decide
      simpa using this
    unfold makePresetPath
    simp only [h0, Bool.false_eq_true, if_false, t1b, t2, beq_self_eq_true, Bool.true_or,
      Bool.and_true, decide_eq_true_eq]
    rw [if_pos (by rw [← t2]; exact t2b)]
    exact t3
  · have h0 : strIndex (PresetsFolder ++ n ++ PresetExtension) PresetsFolder = 0 := by
      unfold strIndex
      rw [data_append3]
      exact (indexL_eq_zero_iff _ _).mpr (List.prefix_append _ _)
    have h1 : strFrom (PresetsFolder ++ n ++ PresetExtension)
        ((0 : Int).toNat + PresetsFolder.data.length) = n ++ PresetExtension := by
      unfold strFrom
      apply String.ext
      rw [data_append3, String.data_append]
      simp
    unfold makePresetPath
    simp only [h0, beq_self_eq_true, if_true, h1, t1b, Bool.false_eq_true, if_false, t2,
      Bool.true_or, Bool.and_true, decide_eq_true_eq]
    rw [if_pos (by rw [← t2]; exact t2b)]
    exact t3

/-- C28 (witness): `Metal Clean T.at5p` gives `Metal Clean T`. -/
theorem makePresetPath_strips_at5p_witness :
    makePresetPath ("Metal Clean T" ++ PresetExtension) = "Metal Clean T" :=
  (makePresetPath_strips_at5p "Metal Clean T" (by decide) (by decide)).1 (by decide)

/-- C29 (counterexample): the columns of the row do not hold `/Presets`, so each `reindex
/lib` puts `/lib` in front of them: after one run `OriginalFileName` is `/libAmps/a.at5p`,
after two `/lib/libAmps/a.at5p`. -/
theorem reindex_twice_prepends_twice :
    (reindex noFaults [["lib"]] libNoMarker).2 = none ∧
    (reindex noFaults [["lib"]] libNoMarker).1.db.map (fun r => r.originalFileName) =
      ["/libAmps/a.at5p"] ∧
    (reindex noFaults [["lib"]] (reindex noFaults [["lib"]] libNoMarker).1).2 = none ∧
    (reindex noFaults [["lib"]] (reindex noFaults [["lib"]] libNoMarker).1).1.db.map
      (fun r => r.originalFileName) = ["/lib/libAmps/a.at5p"] := by
  decide

/-- C29 (amended): for a profile root whose path does not hold `/Presets` and an index in
which `OriginalFileName` and `FileFolder` of every row hold `/Presets`, a second `reindex`
with the same root leaves every row as the first one left it. -/
theorem reindex_idempotent (env : Env) (root : Path) (more : List Path) (w : World)
    (hroot : strIndex (pathString root) "/Presets" = -1)
    (hrows : ∀ r ∈ w.db,
      0 ≤ strIndex r.originalFileName "/Presets" ∧ 0 ≤ strIndex r.fileFolder "/Presets")
    (h : (reindex env (root :: more) w).2 = none) :
    reindex env (root :: more) (reindex env (root :: more) w).1 =
      reindex env (root :: more) w := by
  have hrow : ∀ r ∈ w.db, reindexRow (pathString root) presetsMarker
      (reindexRow (pathString root) presetsMarker r) =
        reindexRow (pathString root) presetsMarker r := by
    intro r hr
    obtain ⟨h1, h2⟩ := hrows r hr
    obtain ⟨rest1, e1⟩ := sqlSubstr_of_marker r.originalFileName h1
    obtain ⟨rest2, e2⟩ := sqlSubstr_of_marker r.fileFolder h2
    rw [presetsMarker_eq]
    unfold reindexRow
    simp only [e1, e2]
    rw [← String.append_assoc, ← String.append_assoc,
      sqlSubstr_marker (pathString root) rest1 hroot,
      sqlSubstr_marker (pathString root) rest2 hroot,
      String.append_assoc, String.append_assoc]
  unfold reindex at h ⊢
  simp only at h ⊢
  by_cases h1 : (!isProfileFolder w.fs root) = true
  · rw [if_pos h1] at h; cases h
  · by_cases h2 : env.failPrepare = true
    · rw [if_neg h1, if_pos h2] at h; cases h
    · by_cases h3 : env.failExec (pathString root) = true
      · rw [if_neg h1, if_neg h2, if_pos h3] at h; cases h
      · simp only [if_neg h1, if_neg h2, if_neg h3]
        simp only [List.map_map]
        congr 2
        apply List.map_congr_left
        intro r hr
        exact hrow r hr

/-- C29 (witness): a second `reindex /lib` of `lib` changes nothing more. -/
theorem reindex_idempotent_witness :
    (reindex noFaults [["lib"]] lib).2 = none ∧
    reindex noFaults [["lib"]] (reindex noFaults [["lib"]] lib).1 =
      reindex noFaults [["lib"]] lib :=
  ⟨by decide, reindex_idempotent noFaults ["lib"] [] lib (by decide) (by decide) (by decide)⟩

/-- C30 (code bug): `notes.txt` does not parse as a preset, so its `Format` is empty;
`writeNewGuidToFile` returns nil and leaves the file holding a single newline. -/
theorem writeNewGuidToFile_unknown_format :
    stat libWithNotes.fs metalNotes = some (Node.file (Content.raw "tuning: drop D")) ∧
    presetFormatVersion libWithNotes.fs metalNotes = "" ∧
    (writeNewGuidToFile noFaults libWithNotes metalNotes).2 = none ∧
    stat (writeNewGuidToFile noFaults libWithNotes metalNotes).1.fs metalNotes =
      some (Node.file (Content.raw "\n")) := by
  decide

end Amplitool
